import Mathlib

/-!
Accumulator tail-call elimination pass: a shallow embedding.

The pass of `tail_call_opt.cpp` works on the host compiler's in-memory IR.  The embedding keeps
the part of that IR the pass touches:

* a function is an ordered list of basic blocks, a block an ordered list of instructions;
* instructions and blocks are identified by a number (the embedding of pointer identity);
* operands are references to constants, arguments or instruction results;
* phi nodes carry their (value, source block) entries.

Names and types of values are not modelled: the pass never branches on them.
-/

namespace TailCallOpt

/-! ## Data model -/

/-- Binary operator opcodes of the host IR (integer operators). -/
inductive BinOp where
  | add | sub | mul | udiv | sdiv | urem | srem | shl | lshr | ashr | and | or | xor
  deriving DecidableEq, Repr

/-- Comparison predicates of the host IR (integer comparison). -/
inductive Pred where
  | eq | ne | ugt | uge | ult | ule | sgt | sge | slt | sle
  deriving DecidableEq, Repr

/-- What `getCalledFunction()` can see of a call: a function known by name, a debug
intrinsic (also a known function, never the function being compiled), or nothing
(indirect call). -/
inductive Callee where
  | fn (name : Nat)
  | dbg
  | indirect
  deriving DecidableEq, Repr

/-- Operand references. -/
inductive Value where
  | const (n : Nat)
  | arg (i : Nat)
  | inst (id : Nat)
  | undef
  deriving DecidableEq, Repr

/-- Instruction kinds with their operands.  Block operands are block identifiers. -/
inductive Kind where
  | alloca
  | load (p : Value)
  | store (v p : Value)
  | binop (op : BinOp) (a b : Value)
  | icmp (p : Pred) (a b : Value)
  | call (callee : Callee) (args : List Value)
  | phi (incoming : List (Value × Nat))
  | br (t : Nat)
  | condbr (c : Value) (t e : Nat)
  | ret (v : Option Value)
  deriving DecidableEq, Repr

/-- An instruction: its identity and what it is. -/
structure Inst where
  id : Nat
  kind : Kind
  deriving DecidableEq, Repr

/-- A basic block: its identity and its instructions in order. -/
structure Block where
  id : Nat
  insts : List Inst
  deriving DecidableEq, Repr

/-- A function: its name, the number of its arguments, and its blocks in order; the first
block is the entry block, the last one is `F.back()`. -/
structure Func where
  name : Nat
  numArgs : Nat
  blocks : List Block
  deriving DecidableEq, Repr

/-! ## Host IR queries -/

/-- `Instruction::isAssociative` on integer operators. -/
def BinOp.isAssociative : BinOp → Bool
  | .add | .mul | .and | .or | .xor => true
  | _ => false

/-- `Instruction::isCommutative` on integer operators. -/
def BinOp.isCommutative : BinOp → Bool
  | .add | .mul | .and | .or | .xor => true
  | _ => false

/-- The value an instruction defines, as an operand reference. -/
def Inst.result (I : Inst) : Value := .inst I.id

def Inst.isAssociative (I : Inst) : Bool :=
  match I.kind with
  | .binop op _ _ => op.isAssociative
  | _ => false

def Inst.isCommutative (I : Inst) : Bool :=
  match I.kind with
  | .binop op _ _ => op.isCommutative
  | _ => false

/-- Value operands of an instruction, in operand order. -/
def Inst.operands (I : Inst) : List Value :=
  match I.kind with
  | .alloca => []
  | .load p => [p]
  | .store v p => [v, p]
  | .binop _ a b => [a, b]
  | .icmp _ a b => [a, b]
  | .call _ args => args
  | .phi incoming => incoming.map Prod.fst
  | .br _ => []
  | .condbr c _ _ => [c]
  | .ret v => v.toList

def Inst.getNumOperands (I : Inst) : Nat := I.operands.length

def Inst.getOperand (I : Inst) (i : Nat) : Option Value := I.operands.get? i

def Inst.isTerminator (I : Inst) : Bool :=
  match I.kind with
  | .br _ | .condbr _ _ _ | .ret _ => true
  | _ => false

/-- The instruction is a `BranchInst` (conditional or not). -/
def Inst.isBranch (I : Inst) : Bool :=
  match I.kind with
  | .br _ | .condbr _ _ _ => true
  | _ => false

def Inst.isAlloca (I : Inst) : Bool :=
  match I.kind with
  | .alloca => true
  | _ => false

/-- Debug instructions are calls to debug intrinsics. -/
def Inst.isDebug (I : Inst) : Bool :=
  match I.kind with
  | .call .dbg _ => true
  | _ => false

/-- The instruction is a call whose called function is the function named `fname`. -/
def Inst.isSelfCall (fname : Nat) (I : Inst) : Bool :=
  match I.kind with
  | .call (.fn g) _ => g == fname
  | _ => false

/-- Block operands of an instruction: the successors, for a terminator. -/
def Inst.targets (I : Inst) : List Nat :=
  match I.kind with
  | .br t => [t]
  | .condbr _ t e => [t, e]
  | _ => []

/-- `BasicBlock::getTerminator`: the last instruction when it is a terminator. -/
def Block.getTerminator (B : Block) : Option Inst :=
  match B.insts.getLast? with
  | some I => if I.isTerminator then some I else none
  | none => none

/-- `successors(&BB)`. -/
def Block.successors (B : Block) : List Nat :=
  match B.getTerminator with
  | some T => T.targets
  | none => []

/-- `getNextNonDebugInstruction`, given the instructions that follow in the block. -/
def nextNonDebug (after : List Inst) : Option Inst :=
  after.find? fun I => !I.isDebug

/-- `getPrevNonDebugInstruction`, given the instructions that precede in the block. -/
def prevNonDebug (before : List Inst) : Option Inst :=
  before.reverse.find? fun I => !I.isDebug

/-- Instructions of a block before the one identified by `id`. -/
def instsBefore (id : Nat) (l : List Inst) : List Inst :=
  l.takeWhile fun I => I.id != id

/-- Instructions of a block after the one identified by `id`. -/
def instsAfter (id : Nat) (l : List Inst) : List Inst :=
  (l.dropWhile fun I => I.id != id).tail

def Func.findBlock (F : Func) (b : Nat) : Option Block :=
  F.blocks.find? fun B => B.id == b

/-- `Instruction::getParent`. -/
def Func.getParent (F : Func) (id : Nat) : Option Block :=
  F.blocks.find? fun B => B.insts.any fun I => I.id == id

def Func.allInsts (F : Func) : List Inst :=
  F.blocks.flatMap Block.insts

def Func.findInst (F : Func) (id : Nat) : Option Inst :=
  F.allInsts.find? fun I => I.id == id

/-- `pred_empty(&BB)`: no terminator instruction of the function uses the block. -/
def Func.predEmpty (F : Func) (b : Nat) : Bool :=
  !(F.allInsts.any fun I => I.isTerminator && I.targets.contains b)

/-- An identifier no instruction of the function has. -/
def Func.freshInst (F : Func) : Nat :=
  (F.allInsts.map Inst.id).foldl max 0 + 1

/-- An identifier no block of the function has. -/
def Func.freshBlock (F : Func) : Nat :=
  (F.blocks.map Block.id).foldl max 0 + 1

/-! ## Host IR mutation primitives -/

def Kind.mapValues (f : Value → Value) : Kind → Kind
  | .alloca => .alloca
  | .load p => .load (f p)
  | .store v p => .store (f v) (f p)
  | .binop op a b => .binop op (f a) (f b)
  | .icmp p a b => .icmp p (f a) (f b)
  | .call c args => .call c (args.map f)
  | .phi incoming => .phi (incoming.map fun e => (f e.1, e.2))
  | .br t => .br t
  | .condbr c t e => .condbr (f c) t e
  | .ret v => .ret (v.map f)

def Kind.mapTargets (f : Nat → Nat) : Kind → Kind
  | .br t => .br (f t)
  | .condbr c t e => .condbr c (f t) (f e)
  | k => k

def Kind.mapIncomingBlocks (f : Nat → Nat) : Kind → Kind
  | .phi incoming => .phi (incoming.map fun e => (e.1, f e.2))
  | k => k

def Inst.mapKind (f : Kind → Kind) (I : Inst) : Inst := { I with kind := f I.kind }

def Block.mapInsts (f : Inst → Inst) (B : Block) : Block := { B with insts := B.insts.map f }

def Func.mapInsts (f : Inst → Inst) (F : Func) : Func :=
  { F with blocks := F.blocks.map (Block.mapInsts f) }

/-- Apply `f` to the instruction list of the block identified by `b`. -/
def Func.updateBlock (F : Func) (b : Nat) (f : List Inst → List Inst) : Func :=
  { F with blocks := F.blocks.map fun B => if B.id == b then { B with insts := f B.insts } else B }

def substValue (old new : Value) (v : Value) : Value := if v = old then new else v

def substBlock (old new : Nat) (b : Nat) : Nat := if b = old then new else b

/-- `Value::replaceAllUsesWith` for an argument or an instruction result: every operand
reference to `old` in the function becomes a reference to `new`. -/
def Func.replaceAllUsesWith (F : Func) (old new : Value) : Func :=
  F.mapInsts (Inst.mapKind (Kind.mapValues (substValue old new)))

/-- `Value::replaceAllUsesWith` for a block: every branch operand that names `old` becomes
`new`; then, in the successors of `old`, the phi entries whose source block is `old` are
re-attributed to `new`. -/
def Func.replaceBlockUsesWith (F : Func) (old new : Nat) : Func :=
  let F1 := F.mapInsts (Inst.mapKind (Kind.mapTargets (substBlock old new)))
  let succs := match F1.findBlock old with
    | some B => B.successors
    | none => []
  { F1 with blocks := F1.blocks.map fun B =>
      if succs.contains B.id then
        B.mapInsts (Inst.mapKind (Kind.mapIncomingBlocks (substBlock old new)))
      else B }

/-- `Instruction::eraseFromParent`. -/
def Func.eraseInst (F : Func) (id : Nat) : Func :=
  { F with blocks := F.blocks.map fun B => { B with insts := B.insts.filter fun I => I.id != id } }

/-- `BasicBlock::eraseFromParent`. -/
def Func.eraseBlock (F : Func) (b : Nat) : Func :=
  { F with blocks := F.blocks.filter fun B => B.id != b }

/-- Insert `I` right before the instruction identified by `anchor`. -/
def insertBeforeId (anchor : Nat) (I : Inst) : List Inst → List Inst
  | [] => []
  | J :: rest => if J.id == anchor then I :: J :: rest else J :: insertBeforeId anchor I rest

/-- Create an instruction in block `b` before the instruction `anchor`. -/
def Func.insertBefore (F : Func) (b anchor : Nat) (I : Inst) : Func :=
  F.updateBlock b (insertBeforeId anchor I)

/-- Create an instruction at the end of block `b`. -/
def Func.insertAtEnd (F : Func) (b : Nat) (I : Inst) : Func :=
  F.updateBlock b fun l => l ++ [I]

/-- `PHINode::addIncoming`, on the instruction it concerns. -/
def addIncomingInst (phi : Nat) (v : Value) (b : Nat) (I : Inst) : Inst :=
  if I.id == phi then
    match I.kind with
    | .phi incoming => { I with kind := .phi (incoming ++ [(v, b)]) }
    | _ => I
  else I

/-- `PHINode::addIncoming`. -/
def Func.addIncoming (F : Func) (phi : Nat) (v : Value) (b : Nat) : Func :=
  F.mapInsts (addIncomingInst phi v b)

/-- `BranchInst::setSuccessor(0, b)`; `none` when the instruction has no successor 0. -/
def setSuccessor0 (b : Nat) : Kind → Option Kind
  | .br _ => some (.br b)
  | .condbr c _ e => some (.condbr c b e)
  | _ => none

/-- Replace the kind of the instruction identified by `id`, on the instruction it concerns. -/
def setKindInst (id : Nat) (k : Kind) (I : Inst) : Inst :=
  if I.id == id then { I with kind := k } else I

/-- Replace the kind of the instruction identified by `id`. -/
def Func.setKind (F : Func) (id : Nat) (k : Kind) : Func :=
  F.mapInsts (setKindInst id k)

/-- Place the block `N` in front of the block identified by `before`. -/
def insertBlockBefore (before : Nat) (N : Block) : List Block → List Block
  | [] => []
  | B :: rest => if B.id == before then N :: B :: rest else B :: insertBlockBefore before N rest

/-- `BasicBlock::Create` with an insertion point: the new block `N` is placed in front of the
block identified by `before`. -/
def Func.createBlockBefore (F : Func) (before : Nat) (N : Block) : Func :=
  { F with blocks := insertBlockBefore before N F.blocks }

/-- `BasicBlock::removePredecessor`: the phi entries of block `succ` whose source block is
`pred` are dropped.  The host library goes on to replace and erase a phi that is left with
one value; this model keeps such a phi.  The properties of `removeDeadBlocks` below read
block identities, branch operands and the returned flag, and its evaluations are on
functions whose removed blocks have no phi in a successor. -/
def Func.removePredecessor (F : Func) (succ pred : Nat) : Func :=
  F.updateBlock succ fun l => l.map fun I =>
    match I.kind with
    | .phi incoming => { I with kind := .phi (incoming.filter fun e => e.2 != pred) }
    | _ => I

/-! ## Dead block eliminator -/

/-- The `while (!BB.empty())` loop of `removeDeadBlocks`: from the last instruction to the
first, every use of the instruction becomes `undef` and the instruction is erased. -/
def dropInsts (b : Nat) : List Inst → Func → Func
  | [], F => F
  | I :: rest, F =>
    let F1 := dropInsts b rest F
    (F1.replaceAllUsesWith I.result .undef).updateBlock b fun l => l.filter fun J => J.id != I.id

/-- The body of the loop of `removeDeadBlocks` for the block identified by `b`. -/
def removeDeadStep (st : Func × Bool) (b : Nat) : Func × Bool :=
  let F := st.1
  match F.findBlock b with
  | none => st
  | some BB =>
    if !F.predEmpty b then st
    else if (F.blocks.head?.map Block.id) == some b then st
    else
      let F1 := BB.successors.foldl (fun G s => G.removePredecessor s b) F
      let F2 := match F1.findBlock b with
        | some B1 => dropInsts b B1.insts F1
        | none => F1
      (F2.eraseBlock b, true)

/-- `removeDeadBlocks`: one pass over the blocks of the function, in order. -/
def removeDeadBlocks (F : Func) : Func × Bool :=
  (F.blocks.map Block.id).foldl removeDeadStep (F, false)

/-! ## Pattern detector -/

/-- `checkConditions(I, CI)`. -/
def checkConditions (I CI : Inst) : Bool :=
  if !I.isAssociative || !I.isCommutative then false
  else if I.getNumOperands != 2 then false
  else if (I.getOperand 0 == some CI.result && I.getOperand 1 == some CI.result) ||
      (I.getOperand 0 != some CI.result && I.getOperand 1 != some CI.result) then false
  else true

/-- The inner loop of `isAccumulatorTailRecursive` over the instructions of one block:
`sat` is the running value of `allConditionsSatisfied`.  A call that is not to the
function itself, or whose next instruction fails `checkConditions`, leaves the loop. -/
def scanCalls (fname : Nat) : List Inst → Bool → Bool
  | [], sat => sat
  | I :: rest, sat =>
    match I.kind with
    | .call callee _ =>
      if callee != .fn fname then sat
      else
        match nextNonDebug rest with
        | none => sat
        | some nextInst => if checkConditions nextInst I then scanCalls fname rest true else sat
    | _ => scanCalls fname rest sat

/-- The body of the outer loop of `isAccumulatorTailRecursive`. -/
def scanBlock (fname : Nat) (sat : Bool) (BB : Block) : Bool :=
  match BB.getTerminator with
  | some T => if T.isBranch then scanCalls fname BB.insts sat else sat
  | none => sat

/-- `isAccumulatorTailRecursive(F)`. -/
def isAccumulatorTailRecursive (F : Func) : Bool :=
  F.blocks.foldl (scanBlock F.name) false

/-! ## CFG transformer -/

/-- The loop of `getBaseCaseValue` over the blocks: the first block that ends in an
unconditional branch to the last block decides; the value is operand 0 of the store right
before that branch.  `none` stands for the absent value: no such block, or no store there. -/
def getBaseCaseValueFrom (lastBB : Option Nat) : List Block → Option Value
  | [] => none
  | BB :: rest =>
    match BB.getTerminator with
    | some T =>
      match T.kind with
      | .br t =>
        if some t == lastBB then
          match prevNonDebug BB.insts.dropLast with
          | some prevInstruction =>
            match prevInstruction.kind with
            | .store v _ => some v
            | _ => none
          | none => none
        else getBaseCaseValueFrom lastBB rest
      | _ => getBaseCaseValueFrom lastBB rest
    | none => getBaseCaseValueFrom lastBB rest

/-- `getBaseCaseValue(F)`. -/
def getBaseCaseValue (F : Func) : Option Value :=
  getBaseCaseValueFrom (F.blocks.getLast?.map Block.id) F.blocks

/-- `getTailCall(F)`: the first call to the function itself, in block and instruction order. -/
def getTailCall (F : Func) : Option Inst :=
  F.allInsts.find? (Inst.isSelfCall F.name)

/-- Where the transformer stops when a value it dereferences is absent. -/
inductive Fault where
  | noEntryBlock
  | noFrontInstruction
  | noBaseCaseValue
  | noTailCall
  | noRecTerminator
  | noSuccessor
  | noArgumentPhi
  | noStepInstruction
  | noUpdateInstruction
  | noEntryTerminator
  | noEntryCmp
  | noRetTerminator
  | noBeforeRet
  | stepNotBinary
  | updateNotBinary
  deriving DecidableEq, Repr

/-- Result of running mutating code: it completes with a value, or it reaches an absent
value (undefined behaviour of the source) with the function in the given state. -/
inductive Outcome (α : Type) where
  | done (a : α)
  | fault (why : Fault) (state : Func)
  deriving DecidableEq, Repr

/-- The loop over the arguments in `eliminateTailCall`: for argument `i` a phi node is created
before `insertPosition` in the old entry block `hdr`, every use of the argument is redirected
to it, and the phi receives the argument as incoming value from the new entry block `pre`. -/
def addArgPhis (hdr pre insertPosition base : Nat) : List Nat → Func → Func
  | [], F => F
  | i :: rest, F =>
    let phiNodeTmp := base + 1 + i
    let F1 := F.insertBefore hdr insertPosition ⟨phiNodeTmp, .phi []⟩
    let F2 := F1.replaceAllUsesWith (.arg i) (.inst phiNodeTmp)
    let F3 := F2.addIncoming phiNodeTmp (.arg i) pre
    addArgPhis hdr pre insertPosition base rest F3

/-- What `eliminateTailCall` holds after it has fed the loop-back edge (source lines 148-209). -/
structure Prepared where
  F : Func
  base : Nat
  newEntryBB : Nat
  entryBB : Nat
  phiNodeTmp : Nat
  phiNodeAcc : Nat
  recCall : Inst
  recBBlock : Nat
  beforeRecCall : Inst
  afterRecCall : Inst
  deriving DecidableEq, Repr

/-- Source lines 155-168: a new entry block is created in front of the old one, with a branch
to it, and the stack allocations of the old entry block move over. -/
def splitEntry (F : Func) (entryBB : Block) (others : List Block) : Func :=
  { F with blocks :=
      ⟨F.freshBlock, entryBB.insts.filter Inst.isAlloca ++ [⟨F.freshInst, .br entryBB.id⟩]⟩ ::
      ⟨entryBB.id, entryBB.insts.filter fun I => !I.isAlloca⟩ :: others }

/-- Source lines 172-188: one phi node per argument. -/
def createArgPhis (F : Func) (entryBB : Block) (others : List Block) (insertPosition : Inst) :
    Func :=
  addArgPhis entryBB.id F.freshBlock insertPosition.id F.freshInst (List.range F.numArgs)
    (splitEntry F entryBB others)

/-- Source lines 194-196: the accumulator phi node, fed with the base case value from the new
entry block. -/
def createAccPhi (F : Func) (entryBB : Block) (insertPosition : Inst) (F2 : Func)
    (baseCaseVal : Value) : Func :=
  (F2.insertBefore entryBB.id insertPosition.id ⟨F.freshInst + 1 + F.numArgs, .phi []⟩).addIncoming
    (F.freshInst + 1 + F.numArgs) baseCaseVal F.freshBlock

/-- Source lines 198-209: find the recursive call, retarget the terminator of its block to the
old entry block, and feed both phi nodes from that block. -/
def feedLoopBack (F : Func) (entryBB : Block) (F3 : Func) : Outcome Prepared :=
  let n := F.numArgs
  let base := F.freshInst
  let pre := F.freshBlock
  let hdr := entryBB.id
  let phiNodeAcc := base + 1 + n
  match getTailCall F3 with
  | none => .fault .noTailCall F3
  | some recCall =>
    match F3.getParent recCall.id with
    | none => .fault .noTailCall F3
    | some recBBlock =>
      match recBBlock.getTerminator with
      | none => .fault .noRecTerminator F3
      | some recBRInstr =>
        match setSuccessor0 hdr recBRInstr.kind with
        | none => .fault .noSuccessor F3
        | some k =>
          let F4 := F3.setKind recBRInstr.id k
          if n = 0 then .fault .noArgumentPhi F4
          else
            let phiNodeTmp := base + n
            match prevNonDebug (instsBefore recCall.id recBBlock.insts) with
            | none => .fault .noStepInstruction F4
            | some beforeRecCall =>
              let F5 := F4.addIncoming phiNodeTmp beforeRecCall.result recBBlock.id
              match nextNonDebug (instsAfter recCall.id recBBlock.insts) with
              | none => .fault .noUpdateInstruction F5
              | some afterRecCall =>
                let F6 := F5.addIncoming phiNodeAcc afterRecCall.result recBBlock.id
                .done ⟨F6, base, pre, hdr, phiNodeTmp, phiNodeAcc, recCall, recBBlock.id,
                  beforeRecCall, afterRecCall⟩

/-- First half of `eliminateTailCall` (source lines 148-209): split the entry block, create the
phi nodes, find the base case value and the recursive call, retarget the call block and feed
the phi nodes from it. -/
def prepare (F : Func) : Outcome Prepared :=
  match F.blocks with
  | [] => .fault .noEntryBlock F
  | entryBB :: others =>
    match (entryBB.insts.filter fun I => !I.isAlloca).head? with
    | none => .fault .noFrontInstruction (splitEntry F entryBB others)
    | some insertPosition =>
      let F2 := createArgPhis F entryBB others insertPosition
      match getBaseCaseValue F2 with
      | none => .fault .noBaseCaseValue F2
      | some baseCaseVal =>
        feedLoopBack F entryBB (createAccPhi F entryBB insertPosition F2 baseCaseVal)

/-- Second half of `eliminateTailCall` (source lines 211-260): rebuild the guard and the
terminator of the old entry block, fix the return block, create the loop body block, redirect
the uses of the step and update instructions and of the call block, and erase the call block. -/
def rebuild (P : Prepared) : Outcome Func :=
  let F := P.F
  let n := F.numArgs
  let base := P.base
  match (F.findBlock P.entryBB).bind Block.getTerminator with
  | none => .fault .noEntryTerminator F
  | some entryTerminator =>
    match (F.findBlock P.entryBB).bind fun B => prevNonDebug B.insts.dropLast with
    | none => .fault .noEntryCmp F
    | some oldEntryCmp =>
      match oldEntryCmp.kind with
      | .icmp p _ b =>
        let newEntryCmp := base + 2 + n
        let F1 := F.insertBefore P.entryBB entryTerminator.id
          ⟨newEntryCmp, .icmp p (.inst P.phiNodeTmp) b⟩
        let F2 := (F1.replaceAllUsesWith oldEntryCmp.result (.inst newEntryCmp)).eraseInst
          oldEntryCmp.id
        match F2.blocks.getLast? with
        | none => .fault .noRetTerminator F2
        | some lastBB0 =>
          let F3 := (F2.insertAtEnd P.entryBB
            ⟨base + 3 + n, .condbr (.inst newEntryCmp) lastBB0.id P.recBBlock⟩).eraseInst
              entryTerminator.id
          match F3.blocks.getLast? with
          | none => .fault .noRetTerminator F3
          | some lastBB =>
            match lastBB.getTerminator with
            | none => .fault .noRetTerminator F3
            | some _ =>
              match prevNonDebug lastBB.insts.dropLast with
              | none => .fault .noBeforeRet F3
              | some beforeRetTerminator =>
                let F4 := (F3.replaceAllUsesWith beforeRetTerminator.result
                  (.inst P.phiNodeAcc)).eraseInst beforeRetTerminator.id
                let loopBB := P.newEntryBB + 1
                let F5 := F4.createBlockBefore lastBB.id ⟨loopBB, [⟨base + 4 + n, .br P.entryBB⟩]⟩
                match (F5.findInst P.beforeRecCall.id).map Inst.kind with
                | some (.binop op1 _ b1) =>
                  let newInstr_1 := base + 5 + n
                  let F6 := F5.insertBefore loopBB (base + 4 + n)
                    ⟨newInstr_1, .binop op1 (.inst P.phiNodeTmp) b1⟩
                  match (F6.findInst P.afterRecCall.id).map Inst.kind with
                  | some (.binop op2 _ _) =>
                    let newInstr_2 := base + 6 + n
                    let F7 := F6.insertBefore loopBB (base + 4 + n)
                      ⟨newInstr_2, .binop op2 (.inst P.phiNodeAcc) (.inst P.phiNodeTmp)⟩
                    let F8 := F7.replaceAllUsesWith P.beforeRecCall.result (.inst newInstr_1)
                    let F9 := F8.replaceAllUsesWith P.afterRecCall.result (.inst newInstr_2)
                    .done ((F9.replaceBlockUsesWith P.recBBlock loopBB).eraseBlock P.recBBlock)
                  | _ => .fault .updateNotBinary F6
                | _ => .fault .stepNotBinary F5
      | _ => .fault .noEntryCmp F

/-- `eliminateTailCall(F)`. -/
def eliminateTailCall (F : Func) : Outcome Func :=
  match prepare F with
  | .done P => rebuild P
  | .fault why state => .fault why state

/-- `runOnFunction(F)`: the function as the pass leaves it, and the returned flag. -/
def runOnFunction (F : Func) : Outcome (Func × Bool) :=
  if isAccumulatorTailRecursive F then
    match eliminateTailCall F with
    | .done F1 => .done ((removeDeadBlocks F1).1, true)
    | .fault why state => .fault why state
  else .done (F, true)

/-! ## Reference interpreter of the IR

Values are 32-bit words.  An activation has its arguments, the results of the instructions it
has executed, and the memory cells of its `alloca`s (a cell is addressed by the identity of the
`alloca`).  `undef`, a missing value and undefined arithmetic give no result.  Execution is
bounded by a step budget; a call to the function itself runs a new activation. -/

/-- Number of 32-bit words. -/
def wordSize : Nat := 2 ^ 32

/-- Two's complement reading of a word. -/
def toSigned (x : Nat) : Int :=
  if x % wordSize < 2 ^ 31 then (x % wordSize : Nat) else ((x % wordSize : Nat) : Int) - 2 ^ 32

/-- The word of an integer. -/
def ofSigned (i : Int) : Nat := (i % 2 ^ 32).toNat

def evalBinOp : BinOp → Nat → Nat → Option Nat
  | .add, x, y => some ((x + y) % wordSize)
  | .sub, x, y => some ((x + (wordSize - y % wordSize)) % wordSize)
  | .mul, x, y => some ((x * y) % wordSize)
  | .udiv, x, y => if y % wordSize = 0 then none else some ((x % wordSize) / (y % wordSize))
  | .urem, x, y => if y % wordSize = 0 then none else some ((x % wordSize) % (y % wordSize))
  | .sdiv, x, y =>
    if toSigned y = 0 ∨ (toSigned x = -2 ^ 31 ∧ toSigned y = -1) then none
    else some (ofSigned (Int.tdiv (toSigned x) (toSigned y)))
  | .srem, x, y =>
    if toSigned y = 0 ∨ (toSigned x = -2 ^ 31 ∧ toSigned y = -1) then none
    else some (ofSigned (Int.tmod (toSigned x) (toSigned y)))
  | .shl, x, y => if 32 ≤ y % wordSize then none else some ((x <<< (y % wordSize)) % wordSize)
  | .lshr, x, y => if 32 ≤ y % wordSize then none else some ((x % wordSize) >>> (y % wordSize))
  | .ashr, x, y =>
    if 32 ≤ y % wordSize then none else some (ofSigned (toSigned x / 2 ^ (y % wordSize)))
  | .and, x, y => some ((x &&& y) % wordSize)
  | .or, x, y => some ((x ||| y) % wordSize)
  | .xor, x, y => some ((x ^^^ y) % wordSize)

def evalPred : Pred → Nat → Nat → Bool
  | .eq, x, y => x % wordSize == y % wordSize
  | .ne, x, y => x % wordSize != y % wordSize
  | .ugt, x, y => decide (y % wordSize < x % wordSize)
  | .uge, x, y => decide (y % wordSize ≤ x % wordSize)
  | .ult, x, y => decide (x % wordSize < y % wordSize)
  | .ule, x, y => decide (x % wordSize ≤ y % wordSize)
  | .sgt, x, y => decide (toSigned y < toSigned x)
  | .sge, x, y => decide (toSigned y ≤ toSigned x)
  | .slt, x, y => decide (toSigned x < toSigned y)
  | .sle, x, y => decide (toSigned x ≤ toSigned y)

/-- One activation of a function. -/
structure Frame where
  args : List Nat
  env : List (Nat × Nat)
  mem : List (Nat × Nat)
  deriving Repr

def Frame.eval (fr : Frame) : Value → Option Nat
  | .const n => some (n % wordSize)
  | .arg i => fr.args.get? i
  | .inst id => fr.env.lookup id
  | .undef => none

/-- Values of a list of operands; `none` when one of them has no value. -/
def Frame.evalAll (fr : Frame) : List Value → Option (List Nat)
  | [] => some []
  | v :: rest =>
    match fr.eval v, fr.evalAll rest with
    | some x, some xs => some (x :: xs)
    | _, _ => none

def Frame.bind (fr : Frame) (id v : Nat) : Frame := { fr with env := (id, v) :: fr.env }

def Inst.isPhi (I : Inst) : Bool :=
  match I.kind with
  | .phi _ => true
  | _ => false

/-- Values of the phi nodes at the head of a block when control arrives from block `prev`;
all of them are read in the state the predecessor left. -/
def evalPhis (fr : Frame) (prev : Nat) : List Inst → Option (List (Nat × Nat))
  | [] => some []
  | I :: rest =>
    match I.kind with
    | .phi incoming =>
      match incoming.find? fun e => e.2 == prev with
      | none => none
      | some e =>
        match fr.eval e.1, evalPhis fr prev rest with
        | some v, some r => some ((I.id, v) :: r)
        | _, _ => none
    | _ => some []

/-- Run the instructions `pc` of block `cur` and what follows, within `fuel` steps. -/
def exec (F : Func) : Nat → Frame → Nat → List Inst → Option Nat
  | 0, _, _, _ => none
  | _ + 1, _, _, [] => none
  | fuel + 1, fr, cur, I :: rest =>
    match I.kind with
    | .alloca =>
      exec F fuel { fr with env := (I.id, I.id) :: fr.env,
                            mem := fr.mem.filter fun c => c.1 != I.id } cur rest
    | .load p =>
      match fr.eval p with
      | none => none
      | some a =>
        match fr.mem.lookup a with
        | none => none
        | some v => exec F fuel (fr.bind I.id v) cur rest
    | .store v p =>
      match fr.eval v, fr.eval p with
      | some x, some a => exec F fuel { fr with mem := (a, x) :: fr.mem } cur rest
      | _, _ => none
    | .binop op a b =>
      match fr.eval a, fr.eval b with
      | some x, some y =>
        match evalBinOp op x y with
        | none => none
        | some r => exec F fuel (fr.bind I.id r) cur rest
      | _, _ => none
    | .icmp p a b =>
      match fr.eval a, fr.eval b with
      | some x, some y => exec F fuel (fr.bind I.id (if evalPred p x y then 1 else 0)) cur rest
      | _, _ => none
    | .call callee args =>
      match callee with
      | .dbg => exec F fuel fr cur rest
      | .indirect => none
      | .fn g =>
        if g == F.name then
          match fr.evalAll args, F.blocks with
          | some vs, entryBB :: _ =>
            match exec F fuel ⟨vs, [], []⟩ entryBB.id entryBB.insts with
            | none => none
            | some r => exec F fuel (fr.bind I.id r) cur rest
          | _, _ => none
        else none
    | .phi _ => none
    | .br t =>
      match F.findBlock t with
      | none => none
      | some B =>
        match evalPhis fr cur B.insts with
        | none => none
        | some vals =>
          exec F fuel { fr with env := vals ++ fr.env } t (B.insts.dropWhile Inst.isPhi)
    | .condbr c t e =>
      match fr.eval c with
      | none => none
      | some x =>
        match F.findBlock (if x % 2 = 1 then t else e) with
        | none => none
        | some B =>
          match evalPhis fr cur B.insts with
          | none => none
          | some vals =>
            exec F fuel { fr with env := vals ++ fr.env } (if x % 2 = 1 then t else e)
              (B.insts.dropWhile Inst.isPhi)
    | .ret v =>
      match v with
      | none => some 0
      | some x => fr.eval x

/-- Call the function on `args` with a budget of `fuel` steps. -/
def run (F : Func) (fuel : Nat) (args : List Nat) : Option Nat :=
  match F.blocks with
  | [] => none
  | entryBB :: _ => exec F fuel ⟨args, [], []⟩ entryBB.id entryBB.insts

/-- The function, called on `args`, terminates with result `v`. -/
def Returns (F : Func) (args : List Nat) (v : Nat) : Prop :=
  ∃ fuel, run F fuel args = some v

/-! ## Vocabulary of the properties -/

/-- In block `B` the instruction `CI` occurs, and `nxt` is its next non-debug instruction. -/
def NextInBlock (B : Block) (CI nxt : Inst) : Prop :=
  ∃ before after, B.insts = before ++ CI :: after ∧ nextNonDebug after = some nxt

/-- The instruction `nxt` is an associative and commutative operation with exactly two operands,
exactly one of which is the result of `CI`. -/
def AccumulatesResultOf (nxt CI : Inst) : Prop :=
  nxt.isAssociative = true ∧ nxt.isCommutative = true ∧ nxt.operands.length = 2 ∧
    nxt.operands.count CI.result = 1

instance (nxt CI : Inst) : Decidable (AccumulatesResultOf nxt CI) := by
  unfold AccumulatesResultOf
  infer_instance

/-- Every instruction of the list that has a next non-debug instruction, paired with it. -/
def followers : List Inst → List (Inst × Inst)
  | [] => []
  | I :: rest =>
    match nextNonDebug rest with
    | some nxt => (I, nxt) :: followers rest
    | none => followers rest

/-- The block ends in an unconditional branch. -/
def Block.endsInUncondBr (B : Block) : Bool :=
  match B.getTerminator with
  | some T => (match T.kind with | .br _ => true | _ => false)
  | none => false

/-- The block ends in a branch instruction, conditional or not. -/
def Block.endsInBranch (B : Block) : Bool :=
  match B.getTerminator with
  | some T => T.isBranch
  | none => false

/-- The block holds a direct call to the function named `fname`. -/
def Block.hasSelfCall (fname : Nat) (B : Block) : Bool :=
  B.insts.any (Inst.isSelfCall fname)

/-- Number of direct self-calls of the function. -/
def Func.selfCallCount (F : Func) : Nat :=
  F.allInsts.countP (Inst.isSelfCall F.name)

/-- Edges of the control-flow graph as the host IR records them (the relation `predecessors`
and `pred_empty` read): a block, and a block that one of its branch instructions names. -/
def Func.edges (F : Func) : List (Nat × Nat) :=
  F.blocks.flatMap fun B => B.insts.flatMap fun I => I.targets.map fun t => (B.id, t)

/-- Block `b` is reached from block `a` along edges of the control-flow graph. -/
def Func.Reaches (F : Func) (a b : Nat) : Prop :=
  Relation.ReflTransGen (fun x y => (x, y) ∈ F.edges) a b

/-- The control-flow graph has no loop: the blocks can be numbered so that every edge goes
to a higher number. -/
def LoopFree (F : Func) : Prop :=
  ∃ rank : Nat → Nat, ∀ e ∈ F.edges, rank e.1 < rank e.2

/-- The edge `u → v` is the only back-edge of the function: it closes a loop (`u` is reached
from `v`), and without it the control-flow graph has no loop (every other edge goes to a
higher number in some numbering of the blocks). -/
def OnlyBackEdge (F : Func) (u v : Nat) : Prop :=
  (u, v) ∈ F.edges ∧ F.Reaches v u ∧
    ∃ rank : Nat → Nat, ∀ e ∈ F.edges, e = (u, v) ∨ rank e.1 < rank e.2

/-! ## Vocabulary for the general properties of the transformer -/

/-- What an instruction is, without its value operands. -/
def Kind.tag : Kind → Kind
  | .phi _ => .phi []
  | k => k.mapValues fun _ => Value.undef

/-- Identities are unique: no two blocks share an identity, no two instructions do. -/
def Func.uniqueIds (F : Func) : Prop :=
  (F.blocks.map Block.id).Nodup ∧ (F.allInsts.map Inst.id).Nodup

instance (F : Func) : Decidable F.uniqueIds := by
  unfold Func.uniqueIds
  infer_instance

/-- A rewriting of instructions that keeps the identity and the kind of every instruction and,
outside phi nodes, how often each operand reference to an instruction below `base` occurs:
what redirecting the uses of arguments to new phi nodes and adding phi entries do. -/
def KeepsShape (base : Nat) (g : Inst → Inst) : Prop :=
  ∀ I : Inst, (g I).id = I.id ∧ (g I).kind.tag = I.kind.tag ∧
    (I.isPhi = false → ∀ c, c < base →
      (g I).operands.count (.inst c) = I.operands.count (.inst c))

/-- The blocks of a function whose entry block has been split, with `phis` at the head of the
old entry block and every old instruction rewritten by `g`: `allocas` and `rest` are the
stack allocations and the other instructions of the old entry block. -/
def splitShape (pre hdr base : Nat) (allocas rest : List Inst) (others : List Block)
    (g : Inst → Inst) (phis : List Inst) : List Block :=
  (⟨pre, (allocas ++ [(⟨base, .br hdr⟩ : Inst)]).map g⟩ : Block) :: ⟨hdr, phis ++ rest.map g⟩ ::
    others.map (Block.mapInsts g)

/-- The function has its entry block split, with phi nodes above `base` at the head of the
old entry block and its old instructions rewritten without change of shape. -/
structure SplitOf (F G : Func) (entryBB : Block) (others : List Block) : Prop where
  blocks : ∃ g phis, KeepsShape F.freshInst g ∧
    (∀ φ ∈ phis, φ.isPhi = true ∧ F.freshInst < φ.id) ∧
    G.blocks = splitShape F.freshBlock entryBB.id F.freshInst (entryBB.insts.filter Inst.isAlloca)
      (entryBB.insts.filter fun I => !I.isAlloca) others g phis
  name : G.name = F.name
  numArgs : G.numArgs = F.numArgs

/-- What the split needs of the function: its blocks, the first instruction of the old entry
block that is not a stack allocation, and the uniqueness of block identities. -/
structure SplitCtx (F : Func) (entryBB : Block) (others : List Block) (J : Inst)
    (tail : List Inst) : Prop where
  blocks : F.blocks = entryBB :: others
  front : (entryBB.insts.filter fun I => !I.isAlloca) = J :: tail
  nodup : (F.blocks.map Block.id).Nodup


/-- The code ran to completion. -/
def Outcome.isDone {α : Type} : Outcome α → Bool
  | .done _ => true
  | .fault _ _ => false

/-- The value the code completed with, if it did. -/
def Outcome.get? {α : Type} : Outcome α → Option α
  | .done a => some a
  | .fault _ _ => none

def Inst.isStore (I : Inst) : Bool :=
  match I.kind with
  | .store _ _ => true
  | _ => false

/-- The instruction is a comparison (`CmpInst`). -/
def Inst.isCmp (I : Inst) : Bool :=
  match I.kind with
  | .icmp _ _ _ => true
  | _ => false

/-- The block ends in an unconditional branch to the block `last`, immediately preceded
(debug instructions aside) by a store. -/
def Block.isBaseCase (last : Option Nat) (BB : Block) : Bool :=
  match BB.getTerminator with
  | some T =>
    match T.kind with
    | .br t =>
      some t == last &&
        (match prevNonDebug BB.insts.dropLast with
         | some S => S.isStore
         | none => false)
    | _ => false
  | none => false

/-- Some block ends in an unconditional branch to the last block of the function, immediately
preceded by a store. -/
def Func.hasBaseCaseBlock (F : Func) : Bool :=
  F.blocks.any (Block.isBaseCase (F.blocks.getLast?.map Block.id))

/-- The last instruction of the entry block (its terminator) is immediately preceded, debug
instructions aside, by a comparison. -/
def Func.hasEntryCmp (F : Func) : Bool :=
  match F.blocks.head? with
  | some entryBB =>
    (match prevNonDebug entryBB.insts.dropLast with
     | some C => C.isCmp
     | none => false)
  | none => false

/-- The stack allocations of the entry block stand at its head. -/
def Func.allocasFirst (F : Func) : Bool :=
  match F.blocks.head? with
  | some entryBB =>
    entryBB.insts.filter Inst.isAlloca ++ (entryBB.insts.filter fun I => !I.isAlloca)
      == entryBB.insts
  | none => true

/-- The function the code stopped on, with the absent value it met, if it did not complete. -/
def Outcome.fault? {α : Type} : Outcome α → Option (Fault × Func)
  | .done _ => none
  | .fault why state => some (why, state)

/-- A rewriting of instructions that makes no instruction a comparison or a debug instruction
that was not one: it keeps both properties of an instruction, or makes it neither. -/
def CmpSafe (f : Inst → Inst) : Prop :=
  ∀ I : Inst, ((f I).isDebug = I.isDebug ∧ (f I).isCmp = I.isCmp) ∨
    ((f I).isDebug = false ∧ (f I).isCmp = false)

/-- The block identified by `b` holds the instruction `I`. -/
def InstIn (G : Func) (b : Nat) (I : Inst) : Prop :=
  ∃ B ∈ G.blocks, B.id = b ∧ I ∈ B.insts

/-- Every instruction of the function, with the block that holds it, satisfies `Φ`. -/
def AllInsts (G : Func) (Φ : Nat → Inst → Prop) : Prop :=
  ∀ b I, InstIn G b I → Φ b I

/-- The property `Φ` of an instruction in a block only depends on the identity of the
instruction and on what it is, not on its value operands. -/
def TagInv (Φ : Nat → Inst → Prop) : Prop :=
  ∀ b I J, I.id = J.id → I.kind.tag = J.kind.tag → Φ b I → Φ b J

/-- A rewriting of instructions that keeps the identity of every instruction and what it is. -/
def KeepsTag (f : Inst → Inst) : Prop :=
  ∀ I : Inst, (f I).id = I.id ∧ (f I).kind.tag = I.kind.tag

/-- Identity of the entry block. -/
def Func.entryId (F : Func) : Nat := (F.blocks.head?.map Block.id).getD 0

/-- Well-formedness of the input the properties of the rewritten control-flow graph rely on:
identities are unique, every branch names a block of the function, and no branch names the
entry block. -/
def Func.WellFormed (F : Func) : Prop :=
  F.uniqueIds ∧ (∀ e ∈ F.edges, ∃ B ∈ F.blocks, B.id = e.2) ∧ (∀ e ∈ F.edges, e.2 ≠ F.entryId)

instance (F : Func) : Decidable F.WellFormed := by
  unfold Func.WellFormed
  infer_instance

/-- The function `H` is the function `G` after block `b0` was emptied or erased: every
instruction of `H` is an instruction of `G` in the same block, up to its value operands, every
instruction of `G` outside `b0` is still in `H`, and the first block is the same when it is
not `b0`. -/
structure Sim (b0 : Nat) (G H : Func) : Prop where
  back : ∀ b I, InstIn H b I → ∃ J, InstIn G b J ∧ I.id = J.id ∧ I.kind.tag = J.kind.tag
  forth : ∀ b J, InstIn G b J → b ≠ b0 →
    ∃ I, InstIn H b I ∧ I.id = J.id ∧ I.kind.tag = J.kind.tag
  head : G.blocks.head?.map Block.id ≠ some b0 →
    H.blocks.head?.map Block.id = G.blocks.head?.map Block.id
  name : H.name = G.name

/-- The loop the transformer builds: the first block `pre` branches to the header `hdr`, the
header has a branch to the loop body block `loop`, the loop body block holds a branch back to
the header, no instruction is a direct call to the function `fname`, and every branch other
than the one from `loop` to `hdr` goes to a block of higher `rank`. -/
structure LoopInv (G : Func) (fname pre hdr loop base : Nat) (rank : Nat → Nat) : Prop where
  name : G.name = fname
  head : G.blocks.head?.map Block.id = some pre
  preBr : InstIn G pre ⟨base, .br hdr⟩
  hdrEdge : ∃ I, InstIn G hdr I ∧ loop ∈ I.targets
  loopBr : ∃ i, InstIn G loop ⟨i, .br hdr⟩
  noSelf : AllInsts G fun _ I => I.isSelfCall fname = false
  fwd : AllInsts G fun b I => ∀ t ∈ I.targets, (b = loop ∧ t = hdr) ∨ rank b < rank t

/-- Block `b` holds an instruction with identity `i` whose block operands are `T`. -/
def HasBranch (G : Func) (b i : Nat) (T : List Nat) : Prop :=
  ∃ I, InstIn G b I ∧ I.id = i ∧ I.targets = T

/-- What holds of every instruction `I` of a block `b` while the second half of
`eliminateTailCall` runs, before the uses of the call block `rb` are redirected to the block
`loop`: outside the call block no instruction is a direct call to `fname`, every branch
outside the call block goes to a block of higher `rank` once redirected, and identities above
`base` only occur in the header and in the loop body block. -/
def Mid (fname pre hdr loop rb base : Nat) (rank : Nat → Nat) (b : Nat) (I : Inst) : Prop :=
  (b ≠ rb → I.isSelfCall fname = false) ∧
  (b ≠ rb → ∀ t ∈ I.targets,
    (b = loop ∧ substBlock rb loop t = hdr) ∨ rank b < rank (substBlock rb loop t)) ∧
  (I.id < base ∨ (I.id = base ∧ b = pre) ∨ (base < I.id ∧ (b = hdr ∨ b = loop)))

/-- A numbering of the blocks of the rewritten function, from a numbering `r` of the blocks
of the function before: the new entry block, the header, and then every other block two
above its old number, the loop body block taking the place of the call block `rb`. -/
def loopRank (r : Nat → Nat) (pre hdr loop rb : Nat) (x : Nat) : Nat :=
  if x = pre then 0 else if x = hdr then 1 else if x = loop then r rb + 2 else r x + 2

/-- The direct self-calls of the function are outside its entry block. -/
def Func.callOutsideEntry (F : Func) : Bool :=
  match F.blocks.head? with
  | some B => !B.hasSelfCall F.name
  | none => true

/-- The instruction is a call instruction (`CallInst`), whatever it calls. -/
def Inst.isCall (I : Inst) : Bool :=
  match I.kind with
  | .call _ _ => true
  | _ => false

/-- The first call instruction of the instruction list, in program order, is a direct call to
the function named `fname` whose next non-debug instruction satisfies `checkConditions`. -/
def FirstCallQualifies (fname : Nat) (l : List Inst) : Prop :=
  ∃ before CI after nxt, l = before ++ CI :: after ∧ (∀ I ∈ before, I.isCall = false) ∧
    CI.isSelfCall fname = true ∧ nextNonDebug after = some nxt ∧ checkConditions nxt CI = true

/-- Identities of the blocks of the function, in order. -/
def Func.blockIds (F : Func) : List Nat := F.blocks.map Block.id

/-- The function as it stands when the loop of `removeDeadBlocks` reaches the block `b`: the
blocks before `b` have been visited. -/
def visitState (F : Func) (b : Nat) : Func :=
  ((F.blockIds.takeWhile fun c => c != b).foldl removeDeadStep (F, false)).1

/-- The block identified by `b` is not the entry block of the function. -/
def Func.nonEntry (F : Func) (b : Nat) : Prop := F.blocks.head?.map Block.id ≠ some b

instance (F : Func) (b : Nat) : Decidable (F.nonEntry b) := by
  unfold Func.nonEntry
  infer_instance

/-- Instructions of the block identified by `b`, if the function has such a block. -/
def Func.instsOf (G : Func) (b : Nat) : Option (List Inst) := (G.findBlock b).map Block.insts

/-- `Value::replaceAllUsesWith`, on one instruction. -/
def rauw (old new : Value) : Inst → Inst := Inst.mapKind (Kind.mapValues (substValue old new))

/-- A branch operand that names the block `old` names `new`, on one instruction. -/
def retarget (old new : Nat) : Inst → Inst := Inst.mapKind (Kind.mapTargets (substBlock old new))

/-- A phi entry whose source block is `old` gets the source block `new`, on one
instruction. -/
def resource (old new : Nat) : Inst → Inst :=
  Inst.mapKind (Kind.mapIncomingBlocks (substBlock old new))

/-- The instruction list without the instructions identified by `i`. -/
def dropId (i : Nat) (l : List Inst) : List Inst := l.filter fun I => I.id != i

/-- Successors of the block `old` once its uses in branches are replaced by `new`: the blocks
whose phi entries `replaceAllUsesWith` on a block re-attributes. -/
def rauwSuccs (G : Func) (old new : Nat) : List Nat :=
  match (G.mapInsts (retarget old new)).findBlock old with
  | some B => B.successors
  | none => []

/-- What `replaceAllUsesWith` on the block `old` does to an instruction of the block `b`. -/
def blockRauw (G : Func) (old new b : Nat) : Inst → Inst :=
  if (rauwSuccs G old new).contains b then resource old new ∘ retarget old new
  else retarget old new

/-- Source lines 216-221 of `eliminateTailCall`, given the terminator `eT` of the old entry
block and the comparison `oC` before it (predicate `p`, second operand `b`): the new
comparison is created before the terminator, it takes over the uses of the old one, and the
old one is erased. -/
def rebuildGuard (P : Prepared) (eT oC : Inst) (p : Pred) (b : Value) : Func :=
  ((P.F.insertBefore P.entryBB eT.id
      ⟨P.base + 2 + P.F.numArgs, .icmp p (.inst P.phiNodeTmp) b⟩).replaceAllUsesWith
    oC.result (.inst (P.base + 2 + P.F.numArgs))).eraseInst oC.id

/-- Source lines 224-226: the new conditional branch, to the last block `l` or to the call
block, is created at the end of the old entry block and the old terminator is erased. -/
def rebuildBranch (P : Prepared) (G : Func) (eT : Inst) (l : Nat) : Func :=
  (G.insertAtEnd P.entryBB
    ⟨P.base + 3 + P.F.numArgs, .condbr (.inst (P.base + 2 + P.F.numArgs)) l P.recBBlock⟩).eraseInst
      eT.id

/-- Source lines 230-236: the accumulator phi takes over the uses of the instruction `bR`
before the terminator of the last block, and `bR` is erased. -/
def rebuildReturn (P : Prepared) (G : Func) (bR : Inst) : Func :=
  (G.replaceAllUsesWith bR.result (.inst P.phiNodeAcc)).eraseInst bR.id

/-- Source lines 239-257: the loop body block is created before the last block `l` with a
branch to the old entry block, the step and update operations are created in it, and they
take over the uses of the step and update instructions. -/
def rebuildLoop (P : Prepared) (G : Func) (l : Nat) (op1 : BinOp) (b1 : Value) (op2 : BinOp) :
    Func :=
  ((((G.createBlockBefore l
          ⟨P.newEntryBB + 1, [⟨P.base + 4 + P.F.numArgs, .br P.entryBB⟩]⟩).insertBefore
        (P.newEntryBB + 1) (P.base + 4 + P.F.numArgs)
        ⟨P.base + 5 + P.F.numArgs, .binop op1 (.inst P.phiNodeTmp) b1⟩).insertBefore
      (P.newEntryBB + 1) (P.base + 4 + P.F.numArgs)
      ⟨P.base + 6 + P.F.numArgs,
        .binop op2 (.inst P.phiNodeAcc) (.inst P.phiNodeTmp)⟩).replaceAllUsesWith
    P.beforeRecCall.result (.inst (P.base + 5 + P.F.numArgs))).replaceAllUsesWith
      P.afterRecCall.result (.inst (P.base + 6 + P.F.numArgs))

/-- Source lines 259-260: the loop body block takes over the uses of the call block, and the
call block is erased. -/
def rebuildFinish (P : Prepared) (G : Func) : Func :=
  (G.replaceBlockUsesWith P.recBBlock (P.newEntryBB + 1)).eraseBlock P.recBBlock

/-- What `rebuild` found on its way, and the function it made of it. -/
structure Rebuilt (P : Prepared) (F1 : Func) (eT oC : Inst) (p : Pred) (a b : Value)
    (L : Block) (bR : Inst) (op1 : BinOp) (a1 b1 : Value) (op2 : BinOp) (a2 b2 : Value) :
    Prop where
  terminator : (P.F.findBlock P.entryBB).bind Block.getTerminator = some eT
  guard : ((P.F.findBlock P.entryBB).bind fun B => prevNonDebug B.insts.dropLast) = some oC
  guardKind : oC.kind = .icmp p a b
  last0 : ((rebuildGuard P eT oC p b).blocks.getLast?).map Block.id = some L.id
  last : (rebuildBranch P (rebuildGuard P eT oC p b) eT L.id).blocks.getLast? = some L
  lastTerminator : L.getTerminator.isSome = true
  beforeRet : prevNonDebug L.insts.dropLast = some bR
  step : ((((rebuildReturn P (rebuildBranch P (rebuildGuard P eT oC p b) eT L.id)
      bR).createBlockBefore L.id
        ⟨P.newEntryBB + 1, [⟨P.base + 4 + P.F.numArgs, .br P.entryBB⟩]⟩).findInst
          P.beforeRecCall.id).map Inst.kind) = some (.binop op1 a1 b1)
  update : (((((rebuildReturn P (rebuildBranch P (rebuildGuard P eT oC p b) eT L.id)
      bR).createBlockBefore L.id
        ⟨P.newEntryBB + 1, [⟨P.base + 4 + P.F.numArgs, .br P.entryBB⟩]⟩).insertBefore
          (P.newEntryBB + 1) (P.base + 4 + P.F.numArgs)
          ⟨P.base + 5 + P.F.numArgs, .binop op1 (.inst P.phiNodeTmp) b1⟩).findInst
            P.afterRecCall.id).map Inst.kind) = some (.binop op2 a2 b2)
  result : F1 = rebuildFinish P (rebuildLoop P
    (rebuildReturn P (rebuildBranch P (rebuildGuard P eT oC p b) eT L.id) bR) L.id op1 b1 op2)

/-- The function of `rebuild` once the guard, the branch and the return are rebuilt (source
lines 216-236), given what `rebuild` found. -/
def rebuildCore (P : Prepared) (eT oC : Inst) (p : Pred) (b : Value) (l : Nat) (bR : Inst) :
    Func :=
  rebuildReturn P (rebuildBranch P (rebuildGuard P eT oC p b) eT l) bR

/-- The function of `rebuild` before the uses of the call block are redirected (source lines
216-257), given what `rebuild` found. -/
def rebuildBody (P : Prepared) (eT oC : Inst) (p : Pred) (b : Value) (l : Nat) (bR : Inst)
    (op1 : BinOp) (b1 : Value) (op2 : BinOp) : Func :=
  rebuildLoop P (rebuildReturn P (rebuildBranch P (rebuildGuard P eT oC p b) eT l) bR) l op1 b1
    op2

/-- The merge value of argument `i` as the loop over the arguments leaves it: one entry, the
argument, from the new entry block. -/
def argPhi (base pre i : Nat) : Inst := ⟨base + 1 + i, .phi [(.arg i, pre)]⟩

/-- A rewriting of operands that only redirects arguments to instructions above `base`. -/
def ArgMap (base : Nat) (r : Value → Value) : Prop :=
  (∀ c, r (.inst c) = .inst c) ∧ (∀ c, r (.const c) = .const c) ∧ r .undef = .undef ∧
    ∀ i, r (.arg i) = .arg i ∨ ∃ j, base < j ∧ r (.arg i) = .inst j

/-- What the loop over the arguments of `eliminateTailCall` (source lines 179-188) has made
of an operand once the arguments in `done` are through: a use of one of them is a use of its
merge value, the phi with the identity `base + 1 + i` for argument `i`. -/
def argSubst (base : Nat) (done : List Nat) : Value → Value
  | .arg i => if i ∈ done then .inst (base + 1 + i) else .arg i
  | v => v

/-- What the loop over the arguments of `eliminateTailCall` makes of an operand of the
function `F`: a use of an argument is a use of the merge value of that argument. -/
def argMerge (F : Func) : Value → Value := argSubst F.freshInst (List.range F.numArgs)

/-- The function has its entry block split, with the instructions `phis` at the head of the
old entry block, and its old instructions rewritten by redirecting the uses of the arguments
in `done` to their merge values. -/
structure SplitAt (F G : Func) (entryBB : Block) (others : List Block) (phis : List Inst)
    (done : List Nat) : Prop where
  shape : ∃ g r, KeepsShape F.freshInst g ∧ ArgMap F.freshInst r ∧
    (∀ J : Inst, J.id < F.freshInst → g J = Inst.mapKind (Kind.mapValues r) J) ∧
    G.blocks = splitShape F.freshBlock entryBB.id F.freshInst (entryBB.insts.filter Inst.isAlloca)
      (entryBB.insts.filter fun I => !I.isAlloca) others g phis ∧
    r = argSubst F.freshInst done
  name : G.name = F.name
  numArgs : G.numArgs = F.numArgs

/-- The merge values the first half of `eliminateTailCall` leaves at the head of the old entry
block: one per argument, the last of them fed with the step instruction from the call block,
and the accumulator, fed with the update instruction from the call block. -/
def prepPhis (F : Func) (P : Prepared) (v : Value) : List Inst :=
  (List.range (F.numArgs - 1)).map (argPhi F.freshInst F.freshBlock) ++
    [⟨F.freshInst + F.numArgs,
        .phi [(.arg (F.numArgs - 1), F.freshBlock), (P.beforeRecCall.result, P.recBBlock)]⟩,
      ⟨F.freshInst + 1 + F.numArgs,
        .phi [(v, F.freshBlock), (P.afterRecCall.result, P.recBBlock)]⟩]

/-- What the first half of `eliminateTailCall` leaves of a function with blocks `E :: others`
whose first direct self-call is in the block `RB` with terminator `T`, outside the entry
block: `g` is what became of the instructions of the function. -/
structure PrepAt (F : Func) (P : Prepared) (E : Block) (others : List Block)
    (g : Inst → Inst) (RB : Block) (T : Inst) : Prop where
  blocksF : F.blocks = E :: others
  base : P.base = F.freshInst
  newEntryBB : P.newEntryBB = F.freshBlock
  entryBB : P.entryBB = E.id
  phiNodeTmp : P.phiNodeTmp = F.freshInst + F.numArgs
  phiNodeAcc : P.phiNodeAcc = F.freshInst + 1 + F.numArgs
  args : 0 < F.numArgs
  name : P.F.name = F.name
  numArgs : P.F.numArgs = F.numArgs
  blocks : ∃ v, P.F.blocks =
    ⟨F.freshBlock, E.insts.filter Inst.isAlloca ++ [⟨F.freshInst, .br E.id⟩]⟩ ::
      ⟨E.id, prepPhis F P v ++ (E.insts.filter fun I => !I.isAlloca).map g⟩ ::
        others.map (Block.mapInsts g)
  ids : ∀ J, (g J).id = J.id
  values : ∃ r, ArgMap F.freshInst r ∧
    ∀ J : Inst, J.id < F.freshInst → J.id ≠ T.id → g J = Inst.mapKind (Kind.mapValues r) J
  recBlock : RB ∈ others ∧ RB.id = P.recBBlock
  recTerm : RB.getTerminator = some T ∧ E.id ∈ (g T).targets ∧ (g T).isTerminator = true
  step : P.beforeRecCall ∈ RB.insts.map g ∧ P.beforeRecCall.id ≠ T.id
  update : ∃ X ∈ RB.insts.map g, X.id = P.afterRecCall.id ∧
    (X.id ≠ T.id → X = P.afterRecCall)
  call : ∃ C ∈ RB.insts, C.id = P.recCall.id ∧ C.isSelfCall F.name = true
  stepUpdate : P.beforeRecCall.id ≠ P.afterRecCall.id
  recTargets : ∀ t ∈ (g T).targets, t = E.id ∨ t ∈ T.targets
  recBranch : T.targets ≠ []
  merged : ∀ J : Inst, J.id < F.freshInst → J.id ≠ T.id →
    g J = Inst.mapKind (Kind.mapValues (argMerge F)) J

/-- What the second half of `eliminateTailCall` finds in the function the first half left:
the old entry block is `l0` followed by its terminator `eT`, with the comparison `oC` in
`l0`; the last block `L` is the last block `Lo` of the function, rewritten, and holds `bR`. -/
structure RebuildCtx (F : Func) (P : Prepared) (E : Block) (others : List Block)
    (g : Inst → Inst) (eT oC bR : Inst) (L : Block) (l0 : List Inst) (Lo : Block) : Prop where
  hdr : P.F.instsOf E.id = some (l0 ++ [eT])
  l0_ne : ∀ I ∈ l0, I.id ≠ eT.id
  l0_eq : ∃ v R0 Tl, l0 = prepPhis F P v ++ R0.map g ∧
    (E.insts.filter fun I => !I.isAlloca) = R0 ++ [Tl] ∧ eT = g Tl
  oC_mem : oC ∈ l0
  oC_prev : prevNonDebug l0 = some oC
  eT_lt : eT.id < F.freshInst
  oC_lt : oC.id < F.freshInst
  eT_term : eT.isTerminator = true
  last : others.getLast? = some Lo ∧ L.id = Lo.id
  lastInsts : L.insts =
    (Lo.insts.map g).map (rauw oC.result (.inst (P.base + 2 + P.F.numArgs)))
  bR_prev : prevNonDebug L.insts.dropLast = some bR
  bR_lt : bR.id < F.freshInst
  bR_ne : bR.id ≠ oC.id ∧ bR.id ≠ eT.id
  bR_out : ∀ X, InstIn P.F E.id X → X.id ≠ bR.id
  bR_in : ∃ X, InstIn P.F L.id X ∧ X.id = bR.id

/-- The four replacements of uses the second half of `eliminateTailCall` makes, in order, on
one operand: the old comparison `oC` by the new one, the instruction `bR` before the return by
the accumulator phi, the step instruction and the update instruction by the new ones. -/
def reuseValue (P : Prepared) (oC bR : Inst) (v : Value) : Value :=
  substValue P.afterRecCall.result (.inst (P.base + 6 + P.F.numArgs))
    (substValue P.beforeRecCall.result (.inst (P.base + 5 + P.F.numArgs))
      (substValue bR.result (.inst P.phiNodeAcc)
        (substValue oC.result (.inst (P.base + 2 + P.F.numArgs)) v)))

/-- The four replacements of uses, on one instruction. -/
def reuse (P : Prepared) (oC bR : Inst) : Inst → Inst :=
  Inst.mapKind (Kind.mapValues (reuseValue P oC bR))

/-- The instructions of a block the second half of `eliminateTailCall` does not erase. -/
def keptInsts (oC eT bR : Inst) (l : List Inst) : List Inst :=
  dropId bR.id (dropId eT.id (dropId oC.id l))

/-- The instruction before the last instruction of the last block, debug instructions aside:
the instruction whose uses `eliminateTailCall` gives to the accumulator phi (source lines
230-235). -/
def Func.beforeRet (F : Func) : Option Inst :=
  F.blocks.getLast?.bind fun L => prevNonDebug L.insts.dropLast

/-! ## Example functions -/

/-- The accumulator recursion `f(n) = b if n ~ c else op (n, f (stepOp (n, k)))`, in the form
a front end emits without optimisation: `~` is the comparison `p`, function name 7. -/
def accFn (p : Pred) (c b : Nat) (stepOp : BinOp) (k : Nat) (op : BinOp) : Func :=
  { name := 7, numArgs := 1, blocks := [
    ⟨0, [⟨1, .alloca⟩, ⟨2, .alloca⟩, ⟨3, .store (.arg 0) (.inst 2)⟩, ⟨4, .load (.inst 2)⟩,
         ⟨5, .icmp p (.inst 4) (.const c)⟩, ⟨6, .condbr (.inst 5) 1 2⟩]⟩,
    ⟨1, [⟨7, .store (.const b) (.inst 1)⟩, ⟨8, .br 3⟩]⟩,
    ⟨2, [⟨9, .load (.inst 2)⟩, ⟨10, .load (.inst 2)⟩, ⟨11, .binop stepOp (.inst 10) (.const k)⟩,
         ⟨12, .call (.fn 7) [.inst 11]⟩, ⟨13, .binop op (.inst 9) (.inst 12)⟩,
         ⟨14, .store (.inst 13) (.inst 1)⟩, ⟨15, .br 3⟩]⟩,
    ⟨3, [⟨16, .load (.inst 1)⟩, ⟨17, .ret (some (.inst 16))⟩]⟩] }

/-- The loop the pass makes of `accFn`: new entry block 4, loop header 0, loop body 5, final
block 3. -/
def accLoopFn (p : Pred) (c b : Nat) (stepOp : BinOp) (k : Nat) (op : BinOp) : Func :=
  { name := 7, numArgs := 1, blocks := [
    ⟨4, [⟨1, .alloca⟩, ⟨2, .alloca⟩, ⟨18, .br 0⟩]⟩,
    ⟨0, [⟨19, .phi [(.arg 0, 4), (.inst 24, 5)]⟩, ⟨20, .phi [(.const b, 4), (.inst 25, 5)]⟩,
         ⟨3, .store (.inst 19) (.inst 2)⟩, ⟨4, .load (.inst 2)⟩,
         ⟨21, .icmp p (.inst 19) (.const c)⟩, ⟨22, .condbr (.inst 21) 3 5⟩]⟩,
    ⟨5, [⟨24, .binop stepOp (.inst 19) (.const k)⟩, ⟨25, .binop op (.inst 20) (.inst 19)⟩,
         ⟨23, .br 0⟩]⟩,
    ⟨3, [⟨17, .ret (some (.inst 20))⟩]⟩] }

/-- The state of the pass on `accFn` after the loop-back edge is fed. -/
def accPrepared (p : Pred) (c b : Nat) (stepOp : BinOp) (k : Nat) (op : BinOp) : Prepared :=
  { F := { name := 7, numArgs := 1, blocks := [
      ⟨4, [⟨1, .alloca⟩, ⟨2, .alloca⟩, ⟨18, .br 0⟩]⟩,
      ⟨0, [⟨19, .phi [(.arg 0, 4), (.inst 11, 2)]⟩, ⟨20, .phi [(.const b, 4), (.inst 13, 2)]⟩,
           ⟨3, .store (.inst 19) (.inst 2)⟩, ⟨4, .load (.inst 2)⟩,
           ⟨5, .icmp p (.inst 4) (.const c)⟩, ⟨6, .condbr (.inst 5) 1 2⟩]⟩,
      ⟨1, [⟨7, .store (.const b) (.inst 1)⟩, ⟨8, .br 3⟩]⟩,
      ⟨2, [⟨9, .load (.inst 2)⟩, ⟨10, .load (.inst 2)⟩,
           ⟨11, .binop stepOp (.inst 10) (.const k)⟩, ⟨12, .call (.fn 7) [.inst 11]⟩,
           ⟨13, .binop op (.inst 9) (.inst 12)⟩, ⟨14, .store (.inst 13) (.inst 1)⟩,
           ⟨15, .br 0⟩]⟩,
      ⟨3, [⟨16, .load (.inst 1)⟩, ⟨17, .ret (some (.inst 16))⟩]⟩] },
    base := 18, newEntryBB := 4, entryBB := 0, phiNodeTmp := 19, phiNodeAcc := 20,
    recCall := ⟨12, .call (.fn 7) [.inst 11]⟩, recBBlock := 2,
    beforeRecCall := ⟨11, .binop stepOp (.inst 10) (.const k)⟩,
    afterRecCall := ⟨13, .binop op (.inst 9) (.inst 12)⟩ }

/-- The function `eliminateTailCall` makes of `accFn`: `accLoopFn` with the base case block,
now without predecessor, still in place. -/
def accRawFn (p : Pred) (c b : Nat) (stepOp : BinOp) (k : Nat) (op : BinOp) : Func :=
  { name := 7, numArgs := 1, blocks := [
    ⟨4, [⟨1, .alloca⟩, ⟨2, .alloca⟩, ⟨18, .br 0⟩]⟩,
    ⟨0, [⟨19, .phi [(.arg 0, 4), (.inst 24, 5)]⟩, ⟨20, .phi [(.const b, 4), (.inst 25, 5)]⟩,
         ⟨3, .store (.inst 19) (.inst 2)⟩, ⟨4, .load (.inst 2)⟩,
         ⟨21, .icmp p (.inst 19) (.const c)⟩, ⟨22, .condbr (.inst 21) 3 5⟩]⟩,
    ⟨1, [⟨7, .store (.const b) (.inst 1)⟩, ⟨8, .br 3⟩]⟩,
    ⟨5, [⟨24, .binop stepOp (.inst 19) (.const k)⟩, ⟨25, .binop op (.inst 20) (.inst 19)⟩,
         ⟨23, .br 0⟩]⟩,
    ⟨3, [⟨17, .ret (some (.inst 20))⟩]⟩] }

/-- The function `sum(n) = 0 if n == 0 else n + sum(n-1)`. -/
def sumFn : Func := accFn .eq 0 0 .sub 1 .add

/-- The sum function with the guard written `0 == n`. -/
def swapGuardFn : Func :=
  { name := 7, numArgs := 1, blocks := [
    ⟨0, [⟨1, .alloca⟩, ⟨2, .alloca⟩, ⟨3, .store (.arg 0) (.inst 2)⟩, ⟨4, .load (.inst 2)⟩,
         ⟨5, .icmp .eq (.const 0) (.inst 4)⟩, ⟨6, .condbr (.inst 5) 1 2⟩]⟩,
    ⟨1, [⟨7, .store (.const 0) (.inst 1)⟩, ⟨8, .br 3⟩]⟩,
    ⟨2, [⟨9, .load (.inst 2)⟩, ⟨10, .load (.inst 2)⟩, ⟨11, .binop .sub (.inst 10) (.const 1)⟩,
         ⟨12, .call (.fn 7) [.inst 11]⟩, ⟨13, .binop .add (.inst 9) (.inst 12)⟩,
         ⟨14, .store (.inst 13) (.inst 1)⟩, ⟨15, .br 3⟩]⟩,
    ⟨3, [⟨16, .load (.inst 1)⟩, ⟨17, .ret (some (.inst 16))⟩]⟩] }

/-- The factorial written with the base case `n if n <= 1`: the base value is read from the
argument in the base case block. -/
def baseArgFn : Func :=
  { name := 7, numArgs := 1, blocks := [
    ⟨0, [⟨1, .alloca⟩, ⟨2, .alloca⟩, ⟨3, .store (.arg 0) (.inst 2)⟩, ⟨4, .load (.inst 2)⟩,
         ⟨5, .icmp .ule (.inst 4) (.const 1)⟩, ⟨6, .condbr (.inst 5) 1 2⟩]⟩,
    ⟨1, [⟨7, .load (.inst 2)⟩, ⟨8, .store (.inst 7) (.inst 1)⟩, ⟨9, .br 3⟩]⟩,
    ⟨2, [⟨10, .load (.inst 2)⟩, ⟨11, .load (.inst 2)⟩,
         ⟨12, .binop .sub (.inst 11) (.const 1)⟩, ⟨13, .call (.fn 7) [.inst 12]⟩,
         ⟨14, .binop .mul (.inst 10) (.inst 13)⟩, ⟨15, .store (.inst 14) (.inst 1)⟩,
         ⟨16, .br 3⟩]⟩,
    ⟨3, [⟨17, .load (.inst 1)⟩, ⟨18, .ret (some (.inst 17))⟩]⟩] }
/-- What the pass makes of `swapGuardFn`. -/
def swapGuardLoopFn : Func :=
  { name := 7, numArgs := 1, blocks := [
    ⟨4, [⟨1, .alloca⟩, ⟨2, .alloca⟩, ⟨18, .br 0⟩]⟩,
    ⟨0, [⟨19, .phi [(.arg 0, 4), (.inst 24, 5)]⟩, ⟨20, .phi [(.const 0, 4), (.inst 25, 5)]⟩,
         ⟨3, .store (.inst 19) (.inst 2)⟩, ⟨4, .load (.inst 2)⟩,
         ⟨21, .icmp .eq (.inst 19) (.inst 4)⟩, ⟨22, .condbr (.inst 21) 3 5⟩]⟩,
    ⟨5, [⟨24, .binop .sub (.inst 19) (.const 1)⟩, ⟨25, .binop .add (.inst 20) (.inst 19)⟩,
         ⟨23, .br 0⟩]⟩,
    ⟨3, [⟨17, .ret (some (.inst 20))⟩]⟩] }

/-- What the pass makes of `baseArgFn`. -/
def baseArgLoopFn : Func :=
  { name := 7, numArgs := 1, blocks := [
    ⟨4, [⟨1, .alloca⟩, ⟨2, .alloca⟩, ⟨19, .br 0⟩]⟩,
    ⟨0, [⟨20, .phi [(.arg 0, 4), (.inst 25, 5)]⟩, ⟨21, .phi [(.undef, 4), (.inst 26, 5)]⟩,
         ⟨3, .store (.inst 20) (.inst 2)⟩, ⟨4, .load (.inst 2)⟩,
         ⟨22, .icmp .ule (.inst 20) (.const 1)⟩, ⟨23, .condbr (.inst 22) 3 5⟩]⟩,
    ⟨5, [⟨25, .binop .sub (.inst 20) (.const 1)⟩, ⟨26, .binop .mul (.inst 21) (.inst 20)⟩,
         ⟨24, .br 0⟩]⟩,
    ⟨3, [⟨18, .ret (some (.inst 21))⟩]⟩] }

/-- The recursion `accFn` is written for: `f(n) = B if n ~ c else op (n, f (stepOp (n, k)))`,
followed to depth `d`. -/
def accRec (p : Pred) (c : Nat) (stepOp : BinOp) (k : Nat) (op : BinOp) (B : Nat) :
    Nat → Nat → Option Nat
  | 0, _ => none
  | d + 1, n =>
    if evalPred p n (c % wordSize) then some B
    else
      match evalBinOp stepOp n (k % wordSize) with
      | none => none
      | some m =>
        match accRec p c stepOp k op B d m with
        | none => none
        | some r => evalBinOp op n r

/-- The loop `accLoopFn` is: from `(n, a)`, return `a` if `n ~ c`, else go on from
`(stepOp (n, k), op (a, n))`; followed for `d` rounds. -/
def accIter (p : Pred) (c : Nat) (stepOp : BinOp) (k : Nat) (op : BinOp) :
    Nat → Nat → Nat → Option Nat
  | 0, _, _ => none
  | d + 1, n, a =>
    if evalPred p n (c % wordSize) then some a
    else
      match evalBinOp stepOp n (k % wordSize) with
      | none => none
      | some m =>
        match evalBinOp op a n with
        | none => none
        | some a2 => accIter p c stepOp k op d m a2

/-- The function `sum(n, acc) = acc if n == 0 else sum(n-1, acc+n)`, in the same form:
the call is the last computation, its result is stored and returned. -/
def tailSumFn : Func :=
  { name := 7, numArgs := 2, blocks := [
    ⟨0, [⟨1, .alloca⟩, ⟨2, .alloca⟩, ⟨3, .alloca⟩, ⟨4, .store (.arg 0) (.inst 2)⟩,
         ⟨5, .store (.arg 1) (.inst 3)⟩, ⟨6, .load (.inst 2)⟩,
         ⟨7, .icmp .eq (.inst 6) (.const 0)⟩, ⟨8, .condbr (.inst 7) 1 2⟩]⟩,
    ⟨1, [⟨9, .load (.inst 3)⟩, ⟨10, .store (.inst 9) (.inst 1)⟩, ⟨11, .br 3⟩]⟩,
    ⟨2, [⟨12, .load (.inst 2)⟩, ⟨13, .binop .sub (.inst 12) (.const 1)⟩, ⟨14, .load (.inst 3)⟩,
         ⟨15, .load (.inst 2)⟩, ⟨16, .binop .add (.inst 14) (.inst 15)⟩,
         ⟨17, .call (.fn 7) [.inst 13, .inst 16]⟩, ⟨18, .store (.inst 17) (.inst 1)⟩,
         ⟨19, .br 3⟩]⟩,
    ⟨3, [⟨20, .load (.inst 1)⟩, ⟨21, .ret (some (.inst 20))⟩]⟩] }

/-- The `-O0` shape of
`int sum(int n, int acc) { if (n == 0) return acc; return sum(n - 1, acc + n) + 0; }`: the
function `tailSumFn` with an addition of the call result and 0 after the call, which is what
makes the detector accept it. -/
def tailSumPlusFn : Func :=
  { name := 7, numArgs := 2, blocks := [
    ⟨0, [⟨1, .alloca⟩, ⟨2, .alloca⟩, ⟨3, .alloca⟩, ⟨4, .store (.arg 0) (.inst 2)⟩,
         ⟨5, .store (.arg 1) (.inst 3)⟩, ⟨6, .load (.inst 2)⟩,
         ⟨7, .icmp .eq (.inst 6) (.const 0)⟩, ⟨8, .condbr (.inst 7) 1 2⟩]⟩,
    ⟨1, [⟨9, .load (.inst 3)⟩, ⟨10, .store (.inst 9) (.inst 1)⟩, ⟨11, .br 3⟩]⟩,
    ⟨2, [⟨12, .load (.inst 2)⟩, ⟨13, .binop .sub (.inst 12) (.const 1)⟩, ⟨14, .load (.inst 3)⟩,
         ⟨15, .load (.inst 2)⟩, ⟨16, .binop .add (.inst 14) (.inst 15)⟩,
         ⟨17, .call (.fn 7) [.inst 13, .inst 16]⟩, ⟨18, .binop .add (.inst 17) (.const 0)⟩,
         ⟨19, .store (.inst 18) (.inst 1)⟩, ⟨20, .br 3⟩]⟩,
    ⟨3, [⟨21, .load (.inst 1)⟩, ⟨22, .ret (some (.inst 21))⟩]⟩] }

/-- What the pass makes of `tailSumPlusFn`: new entry block 4, header 0, loop body block 5,
final block 3. -/
def tailSumPlusLoopFn : Func :=
  { name := 7, numArgs := 2, blocks := [
    ⟨4, [⟨1, .alloca⟩, ⟨2, .alloca⟩, ⟨3, .alloca⟩, ⟨23, .br 0⟩]⟩,
    ⟨0, [⟨24, .phi [(.arg 0, 4)]⟩, ⟨25, .phi [(.arg 1, 4), (.inst 30, 5)]⟩,
         ⟨26, .phi [(Value.undef, 4), (.inst 31, 5)]⟩, ⟨4, .store (.inst 24) (.inst 2)⟩,
         ⟨5, .store (.inst 25) (.inst 3)⟩, ⟨6, .load (.inst 2)⟩,
         ⟨27, .icmp .eq (.inst 25) (.const 0)⟩, ⟨28, .condbr (.inst 27) 3 5⟩]⟩,
    ⟨5, [⟨30, .binop .add (.inst 25) (.inst 15)⟩, ⟨31, .binop .add (.inst 26) (.inst 25)⟩,
         ⟨29, .br 0⟩]⟩,
    ⟨3, [⟨22, .ret (some (.inst 26))⟩]⟩] }

/-- A function with two recursive call sites: in block 3 the call is followed by a
subtraction, in block 4 by an addition of the call result and the argument. -/
def twoSitesFn : Func :=
  { name := 7, numArgs := 1, blocks := [
    ⟨0, [⟨1, .icmp .eq (.arg 0) (.const 0)⟩, ⟨2, .condbr (.inst 1) 1 2⟩]⟩,
    ⟨1, [⟨3, .br 5⟩]⟩,
    ⟨2, [⟨4, .icmp .ult (.arg 0) (.const 10)⟩, ⟨5, .condbr (.inst 4) 3 4⟩]⟩,
    ⟨3, [⟨6, .binop .sub (.arg 0) (.const 1)⟩, ⟨7, .call (.fn 7) [.inst 6]⟩,
         ⟨8, .binop .sub (.inst 7) (.arg 0)⟩, ⟨9, .br 5⟩]⟩,
    ⟨4, [⟨10, .binop .sub (.arg 0) (.const 1)⟩, ⟨11, .call (.fn 7) [.inst 10]⟩,
         ⟨12, .binop .add (.inst 11) (.arg 0)⟩, ⟨13, .br 5⟩]⟩,
    ⟨5, [⟨14, .phi [(.const 0, 1), (.inst 8, 3), (.inst 12, 4)]⟩,
         ⟨15, .ret (some (.inst 14))⟩]⟩] }

/-- A function with two recursive call sites, `f(n) = 0 if n == 0, f(n-1) - n if n < 10,
n + f(n-1) otherwise`: the first call in program order (instruction 14) is followed by a
subtraction, the second one (instruction 21) by an addition. -/
def twoCallsFn : Func :=
  { name := 7, numArgs := 1, blocks := [
    ⟨0, [⟨1, .alloca⟩, ⟨2, .alloca⟩, ⟨3, .store (.arg 0) (.inst 2)⟩, ⟨4, .load (.inst 2)⟩,
         ⟨5, .icmp .eq (.inst 4) (.const 0)⟩, ⟨6, .condbr (.inst 5) 1 2⟩]⟩,
    ⟨1, [⟨7, .store (.const 0) (.inst 1)⟩, ⟨8, .br 5⟩]⟩,
    ⟨2, [⟨9, .load (.inst 2)⟩, ⟨10, .icmp .ult (.inst 9) (.const 10)⟩,
         ⟨11, .condbr (.inst 10) 3 4⟩]⟩,
    ⟨3, [⟨12, .load (.inst 2)⟩, ⟨13, .binop .sub (.inst 12) (.const 1)⟩,
         ⟨14, .call (.fn 7) [.inst 13]⟩, ⟨15, .binop .sub (.inst 14) (.inst 12)⟩,
         ⟨16, .store (.inst 15) (.inst 1)⟩, ⟨17, .br 5⟩]⟩,
    ⟨4, [⟨18, .load (.inst 2)⟩, ⟨19, .load (.inst 2)⟩, ⟨20, .binop .sub (.inst 19) (.const 1)⟩,
         ⟨21, .call (.fn 7) [.inst 20]⟩, ⟨22, .binop .add (.inst 18) (.inst 21)⟩,
         ⟨23, .store (.inst 22) (.inst 1)⟩, ⟨24, .br 5⟩]⟩,
    ⟨5, [⟨25, .load (.inst 1)⟩, ⟨26, .ret (some (.inst 25))⟩]⟩] }

/-- The sum `f(n) = 0 if n == 0 else f(n-1) + n` in SSA form without memory: the result
reaches the final block through a phi node, no block stores a base case value. -/
def ssaSumFn : Func :=
  { name := 7, numArgs := 1, blocks := [
    ⟨0, [⟨1, .icmp .eq (.arg 0) (.const 0)⟩, ⟨2, .condbr (.inst 1) 2 1⟩]⟩,
    ⟨1, [⟨3, .binop .sub (.arg 0) (.const 1)⟩, ⟨4, .call (.fn 7) [.inst 3]⟩,
         ⟨5, .binop .add (.inst 4) (.arg 0)⟩, ⟨6, .br 2⟩]⟩,
    ⟨2, [⟨7, .phi [(.const 0, 0), (.inst 5, 1)]⟩, ⟨8, .ret (some (.inst 7))⟩]⟩] }

/-- An accumulator recursion whose guard is a loaded boolean: the terminator of the entry
block is preceded by a load, not by a comparison. -/
def boolGuardFn : Func :=
  { name := 7, numArgs := 1, blocks := [
    ⟨0, [⟨1, .alloca⟩, ⟨2, .alloca⟩, ⟨3, .store (.arg 0) (.inst 2)⟩, ⟨4, .load (.inst 2)⟩,
         ⟨5, .condbr (.inst 4) 1 2⟩]⟩,
    ⟨1, [⟨6, .store (.const 0) (.inst 1)⟩, ⟨7, .br 3⟩]⟩,
    ⟨2, [⟨8, .load (.inst 2)⟩, ⟨9, .load (.inst 2)⟩, ⟨10, .binop .add (.inst 9) (.const 1)⟩,
         ⟨11, .call (.fn 7) [.inst 10]⟩, ⟨12, .binop .add (.inst 8) (.inst 11)⟩,
         ⟨13, .store (.inst 12) (.inst 1)⟩, ⟨14, .br 3⟩]⟩,
    ⟨3, [⟨15, .load (.inst 1)⟩, ⟨16, .ret (some (.inst 15))⟩]⟩] }

/-- A function whose only recursive call sits in a block that ends in a conditional branch:
`f(n) = 0 if n == 0 else min (f(n-1) + n, 100)`. -/
def condSiteFn : Func :=
  { name := 7, numArgs := 1, blocks := [
    ⟨0, [⟨1, .icmp .eq (.arg 0) (.const 0)⟩, ⟨2, .condbr (.inst 1) 3 1⟩]⟩,
    ⟨1, [⟨3, .binop .sub (.arg 0) (.const 1)⟩, ⟨4, .call (.fn 7) [.inst 3]⟩,
         ⟨5, .binop .add (.inst 4) (.arg 0)⟩, ⟨6, .icmp .ugt (.inst 5) (.const 100)⟩,
         ⟨7, .condbr (.inst 6) 2 3⟩]⟩,
    ⟨2, [⟨8, .br 3⟩]⟩,
    ⟨3, [⟨9, .phi [(.const 0, 0), (.const 100, 2), (.inst 5, 1)]⟩,
         ⟨10, .ret (some (.inst 9))⟩]⟩] }

/-- An accumulator recursion with one self-call, followed by a `while` loop on the result
(`r = 0` if `n == 0`, else `r = n + f(n - 1)`; then `while (r > 100) r = r - 100; return r`),
laid out with the loop condition block (5) last: entry 0, base case 1, recursive case 2, loop
body 3, return block 4. -/
def loopTailFn : Func :=
  { name := 7, numArgs := 1, blocks := [
    ⟨0, [⟨1, .alloca⟩, ⟨2, .alloca⟩, ⟨3, .store (.arg 0) (.inst 2)⟩, ⟨4, .load (.inst 2)⟩,
         ⟨5, .icmp .eq (.inst 4) (.const 0)⟩, ⟨6, .condbr (.inst 5) 1 2⟩]⟩,
    ⟨1, [⟨7, .store (.const 0) (.inst 1)⟩, ⟨8, .br 5⟩]⟩,
    ⟨2, [⟨9, .load (.inst 2)⟩, ⟨10, .load (.inst 2)⟩,
         ⟨11, .binop .sub (.inst 10) (.const 1)⟩, ⟨12, .call (.fn 7) [.inst 11]⟩,
         ⟨13, .binop .add (.inst 9) (.inst 12)⟩, ⟨14, .store (.inst 13) (.inst 1)⟩,
         ⟨15, .br 5⟩]⟩,
    ⟨3, [⟨16, .load (.inst 1)⟩, ⟨17, .binop .sub (.inst 16) (.const 100)⟩,
         ⟨18, .store (.inst 17) (.inst 1)⟩, ⟨19, .br 5⟩]⟩,
    ⟨4, [⟨20, .load (.inst 1)⟩, ⟨21, .ret (some (.inst 20))⟩]⟩,
    ⟨5, [⟨22, .load (.inst 1)⟩, ⟨23, .icmp .ugt (.inst 22) (.const 100)⟩,
         ⟨24, .condbr (.inst 23) 3 4⟩]⟩] }

/-- What the pass makes of `loopTailFn`: new entry block 6, header 0, loop body block 7; the
`while` loop of blocks 5 and 3 is still there, entered from the header. -/
def loopTailLoopFn : Func :=
  { name := 7, numArgs := 1, blocks := [
    ⟨6, [⟨1, .alloca⟩, ⟨2, .alloca⟩, ⟨25, .br 0⟩]⟩,
    ⟨0, [⟨26, .phi [(.arg 0, 6), (.inst 31, 7)]⟩, ⟨27, .phi [(.const 0, 6), (.inst 32, 7)]⟩,
         ⟨3, .store (.inst 26) (.inst 2)⟩, ⟨4, .load (.inst 2)⟩,
         ⟨28, .icmp .eq (.inst 26) (.const 0)⟩, ⟨29, .condbr (.inst 28) 5 7⟩]⟩,
    ⟨3, [⟨16, .load (.inst 1)⟩, ⟨17, .binop .sub (.inst 16) (.const 100)⟩,
         ⟨18, .store (.inst 17) (.inst 1)⟩, ⟨19, .br 5⟩]⟩,
    ⟨4, [⟨20, .load (.inst 1)⟩, ⟨21, .ret (some (.inst 20))⟩]⟩,
    ⟨7, [⟨31, .binop .sub (.inst 26) (.const 1)⟩, ⟨32, .binop .add (.inst 27) (.inst 26)⟩,
         ⟨30, .br 0⟩]⟩,
    ⟨5, [⟨22, .load (.inst 1)⟩, ⟨24, .condbr (.inst 27) 3 4⟩]⟩] }

/-- The `-O0` shape of `int f(int a, int n) { if (n == 0) return 0; return n + f(a, n - 1); }`:
an accumulator recursion with two arguments (function name 7). -/
def twoArgFn : Func :=
  { name := 7, numArgs := 2, blocks := [
    ⟨0, [⟨1, .alloca⟩, ⟨2, .alloca⟩, ⟨3, .alloca⟩, ⟨4, .store (.arg 0) (.inst 2)⟩,
         ⟨5, .store (.arg 1) (.inst 3)⟩, ⟨6, .load (.inst 3)⟩,
         ⟨7, .icmp .eq (.inst 6) (.const 0)⟩, ⟨8, .condbr (.inst 7) 1 2⟩]⟩,
    ⟨1, [⟨9, .store (.const 0) (.inst 1)⟩, ⟨10, .br 3⟩]⟩,
    ⟨2, [⟨11, .load (.inst 3)⟩, ⟨12, .load (.inst 2)⟩, ⟨13, .load (.inst 3)⟩,
         ⟨14, .binop .sub (.inst 13) (.const 1)⟩, ⟨15, .call (.fn 7) [.inst 12, .inst 14]⟩,
         ⟨16, .binop .add (.inst 11) (.inst 15)⟩, ⟨17, .store (.inst 16) (.inst 1)⟩,
         ⟨18, .br 3⟩]⟩,
    ⟨3, [⟨19, .load (.inst 1)⟩, ⟨20, .ret (some (.inst 19))⟩]⟩] }

/-- The `-O0` shape of `int f(int n) { if (n != 0) return n + f(n - 1); return 0; }`: the
accumulator recursion `sumFn` with the recursive case (block 1) laid out before the base case
(block 2). -/
def recFirstFn : Func :=
  { name := 7, numArgs := 1, blocks := [
    ⟨0, [⟨1, .alloca⟩, ⟨2, .alloca⟩, ⟨3, .store (.arg 0) (.inst 2)⟩, ⟨4, .load (.inst 2)⟩,
         ⟨5, .icmp .ne (.inst 4) (.const 0)⟩, ⟨6, .condbr (.inst 5) 1 2⟩]⟩,
    ⟨1, [⟨7, .load (.inst 2)⟩, ⟨8, .load (.inst 2)⟩, ⟨9, .binop .sub (.inst 8) (.const 1)⟩,
         ⟨10, .call (.fn 7) [.inst 9]⟩, ⟨11, .binop .add (.inst 7) (.inst 10)⟩,
         ⟨12, .store (.inst 11) (.inst 1)⟩, ⟨13, .br 3⟩]⟩,
    ⟨2, [⟨14, .store (.const 0) (.inst 1)⟩, ⟨15, .br 3⟩]⟩,
    ⟨3, [⟨16, .load (.inst 1)⟩, ⟨17, .ret (some (.inst 16))⟩]⟩] }

/-- What the pass makes of `twoArgFn`: new entry block 4, header 0, loop body block 5. -/
def twoArgLoopFn : Func :=
  { name := 7, numArgs := 2, blocks := [
    ⟨4, [⟨1, .alloca⟩, ⟨2, .alloca⟩, ⟨3, .alloca⟩, ⟨21, .br 0⟩]⟩,
    ⟨0, [⟨22, .phi [(.arg 0, 4)]⟩, ⟨23, .phi [(.arg 1, 4), (.inst 28, 5)]⟩,
         ⟨24, .phi [(.const 0, 4), (.inst 29, 5)]⟩, ⟨4, .store (.inst 22) (.inst 2)⟩,
         ⟨5, .store (.inst 23) (.inst 3)⟩, ⟨6, .load (.inst 3)⟩,
         ⟨25, .icmp .eq (.inst 23) (.const 0)⟩, ⟨26, .condbr (.inst 25) 3 5⟩]⟩,
    ⟨5, [⟨28, .binop .sub (.inst 23) (.const 1)⟩, ⟨29, .binop .add (.inst 24) (.inst 23)⟩,
         ⟨27, .br 0⟩]⟩,
    ⟨3, [⟨20, .ret (some (.inst 24))⟩]⟩] }

/-- What the pass makes of `recFirstFn`: new entry block 4, header 0, loop body block 5. -/
def recFirstLoopFn : Func :=
  { name := 7, numArgs := 1, blocks := [
    ⟨4, [⟨1, .alloca⟩, ⟨2, .alloca⟩, ⟨18, .br 0⟩]⟩,
    ⟨0, [⟨19, .phi [(.arg 0, 4), (.inst 24, 5)]⟩, ⟨20, .phi [(.inst 25, 4), (.inst 25, 5)]⟩,
         ⟨3, .store (.inst 19) (.inst 2)⟩, ⟨4, .load (.inst 2)⟩,
         ⟨21, .icmp .ne (.inst 19) (.const 0)⟩, ⟨22, .condbr (.inst 21) 3 5⟩]⟩,
    ⟨5, [⟨24, .binop .sub (.inst 19) (.const 1)⟩, ⟨25, .binop .add (.inst 20) (.inst 19)⟩,
         ⟨23, .br 0⟩]⟩,
    ⟨3, [⟨17, .ret (some (.inst 20))⟩]⟩] }

/-- A function whose direct self-call is in its entry block: the entry block computes
`n + f(n - 1)` before it tests `n == 0`. -/
def entryCallFn : Func :=
  { name := 7, numArgs := 1, blocks := [
    ⟨0, [⟨1, .alloca⟩, ⟨2, .alloca⟩, ⟨3, .store (.arg 0) (.inst 2)⟩, ⟨4, .load (.inst 2)⟩,
         ⟨5, .binop .sub (.inst 4) (.const 1)⟩, ⟨6, .call (.fn 7) [.inst 5]⟩,
         ⟨7, .binop .add (.inst 4) (.inst 6)⟩, ⟨8, .store (.inst 7) (.inst 1)⟩,
         ⟨9, .load (.inst 2)⟩, ⟨10, .icmp .eq (.inst 9) (.const 0)⟩,
         ⟨11, .condbr (.inst 10) 1 2⟩]⟩,
    ⟨1, [⟨12, .store (.const 0) (.inst 1)⟩, ⟨13, .br 3⟩]⟩,
    ⟨2, [⟨14, .br 3⟩]⟩,
    ⟨3, [⟨15, .load (.inst 1)⟩, ⟨16, .ret (some (.inst 15))⟩]⟩] }

/-- What `eliminateTailCall` makes of `entryCallFn`: new entry block 4, loop body block 5;
the old entry block 0, which is also the call block, is erased. -/
def entryCallLoopFn : Func :=
  { name := 7, numArgs := 1, blocks := [
    ⟨4, [⟨1, .alloca⟩, ⟨2, .alloca⟩, ⟨17, .br 5⟩]⟩,
    ⟨1, [⟨12, .store (.const 0) (.inst 1)⟩, ⟨13, .br 3⟩]⟩,
    ⟨2, [⟨14, .br 3⟩]⟩,
    ⟨5, [⟨23, .binop .sub (.inst 18) (.const 1)⟩, ⟨24, .binop .add (.inst 19) (.inst 18)⟩,
         ⟨22, .br 5⟩]⟩,
    ⟨3, [⟨16, .ret (some (.inst 19))⟩]⟩] }

/-- A function whose final block merges, in a phi that is not used, the constant of the base
case with a value the call block loads. -/
def phiRetFn : Func :=
  { name := 7, numArgs := 1, blocks := [
    ⟨0, [⟨1, .alloca⟩, ⟨2, .alloca⟩, ⟨3, .store (.arg 0) (.inst 2)⟩, ⟨4, .load (.inst 2)⟩,
         ⟨5, .icmp .eq (.inst 4) (.const 0)⟩, ⟨6, .condbr (.inst 5) 1 2⟩]⟩,
    ⟨1, [⟨7, .store (.const 0) (.inst 1)⟩, ⟨8, .br 3⟩]⟩,
    ⟨2, [⟨9, .load (.inst 2)⟩, ⟨10, .load (.inst 2)⟩, ⟨11, .binop .sub (.inst 10) (.const 1)⟩,
         ⟨12, .call (.fn 7) [.inst 11]⟩, ⟨13, .binop .add (.inst 9) (.inst 12)⟩,
         ⟨14, .store (.inst 13) (.inst 1)⟩, ⟨15, .br 3⟩]⟩,
    ⟨3, [⟨16, .phi [(.const 0, 1), (.inst 9, 2)]⟩, ⟨17, .load (.inst 1)⟩,
         ⟨18, .ret (some (.inst 17))⟩]⟩] }

/-- What `eliminateTailCall` makes of `phiRetFn`: the call block 2 is erased, and the phi of
the final block still names it and the instruction 9 it held. -/
def phiRetLoopFn : Func :=
  { name := 7, numArgs := 1, blocks := [
    ⟨4, [⟨1, .alloca⟩, ⟨2, .alloca⟩, ⟨19, .br 0⟩]⟩,
    ⟨0, [⟨20, .phi [(.arg 0, 4), (.inst 25, 5)]⟩, ⟨21, .phi [(.const 0, 4), (.inst 26, 5)]⟩,
         ⟨3, .store (.inst 20) (.inst 2)⟩, ⟨4, .load (.inst 2)⟩,
         ⟨22, .icmp .eq (.inst 20) (.const 0)⟩, ⟨23, .condbr (.inst 22) 3 5⟩]⟩,
    ⟨1, [⟨7, .store (.const 0) (.inst 1)⟩, ⟨8, .br 3⟩]⟩,
    ⟨5, [⟨25, .binop .sub (.inst 20) (.const 1)⟩, ⟨26, .binop .add (.inst 21) (.inst 20)⟩,
         ⟨24, .br 0⟩]⟩,
    ⟨3, [⟨16, .phi [(.const 0, 1), (.inst 9, 2)]⟩, ⟨18, .ret (some (.inst 21))⟩]⟩] }

/-- The sum recursion with its base case reached through a forwarding block that is laid out
after the base case block: the entry block branches to block 3, which branches back to the
base case block 1. -/
def deadChainFn : Func :=
  { name := 7, numArgs := 1, blocks := [
    ⟨0, [⟨1, .alloca⟩, ⟨2, .alloca⟩, ⟨3, .store (.arg 0) (.inst 2)⟩, ⟨4, .load (.inst 2)⟩,
         ⟨5, .icmp .eq (.inst 4) (.const 0)⟩, ⟨6, .condbr (.inst 5) 3 2⟩]⟩,
    ⟨1, [⟨7, .store (.const 0) (.inst 1)⟩, ⟨8, .br 4⟩]⟩,
    ⟨2, [⟨9, .load (.inst 2)⟩, ⟨10, .load (.inst 2)⟩, ⟨11, .binop .sub (.inst 10) (.const 1)⟩,
         ⟨12, .call (.fn 7) [.inst 11]⟩, ⟨13, .binop .add (.inst 9) (.inst 12)⟩,
         ⟨14, .store (.inst 13) (.inst 1)⟩, ⟨15, .br 4⟩]⟩,
    ⟨3, [⟨16, .br 1⟩]⟩,
    ⟨4, [⟨17, .load (.inst 1)⟩, ⟨18, .ret (some (.inst 17))⟩]⟩] }

/-- What the pass makes of `deadChainFn`: new entry block 5, loop header 0, loop body 6, final
block 4; the forwarding block 3 is removed, the base case block 1 is still there. -/
def deadChainLoopFn : Func :=
  { name := 7, numArgs := 1, blocks := [
    ⟨5, [⟨1, .alloca⟩, ⟨2, .alloca⟩, ⟨19, .br 0⟩]⟩,
    ⟨0, [⟨20, .phi [(.arg 0, 5), (.inst 25, 6)]⟩, ⟨21, .phi [(.const 0, 5), (.inst 26, 6)]⟩,
         ⟨3, .store (.inst 20) (.inst 2)⟩, ⟨4, .load (.inst 2)⟩,
         ⟨22, .icmp .eq (.inst 20) (.const 0)⟩, ⟨23, .condbr (.inst 22) 4 6⟩]⟩,
    ⟨1, [⟨7, .store (.const 0) (.inst 1)⟩, ⟨8, .br 4⟩]⟩,
    ⟨6, [⟨25, .binop .sub (.inst 20) (.const 1)⟩, ⟨26, .binop .add (.inst 21) (.inst 20)⟩,
         ⟨24, .br 0⟩]⟩,
    ⟨4, [⟨18, .ret (some (.inst 21))⟩]⟩] }

/-! ## Properties of the detector -/

theorem checkConditions_iff (nxt CI : Inst) :
    checkConditions nxt CI = true ↔ AccumulatesResultOf nxt CI := by
  obtain ⟨nid, nk⟩ := nxt
  cases nk <;>
    simp [checkConditions, AccumulatesResultOf, Inst.isAssociative, Inst.isCommutative]
  rename_i op a b
  by_cases ha : a = CI.result <;> by_cases hb : b = CI.result <;>
    simp [Inst.getNumOperands, Inst.getOperand, Inst.operands, ha, hb, List.count_cons]

theorem mem_followers (CI nxt : Inst) :
    ∀ l : List Inst, (CI, nxt) ∈ followers l ↔
      ∃ before after, l = before ++ CI :: after ∧ nextNonDebug after = some nxt := by
  intro l
  induction l with
  | nil => simp [followers]
  | cons I rest ih =>
    constructor
    · intro h
      have h' : (CI, nxt) ∈ followers rest ∨ (I = CI ∧ nextNonDebug rest = some nxt) := by
        unfold followers at h
        split at h
        · rename_i n hn
          rcases List.mem_cons.1 h with h1 | h1
          · right
            simp only [Prod.mk.injEq] at h1
            exact ⟨h1.1.symm, by rw [hn, h1.2]⟩
          · exact Or.inl h1
        · exact Or.inl h
      rcases h' with h1 | ⟨rfl, h2⟩
      · obtain ⟨before, after, hl, hn⟩ := ih.1 h1
        exact ⟨I :: before, after, by simp [hl], hn⟩
      · exact ⟨[], rest, rfl, h2⟩
    · rintro ⟨before, after, hl, hn⟩
      cases before with
      | nil =>
        simp only [List.nil_append, List.cons.injEq] at hl
        obtain ⟨rfl, rfl⟩ := hl
        simp [followers, hn]
      | cons J before =>
        simp only [List.cons_append, List.cons.injEq] at hl
        obtain ⟨rfl, hl⟩ := hl
        have := ih.2 ⟨before, after, hl, hn⟩
        unfold followers
        split
        · exact List.mem_cons_of_mem _ this
        · exact this

theorem forall_sites_of_followers (F : Func) (P : Inst → Inst → Prop)
    (h : ∀ B ∈ F.blocks, ∀ s ∈ followers B.insts, P s.1 s.2) :
    ∀ B ∈ F.blocks, ∀ CI nxt, NextInBlock B CI nxt → P CI nxt := by
  intro B hB CI nxt hn
  exact h B hB (CI, nxt) ((mem_followers CI nxt B.insts).2 hn)

theorem scanCalls_true (fname : Nat) :
    ∀ (l : List Inst) (sat : Bool), scanCalls fname l sat = true →
      sat = true ∨ ∃ before CI after nxt, l = before ++ CI :: after ∧
        CI.isSelfCall fname = true ∧ nextNonDebug after = some nxt ∧
        checkConditions nxt CI = true := by
  intro l
  induction l with
  | nil => intro sat h; left; simpa [scanCalls] using h
  | cons I rest ih =>
    intro sat h
    rw [scanCalls] at h
    split at h
    · rename_i callee args hk
      split at h
      · exact Or.inl h
      · rename_i hc
        have hc' : callee = .fn fname := by simpa using hc
        split at h
        · exact Or.inl h
        · rename_i nextInst hn
          split at h
          · rename_i hcc
            right
            refine ⟨[], I, rest, nextInst, rfl, ?_, hn, hcc⟩
            simp [Inst.isSelfCall, hk, hc']
          · exact Or.inl h
    · rcases ih sat h with h1 | ⟨before, CI, after, nxt, hl, h2, h3, h4⟩
      · exact Or.inl h1
      · exact Or.inr ⟨I :: before, CI, after, nxt, by simp [hl], h2, h3, h4⟩

theorem foldl_scanBlock_true (fname : Nat) :
    ∀ (bs : List Block) (sat : Bool), bs.foldl (scanBlock fname) sat = true →
      sat = true ∨ ∃ B ∈ bs, B.endsInBranch = true ∧ ∃ CI nxt, NextInBlock B CI nxt ∧
        CI.isSelfCall fname = true ∧ checkConditions nxt CI = true := by
  intro bs
  induction bs with
  | nil => intro sat h; left; simpa using h
  | cons B rest ih =>
    intro sat h
    rw [List.foldl_cons] at h
    rcases ih _ h with h1 | ⟨B', hB', hbr, CI, nxt, h2, h3, h4⟩
    · unfold scanBlock at h1
      split at h1
      · rename_i T hT
        split at h1
        · rename_i hbr
          rcases scanCalls_true fname _ _ h1 with h5 | ⟨before, CI, after, nxt, hl, h2, h3, h4⟩
          · exact Or.inl h5
          · right
            refine ⟨B, List.mem_cons_self _ _, ?_, CI, nxt, ⟨before, after, hl, h3⟩, h2, h4⟩
            simp [Block.endsInBranch, hT, hbr]
        · exact Or.inl h1
      · exact Or.inl h1
    · exact Or.inr ⟨B', List.mem_cons_of_mem _ hB', hbr, CI, nxt, h2, h3, h4⟩

/-- Soundness of the detector: an accepted function has a block that ends in a branch
instruction and holds a direct self-call whose next non-debug instruction passes
`checkConditions`. -/
theorem detector_sound (F : Func) (h : isAccumulatorTailRecursive F = true) :
    ∃ B ∈ F.blocks, B.endsInBranch = true ∧ ∃ CI nxt, NextInBlock B CI nxt ∧
      CI.isSelfCall F.name = true ∧ checkConditions nxt CI = true := by
  rcases foldl_scanBlock_true F.name F.blocks false h with h1 | h2
  · exact absurd h1 (by simp)
  · exact h2

/-! ## The pass on the accumulator recursion `accFn` -/

theorem prepare_accFn (p : Pred) (c b : Nat) (stepOp : BinOp) (k : Nat) (op : BinOp) :
    prepare (accFn p c b stepOp k op) = .done (accPrepared p c b stepOp k op) := by
  simp [prepare, splitEntry, createArgPhis, createAccPhi, feedLoopBack, accFn, accPrepared,
    Func.freshInst, Func.freshBlock, Func.allInsts, addArgPhis,
    Inst.isAlloca, List.range, List.range.loop, Func.insertBefore, Func.updateBlock,
    insertBeforeId, Func.replaceAllUsesWith, Func.mapInsts, Block.mapInsts, Inst.mapKind,
    Kind.mapValues, substValue, Func.addIncoming, addIncomingInst, setKindInst, getBaseCaseValue,
    getBaseCaseValueFrom,
    Block.getTerminator, Inst.isTerminator, prevNonDebug, Inst.isDebug, getTailCall,
    Inst.isSelfCall, Func.getParent, setSuccessor0, Func.setKind, instsBefore, instsAfter,
    nextNonDebug, Inst.result]

theorem rebuild_accPrepared (p : Pred) (c b : Nat) (stepOp : BinOp) (k : Nat) (op : BinOp) :
    rebuild (accPrepared p c b stepOp k op) = .done (accRawFn p c b stepOp k op) := by
  simp [rebuild, accPrepared, accRawFn, Func.findBlock, Func.allInsts, Func.findInst,
    Func.createBlockBefore, insertBlockBefore, Func.insertAtEnd, Func.eraseInst, Func.eraseBlock,
    Func.replaceBlockUsesWith, Kind.mapTargets, Kind.mapIncomingBlocks, substBlock,
    Block.successors, Inst.targets, Func.insertBefore, Func.updateBlock, insertBeforeId,
    Func.replaceAllUsesWith, Func.mapInsts, Block.mapInsts, Inst.mapKind, Kind.mapValues,
    substValue, Func.addIncoming, Block.getTerminator, Inst.isTerminator, prevNonDebug,
    Inst.isDebug, Inst.result]

theorem eliminateTailCall_accFn (p : Pred) (c b : Nat) (stepOp : BinOp) (k : Nat) (op : BinOp) :
    eliminateTailCall (accFn p c b stepOp k op) = .done (accRawFn p c b stepOp k op) := by
  simp only [eliminateTailCall, prepare_accFn, rebuild_accPrepared]

theorem removeDeadBlocks_accRawFn (p : Pred) (c b : Nat) (stepOp : BinOp) (k : Nat)
    (op : BinOp) :
    removeDeadBlocks (accRawFn p c b stepOp k op) = (accLoopFn p c b stepOp k op, true) := by
  simp [removeDeadBlocks, removeDeadStep, dropInsts, Func.predEmpty, Func.removePredecessor,
    accLoopFn, accRawFn, Func.findBlock, Func.allInsts, Func.eraseBlock, Block.successors,
    Inst.targets, Func.updateBlock, Func.replaceAllUsesWith, Func.mapInsts, Block.mapInsts,
    Inst.mapKind, Kind.mapValues, substValue, Block.getTerminator, Inst.isTerminator,
    Inst.result]

theorem isAccumulatorTailRecursive_accFn (p : Pred) (c b : Nat) (stepOp : BinOp) (k : Nat)
    (op : BinOp) :
    isAccumulatorTailRecursive (accFn p c b stepOp k op) =
      (op.isAssociative && op.isCommutative) := by
  cases op <;> rfl

theorem runOnFunction_accFn (p : Pred) (c b : Nat) (stepOp : BinOp) (k : Nat) (op : BinOp)
    (hop : (op.isAssociative && op.isCommutative) = true) :
    runOnFunction (accFn p c b stepOp k op) = .done (accLoopFn p c b stepOp k op, true) := by
  simp only [runOnFunction, isAccumulatorTailRecursive_accFn, hop, eliminateTailCall_accFn,
    removeDeadBlocks_accRawFn, if_true]

/-! ## Properties of the interpreter -/

theorem exec_succ (F : Func) :
    ∀ (fuel : Nat) (fr : Frame) (cur : Nat) (pc : List Inst) (v : Nat),
      exec F fuel fr cur pc = some v → exec F (fuel + 1) fr cur pc = some v := by
  intro fuel
  induction fuel with
  | zero => intro fr cur pc v h; simp [exec] at h
  | succ f ih =>
    intro fr cur pc v h
    cases pc with
    | nil => simp [exec] at h
    | cons I rest =>
      rw [exec] at h ⊢
      cases hk : I.kind with
      | alloca => simp only [hk] at h ⊢; exact ih _ _ _ _ h
      | load p =>
        simp only [hk] at h ⊢
        cases h1 : fr.eval p with
        | none => simp [h1] at h
        | some a =>
          simp only [h1] at h ⊢
          cases h2 : fr.mem.lookup a with
          | none => simp [h2] at h
          | some x => simp only [h2] at h ⊢; exact ih _ _ _ _ h
      | store x p =>
        simp only [hk] at h ⊢
        cases h1 : fr.eval x <;> cases h2 : fr.eval p <;> simp only [h1, h2] at h ⊢ <;>
          first | exact ih _ _ _ _ h | cases h
      | binop op a b =>
        simp only [hk] at h ⊢
        cases h1 : fr.eval a <;> cases h2 : fr.eval b <;> simp only [h1, h2] at h ⊢ <;>
          try cases h
        rename_i x y
        cases h3 : evalBinOp op x y with
        | none => simp [h3] at h
        | some r => simp only [h3] at h ⊢; exact ih _ _ _ _ h
      | icmp p a b =>
        simp only [hk] at h ⊢
        cases h1 : fr.eval a <;> cases h2 : fr.eval b <;> simp only [h1, h2] at h ⊢ <;>
          first | exact ih _ _ _ _ h | cases h
      | call callee args =>
        cases callee with
        | dbg => simp only [hk] at h ⊢; exact ih _ _ _ _ h
        | indirect => simp [hk] at h
        | fn g =>
          simp only [hk] at h ⊢
          by_cases hg : (g == F.name) = true
          · simp only [hg, if_true] at h ⊢
            cases hvs : fr.evalAll args with
            | none => simp [hvs] at h
            | some vs =>
              cases hbl : F.blocks with
              | nil => simp [hvs, hbl] at h
              | cons entryBB tl =>
                simp only [hvs, hbl] at h ⊢
                cases h3 : exec F f ⟨vs, [], []⟩ entryBB.id entryBB.insts with
                | none => simp [h3] at h
                | some r =>
                  simp only [h3] at h
                  rw [ih _ _ _ _ h3]
                  exact ih _ _ _ _ h
          · simp [hg] at h
      | phi inc => simp [hk] at h
      | br t =>
        simp only [hk] at h ⊢
        cases h1 : F.findBlock t with
        | none => simp [h1] at h
        | some B =>
          simp only [h1] at h ⊢
          cases h2 : evalPhis fr cur B.insts with
          | none => simp [h2] at h
          | some vals => simp only [h2] at h ⊢; exact ih _ _ _ _ h
      | condbr c t e =>
        simp only [hk] at h ⊢
        cases h0 : fr.eval c with
        | none => simp [h0] at h
        | some x =>
          simp only [h0] at h ⊢
          cases h1 : F.findBlock (if x % 2 = 1 then t else e) with
          | none => simp [h1] at h
          | some B =>
            simp only [h1] at h ⊢
            cases h2 : evalPhis fr cur B.insts with
            | none => simp [h2] at h
            | some vals => simp only [h2] at h ⊢; exact ih _ _ _ _ h
      | ret x => simp only [hk] at h ⊢; exact h

theorem exec_mono (F : Func) (fuel extra : Nat) (fr : Frame) (cur : Nat) (pc : List Inst)
    (v : Nat) (h : exec F fuel fr cur pc = some v) :
    exec F (fuel + extra) fr cur pc = some v := by
  induction extra with
  | zero => exact h
  | succ e ih => exact exec_succ F _ _ _ _ _ ih

theorem run_mono (F : Func) (fuel fuel2 : Nat) (args : List Nat) (v : Nat)
    (h : run F fuel args = some v) (hle : fuel ≤ fuel2) : run F fuel2 args = some v := by
  obtain ⟨e, rfl⟩ := Nat.exists_eq_add_of_le hle
  unfold run at h ⊢
  split
  · simp_all
  · rename_i entryBB tl hb
    simp only [hb] at h
    exact exec_mono F _ _ _ _ _ _ h

/-- The result of a terminating call does not depend on the budget. -/
theorem Returns_unique (F : Func) (args : List Nat) (v w : Nat)
    (hv : Returns F args v) (hw : Returns F args w) : v = w := by
  obtain ⟨f1, h1⟩ := hv
  obtain ⟨f2, h2⟩ := hw
  have a := run_mono F f1 (max f1 f2) args v h1 (le_max_left _ _)
  have b := run_mono F f2 (max f1 f2) args w h2 (le_max_right _ _)
  rw [a] at b
  exact Option.some.inj b


theorem evalBinOp_total (op : BinOp) (hop : (op.isAssociative && op.isCommutative) = true)
    (x y : Nat) : evalBinOp op x y = some ((evalBinOp op x y).getD 0) := by
  cases op <;> simp [BinOp.isAssociative] at hop <;> simp [evalBinOp]

theorem evalBinOp_comm (op : BinOp) (hop : (op.isAssociative && op.isCommutative) = true)
    (x y : Nat) : evalBinOp op x y = evalBinOp op y x := by
  cases op <;> simp [BinOp.isAssociative] at hop <;> simp only [evalBinOp]
  · rw [Nat.add_comm]
  · rw [Nat.mul_comm]
  · rw [Nat.land_comm]
  · rw [Nat.lor_comm]
  · rw [Nat.xor_comm]

theorem evalBinOp_left_comm (op : BinOp)
    (hop : (op.isAssociative && op.isCommutative) = true) (x y z : Nat) :
    evalBinOp op x ((evalBinOp op y z).getD 0) = evalBinOp op y ((evalBinOp op x z).getD 0) := by
  cases op <;> simp [BinOp.isAssociative] at hop <;>
    simp only [evalBinOp, Option.getD_some, Option.some.injEq]
  · simp only [wordSize]; omega
  · rw [Nat.mul_mod x, Nat.mod_mod, ← Nat.mul_mod, Nat.mul_mod y, Nat.mod_mod, ← Nat.mul_mod]
    congr 1
    ring
  · apply Nat.eq_of_testBit_eq
    intro i
    simp only [wordSize, Nat.testBit_mod_two_pow, Nat.testBit_and]
    cases decide (i < 32) <;> cases x.testBit i <;> cases y.testBit i <;> cases z.testBit i <;> rfl
  · apply Nat.eq_of_testBit_eq
    intro i
    simp only [wordSize, Nat.testBit_mod_two_pow, Nat.testBit_or]
    cases decide (i < 32) <;> cases x.testBit i <;> cases y.testBit i <;> cases z.testBit i <;> rfl
  · apply Nat.eq_of_testBit_eq
    intro i
    simp only [wordSize, Nat.testBit_mod_two_pow, Nat.testBit_xor]
    cases decide (i < 32) <;> cases x.testBit i <;> cases y.testBit i <;> cases z.testBit i <;> rfl


theorem accRec_shift (p : Pred) (c : Nat) (stepOp : BinOp) (k : Nat) (op : BinOp)
    (hop : (op.isAssociative && op.isCommutative) = true) (B x : Nat) :
    ∀ (d n r : Nat), accRec p c stepOp k op B d n = some r →
      accRec p c stepOp k op ((evalBinOp op B x).getD 0) d n =
        some ((evalBinOp op x r).getD 0) := by
  intro d
  induction d with
  | zero => intro n r h; simp [accRec] at h
  | succ d ih =>
    intro n r h
    simp only [accRec] at h ⊢
    by_cases hg : evalPred p n (c % wordSize) = true
    · simp only [hg, if_true, Option.some.injEq] at h ⊢
      rw [← h, evalBinOp_comm op hop]
    · simp only [hg] at h ⊢
      cases hm : evalBinOp stepOp n (k % wordSize) with
      | none => simp [hm] at h
      | some m =>
        simp only [hm] at h ⊢
        cases hr : accRec p c stepOp k op B d m with
        | none => simp [hr] at h
        | some r2 =>
          simp only [hr] at h
          rw [ih m r2 hr]
          have h2 : r = (evalBinOp op n r2).getD 0 := by simp at h; simp [h]
          simp only [Bool.false_eq_true, if_false]
          rw [h2, evalBinOp_left_comm op hop n x r2, ← evalBinOp_total op hop]

/-- With an associative and commutative operator, the loop started from the base value
computes what the recursion computes. -/
theorem accIter_of_accRec (p : Pred) (c : Nat) (stepOp : BinOp) (k : Nat) (op : BinOp)
    (hop : (op.isAssociative && op.isCommutative) = true) :
    ∀ (d n B v : Nat), accRec p c stepOp k op B d n = some v →
      accIter p c stepOp k op d n B = some v := by
  intro d
  induction d with
  | zero => intro n B v h; simp [accRec] at h
  | succ d ih =>
    intro n B v h
    simp only [accRec] at h
    simp only [accIter]
    by_cases hg : evalPred p n (c % wordSize) = true
    · simp only [hg, if_true] at h ⊢
      exact h
    · simp only [hg] at h ⊢
      cases hm : evalBinOp stepOp n (k % wordSize) with
      | none => simp [hm] at h
      | some m =>
        simp only [hm] at h ⊢
        cases hr : accRec p c stepOp k op B d m with
        | none => simp [hr] at h
        | some r =>
          simp only [hr] at h
          have h2 : v = (evalBinOp op n r).getD 0 := by simp at h; simp [h]
          rw [evalBinOp_total op hop B n]
          simp only [Bool.false_eq_true, if_false]
          rw [h2]
          exact ih m _ _ (accRec_shift p c stepOp k op hop B n d m r hr)



/-! ## Semantic equivalence on the accumulator recursion -/

section Template

variable (p : Pred) (c b : Nat) (stepOp : BinOp) (k : Nat) (op : BinOp)

theorem run_accFn_unfold (f n : Nat) :
    run (accFn p c b stepOp k op) (f + 10) [n] =
      if evalPred p n (c % wordSize) then some (b % wordSize)
      else
        match evalBinOp stepOp n (k % wordSize) with
        | none => none
        | some m =>
          match run (accFn p c b stepOp k op) f [m] with
          | none => none
          | some r =>
            exec (accFn p c b stepOp k op) f
              ⟨[n], [(12, r), (11, m), (10, n), (9, n), (5, 0), (4, n), (2, 2), (1, 1)],
                [(2, n)]⟩ 2
              [⟨13, .binop op (.inst 9) (.inst 12)⟩, ⟨14, .store (.inst 13) (.inst 1)⟩,
                ⟨15, .br 3⟩] := by
  cases hg : evalPred p n (c % wordSize)
  · cases hm : evalBinOp stepOp n (k % wordSize)
    · simp [run, exec, accFn, hg, hm, Frame.eval, Frame.bind, List.lookup, Func.findBlock, evalPhis, Frame.evalAll, Inst.isPhi]
    · simp [run, exec, accFn, hg, hm, Frame.eval, Frame.bind, List.lookup, Func.findBlock, evalPhis, Frame.evalAll, Inst.isPhi]
  · simp [run, exec, accFn, hg, Frame.eval, Frame.bind, List.lookup, Func.findBlock, evalPhis, Frame.evalAll, Inst.isPhi]

theorem exec_accFn_cont (g n m r : Nat) :
    exec (accFn p c b stepOp k op) (g + 5)
        ⟨[n], [(12, r), (11, m), (10, n), (9, n), (5, 0), (4, n), (2, 2), (1, 1)], [(2, n)]⟩ 2
        [⟨13, .binop op (.inst 9) (.inst 12)⟩, ⟨14, .store (.inst 13) (.inst 1)⟩, ⟨15, .br 3⟩]
      = evalBinOp op n r := by
  cases hu : evalBinOp op n r <;>
    simp [exec, accFn, hu, Frame.eval, Frame.bind, List.lookup, Func.findBlock, evalPhis,
      Inst.isPhi]

theorem run_accFn_nine (n : Nat) : run (accFn p c b stepOp k op) 9 [n] = none := by
  cases hg : evalPred p n (c % wordSize)
  · cases hm : evalBinOp stepOp n (k % wordSize) <;>
      simp [run, exec, accFn, hg, hm, Frame.eval, Frame.bind, List.lookup, Func.findBlock,
        evalPhis, Frame.evalAll, Inst.isPhi]
  · simp [run, exec, accFn, hg, Frame.eval, Frame.bind, List.lookup, Func.findBlock, evalPhis,
      Frame.evalAll, Inst.isPhi]

theorem run_accFn_fuel (fuel n v : Nat) (h : run (accFn p c b stepOp k op) fuel [n] = some v) :
    10 ≤ fuel := by
  by_contra hlt
  have := run_mono _ fuel 9 [n] v h (by omega)
  rw [run_accFn_nine] at this
  cases this

/-- Every result of `accFn` is a result of the recursion it is written for. -/
theorem accFn_sound :
    ∀ (fuel n v : Nat), run (accFn p c b stepOp k op) fuel [n] = some v →
      ∃ d, accRec p c stepOp k op (b % wordSize) d n = some v := by
  intro fuel
  induction fuel using Nat.strong_induction_on with
  | _ fuel ih =>
    intro n v h
    have h10 := run_accFn_fuel p c b stepOp k op fuel n v h
    obtain ⟨f, rfl⟩ := Nat.exists_eq_add_of_le' h10
    rw [run_accFn_unfold] at h
    by_cases hg : evalPred p n (c % wordSize) = true
    · simp only [hg, if_true] at h
      exact ⟨1, by simp [accRec, hg, h]⟩
    · simp only [hg] at h
      cases hm : evalBinOp stepOp n (k % wordSize) with
      | none => simp [hm] at h
      | some m =>
        simp only [hm] at h
        cases hr : run (accFn p c b stepOp k op) f [m] with
        | none => simp [hr] at h
        | some r =>
          simp only [hr] at h
          have hf := run_accFn_fuel p c b stepOp k op f m r hr
          obtain ⟨g, rfl⟩ := Nat.exists_eq_add_of_le' (show 5 ≤ f by omega)
          rw [exec_accFn_cont] at h
          obtain ⟨d, hd⟩ := ih (g + 5) (by omega) m r hr
          exact ⟨d + 1, by simp only [accRec, hg, hm, hd]; simpa using h⟩

/-- The loop header of `accLoopFn`, entered with the phi nodes holding `(n, a)`, returns what
the loop `accIter` computes from `(n, a)`. -/
theorem accLoopFn_header :
    ∀ (d n a v : Nat) (args : List Nat) (E M : List (Nat × Nat)),
      accIter p c stepOp k op d n a = some v → E.lookup 2 = some 2 →
      ∃ fuel, exec (accLoopFn p c b stepOp k op) fuel ⟨args, (19, n) :: (20, a) :: E, M⟩ 0
        [⟨3, .store (.inst 19) (.inst 2)⟩, ⟨4, .load (.inst 2)⟩,
          ⟨21, .icmp p (.inst 19) (.const c)⟩, ⟨22, .condbr (.inst 21) 3 5⟩] = some v := by
  intro d
  induction d with
  | zero => intro n a v args E M h; simp [accIter] at h
  | succ d ih =>
    intro n a v args E M h hE
    simp only [accIter] at h
    cases hg : evalPred p n (c % wordSize) with
    | true =>
      simp only [hg, if_true, Option.some.injEq] at h
      refine ⟨5, ?_⟩
      simp [exec, accLoopFn, hg, hE, h, Frame.eval, Frame.bind, List.lookup, Func.findBlock,
        evalPhis, Inst.isPhi]
    | false =>
      simp only [hg] at h
      cases hm : evalBinOp stepOp n (k % wordSize) with
      | none => simp [hm] at h
      | some m =>
        simp only [hm] at h
        cases hu : evalBinOp op a n with
        | none => simp [hu] at h
        | some a2 =>
          simp only [hu, Bool.false_eq_true, if_false] at h
          obtain ⟨fuel, hf⟩ := ih m a2 v args
            ((25, a2) :: (24, m) :: (21, 0) :: (4, n) :: (19, n) :: (20, a) :: E) ((2, n) :: M) h
            (by simp [List.lookup, hE])
          refine ⟨fuel + 7, ?_⟩
          rw [← hf]
          simp [exec, accLoopFn, hg, hm, hu, hE, Frame.eval, Frame.bind, List.lookup,
            Func.findBlock, evalPhis, Inst.isPhi]

/-- Called on `n`, `accLoopFn` returns what the loop `accIter` computes from `n` and the base
value. -/
theorem accLoopFn_complete (d n v : Nat)
    (h : accIter p c stepOp k op d n (b % wordSize) = some v) :
    Returns (accLoopFn p c b stepOp k op) [n] v := by
  obtain ⟨fuel, hf⟩ := accLoopFn_header p c b stepOp k op d n (b % wordSize) v [n]
    [(2, 2), (1, 1)] [] h (by simp [List.lookup])
  refine ⟨fuel + 3, ?_⟩
  rw [← hf]
  simp [run, exec, accLoopFn, Frame.eval, List.lookup, Func.findBlock, evalPhis, Inst.isPhi]

/-- The loop made of the accumulator recursion returns every result of the recursion. -/
theorem accLoopFn_refines (hop : (op.isAssociative && op.isCommutative) = true) (n v : Nat)
    (h : Returns (accFn p c b stepOp k op) [n] v) :
    Returns (accLoopFn p c b stepOp k op) [n] v := by
  obtain ⟨fuel, hf⟩ := h
  obtain ⟨d, hd⟩ := accFn_sound p c b stepOp k op fuel n v hf
  exact accLoopFn_complete p c b stepOp k op d n v
    (accIter_of_accRec p c stepOp k op hop d n _ v hd)

end Template

theorem runOnFunction_of_rejected (F : Func) (h : isAccumulatorTailRecursive F = false) :
    runOnFunction F = .done (F, true) := by
  simp [runOnFunction, h]

theorem runOnFunction_flag (F G : Func) (changed : Bool)
    (h : runOnFunction F = .done (G, changed)) : changed = true := by
  unfold runOnFunction at h
  split at h
  · split at h
    · cases h; rfl
    · cases h
  · cases h; rfl

/-- C7: if `isAccumulatorTailRecursive` returns true, some block holds a direct self-call whose
next non-debug instruction is an associative and commutative operation with exactly two
operands, exactly one of which is the result of the call; and the detector returns false for
every function without a direct self-call. -/
theorem accepted_has_qualifying_pair (F : Func) :
    (isAccumulatorTailRecursive F = true →
      ∃ B ∈ F.blocks, ∃ CI nxt, NextInBlock B CI nxt ∧ CI.isSelfCall F.name = true ∧
        AccumulatesResultOf nxt CI) ∧
    ((∀ I ∈ F.allInsts, I.isSelfCall F.name = false) →
      isAccumulatorTailRecursive F = false) := by
  have key : isAccumulatorTailRecursive F = true →
      ∃ B ∈ F.blocks, ∃ CI nxt, NextInBlock B CI nxt ∧ CI.isSelfCall F.name = true ∧
        AccumulatesResultOf nxt CI := by
    intro h
    obtain ⟨B, hB, _, CI, nxt, h1, h2, h3⟩ := detector_sound F h
    exact ⟨B, hB, CI, nxt, h1, h2, (checkConditions_iff nxt CI).1 h3⟩
  refine ⟨key, fun hno => ?_⟩
  cases hacc : isAccumulatorTailRecursive F
  · rfl
  · obtain ⟨B, hB, CI, nxt, ⟨before, after, hl, _⟩, h2, _⟩ := key hacc
    have hmem : CI ∈ F.allInsts := by
      simp only [Func.allInsts, List.mem_flatMap]
      exact ⟨B, hB, by simp [hl]⟩
    rw [hno CI hmem] at h2
    cases h2

/-- C7 at the sum function (accepted) and at the function without blocks (no self-call). -/
theorem accepted_has_qualifying_pair_witness :
    (∃ B ∈ sumFn.blocks, ∃ CI nxt, NextInBlock B CI nxt ∧ CI.isSelfCall sumFn.name = true ∧
        AccumulatesResultOf nxt CI) ∧
    isAccumulatorTailRecursive { name := 7, numArgs := 1, blocks := [⟨0, [⟨1, .ret none⟩]⟩] }
      = false :=
  ⟨(accepted_has_qualifying_pair sumFn).1 (by decide),
   (accepted_has_qualifying_pair _).2 (by decide)⟩

/-- C2, refuted as stated: `twoSitesFn` holds a direct self-call (instruction 7 of block 3)
whose next non-debug instruction is a subtraction, which is not associative, and the detector
accepts the function, because of the other call site. -/
theorem twoSites_accepted_with_bad_site :
    (∃ B ∈ twoSitesFn.blocks, ∃ CI nxt, NextInBlock B CI nxt ∧
        CI.isSelfCall twoSitesFn.name = true ∧ ¬ AccumulatesResultOf nxt CI) ∧
      isAccumulatorTailRecursive twoSitesFn = true := by
  refine ⟨⟨⟨3, _⟩, by decide, ⟨7, .call (.fn 7) [.inst 6]⟩, ⟨8, .binop .sub (.inst 7) (.arg 0)⟩,
    ⟨[⟨6, .binop .sub (.arg 0) (.const 1)⟩], [⟨8, .binop .sub (.inst 7) (.arg 0)⟩, ⟨9, .br 5⟩],
      rfl, rfl⟩, rfl, ?_⟩, by decide⟩
  intro h
  exact absurd h.1 (by decide)

/-- C2, amended: for every function in which every direct self-call has a next non-debug
instruction that is not both associative and commutative, or that has both or neither operand
equal to the result of the call, `isAccumulatorTailRecursive` returns false. -/
theorem rejected_when_every_site_fails (F : Func)
    (h : ∀ B ∈ F.blocks, ∀ CI nxt, NextInBlock B CI nxt → CI.isSelfCall F.name = true →
      ¬ AccumulatesResultOf nxt CI) :
    isAccumulatorTailRecursive F = false := by
  cases hacc : isAccumulatorTailRecursive F
  · rfl
  · obtain ⟨B, hB, _, CI, nxt, h1, h2, h3⟩ := detector_sound F hacc
    exact absurd ((checkConditions_iff nxt CI).1 h3) (h B hB CI nxt h1 h2)

/-- C2 (amended) at the two-argument tail-recursive sum: its only self-call is followed by a
store. -/
theorem rejected_when_every_site_fails_witness :
    isAccumulatorTailRecursive tailSumFn = false :=
  rejected_when_every_site_fails tailSumFn
    (forall_sites_of_followers tailSumFn
      (fun CI nxt => CI.isSelfCall tailSumFn.name = true → ¬ AccumulatesResultOf nxt CI)
      (by decide))

/-- C3: for every function that `isAccumulatorTailRecursive` rejects, `runOnFunction` completes
and leaves the function as it was: the same blocks in the same order with the same
instructions and operands. -/
theorem rejected_function_unchanged (F : Func) (h : isAccumulatorTailRecursive F = false) :
    ∃ changed, runOnFunction F = .done (F, changed) :=
  ⟨true, runOnFunction_of_rejected F h⟩

/-- C3 at the two-argument tail-recursive sum, which the detector rejects. -/
theorem rejected_function_unchanged_witness :
    isAccumulatorTailRecursive tailSumFn = false ∧
      ∃ changed, runOnFunction tailSumFn = .done (tailSumFn, changed) :=
  ⟨by decide, rejected_function_unchanged tailSumFn (by decide)⟩

/-- C6, refuted as stated: the detector rejects `tailSumFn`, `runOnFunction` leaves it
unchanged, and the returned flag is true. -/
theorem flag_true_on_unchanged_function :
    isAccumulatorTailRecursive tailSumFn = false ∧
      runOnFunction tailSumFn = .done (tailSumFn, true) :=
  ⟨by decide, runOnFunction_of_rejected tailSumFn (by decide)⟩

/-- C6, amended: `runOnFunction` returns true whenever it returns, whether or not it changed
the function; in particular, for every function the detector rejects (which is left unchanged)
it returns true. -/
theorem runOnFunction_always_true (F : Func) :
    (isAccumulatorTailRecursive F = false → runOnFunction F = .done (F, true)) ∧
    (∀ G changed, runOnFunction F = .done (G, changed) → changed = true) :=
  ⟨runOnFunction_of_rejected F, fun G changed h => runOnFunction_flag F G changed h⟩

/-- C6 (amended) at `tailSumFn` (rejected) and at `sumFn` (accepted and rewritten). -/
theorem runOnFunction_always_true_witness :
    runOnFunction tailSumFn = .done (tailSumFn, true) ∧ true = true :=
  ⟨(runOnFunction_always_true tailSumFn).1 (by decide),
   (runOnFunction_always_true sumFn).2 (accLoopFn .eq 0 0 .sub 1 .add) true (by decide)⟩

/-- C8, refuted as stated: the detector accepts `condSiteFn`, whose only direct self-call sits
in a block that ends in a conditional branch; no block with a self-call ends in an
unconditional branch. -/
theorem condSite_accepted :
    isAccumulatorTailRecursive condSiteFn = true ∧
      ∀ B ∈ condSiteFn.blocks, B.hasSelfCall condSiteFn.name = true →
        B.endsInUncondBr = false ∧ B.endsInBranch = true := by
  decide

/-- C8, amended: if `isAccumulatorTailRecursive` returns true then a block holding a qualifying
self-call/operation pair ends in a branch instruction, conditional or unconditional; a
function whose self-calls all sit in blocks that do not end in a branch instruction (a return)
is rejected. -/
theorem accepted_block_ends_in_branch (F : Func) :
    (isAccumulatorTailRecursive F = true →
      ∃ B ∈ F.blocks, B.endsInBranch = true ∧ ∃ CI nxt, NextInBlock B CI nxt ∧
        CI.isSelfCall F.name = true ∧ AccumulatesResultOf nxt CI) ∧
    ((∀ B ∈ F.blocks, B.hasSelfCall F.name = true → B.endsInBranch = false) →
      isAccumulatorTailRecursive F = false) := by
  have key : isAccumulatorTailRecursive F = true →
      ∃ B ∈ F.blocks, B.endsInBranch = true ∧ ∃ CI nxt, NextInBlock B CI nxt ∧
        CI.isSelfCall F.name = true ∧ AccumulatesResultOf nxt CI := by
    intro h
    obtain ⟨B, hB, hbr, CI, nxt, h1, h2, h3⟩ := detector_sound F h
    exact ⟨B, hB, hbr, CI, nxt, h1, h2, (checkConditions_iff nxt CI).1 h3⟩
  refine ⟨key, fun hno => ?_⟩
  cases hacc : isAccumulatorTailRecursive F
  · rfl
  · obtain ⟨B, hB, hbr, CI, nxt, ⟨before, after, hl, _⟩, h2, _⟩ := key hacc
    have hcall : B.hasSelfCall F.name = true := by
      simp only [Block.hasSelfCall, List.any_eq_true]
      exact ⟨CI, by simp [hl], h2⟩
    rw [hno B hB hcall] at hbr
    cases hbr

/-- C8 (amended) at `condSiteFn` (accepted, conditional branch) and at a function whose
self-call sits in a block that ends in a return. -/
theorem accepted_block_ends_in_branch_witness :
    (∃ B ∈ condSiteFn.blocks, B.endsInBranch = true ∧ ∃ CI nxt, NextInBlock B CI nxt ∧
        CI.isSelfCall condSiteFn.name = true ∧ AccumulatesResultOf nxt CI) ∧
    isAccumulatorTailRecursive { name := 7, numArgs := 1, blocks :=
      [⟨0, [⟨1, .call (.fn 7) [.arg 0]⟩, ⟨2, .binop .add (.inst 1) (.arg 0)⟩,
            ⟨3, .ret (some (.inst 2))⟩]⟩] } = false :=
  ⟨(accepted_block_ends_in_branch condSiteFn).1 (by decide),
   (accepted_block_ends_in_branch _).2 (by decide)⟩

/-! ## The pipeline: semantic equivalence and the sum scenario -/

theorem run_baseArgLoopFn (fuel n : Nat) : run baseArgLoopFn fuel [n] = none := by
  cases hr : run baseArgLoopFn fuel [n] with
  | none => rfl
  | some v =>
    have h := run_mono baseArgLoopFn fuel (fuel + 3) [n] v hr (by omega)
    simp [run, exec, baseArgLoopFn, Frame.eval, List.lookup, Func.findBlock, evalPhis] at h

theorem run_tailSumPlusLoopFn (fuel : Nat) : run tailSumPlusLoopFn fuel [5, 0] = none := by
  cases hr : run tailSumPlusLoopFn fuel [5, 0] with
  | none => rfl
  | some v =>
    have h := run_mono tailSumPlusLoopFn fuel (fuel + 5) [5, 0] v hr (by omega)
    simp [run, exec, tailSumPlusLoopFn, Frame.eval, List.lookup, Func.findBlock, evalPhis] at h

/-- C1, the code at the accumulator recursion `sum(n, acc) = acc if n == 0 else
sum(n - 1, acc + n)`, written so that the detector accepts it (the call result is added to
0).  `tailSumPlusFn` is well-formed, accepted by the detector, has both shapes the
transformer relies on and its self-call outside the entry block; it returns 15 on
`(n, acc) = (5, 0)`.  The pass completes with `tailSumPlusLoopFn`, which returns no value on
`(5, 0)`: the loop is driven by the merge value 25 of the last argument `acc` (the rebuilt
guard 27 compares it with 0, the new step 30 adds to it), the merge value 24 of `n` has no
entry from the loop body, the accumulator 26 starts from `undef` (the base value was a load
of the removed base case block), and the new step 30 reads the load 15 of the erased call
block. -/
theorem accumulator_argument_result_differs :
    tailSumPlusFn.WellFormed ∧ isAccumulatorTailRecursive tailSumPlusFn = true ∧
      tailSumPlusFn.hasBaseCaseBlock = true ∧ tailSumPlusFn.hasEntryCmp = true ∧
      tailSumPlusFn.callOutsideEntry = true ∧
      Returns tailSumPlusFn [5, 0] 15 ∧
      runOnFunction tailSumPlusFn = .done (tailSumPlusLoopFn, true) ∧
      (∀ v, ¬ Returns tailSumPlusLoopFn [5, 0] v) ∧
      tailSumPlusLoopFn.findInst 24 = some ⟨24, .phi [(.arg 0, 4)]⟩ ∧
      tailSumPlusLoopFn.findInst 25 = some ⟨25, .phi [(.arg 1, 4), (.inst 30, 5)]⟩ ∧
      tailSumPlusLoopFn.findInst 26 = some ⟨26, .phi [(Value.undef, 4), (.inst 31, 5)]⟩ ∧
      tailSumPlusLoopFn.findInst 27 = some ⟨27, .icmp .eq (.inst 25) (.const 0)⟩ ∧
      tailSumPlusLoopFn.findInst 30 = some ⟨30, .binop .add (.inst 25) (.inst 15)⟩ ∧
      tailSumPlusLoopFn.findInst 15 = none := by
  refine ⟨by decide, by decide, by decide, by decide, by decide, ⟨100, by decide⟩, by decide,
    ?_, by decide, by decide, by decide, by decide, by decide, by decide⟩
  rintro v ⟨fuel, hf⟩
  rw [run_tailSumPlusLoopFn] at hf
  cases hf

/-- Two functions of one argument, of the shape `f(n) = base(n) if guard(n) else
op (n, f (step n))`, that the detector accepts and the pass rewrites into a function with
another result.  For the sum with the guard written `0 == n`, the original returns 15 on 5 and
the rewritten function returns 0, never 15.  For the factorial with base case `n if n <= 1`,
the original returns 24 on 4 and the rewritten function returns no value at all (its
accumulator starts from `undef`). -/
theorem rewritten_result_differs :
    (isAccumulatorTailRecursive swapGuardFn = true ∧
      runOnFunction swapGuardFn = .done (swapGuardLoopFn, true) ∧
      Returns swapGuardFn [5] 15 ∧ Returns swapGuardLoopFn [5] 0 ∧
      ¬ Returns swapGuardLoopFn [5] 15) ∧
    (isAccumulatorTailRecursive baseArgFn = true ∧
      runOnFunction baseArgFn = .done (baseArgLoopFn, true) ∧
      Returns baseArgFn [4] 24 ∧ ∀ v, ¬ Returns baseArgLoopFn [4] v) := by
  have h0 : Returns swapGuardLoopFn [5] 0 := ⟨20, by decide⟩
  refine ⟨⟨by decide, by decide, ⟨100, by decide⟩, h0, ?_⟩,
    ⟨by decide, by decide, ⟨100, by decide⟩, ?_⟩⟩
  · intro h15
    have := Returns_unique _ _ _ _ h0 h15
    omega
  · rintro v ⟨fuel, hf⟩
    rw [run_baseArgLoopFn] at hf
    cases hf

/-- Where the pass is right: on every function `accFn p c b stepOp k op` (one argument; blocks
in the order entry, base case, call block, return block; the guard compares the loaded
argument, as first operand, with the constant `c`; the base case block stores the constant
`b`; the step is `stepOp` on the loaded argument and the constant `k`, in this order; `op`
is associative and commutative and combines the loaded argument with the call result), the
detector accepts the function, and the function produced by `eliminateTailCall` followed by
`removeDeadBlocks` returns, under the interpreter, the same result as the original for every
input on which the original terminates. -/
theorem accFn_rewritten_equivalent (p : Pred) (c b : Nat) (stepOp : BinOp) (k : Nat)
    (op : BinOp) (hop : (op.isAssociative && op.isCommutative) = true) :
    isAccumulatorTailRecursive (accFn p c b stepOp k op) = true ∧
      ∃ G, runOnFunction (accFn p c b stepOp k op) = .done (G, true) ∧
        ∀ n v, Returns (accFn p c b stepOp k op) [n] v → Returns G [n] v := by
  refine ⟨by rw [isAccumulatorTailRecursive_accFn, hop], accLoopFn p c b stepOp k op,
    runOnFunction_accFn p c b stepOp k op hop, ?_⟩
  intro n v h
  exact accLoopFn_refines p c b stepOp k op hop n v h

/-- The equivalence at the sum function `sumFn = accFn .eq 0 0 .sub 1 .add`. -/
theorem accFn_rewritten_equivalent_witness :
    (BinOp.add.isAssociative && BinOp.add.isCommutative) = true ∧
    isAccumulatorTailRecursive (accFn .eq 0 0 .sub 1 .add) = true ∧
      ∃ G, runOnFunction (accFn .eq 0 0 .sub 1 .add) = .done (G, true) ∧
        ∀ n v, Returns (accFn .eq 0 0 .sub 1 .add) [n] v → Returns G [n] v :=
  ⟨by decide, accFn_rewritten_equivalent .eq 0 0 .sub 1 .add (by decide)⟩

theorem not_loopFree_of_two_cycle (F : Func) (a b : Nat) (hab : (a, b) ∈ F.edges)
    (hba : (b, a) ∈ F.edges) : ¬ LoopFree F := by
  rintro ⟨rank, h⟩
  have h1 := h _ hab
  have h2 := h _ hba
  simp only at h1 h2
  omega

/-- C5, refuted as stated: on the IR of `sum(n, acc) = acc if n == 0 else sum(n-1, acc+n)` the
pipeline changes nothing (the detector rejects a call whose result is stored and returned):
the function still has its self-call and its control-flow graph has no back-edge. -/
theorem tailSum_not_rewritten :
    runOnFunction tailSumFn = .done (tailSumFn, true) ∧ tailSumFn.selfCallCount = 1 ∧
      LoopFree tailSumFn := by
  refine ⟨by decide, by decide, fun b => b, ?_⟩
  decide

/-- C5, amended: running the pipeline on the IR of `sum(n) = 0 if n == 0 else n + sum(n-1)`
(the recursion with the addition after the call, which is the form the detector accepts)
yields a function with zero self-calls and exactly one loop back-edge, from the loop body
block 5 to the loop header 0, whose evaluation on `n = 5` is 15. -/
theorem sum_pipeline :
    ∃ G, runOnFunction sumFn = .done (G, true) ∧ G.selfCallCount = 0 ∧
      OnlyBackEdge G 5 0 ∧ Returns G [5] 15 := by
  refine ⟨accLoopFn .eq 0 0 .sub 1 .add, by decide, by decide, ⟨by decide, ?_, ?_⟩,
    ⟨100, by decide⟩⟩
  · exact Relation.ReflTransGen.single (by decide)
  · refine ⟨fun b => if b = 4 then 0 else if b = 0 then 1 else if b = 5 then 2 else 3, ?_⟩
    decide

/-! ## The call site the transformer rewrites -/

/-! ## Rewritings that keep the shape of instructions -/

theorem tag_mapValues (f : Value → Value) (k : Kind) : (k.mapValues f).tag = k.tag := by
  cases k <;> simp [Kind.tag, Kind.mapValues, Function.comp_def]

theorem isDebug_of_tag {I J : Inst} (h : I.kind.tag = J.kind.tag) : I.isDebug = J.isDebug := by
  obtain ⟨i, k⟩ := I
  obtain ⟨j, l⟩ := J
  cases k <;> cases l <;> simp_all [Kind.tag, Kind.mapValues, Inst.isDebug]
  split <;> split <;> simp_all

theorem isSelfCall_of_tag {I J : Inst} (fname : Nat) (h : I.kind.tag = J.kind.tag) :
    I.isSelfCall fname = J.isSelfCall fname := by
  obtain ⟨i, k⟩ := I
  obtain ⟨j, l⟩ := J
  cases k <;> cases l <;> simp_all [Kind.tag, Kind.mapValues, Inst.isSelfCall]
  split <;> split <;> simp_all

theorem isAlloca_of_tag {I J : Inst} (h : I.kind.tag = J.kind.tag) : I.isAlloca = J.isAlloca := by
  obtain ⟨i, k⟩ := I
  obtain ⟨j, l⟩ := J
  cases k <;> cases l <;> simp_all [Kind.tag, Kind.mapValues, Inst.isAlloca]

theorem isPhi_of_tag {I J : Inst} (h : I.kind.tag = J.kind.tag) : I.isPhi = J.isPhi := by
  obtain ⟨i, k⟩ := I
  obtain ⟨j, l⟩ := J
  cases k <;> cases l <;> simp_all [Kind.tag, Kind.mapValues, Inst.isPhi]

theorem isTerminator_of_tag {I J : Inst} (h : I.kind.tag = J.kind.tag) :
    I.isTerminator = J.isTerminator := by
  obtain ⟨i, k⟩ := I
  obtain ⟨j, l⟩ := J
  cases k <;> cases l <;> simp_all [Kind.tag, Kind.mapValues, Inst.isTerminator]

theorem isBranch_of_tag {I J : Inst} (h : I.kind.tag = J.kind.tag) :
    I.isBranch = J.isBranch := by
  obtain ⟨i, k⟩ := I
  obtain ⟨j, l⟩ := J
  cases k <;> cases l <;> simp_all [Kind.tag, Kind.mapValues, Inst.isBranch]

theorem targets_of_tag {I J : Inst} (h : I.kind.tag = J.kind.tag) : I.targets = J.targets := by
  obtain ⟨i, k⟩ := I
  obtain ⟨j, l⟩ := J
  cases k <;> cases l <;> simp_all [Kind.tag, Kind.mapValues, Inst.targets]

theorem isAssociative_of_tag {I J : Inst} (h : I.kind.tag = J.kind.tag) :
    I.isAssociative = J.isAssociative := by
  obtain ⟨i, k⟩ := I
  obtain ⟨j, l⟩ := J
  cases k <;> cases l <;> simp_all [Kind.tag, Kind.mapValues, Inst.isAssociative]

theorem isCommutative_of_tag {I J : Inst} (h : I.kind.tag = J.kind.tag) :
    I.isCommutative = J.isCommutative := by
  obtain ⟨i, k⟩ := I
  obtain ⟨j, l⟩ := J
  cases k <;> cases l <;> simp_all [Kind.tag, Kind.mapValues, Inst.isCommutative]

theorem operands_length_of_assoc {I : Inst} (h : I.isAssociative = true) :
    I.operands.length = 2 := by
  obtain ⟨i, k⟩ := I
  cases k <;> simp_all [Inst.isAssociative, Inst.operands]

theorem isPhi_false_of_assoc {I : Inst} (h : I.isAssociative = true) : I.isPhi = false := by
  obtain ⟨i, k⟩ := I
  cases k <;> simp_all [Inst.isAssociative, Inst.isPhi]

theorem operands_mapKind (f : Value → Value) (I : Inst) :
    (I.mapKind (Kind.mapValues f)).operands = I.operands.map f := by
  obtain ⟨i, k⟩ := I
  cases k <;> simp [Inst.mapKind, Kind.mapValues, Inst.operands, Function.comp_def]
  rename_i v
  cases v <;> rfl

theorem count_map_of_iff (f : Value → Value) (x : Value) (hf : ∀ v, f v = x ↔ v = x) :
    ∀ l : List Value, (l.map f).count x = l.count x := by
  intro l
  induction l with
  | nil => rfl
  | cons v l ih =>
    simp only [List.map_cons, List.count_cons, ih]
    by_cases hv : v = x
    · simp [hv, (hf x).2 rfl]
    · have : f v ≠ x := fun h => hv ((hf v).1 h)
      simp [hv, this]

theorem keepsShape_id (base : Nat) : KeepsShape base id := fun _ => ⟨rfl, rfl, fun _ _ _ => rfl⟩

theorem keepsShape_comp {base : Nat} {g h : Inst → Inst} (hg : KeepsShape base g)
    (hh : KeepsShape base h) : KeepsShape base (h ∘ g) := by
  intro I
  obtain ⟨g1, g2, g3⟩ := hg I
  obtain ⟨h1, h2, h3⟩ := hh (g I)
  refine ⟨by simp [h1, g1], by simp [h2, g2], ?_⟩
  intro hphi c hc
  have : (g I).isPhi = false := by rw [isPhi_of_tag g2]; exact hphi
  simp only [Function.comp]
  rw [h3 this c hc, g3 hphi c hc]

/-- Redirecting the uses of an argument to an instruction at or above `base` keeps the
shape. -/
theorem keepsShape_subst_arg (base i phi : Nat) (hphi : base ≤ phi) :
    KeepsShape base (Inst.mapKind (Kind.mapValues (substValue (.arg i) (.inst phi)))) := by
  intro I
  refine ⟨rfl, by simp [Inst.mapKind, tag_mapValues], ?_⟩
  intro _ c hc
  rw [operands_mapKind]
  apply count_map_of_iff
  intro v
  unfold substValue
  split
  · rename_i hv
    subst hv
    simp
    omega
  · rfl

/-- Adding an entry to a phi node keeps the shape. -/
theorem keepsShape_addIncoming (base phi : Nat) (v : Value) (b : Nat) :
    KeepsShape base (addIncomingInst phi v b) := by
  intro I
  obtain ⟨i, k⟩ := I
  unfold addIncomingInst
  by_cases hid : (i == phi) = true
  · cases k <;> simp [hid, Kind.tag, Inst.isPhi]
  · simp [hid]

/-! ## The function after the entry block is split -/

theorem mapInsts_splitShape {F : Func} {pre hdr base : Nat} {A R : List Inst}
    {others : List Block} {g : Inst → Inst} {phis : List Inst}
    (h : F.blocks = splitShape pre hdr base A R others g phis) (f : Inst → Inst) :
    (F.mapInsts f).blocks = splitShape pre hdr base A R others (f ∘ g) (phis.map f) := by
  simp [Func.mapInsts, h, splitShape, Block.mapInsts, List.map_map]

theorem insertBeforeId_head (N J : Inst) (tail : List Inst) :
    ∀ phis : List Inst, (∀ φ ∈ phis, φ.id ≠ J.id) →
      insertBeforeId J.id N (phis ++ J :: tail) = phis ++ N :: J :: tail := by
  intro phis
  induction phis with
  | nil => intro _; simp [insertBeforeId]
  | cons φ phis ih =>
    intro h
    have h1 : φ.id ≠ J.id := h φ (List.mem_cons_self _ _)
    have h2 := ih (fun ψ hψ => h ψ (List.mem_cons_of_mem _ hψ))
    simp [insertBeforeId, h1, h2]

theorem map_updateBlock_of_ne (b : Nat) (f : List Inst → List Inst) :
    ∀ bs : List Block, (∀ B ∈ bs, B.id ≠ b) →
      bs.map (fun B => if B.id == b then { B with insts := f B.insts } else B) = bs := by
  intro bs
  induction bs with
  | nil => intro _; rfl
  | cons B bs ih =>
    intro h
    have h1 : B.id ≠ b := h B (List.mem_cons_self _ _)
    rw [List.map_cons, ih (fun C hC => h C (List.mem_cons_of_mem _ hC))]
    simp [h1]

theorem insertBefore_splitShape {F : Func} {pre hdr base : Nat} {A : List Inst} {J : Inst}
    {tail : List Inst} {others : List Block} {g : Inst → Inst} {phis : List Inst}
    (h : F.blocks = splitShape pre hdr base A (J :: tail) others g phis)
    (hpre : pre ≠ hdr) (hothers : ∀ B ∈ others, B.id ≠ hdr) (hg : (g J).id = J.id)
    (hphis : ∀ φ ∈ phis, φ.id ≠ J.id) (N : Inst) :
    (F.insertBefore hdr J.id N).blocks =
      splitShape pre hdr base A (J :: tail) others g (phis ++ [N]) := by
  have h1 : insertBeforeId J.id N (phis ++ g J :: tail.map g) =
      phis ++ N :: g J :: tail.map g := by
    have := insertBeforeId_head N (g J) (tail.map g) phis (by rw [hg]; exact hphis)
    rw [hg] at this
    exact this
  have h2 : ∀ B ∈ others.map (Block.mapInsts g), B.id ≠ hdr := by
    intro B hB
    obtain ⟨C, hC, rfl⟩ := List.mem_map.1 hB
    exact hothers C hC
  simp only [Func.insertBefore, Func.updateBlock, h, splitShape, List.map_cons]
  rw [map_updateBlock_of_ne hdr _ _ h2]
  simp [hpre, h1]

theorem map_mapInsts_id (bs : List Block) : bs.map (Block.mapInsts id) = bs := by
  induction bs with
  | nil => rfl
  | cons B bs ih => simp [Block.mapInsts, ih]

theorem splitOf_splitEntry (F : Func) (entryBB : Block) (others : List Block) :
    SplitOf F (splitEntry F entryBB others) entryBB others := by
  refine ⟨⟨id, [], keepsShape_id _, by simp, ?_⟩, rfl, rfl⟩
  simp [splitEntry, splitShape, map_mapInsts_id]

theorem splitOf_mapInsts {F G : Func} {entryBB : Block} {others : List Block}
    (h : SplitOf F G entryBB others) (f : Inst → Inst) (hf : KeepsShape F.freshInst f) :
    SplitOf F (G.mapInsts f) entryBB others := by
  obtain ⟨⟨g, phis, hg, hphis, hb⟩, hn, ha⟩ := h
  refine ⟨⟨f ∘ g, phis.map f, keepsShape_comp hg hf, ?_, mapInsts_splitShape hb f⟩, hn, ha⟩
  intro φ hφ
  obtain ⟨ψ, hψ, rfl⟩ := List.mem_map.1 hφ
  obtain ⟨h1, h2, _⟩ := hf ψ
  rw [isPhi_of_tag h2, h1]
  exact hphis ψ hψ

theorem le_foldl_max (l : List Nat) : ∀ (a : Nat), a ≤ l.foldl max a ∧ ∀ x ∈ l, x ≤ l.foldl max a := by
  induction l with
  | nil => intro a; simp
  | cons y l ih =>
    intro a
    obtain ⟨h1, h2⟩ := ih (max a y)
    refine ⟨le_trans (le_max_left a y) h1, ?_⟩
    intro x hx
    rcases List.mem_cons.1 hx with rfl | hx
    · exact le_trans (le_max_right a x) h1
    · exact h2 x hx

theorem lt_freshInst {F : Func} {I : Inst} (h : I ∈ F.allInsts) : I.id < F.freshInst := by
  have := (le_foldl_max (F.allInsts.map Inst.id) 0).2 I.id (List.mem_map_of_mem _ h)
  unfold Func.freshInst
  omega

theorem lt_freshBlock {F : Func} {B : Block} (h : B ∈ F.blocks) : B.id < F.freshBlock := by
  have := (le_foldl_max (F.blocks.map Block.id) 0).2 B.id (List.mem_map_of_mem _ h)
  unfold Func.freshBlock
  omega

theorem mem_allInsts {F : Func} {B : Block} {I : Inst} (hB : B ∈ F.blocks) (hI : I ∈ B.insts) :
    I ∈ F.allInsts := by
  simp only [Func.allInsts, List.mem_flatMap]
  exact ⟨B, hB, hI⟩

theorem SplitCtx.front_lt {F : Func} {entryBB : Block} {others : List Block} {J : Inst}
    {tail : List Inst} (c : SplitCtx F entryBB others J tail) : J.id < F.freshInst := by
  have hJ : J ∈ entryBB.insts.filter fun I => !I.isAlloca := by rw [c.front]; simp
  exact lt_freshInst (mem_allInsts (B := entryBB) (by rw [c.blocks]; simp)
    (List.mem_filter.1 hJ).1)

theorem SplitCtx.pre_ne {F : Func} {entryBB : Block} {others : List Block} {J : Inst}
    {tail : List Inst} (c : SplitCtx F entryBB others J tail) : F.freshBlock ≠ entryBB.id := by
  have := lt_freshBlock (F := F) (B := entryBB) (by rw [c.blocks]; simp)
  omega

theorem SplitCtx.others_ne {F : Func} {entryBB : Block} {others : List Block} {J : Inst}
    {tail : List Inst} (c : SplitCtx F entryBB others J tail) :
    ∀ B ∈ others, B.id ≠ entryBB.id := by
  have h := c.nodup
  rw [c.blocks, List.map_cons, List.nodup_cons] at h
  intro B hB hid
  exact h.1 (by rw [← hid]; exact List.mem_map_of_mem _ hB)

theorem splitOf_insertBefore {F G : Func} {entryBB : Block} {others : List Block} {J : Inst}
    {tail : List Inst} (c : SplitCtx F entryBB others J tail)
    (h : SplitOf F G entryBB others) (N : Inst) (hN : N.isPhi = true)
    (hid : F.freshInst < N.id) :
    SplitOf F (G.insertBefore entryBB.id J.id N) entryBB others := by
  obtain ⟨⟨g, phis, hg, hphis, hb⟩, hn, ha⟩ := h
  rw [c.front] at hb
  have hJ := c.front_lt
  refine ⟨⟨g, phis ++ [N], hg, ?_, ?_⟩, hn, ha⟩
  · intro φ hφ
    rcases List.mem_append.1 hφ with h1 | h1
    · exact hphis φ h1
    · rw [List.mem_singleton.1 h1]
      exact ⟨hN, hid⟩
  · rw [c.front]
    exact insertBefore_splitShape hb c.pre_ne c.others_ne (hg J).1
      (fun φ hφ => by have := (hphis φ hφ).2; omega) N

theorem splitOf_addArgPhis {F : Func} {entryBB : Block} {others : List Block} {J : Inst}
    {tail : List Inst} (c : SplitCtx F entryBB others J tail) :
    ∀ (args : List Nat) (G : Func), SplitOf F G entryBB others →
      SplitOf F (addArgPhis entryBB.id F.freshBlock J.id F.freshInst args G) entryBB others := by
  intro args
  induction args with
  | nil => intro G h; exact h
  | cons i args ih =>
    intro G h
    unfold addArgPhis
    apply ih
    have h1 := splitOf_insertBefore c h ⟨F.freshInst + 1 + i, .phi []⟩ rfl (by simp; omega)
    have h2 := splitOf_mapInsts h1 _
      (keepsShape_subst_arg F.freshInst i (F.freshInst + 1 + i) (by omega))
    exact splitOf_mapInsts h2 _
      (keepsShape_addIncoming F.freshInst (F.freshInst + 1 + i) (.arg i) F.freshBlock)

theorem splitOf_createArgPhis {F : Func} {entryBB : Block} {others : List Block} {J : Inst}
    {tail : List Inst} (c : SplitCtx F entryBB others J tail) :
    SplitOf F (createArgPhis F entryBB others J) entryBB others :=
  splitOf_addArgPhis c _ _ (splitOf_splitEntry F entryBB others)

theorem splitOf_createAccPhi {F : Func} {entryBB : Block} {others : List Block} {J : Inst}
    {tail : List Inst} (c : SplitCtx F entryBB others J tail) (v : Value) :
    SplitOf F (createAccPhi F entryBB J (createArgPhis F entryBB others J) v) entryBB others := by
  have h1 := splitOf_insertBefore c (splitOf_createArgPhis c)
    ⟨F.freshInst + 1 + F.numArgs, .phi []⟩ rfl (by simp; omega)
  exact splitOf_mapInsts h1 _
    (keepsShape_addIncoming F.freshInst (F.freshInst + 1 + F.numArgs) v F.freshBlock)

theorem find?_eq_none_of_forall {α : Type} (p : α → Bool) (l : List α) (h : ∀ x ∈ l, p x = false) :
    l.find? p = none := by
  rw [List.find?_eq_none]
  intro x hx
  simp [h x hx]

theorem isSelfCall_comp {base : Nat} {g : Inst → Inst} (hg : KeepsShape base g) (fname : Nat) :
    (Inst.isSelfCall fname ∘ g) = Inst.isSelfCall fname := by
  funext I
  exact isSelfCall_of_tag fname (hg I).2.1

theorem isDebug_comp {base : Nat} {g : Inst → Inst} (hg : KeepsShape base g) :
    ((fun I => !I.isDebug) ∘ g) = fun I => !I.isDebug := by
  funext I
  simp only [Function.comp]
  rw [isDebug_of_tag (hg I).2.1]

theorem not_selfCall_of_alloca {I : Inst} (fname : Nat) (h : I.isAlloca = true) :
    I.isSelfCall fname = false := by
  obtain ⟨i, k⟩ := I
  cases k <;> simp_all [Inst.isAlloca, Inst.isSelfCall]

theorem not_selfCall_of_phi {I : Inst} (fname : Nat) (h : I.isPhi = true) :
    I.isSelfCall fname = false := by
  obtain ⟨i, k⟩ := I
  cases k <;> simp_all [Inst.isPhi, Inst.isSelfCall]

theorem not_alloca_of_selfCall {I : Inst} (fname : Nat) (h : I.isSelfCall fname = true) :
    I.isAlloca = false := by
  obtain ⟨i, k⟩ := I
  cases k <;> simp_all [Inst.isAlloca, Inst.isSelfCall]

theorem flatMap_mapInsts (g : Inst → Inst) (bs : List Block) :
    (bs.map (Block.mapInsts g)).flatMap Block.insts = (bs.flatMap Block.insts).map g := by
  induction bs with
  | nil => rfl
  | cons B bs ih => simp [Block.mapInsts, ih]

/-- In a function with the entry block split, `getTailCall` finds the image of the first
self-call of the original function. -/
theorem getTailCall_splitShape {G : Func} {pre hdr base : Nat} {E : List Inst}
    {others : List Block} {g : Inst → Inst} {phis : List Inst}
    (hb : G.blocks = splitShape pre hdr base (E.filter Inst.isAlloca)
      (E.filter fun I => !I.isAlloca) others g phis)
    (hg : KeepsShape base g) (hphis : ∀ φ ∈ phis, φ.isPhi = true) :
    getTailCall G =
      ((E ++ others.flatMap Block.insts).find? (Inst.isSelfCall G.name)).map g := by
  have h1 : ((E.filter Inst.isAlloca ++ [(⟨base, .br hdr⟩ : Inst)]).map g).find?
      (Inst.isSelfCall G.name) = none := by
    apply find?_eq_none_of_forall
    intro I hI
    obtain ⟨J, hJ, rfl⟩ := List.mem_map.1 hI
    rw [isSelfCall_of_tag G.name (hg J).2.1]
    rcases List.mem_append.1 hJ with h | h
    · exact not_selfCall_of_alloca _ (List.mem_filter.1 h).2
    · rw [List.mem_singleton.1 h]; rfl
  have h2 : phis.find? (Inst.isSelfCall G.name) = none :=
    find?_eq_none_of_forall _ _ fun φ hφ => not_selfCall_of_phi _ (hphis φ hφ)
  have h3 : (fun a : Inst => decide ((!a.isAlloca) = true ∧ Inst.isSelfCall G.name a = true)) =
      Inst.isSelfCall G.name := by
    funext I
    cases hs : Inst.isSelfCall G.name I
    · simp
    · simp [not_alloca_of_selfCall _ hs]
  have hall : G.allInsts = (E.filter Inst.isAlloca ++ [(⟨base, .br hdr⟩ : Inst)]).map g ++
      (phis ++ ((E.filter fun I => !I.isAlloca).map g ++
        (others.flatMap Block.insts).map g)) := by
    simp only [Func.allInsts, hb, splitShape, List.flatMap_cons, flatMap_mapInsts,
      List.append_assoc]
  unfold getTailCall
  rw [hall, List.find?_append, h1, Option.none_or, List.find?_append, h2, Option.none_or,
    List.find?_append, List.find?_map, List.find?_map, isSelfCall_comp hg, List.find?_filter, h3,
    List.find?_append]
  cases E.find? (Inst.isSelfCall G.name) <;> rfl

theorem any_id_map {base : Nat} {g : Inst → Inst} (hg : KeepsShape base g) (c : Nat)
    (l : List Inst) : (l.map g).any (fun I => I.id == c) = l.any (fun I => I.id == c) := by
  induction l with
  | nil => rfl
  | cons I l ih => simp only [List.map_cons, List.any_cons, ih, (hg I).1]

theorem any_id_false (c : Nat) (l : List Inst) (h : ∀ I ∈ l, I.id ≠ c) :
    l.any (fun I => I.id == c) = false := by
  rw [List.any_eq_false]
  intro I hI
  simp [h I hI]

theorem any_id_true (c : Nat) (l : List Inst) (I : Inst) (hI : I ∈ l) (h : I.id = c) :
    l.any (fun I => I.id == c) = true := by
  rw [List.any_eq_true]
  exact ⟨I, hI, by simp [h]⟩

/-- The block of a split function that holds the image of an instruction of the old entry
block other than a stack allocation is the old entry block. -/
theorem getParent_splitShape_entry {G : Func} {pre hdr base : Nat} {E : List Inst}
    {others : List Block} {g : Inst → Inst} {phis : List Inst}
    (hb : G.blocks = splitShape pre hdr base (E.filter Inst.isAlloca)
      (E.filter fun I => !I.isAlloca) others g phis)
    (hg : KeepsShape base g) (CI : Inst) (hCI : CI ∈ E) (hna : CI.isAlloca = false)
    (hlt : CI.id < base) (hE : ∀ I ∈ E, I.id = CI.id → I = CI) :
    G.getParent CI.id = some ⟨hdr, phis ++ (E.filter fun I => !I.isAlloca).map g⟩ := by
  have h1 : ((E.filter Inst.isAlloca ++ [(⟨base, .br hdr⟩ : Inst)]).map g).any
      (fun I => I.id == CI.id) = false := by
    rw [any_id_map hg]
    apply any_id_false
    intro I hI
    rcases List.mem_append.1 hI with h | h
    · obtain ⟨h1, h2⟩ := List.mem_filter.1 h
      intro hid
      rw [hE I h1 hid, hna] at h2
      cases h2
    · rw [List.mem_singleton.1 h]
      simp only
      omega
  have h2 : (phis ++ (E.filter fun I => !I.isAlloca).map g).any (fun I => I.id == CI.id)
      = true := by
    rw [List.any_append, any_id_map hg,
      any_id_true CI.id _ CI (List.mem_filter.2 ⟨hCI, by simp [hna]⟩) rfl]
    simp
  unfold Func.getParent
  rw [hb]
  simp only [splitShape, List.find?_cons, h1, h2]

theorem find?_map_mapInsts {base : Nat} {g : Inst → Inst} (hg : KeepsShape base g) (c : Nat)
    (bs : List Block) :
    (bs.map (Block.mapInsts g)).find? (fun B => B.insts.any fun I => I.id == c) =
      (bs.find? (fun B => B.insts.any fun I => I.id == c)).map (Block.mapInsts g) := by
  rw [List.find?_map]
  congr 2
  funext B
  simp only [Function.comp, Block.mapInsts]
  exact any_id_map hg c B.insts

/-- The block of a split function that holds the image of an instruction of another block
than the old entry block is the image of that block. -/
theorem getParent_splitShape_other {G : Func} {pre hdr base : Nat} {E : List Inst}
    {X1 Y0 : List Block} {B : Block} {g : Inst → Inst} {phis : List Inst}
    (hb : G.blocks = splitShape pre hdr base (E.filter Inst.isAlloca)
      (E.filter fun I => !I.isAlloca) (X1 ++ B :: Y0) g phis)
    (hg : KeepsShape base g) (hphis : ∀ φ ∈ phis, base < φ.id) (CI : Inst)
    (hCI : CI ∈ B.insts) (hlt : CI.id < base) (hE : ∀ I ∈ E, I.id ≠ CI.id)
    (hX : ∀ C ∈ X1, ∀ I ∈ C.insts, I.id ≠ CI.id) :
    G.getParent CI.id = some (B.mapInsts g) := by
  have h1 : ((E.filter Inst.isAlloca ++ [(⟨base, .br hdr⟩ : Inst)]).map g).any
      (fun I => I.id == CI.id) = false := by
    rw [any_id_map hg]
    apply any_id_false
    intro I hI
    rcases List.mem_append.1 hI with h | h
    · exact hE I (List.mem_filter.1 h).1
    · rw [List.mem_singleton.1 h]
      simp only
      omega
  have h2 : (phis ++ (E.filter fun I => !I.isAlloca).map g).any (fun I => I.id == CI.id)
      = false := by
    rw [List.any_append, any_id_map hg, any_id_false CI.id phis
      (fun φ hφ => by have := hphis φ hφ; omega),
      any_id_false CI.id _ (fun I hI => hE I (List.mem_filter.1 hI).1)]
    rfl
  have h3 : X1.find? (fun C => C.insts.any fun I => I.id == CI.id) = none := by
    apply find?_eq_none_of_forall
    intro C hC
    exact any_id_false _ _ (hX C hC)
  unfold Func.getParent
  rw [hb]
  simp only [splitShape, List.find?_cons, h1, h2]
  rw [find?_map_mapInsts hg, List.find?_append, h3, Option.none_or, List.find?_cons,
    any_id_true CI.id _ CI hCI rfl]
  rfl

theorem instsAfter_split (c : Nat) (pfx : List Inst) (CI : Inst) (rest : List Inst)
    (hp : ∀ I ∈ pfx, I.id ≠ c) (hc : CI.id = c) :
    instsAfter c (pfx ++ CI :: rest) = rest := by
  unfold instsAfter
  induction pfx with
  | nil => simp [List.dropWhile_cons, hc]
  | cons I pfx ih =>
    have h1 : I.id ≠ c := hp I (List.mem_cons_self _ _)
    simp only [List.cons_append, List.dropWhile_cons, bne_iff_ne, ne_eq, h1, not_false_eq_true,
      if_true]
    exact ih (fun J hJ => hp J (List.mem_cons_of_mem _ hJ))

theorem instsBefore_split (c : Nat) (pfx : List Inst) (CI : Inst) (rest : List Inst)
    (hp : ∀ I ∈ pfx, I.id ≠ c) (hc : CI.id = c) :
    instsBefore c (pfx ++ CI :: rest) = pfx := by
  unfold instsBefore
  induction pfx with
  | nil => simp [List.takeWhile_cons, hc]
  | cons I pfx ih =>
    have h1 : I.id ≠ c := hp I (List.mem_cons_self _ _)
    simp only [List.cons_append, List.takeWhile_cons, bne_iff_ne, ne_eq, h1, not_false_eq_true,
      if_true]
    rw [ih (fun J hJ => hp J (List.mem_cons_of_mem _ hJ))]

theorem nextNonDebug_map {base : Nat} {g : Inst → Inst} (hg : KeepsShape base g)
    (l : List Inst) : nextNonDebug (l.map g) = (nextNonDebug l).map g := by
  unfold nextNonDebug
  rw [List.find?_map, isDebug_comp hg]

theorem nextNonDebug_filter (l : List Inst) (nxt : Inst) (h : nextNonDebug l = some nxt)
    (hna : nxt.isAlloca = false) :
    nextNonDebug (l.filter fun I => !I.isAlloca) = some nxt := by
  unfold nextNonDebug at h ⊢
  induction l with
  | nil => simp at h
  | cons I l ih =>
    rw [List.find?_cons] at h
    split at h
    · rename_i hd
      have : I = nxt := Option.some.inj h
      subst this
      simp [List.filter_cons, hna, hd]
    · rename_i hd
      have hd' : I.isDebug = true := by simpa using hd
      by_cases ha : I.isAlloca = true
      · simp only [List.filter_cons, ha, Bool.not_true, Bool.false_eq_true, if_false]
        exact ih h
      · simp only [List.filter_cons, ha, Bool.not_false, if_true, List.find?_cons, hd',
          Bool.not_true]
        exact ih h

theorem ids_disjoint_of_nodup (l1 l2 : List Inst) (h : ((l1 ++ l2).map Inst.id).Nodup)
    (I J : Inst) (hI : I ∈ l1) (hJ : J ∈ l2) : I.id ≠ J.id := by
  rw [List.map_append, List.nodup_append] at h
  intro hid
  exact h.2.2 (List.mem_map_of_mem _ hI) (by rw [hid]; exact List.mem_map_of_mem _ hJ)

theorem nodup_ids_left (l1 l2 : List Inst) (h : ((l1 ++ l2).map Inst.id).Nodup) :
    (l1.map Inst.id).Nodup := by
  rw [List.map_append, List.nodup_append] at h
  exact h.1

theorem nodup_ids_right (l1 l2 : List Inst) (h : ((l1 ++ l2).map Inst.id).Nodup) :
    (l2.map Inst.id).Nodup := by
  rw [List.map_append, List.nodup_append] at h
  exact h.2.1

theorem feedLoopBack_done {F : Func} {entryBB : Block} {G : Func} {P : Prepared}
    {R : Inst} {B2 : Block} {N : Inst}
    (h : feedLoopBack F entryBB G = .done P) (h1 : getTailCall G = some R)
    (h2 : G.getParent R.id = some B2)
    (h3 : nextNonDebug (instsAfter R.id B2.insts) = some N) :
    P.recCall = R ∧ P.recBBlock = B2.id ∧ P.afterRecCall = N ∧ P.entryBB = entryBB.id ∧
      P.newEntryBB = F.freshBlock ∧ P.base = F.freshInst ∧
      P.phiNodeAcc = F.freshInst + 1 + F.numArgs ∧ P.phiNodeTmp = F.freshInst + F.numArgs ∧
      F.numArgs ≠ 0 := by
  unfold feedLoopBack at h
  simp only [h1, h2, h3] at h
  split at h
  · cases h
  · split at h
    · cases h
    · split at h
      · cases h
      · split at h
        · cases h
        · cases h
          rename_i hn _ _ _
          exact ⟨rfl, rfl, rfl, rfl, rfl, rfl, rfl, rfl, hn⟩

theorem feedLoopBack_finds_call {F : Func} {entryBB : Block} {G : Func}
    {R : Inst} {B2 : Block} (h1 : getTailCall G = some R) (h2 : G.getParent R.id = some B2)
    (S : Func) : feedLoopBack F entryBB G ≠ .fault .noTailCall S := by
  unfold feedLoopBack
  simp only [h1, h2]
  intro h
  split at h
  · cases h
  · split at h
    · cases h
    · split at h
      · cases h
      · split at h
        · cases h
        · split at h
          · cases h
          · cases h

theorem site_in_split {F G : Func} {entryBB : Block} {others : List Block}
    (hb : F.blocks = entryBB :: others) (hu : (F.allInsts.map Inst.id).Nodup)
    (hs : SplitOf F G entryBB others) (B : Block) (hB : B ∈ F.blocks)
    (before : List Inst) (CI : Inst) (after : List Inst) (nxt : Inst)
    (hBi : B.insts = before ++ CI :: after) (hself : CI.isSelfCall F.name = true)
    (hfirst : getTailCall F = some CI) (hn : nextNonDebug after = some nxt)
    (hna : nxt.isAlloca = false) :
    ∃ g B2, KeepsShape F.freshInst g ∧ getTailCall G = some (g CI) ∧
      G.getParent (g CI).id = some B2 ∧ B2.id = B.id ∧
      nextNonDebug (instsAfter (g CI).id B2.insts) = some (g nxt) := by
  obtain ⟨⟨g, phis, hg, hphis, hGb⟩, hname, _⟩ := hs
  have hall : F.allInsts = entryBB.insts ++ others.flatMap Block.insts := by
    simp [Func.allInsts, hb]
  have hCIB : CI ∈ B.insts := by rw [hBi]; simp
  have hlt : CI.id < F.freshInst := lt_freshInst (mem_allInsts hB hCIB)
  have hnaCI : CI.isAlloca = false := not_alloca_of_selfCall _ hself
  have hbefore : ∀ I ∈ before, I.id ≠ CI.id := by
    have hBn : (B.insts.map Inst.id).Nodup := by
      rw [hb] at hB
      rcases List.mem_cons.1 hB with rfl | hB'
      · rw [hall] at hu
        exact nodup_ids_left _ _ hu
      · obtain ⟨X1, Y0, rfl⟩ := List.append_of_mem hB'
        rw [hall] at hu
        have := nodup_ids_right _ _ hu
        simp only [List.flatMap_append, List.flatMap_cons] at this
        exact nodup_ids_left _ _ (nodup_ids_right _ _ this)
    rw [hBi] at hBn
    intro I hI
    exact ids_disjoint_of_nodup before (CI :: after) hBn I CI hI (List.mem_cons_self _ _)
  have htail : getTailCall G = some (g CI) := by
    rw [getTailCall_splitShape hGb hg (fun φ hφ => (hphis φ hφ).1), hname, ← hall]
    unfold getTailCall at hfirst
    rw [hfirst]
    rfl
  refine ⟨g, ?_⟩
  rw [(hg CI).1]
  rw [hb] at hB
  rcases List.mem_cons.1 hB with rfl | hB'
  · -- the call is in the old entry block
    refine ⟨_, hg, htail, getParent_splitShape_entry hGb hg CI hCIB hnaCI hlt ?_, rfl, ?_⟩
    · intro I hI hid
      rw [hall] at hu
      exact List.inj_on_of_nodup_map (nodup_ids_left _ _ hu) hI hCIB hid
    · have hR : (B.insts.filter fun I => !I.isAlloca) =
          (before.filter fun I => !I.isAlloca) ++ CI :: (after.filter fun I => !I.isAlloca) := by
        rw [hBi, List.filter_append, List.filter_cons]
        simp [hnaCI]
      simp only [hR, List.map_append, List.map_cons, ← List.append_assoc]
      rw [instsAfter_split CI.id _ (g CI) _ ?_ (hg CI).1, nextNonDebug_map hg,
        nextNonDebug_filter after nxt hn hna]
      · rfl
      · intro I hI
        rcases List.mem_append.1 hI with h | h
        · have := (hphis I h).2
          omega
        · obtain ⟨J, hJ, rfl⟩ := List.mem_map.1 h
          rw [(hg J).1]
          exact hbefore J (List.mem_filter.1 hJ).1
  · -- the call is in another block
    obtain ⟨X1, Y0, rfl⟩ := List.append_of_mem hB'
    rw [hall] at hu
    have hrest : CI ∈ (X1 ++ B :: Y0).flatMap Block.insts := by
      simp only [List.mem_flatMap]
      exact ⟨B, by simp, hCIB⟩
    refine ⟨_, hg, htail, getParent_splitShape_other hGb hg (fun φ hφ => (hphis φ hφ).2) CI hCIB
      hlt ?_ ?_, rfl, ?_⟩
    · intro I hI
      exact ids_disjoint_of_nodup _ _ hu I CI hI hrest
    · intro C hC I hI
      have h2 := nodup_ids_right _ _ hu
      simp only [List.flatMap_append, List.flatMap_cons] at h2
      exact ids_disjoint_of_nodup _ _ h2 I CI (List.mem_flatMap.2 ⟨C, hC, hI⟩)
        (List.mem_append_left _ hCIB)
    · simp only [Block.mapInsts, hBi, List.map_append, List.map_cons]
      rw [instsAfter_split CI.id _ (g CI) _ ?_ (hg CI).1, nextNonDebug_map hg, hn]
      · rfl
      · intro I hI
        obtain ⟨J, hJ, rfl⟩ := List.mem_map.1 hI
        rw [(hg J).1]
        exact hbefore J hJ

theorem getTailCall_of_count_one (F : Func) (hone : F.selfCallCount = 1) (CI : Inst)
    (hCI : CI ∈ F.allInsts) (hself : CI.isSelfCall F.name = true) :
    getTailCall F = some CI := by
  unfold Func.selfCallCount at hone
  rw [List.countP_eq_length_filter, List.length_eq_one] at hone
  obtain ⟨x, hx⟩ := hone
  have h1 : CI ∈ F.allInsts.filter (Inst.isSelfCall F.name) := List.mem_filter.2 ⟨hCI, hself⟩
  rw [hx, List.mem_singleton] at h1
  unfold getTailCall
  cases hf : F.allInsts.find? (Inst.isSelfCall F.name) with
  | none =>
    rw [List.find?_eq_none] at hf
    exact absurd hself (hf CI hCI)
  | some D =>
    have h2 : D ∈ F.allInsts.filter (Inst.isSelfCall F.name) :=
      List.mem_filter.2 ⟨List.mem_of_find?_eq_some hf, List.find?_some hf⟩
    rw [hx, List.mem_singleton] at h2
    rw [h1, h2]

theorem not_alloca_of_assoc {I : Inst} (h : I.isAssociative = true) : I.isAlloca = false := by
  obtain ⟨i, k⟩ := I
  cases k <;> simp_all [Inst.isAssociative, Inst.isAlloca]

theorem accumulates_keepsShape {base : Nat} {g : Inst → Inst} (hg : KeepsShape base g)
    (nxt CI : Inst) (hlt : CI.id < base) (h : AccumulatesResultOf nxt CI) :
    AccumulatesResultOf (g nxt) (g CI) := by
  obtain ⟨h1, h2, _, h4⟩ := h
  have ha : (g nxt).isAssociative = true := by rw [isAssociative_of_tag (hg nxt).2.1]; exact h1
  refine ⟨ha, by rw [isCommutative_of_tag (hg nxt).2.1]; exact h2,
    operands_length_of_assoc ha, ?_⟩
  unfold Inst.result at h4 ⊢
  rw [(hg CI).1, (hg nxt).2.2 (isPhi_false_of_assoc h1) CI.id hlt]
  exact h4

theorem rebuild_not_noTailCall (P : Prepared) (S : Func) :
    rebuild P ≠ .fault .noTailCall S := by
  intro h
  simp only [rebuild] at h
  repeat' split at h
  all_goals cases h

/-- What the transformer holds of the call site when the first direct self-call of a function
with unique instruction identities is followed, after debug instructions, by `nxt`. -/
theorem prepare_site (F : Func) (hu : F.uniqueIds) (B : Block) (hB : B ∈ F.blocks)
    (before : List Inst) (CI : Inst) (after : List Inst) (nxt : Inst)
    (hBi : B.insts = before ++ CI :: after) (hself : CI.isSelfCall F.name = true)
    (hfirst : getTailCall F = some CI) (hn : nextNonDebug after = some nxt)
    (hna : nxt.isAlloca = false) :
    (∀ S, prepare F ≠ .fault .noTailCall S) ∧
    ∀ P, prepare F = .done P → ∃ g, KeepsShape F.freshInst g ∧ P.recCall = g CI ∧
      P.recBBlock = B.id ∧ P.afterRecCall = g nxt ∧ P.entryBB = (F.blocks.head?.map Block.id).getD 0
      ∧ P.newEntryBB = F.freshBlock ∧ P.base = F.freshInst ∧
      P.phiNodeAcc = F.freshInst + 1 + F.numArgs ∧ P.phiNodeTmp = F.freshInst + F.numArgs ∧
      F.numArgs ≠ 0 := by
  cases hb : F.blocks with
  | nil => rw [hb] at hB; cases hB
  | cons entryBB others =>
    cases hfront : (entryBB.insts.filter fun I => !I.isAlloca) with
    | nil =>
      constructor
      · intro S h
        simp [prepare, hb, hfront] at h
      · intro P h
        simp [prepare, hb, hfront] at h
    | cons J tail =>
      have c : SplitCtx F entryBB others J tail := ⟨hb, hfront, hu.1⟩
      cases hbase : getBaseCaseValue (createArgPhis F entryBB others J) with
      | none =>
        constructor
        · intro S h
          simp [prepare, hb, hfront, hbase] at h
        · intro P h
          simp [prepare, hb, hfront, hbase] at h
      | some v =>
        have hprep : prepare F = feedLoopBack F entryBB
            (createAccPhi F entryBB J (createArgPhis F entryBB others J) v) := by
          simp [prepare, hb, hfront, hbase]
        obtain ⟨g, B2, hg, h1, h2, h3, h4⟩ := site_in_split hb hu.2 (splitOf_createAccPhi c v)
          B hB before CI after nxt hBi hself hfirst hn hna
        rw [hprep]
        refine ⟨fun S => feedLoopBack_finds_call h1 h2 S, ?_⟩
        intro P hP
        obtain ⟨e1, e2, e3, e4, e5⟩ := feedLoopBack_done hP h1 h2 h4
        exact ⟨g, hg, e1, by rw [e2, h3], e3, by simp [e4], e5⟩


/-- C10, refuted as stated: the detector accepts `twoCallsFn` because of its second call site;
the call `getTailCall` hands to the transformer is the first one (instruction 14), and the
instruction after it, taken as the update value, is a subtraction: not a site the detector
validated.  The transformer still runs to completion on it. -/
theorem first_call_not_validated :
    isAccumulatorTailRecursive twoCallsFn = true ∧
    (prepare twoCallsFn).get?.map (fun P => (P.recCall, P.afterRecCall)) =
      some (⟨14, .call (.fn 7) [.inst 13]⟩, ⟨15, .binop .sub (.inst 14) (.inst 12)⟩) ∧
    ¬ AccumulatesResultOf ⟨15, .binop .sub (.inst 14) (.inst 12)⟩
      ⟨14, .call (.fn 7) [.inst 13]⟩ ∧
    (eliminateTailCall twoCallsFn).isDone = true := by
  decide

/-- C10, amended: for every function with unique identities that the detector accepts and
that has exactly one direct self-call, the call `eliminateTailCall` rewrites (the one
`getTailCall` returns) exists, and it is the site the detector validated: the instruction
following it, taken as the update value, is an associative and commutative two-operand
operation with exactly one operand equal to the result of that call. -/
theorem rewritten_call_is_validated (F : Func) (hu : F.uniqueIds)
    (hacc : isAccumulatorTailRecursive F = true) (hone : F.selfCallCount = 1) :
    (∃ CI, getTailCall F = some CI ∧ CI.isSelfCall F.name = true) ∧
    (∀ S, eliminateTailCall F ≠ .fault .noTailCall S) ∧
    (∀ P, prepare F = .done P →
      P.recCall.isSelfCall F.name = true ∧ AccumulatesResultOf P.afterRecCall P.recCall) := by
  obtain ⟨B, hB, _, CI, nxt, ⟨before, after, hBi, hn⟩, hself, hcc⟩ := detector_sound F hacc
  have hnx := (checkConditions_iff nxt CI).1 hcc
  have hCI : CI ∈ F.allInsts := mem_allInsts hB (by rw [hBi]; simp)
  have hfirst := getTailCall_of_count_one F hone CI hCI hself
  obtain ⟨hnf, hdone⟩ := prepare_site F hu B hB before CI after nxt hBi hself hfirst hn
    (not_alloca_of_assoc hnx.1)
  refine ⟨⟨CI, hfirst, hself⟩, ?_, ?_⟩
  · intro S h
    unfold eliminateTailCall at h
    cases hp : prepare F with
    | done P => rw [hp] at h; exact rebuild_not_noTailCall P S h
    | fault why state =>
      rw [hp] at h
      simp only [Outcome.fault.injEq] at h
      obtain ⟨rfl, rfl⟩ := h
      exact hnf _ hp
  · intro P hP
    obtain ⟨g, hg, e1, _, e3, _⟩ := hdone P hP
    rw [e1, e3]
    exact ⟨by rw [isSelfCall_of_tag F.name (hg CI).2.1]; exact hself,
      accumulates_keepsShape hg nxt CI (lt_freshInst hCI) hnx⟩

/-- C10 (amended) at the sum function. -/
theorem rewritten_call_is_validated_witness :
    sumFn.uniqueIds ∧ isAccumulatorTailRecursive sumFn = true ∧ sumFn.selfCallCount = 1 ∧
    (∃ CI, getTailCall sumFn = some CI ∧ CI.isSelfCall sumFn.name = true) ∧
    (∀ S, eliminateTailCall sumFn ≠ .fault .noTailCall S) ∧
    (∀ P, prepare sumFn = .done P →
      P.recCall.isSelfCall sumFn.name = true ∧ AccumulatesResultOf P.afterRecCall P.recCall) :=
  ⟨by decide, by decide, by decide,
    rewritten_call_is_validated sumFn (by decide) (by decide) (by decide)⟩

/-! ## Absent values: the base case value and the entry comparison -/

theorem isStore_of_tag {I J : Inst} (h : I.kind.tag = J.kind.tag) : I.isStore = J.isStore := by
  obtain ⟨i, k⟩ := I
  obtain ⟨j, l⟩ := J
  cases k <;> cases l <;> simp_all [Kind.tag, Kind.mapValues, Inst.isStore]

theorem isCmp_of_tag {I J : Inst} (h : I.kind.tag = J.kind.tag) : I.isCmp = J.isCmp := by
  obtain ⟨i, k⟩ := I
  obtain ⟨j, l⟩ := J
  cases k <;> cases l <;> simp_all [Kind.tag, Kind.mapValues, Inst.isCmp]

theorem kind_br_of_tag {I J : Inst} (h : I.kind.tag = J.kind.tag) (t : Nat) :
    I.kind = .br t ↔ J.kind = .br t := by
  obtain ⟨i, k⟩ := I
  obtain ⟨j, l⟩ := J
  cases k <;> cases l <;> simp_all [Kind.tag, Kind.mapValues]

theorem getBaseCaseValueFrom_none (last : Option Nat) :
    ∀ bs : List Block, (∀ BB ∈ bs, BB.isBaseCase last = false) →
      getBaseCaseValueFrom last bs = none := by
  intro bs
  induction bs with
  | nil => intro _; rfl
  | cons BB bs ih =>
    intro h
    have h1 := h BB (List.mem_cons_self _ _)
    have h2 := ih fun C hC => h C (List.mem_cons_of_mem _ hC)
    unfold getBaseCaseValueFrom
    unfold Block.isBaseCase at h1
    cases hT : BB.getTerminator with
    | none => simp only [h2]
    | some T =>
      simp only [hT] at h1
      simp only
      cases hk : T.kind <;> simp only [h2]
      rename_i t
      simp only [hk] at h1
      by_cases hl : (some t == last) = true
      · simp only [hl, if_true]
        cases hp : prevNonDebug BB.insts.dropLast with
        | none => rfl
        | some S =>
          simp only [hp, hl, Bool.true_and] at h1
          obtain ⟨s, k⟩ := S
          cases k <;> simp_all [Inst.isStore]
      · simp only [hl]
        simp

theorem getTerminator_map {base : Nat} {g : Inst → Inst} (hg : KeepsShape base g)
    (l : List Inst) :
    (⟨0, l.map g⟩ : Block).getTerminator = ((⟨0, l⟩ : Block).getTerminator).map g := by
  unfold Block.getTerminator
  simp only [List.getLast?_map]
  cases l.getLast? with
  | none => rfl
  | some I =>
    simp only [Option.map_some', isTerminator_of_tag (hg I).2.1]
    split <;> rfl

theorem getTerminator_id (b c : Nat) (l : List Inst) :
    (⟨b, l⟩ : Block).getTerminator = (⟨c, l⟩ : Block).getTerminator := rfl

theorem prevNonDebug_map {base : Nat} {g : Inst → Inst} (hg : KeepsShape base g)
    (l : List Inst) : prevNonDebug (l.map g) = (prevNonDebug l).map g := by
  unfold prevNonDebug
  rw [← List.map_reverse, List.find?_map, isDebug_comp hg]

theorem prevNonDebug_append (l1 l2 : List Inst) :
    prevNonDebug (l1 ++ l2) = (prevNonDebug l2).or (prevNonDebug l1) := by
  unfold prevNonDebug
  rw [List.reverse_append, List.find?_append]

theorem isBaseCase_mapInsts {base : Nat} {g : Inst → Inst} (hg : KeepsShape base g)
    (last : Option Nat) (B : Block) :
    (B.mapInsts g).isBaseCase last = B.isBaseCase last := by
  obtain ⟨b, l⟩ := B
  unfold Block.isBaseCase
  simp only [Block.mapInsts]
  rw [getTerminator_id b 0 (l.map g), getTerminator_map hg, getTerminator_id b 0 l,
    ← List.map_dropLast, prevNonDebug_map hg]
  cases (⟨0, l⟩ : Block).getTerminator with
  | none => rfl
  | some T =>
    simp only [Option.map_some']
    have hk := kind_br_of_tag (hg T).2.1
    cases hT : T.kind with
    | br t =>
      rw [(hk t).2 hT]
      simp only
      cases prevNonDebug l.dropLast with
      | none => rfl
      | some S => simp only [Option.map_some', isStore_of_tag (hg S).2.1]
    | _ =>
      cases hgT : (g T).kind with
      | br t => rw [(hk t).1 hgT] at hT; cases hT
      | _ => rfl

theorem prevNonDebug_mem {l : List Inst} {X : Inst} (h : prevNonDebug l = some X) : X ∈ l := by
  unfold prevNonDebug at h
  exact List.mem_reverse.1 (List.mem_of_find?_eq_some h)

/-- What precedes the last instruction of the old entry block, after the split: if it has
the property `pr` (being a store, being a comparison), the instruction that preceded the last
instruction of the entry block before the split had it. -/
theorem prev_of_split {base : Nat} {g : Inst → Inst} (hg : KeepsShape base g)
    (pr : Inst → Bool) (hpr : ∀ I, pr (g I) = pr I) (phis A L : List Inst)
    (hphis : ∀ φ ∈ phis, pr φ = false)
    (h : (match prevNonDebug (phis ++ L.map g) with
      | some S => pr S
      | none => false) = true) :
    (match prevNonDebug (A ++ L) with
      | some S => pr S
      | none => false) = true := by
  rw [prevNonDebug_append, prevNonDebug_map hg] at h
  rw [prevNonDebug_append]
  cases hL : prevNonDebug L with
  | some X =>
    rw [hL] at h
    simp only [Option.map_some', Option.or_some, hpr] at h
    simpa using h
  | none =>
    rw [hL] at h
    simp only [Option.map_none', Option.none_or] at h
    cases hp : prevNonDebug phis with
    | none => rw [hp] at h; simp at h
    | some φ =>
      rw [hp] at h
      simp only at h
      rw [hphis φ (prevNonDebug_mem hp)] at h
      cases h

theorem not_store_of_alloca {I : Inst} (h : I.isAlloca = true) : I.isStore = false := by
  obtain ⟨i, k⟩ := I
  cases k <;> simp_all [Inst.isAlloca, Inst.isStore]

theorem not_store_of_phi {I : Inst} (h : I.isPhi = true) : I.isStore = false := by
  obtain ⟨i, k⟩ := I
  cases k <;> simp_all [Inst.isPhi, Inst.isStore]

theorem not_cmp_of_phi {I : Inst} (h : I.isPhi = true) : I.isCmp = false := by
  obtain ⟨i, k⟩ := I
  cases k <;> simp_all [Inst.isPhi, Inst.isCmp]

theorem isBaseCase_pre {base : Nat} {g : Inst → Inst} (hg : KeepsShape base g)
    (last : Option Nat) (pre hdr : Nat) (A : List Inst) (hA : ∀ I ∈ A, I.isAlloca = true) :
    (⟨pre, (A ++ [(⟨base, .br hdr⟩ : Inst)]).map g⟩ : Block).isBaseCase last = false := by
  unfold Block.isBaseCase
  rw [getTerminator_id pre 0, getTerminator_map hg]
  simp only [← List.map_dropLast, List.dropLast_concat, prevNonDebug_map hg]
  cases (⟨0, A ++ [(⟨base, .br hdr⟩ : Inst)]⟩ : Block).getTerminator with
  | none => rfl
  | some T =>
    simp only [Option.map_some']
    cases (g T).kind <;> try rfl
    cases hp : prevNonDebug A with
    | none => simp
    | some X =>
      simp only [Option.map_some', isStore_of_tag (hg X).2.1,
        not_store_of_alloca (hA X (prevNonDebug_mem hp)), Bool.and_false]

theorem isBaseCase_hdr {base : Nat} {g : Inst → Inst} (hg : KeepsShape base g)
    (last : Option Nat) (hdr : Nat) (phis A R : List Inst) (hR : R ≠ [])
    (hphis : ∀ φ ∈ phis, φ.isPhi = true)
    (h : (⟨hdr, phis ++ R.map g⟩ : Block).isBaseCase last = true) :
    (⟨hdr, A ++ R⟩ : Block).isBaseCase last = true := by
  have hRg : R.map g ≠ [] := by simpa using hR
  have hprev := prev_of_split hg Inst.isStore (fun I => isStore_of_tag (hg I).2.1) phis A
    R.dropLast (fun φ hφ => not_store_of_phi (hphis φ hφ))
  unfold Block.isBaseCase at h ⊢
  have hT1 : (⟨hdr, phis ++ R.map g⟩ : Block).getTerminator =
      ((⟨hdr, A ++ R⟩ : Block).getTerminator).map g := by
    rw [getTerminator_id hdr 0 (A ++ R), getTerminator_id hdr 0, ← getTerminator_map hg]
    unfold Block.getTerminator
    simp only [List.getLast?_append_of_ne_nil _ hRg, List.map_append]
  rw [hT1] at h
  simp only [List.dropLast_append_of_ne_nil _ hRg, List.dropLast_append_of_ne_nil _ hR,
    ← List.map_dropLast] at h ⊢
  cases hT : (⟨hdr, A ++ R⟩ : Block).getTerminator with
  | none => rw [hT] at h; simp at h
  | some T =>
    rw [hT] at h
    simp only [Option.map_some'] at h ⊢
    have hk := kind_br_of_tag (hg T).2.1
    cases hgT : (g T).kind <;> rw [hgT] at h <;> try (simp at h; done)
    rename_i t
    rw [(hk t).1 hgT]
    simp only [Bool.and_eq_true] at h ⊢
    exact ⟨h.1, hprev h.2⟩

theorem length_mapInsts (F : Func) (f : Inst → Inst) :
    (F.mapInsts f).blocks.length = F.blocks.length := by
  simp [Func.mapInsts]

theorem length_updateBlock (F : Func) (b : Nat) (f : List Inst → List Inst) :
    (F.updateBlock b f).blocks.length = F.blocks.length := by
  simp [Func.updateBlock]

theorem length_addArgPhis (hdr pre anchor base : Nat) :
    ∀ (args : List Nat) (G : Func),
      (addArgPhis hdr pre anchor base args G).blocks.length = G.blocks.length := by
  intro args
  induction args with
  | nil => intro G; rfl
  | cons i args ih =>
    intro G
    unfold addArgPhis
    rw [ih]
    simp only [Func.addIncoming, Func.replaceAllUsesWith, Func.insertBefore, length_mapInsts,
      length_updateBlock]

theorem length_createArgPhis (F : Func) (entryBB : Block) (others : List Block) (J : Inst) :
    (createArgPhis F entryBB others J).blocks.length = others.length + 2 := by
  unfold createArgPhis
  rw [length_addArgPhis]
  simp [splitEntry]

theorem length_createAccPhi (F : Func) (entryBB : Block) (J : Inst) (F2 : Func) (v : Value) :
    (createAccPhi F entryBB J F2 v).blocks.length = F2.blocks.length := by
  simp only [createAccPhi, Func.addIncoming, Func.insertBefore, length_mapInsts,
    length_updateBlock]

theorem mapInsts_mapInsts (F : Func) (f g : Inst → Inst) :
    (F.mapInsts f).mapInsts g = F.mapInsts (g ∘ f) := by
  simp [Func.mapInsts, Block.mapInsts, List.map_map, Function.comp_def]

theorem cmpSafe_of_keepsShape {base : Nat} {g : Inst → Inst} (hg : KeepsShape base g) :
    CmpSafe g := fun I => Or.inl ⟨isDebug_of_tag (hg I).2.1, isCmp_of_tag (hg I).2.1⟩

theorem cmpSafe_comp {f g : Inst → Inst} (hf : CmpSafe f) (hg : CmpSafe g) :
    CmpSafe (g ∘ f) := by
  intro I
  simp only [Function.comp]
  rcases hg (f I) with ⟨h1, h2⟩ | h
  · rcases hf I with ⟨h3, h4⟩ | ⟨h3, h4⟩
    · exact Or.inl ⟨by rw [h1, h3], by rw [h2, h4]⟩
    · exact Or.inr ⟨by rw [h1, h3], by rw [h2, h4]⟩
  · exact Or.inr h

theorem cmpSafe_setKind (id : Nat) (k k0 : Kind) (b : Nat) (hk : setSuccessor0 b k0 = some k) :
    CmpSafe (setKindInst id k) := by
  intro I
  unfold setKindInst
  by_cases h : (I.id == id) = true
  · right
    simp only [h, if_true]
    cases k0 <;> simp [setSuccessor0] at hk <;> subst hk <;> exact ⟨rfl, rfl⟩
  · left
    simp [h]

/-- When `feedLoopBack` stops, the function has the blocks it had; when it completes, the
function is the one it was given with the instructions rewritten, no instruction made a
comparison or a debug instruction. -/
theorem feedLoopBack_state (F : Func) (entryBB : Block) (G : Func) :
    (∀ w S, feedLoopBack F entryBB G = .fault w S → S.blocks.length = G.blocks.length) ∧
    (∀ P, feedLoopBack F entryBB G = .done P →
      ∃ h, CmpSafe h ∧ P.F = G.mapInsts h ∧ P.entryBB = entryBB.id) := by
  unfold feedLoopBack
  simp only
  cases getTailCall G with
  | none => exact ⟨fun w S h => by cases h; rfl, fun P h => by cases h⟩
  | some recCall =>
    simp only
    cases G.getParent recCall.id with
    | none => exact ⟨fun w S h => by cases h; rfl, fun P h => by cases h⟩
    | some recBBlock =>
      simp only
      cases recBBlock.getTerminator with
      | none => exact ⟨fun w S h => by cases h; rfl, fun P h => by cases h⟩
      | some recBRInstr =>
        simp only
        cases hk : setSuccessor0 entryBB.id recBRInstr.kind with
        | none => exact ⟨fun w S h => by cases h; rfl, fun P h => by cases h⟩
        | some k =>
          simp only
          by_cases hn : F.numArgs = 0
          · simp only [hn, if_true]
            exact ⟨fun w S h => by cases h; simp [Func.setKind, length_mapInsts],
              fun P h => by cases h⟩
          · simp only [hn, if_false]
            cases prevNonDebug (instsBefore recCall.id recBBlock.insts) with
            | none =>
              exact ⟨fun w S h => by cases h; simp [Func.setKind, length_mapInsts],
                fun P h => by cases h⟩
            | some beforeRecCall =>
              simp only
              cases nextNonDebug (instsAfter recCall.id recBBlock.insts) with
              | none =>
                exact ⟨fun w S h => by
                  cases h; simp [Func.setKind, Func.addIncoming, length_mapInsts],
                  fun P h => by cases h⟩
              | some afterRecCall =>
                simp only
                refine ⟨fun w S h => (by cases h), fun P h => ?_⟩
                cases h
                refine ⟨addIncomingInst (F.freshInst + 1 + F.numArgs) afterRecCall.result
                  recBBlock.id ∘ addIncomingInst (F.freshInst + F.numArgs) beforeRecCall.result
                  recBBlock.id ∘ setKindInst recBRInstr.id k, ?_, ?_, rfl⟩
                · exact cmpSafe_comp
                    (cmpSafe_comp (cmpSafe_setKind recBRInstr.id k _ _ hk)
                      (cmpSafe_of_keepsShape (keepsShape_addIncoming 0 (F.freshInst + F.numArgs)
                        beforeRecCall.result recBBlock.id)))
                    (cmpSafe_of_keepsShape (keepsShape_addIncoming 0
                      (F.freshInst + 1 + F.numArgs) afterRecCall.result recBBlock.id))
                · simp only [Func.setKind, Func.addIncoming, mapInsts_mapInsts, Function.comp_def]

theorem prepare_fault_length (F : Func) (entryBB : Block) (others : List Block)
    (hb : F.blocks = entryBB :: others) (w : Fault) (S : Func)
    (h : prepare F = .fault w S) : S.blocks.length = F.blocks.length + 1 := by
  rw [hb]
  simp only [prepare, hb] at h
  cases hfront : (entryBB.insts.filter fun I => !I.isAlloca).head? with
  | none =>
    simp only [hfront] at h
    cases h
    simp [splitEntry]
  | some J =>
    simp only [hfront] at h
    cases hbase : getBaseCaseValue (createArgPhis F entryBB others J) with
    | none =>
      simp only [hbase] at h
      cases h
      simp [length_createArgPhis]
    | some v =>
      simp only [hbase] at h
      rw [(feedLoopBack_state F entryBB _).1 w S h, length_createAccPhi, length_createArgPhis]
      simp

theorem getLast?_id_splitShape (pre hdr base : Nat) (A R : List Inst) (entryBB : Block)
    (others : List Block) (g : Inst → Inst) (phis : List Inst) (hid : entryBB.id = hdr) :
    (splitShape pre hdr base A R others g phis).getLast?.map Block.id =
      (entryBB :: others).getLast?.map Block.id := by
  unfold splitShape
  cases others with
  | nil => simp [hid]
  | cons B bs =>
    simp only [List.map_cons, List.getLast?_cons_cons]
    rw [← List.map_cons, List.getLast?_map]
    cases (B :: bs).getLast? <;> rfl

/-- A function with no base case block makes the transformer stop before it completes
its first half. -/
theorem prepare_not_done_of_no_base (F : Func) (hu : F.uniqueIds)
    (ha : F.allocasFirst = true) (hno : F.hasBaseCaseBlock = false) (P : Prepared) :
    prepare F ≠ .done P := by
  intro h
  cases hb : F.blocks with
  | nil => simp [prepare, hb] at h
  | cons entryBB others =>
    simp only [prepare, hb] at h
    cases hfront : (entryBB.insts.filter fun I => !I.isAlloca) with
    | nil => simp [hfront] at h
    | cons J tail =>
      simp only [hfront, List.head?_cons] at h
      have c : SplitCtx F entryBB others J tail := ⟨hb, hfront, hu.1⟩
      obtain ⟨⟨g, phis, hg, hphis, hGb⟩, _, _⟩ := splitOf_createArgPhis c
      have hE : entryBB.insts.filter Inst.isAlloca ++
          (entryBB.insts.filter fun I => !I.isAlloca) = entryBB.insts := by
        simpa [Func.allocasFirst, hb] using ha
      have hnone : getBaseCaseValue (createArgPhis F entryBB others J) = none := by
        unfold getBaseCaseValue
        apply getBaseCaseValueFrom_none
        rw [hGb, getLast?_id_splitShape _ _ _ _ _ entryBB _ _ _ rfl, ← hb]
        have hno' : ∀ BB ∈ F.blocks, BB.isBaseCase (F.blocks.getLast?.map Block.id) = false := by
          simpa [Func.hasBaseCaseBlock] using hno
        intro BB hBB
        unfold splitShape at hBB
        rcases List.mem_cons.1 hBB with rfl | hBB
        · exact isBaseCase_pre hg _ _ _ _ (fun I hI => (List.mem_filter.1 hI).2)
        · rcases List.mem_cons.1 hBB with rfl | hBB
          · cases hc : (⟨entryBB.id, phis ++ (entryBB.insts.filter
                fun I => !I.isAlloca).map g⟩ : Block).isBaseCase
                (F.blocks.getLast?.map Block.id) with
            | false => rfl
            | true =>
              have := isBaseCase_hdr hg _ entryBB.id phis (entryBB.insts.filter Inst.isAlloca)
                _ (by rw [hfront]; simp) (fun φ hφ => (hphis φ hφ).1) hc
              rw [hE] at this
              rw [← this]
              exact hno' entryBB (by rw [hb]; simp)
          · obtain ⟨B, hB, rfl⟩ := List.mem_map.1 hBB
            rw [isBaseCase_mapInsts hg]
            exact hno' B (by rw [hb]; simp [hB])
      simp [hnone] at h

theorem find?_cmp_of_cmpSafe {f : Inst → Inst} (hf : CmpSafe f) :
    ∀ m : List Inst,
      (match (m.map f).find? (fun I => !I.isDebug) with
        | some S => S.isCmp
        | none => false) = true →
      (match m.find? (fun I => !I.isDebug) with
        | some S => S.isCmp
        | none => false) = true := by
  intro m
  induction m with
  | nil => intro h; simp at h
  | cons I m ih =>
    intro h
    rw [List.map_cons, List.find?_cons] at h
    rw [List.find?_cons]
    rcases hf I with ⟨h1, h2⟩ | ⟨h1, h2⟩
    · rw [h1] at h
      cases hd : I.isDebug with
      | true =>
        simp only [hd, Bool.not_true] at h ⊢
        exact ih h
      | false =>
        simp only [hd, Bool.not_false] at h ⊢
        rw [← h2]
        exact h
    · simp only [h1, Bool.not_false, h2] at h
      cases h

theorem prevNonDebug_cmp_of_cmpSafe {f : Inst → Inst} (hf : CmpSafe f) (l : List Inst)
    (h : (match prevNonDebug (l.map f) with
        | some S => S.isCmp
        | none => false) = true) :
    (match prevNonDebug l with
        | some S => S.isCmp
        | none => false) = true := by
  unfold prevNonDebug at h ⊢
  rw [← List.map_reverse] at h
  exact find?_cmp_of_cmpSafe hf _ h

theorem rebuild_stops_without_cmp (P : Prepared) (B : Block)
    (hfind : P.F.findBlock P.entryBB = some B)
    (hprev : (match prevNonDebug B.insts.dropLast with
        | some S => S.isCmp
        | none => false) = false) :
    ∃ w, rebuild P = .fault w P.F := by
  simp only [rebuild, hfind, Option.bind]
  cases B.getTerminator with
  | none => exact ⟨_, rfl⟩
  | some T =>
    simp only
    cases hp : prevNonDebug B.insts.dropLast with
    | none => exact ⟨_, rfl⟩
    | some C =>
      simp only
      rw [hp] at hprev
      simp only at hprev
      obtain ⟨c, k⟩ := C
      cases k <;> first | exact ⟨_, rfl⟩ | (simp [Inst.isCmp] at hprev)

theorem findBlock_splitShape (G : Func) (pre hdr base : Nat) (A R : List Inst)
    (others : List Block) (g : Inst → Inst) (phis : List Inst)
    (hb : G.blocks = splitShape pre hdr base A R others g phis) (hne : pre ≠ hdr) :
    G.findBlock hdr = some ⟨hdr, phis ++ R.map g⟩ := by
  unfold Func.findBlock
  rw [hb]
  simp [splitShape, hne]

/-- A function whose entry block does not end in a comparison and a terminator makes the
second half of the transformer stop on the function as its first half left it. -/
theorem rebuild_stops_of_no_cmp (F : Func) (hu : F.uniqueIds) (ha : F.allocasFirst = true)
    (hno : F.hasEntryCmp = false) (P : Prepared) (h : prepare F = .done P) :
    ∃ w, rebuild P = .fault w P.F ∧ P.F.blocks.length = F.blocks.length + 1 := by
  cases hb : F.blocks with
  | nil => simp [prepare, hb] at h
  | cons entryBB others =>
    simp only [prepare, hb] at h
    cases hfront : (entryBB.insts.filter fun I => !I.isAlloca) with
    | nil => simp [hfront] at h
    | cons J tail =>
      simp only [hfront, List.head?_cons] at h
      have c : SplitCtx F entryBB others J tail := ⟨hb, hfront, hu.1⟩
      cases hbase : getBaseCaseValue (createArgPhis F entryBB others J) with
      | none => simp [hbase] at h
      | some v =>
        simp only [hbase] at h
        obtain ⟨f, hf, hPF, hPe⟩ := (feedLoopBack_state F entryBB _).2 P h
        obtain ⟨⟨g, phis, hg, hphis, hGb⟩, _, _⟩ := splitOf_createAccPhi c v
        have hPb := mapInsts_splitShape hGb f
        rw [← hPF] at hPb
        have hE : entryBB.insts.filter Inst.isAlloca ++
            (entryBB.insts.filter fun I => !I.isAlloca) = entryBB.insts := by
          simpa [Func.allocasFirst, hb] using ha
        have hR : (entryBB.insts.filter fun I => !I.isAlloca) ≠ [] := by rw [hfront]; simp
        have hlen : P.F.blocks.length = (entryBB :: others).length + 1 := by
          rw [hPb]; simp [splitShape]
        have hfind := findBlock_splitShape P.F _ _ _ _ _ _ _ _ hPb c.pre_ne
        rw [← hPe] at hfind
        have hprev : (match prevNonDebug (phis.map f ++
            (entryBB.insts.filter fun I => !I.isAlloca).map (f ∘ g)).dropLast with
              | some S => S.isCmp
              | none => false) = false := by
          cases hc : (match prevNonDebug (phis.map f ++
            (entryBB.insts.filter fun I => !I.isAlloca).map (f ∘ g)).dropLast with
              | some S => S.isCmp
              | none => false) with
          | false => rfl
          | true =>
            have e1 : (phis.map f ++ (entryBB.insts.filter fun I => !I.isAlloca).map (f ∘ g))
                = (phis ++ (entryBB.insts.filter fun I => !I.isAlloca).map g).map f := by
              simp [List.map_map]
            rw [e1, ← List.map_dropLast] at hc
            have h1 := prevNonDebug_cmp_of_cmpSafe hf _ hc
            rw [List.dropLast_append_of_ne_nil _ (by simpa using hR), ← List.map_dropLast] at h1
            have h2 := prev_of_split hg Inst.isCmp (fun I => isCmp_of_tag (hg I).2.1) phis
              (entryBB.insts.filter Inst.isAlloca) _
              (fun φ hφ => not_cmp_of_phi (hphis φ hφ).1) h1
            rw [← List.dropLast_append_of_ne_nil _ hR, hE] at h2
            have h3 : F.hasEntryCmp = true := by
              simpa [Func.hasEntryCmp, hb] using h2
            rw [hno] at h3
            cases h3
        obtain ⟨w, hw⟩ := rebuild_stops_without_cmp P _ hfind hprev
        exact ⟨w, hw, hlen⟩

/-- C9, refuted as stated: the detector accepts `ssaSumFn`, which has no block ending in an
unconditional branch to the last block preceded by a store, and `boolGuardFn`, whose entry
terminator is not preceded by a comparison.  On both `eliminateTailCall` reports nothing: it
stops on the absent value (an undefined dereference in the source), and the function it
stops on has one block more than the function it was given. -/
theorem stops_after_mutation :
    (isAccumulatorTailRecursive ssaSumFn = true ∧ ssaSumFn.hasBaseCaseBlock = false ∧
      ssaSumFn.blocks.length = 3 ∧
      (eliminateTailCall ssaSumFn).fault?.map (fun r => (r.1, r.2.blocks.length)) =
        some (.noBaseCaseValue, 4)) ∧
    (isAccumulatorTailRecursive boolGuardFn = true ∧ boolGuardFn.hasEntryCmp = false ∧
      boolGuardFn.blocks.length = 4 ∧
      (eliminateTailCall boolGuardFn).fault?.map (fun r => (r.1, r.2.blocks.length)) =
        some (.noEntryCmp, 5)) := by
  decide

/-- C9, amended: for every function with unique identities and its stack allocations at the
head of the entry block that the detector accepts, and that has no block ending in an
unconditional branch to the last block immediately preceded by a store, or whose entry-block
terminator is not immediately preceded by a comparison, `eliminateTailCall` makes no check and
reports no error: it stops on the absent value, after it has inserted the new entry block, so
that the function it stops on is not the function it was given. -/
theorem stops_on_absent_value (F : Func) (hu : F.uniqueIds) (ha : F.allocasFirst = true)
    (hacc : isAccumulatorTailRecursive F = true)
    (h : F.hasBaseCaseBlock = false ∨ F.hasEntryCmp = false) :
    ∃ why S, eliminateTailCall F = .fault why S ∧ S.blocks.length = F.blocks.length + 1 ∧
      S ≠ F := by
  obtain ⟨B, hB, _⟩ := detector_sound F hacc
  obtain ⟨entryBB, others, hb⟩ : ∃ entryBB others, F.blocks = entryBB :: others := by
    cases hb : F.blocks with
    | nil => rw [hb] at hB; cases hB
    | cons entryBB others => exact ⟨entryBB, others, rfl⟩
  have hne : ∀ S : Func, S.blocks.length = F.blocks.length + 1 → S ≠ F := by
    intro S hS hSF
    rw [hSF] at hS
    omega
  unfold eliminateTailCall
  cases hp : prepare F with
  | fault w S =>
    have hl := prepare_fault_length F entryBB others hb w S hp
    exact ⟨w, S, rfl, hl, hne S hl⟩
  | done P =>
    rcases h with h | h
    · exact absurd hp (prepare_not_done_of_no_base F hu ha h P)
    · obtain ⟨w, hw, hl⟩ := rebuild_stops_of_no_cmp F hu ha h P hp
      exact ⟨w, P.F, hw, hl, hne _ hl⟩

/-- C9 (amended) at `ssaSumFn`, which has no base case block. -/
theorem stops_on_absent_value_witness :
    ssaSumFn.uniqueIds ∧ ssaSumFn.allocasFirst = true ∧
    isAccumulatorTailRecursive ssaSumFn = true ∧ ssaSumFn.hasBaseCaseBlock = false ∧
    ∃ why S, eliminateTailCall ssaSumFn = .fault why S ∧
      S.blocks.length = ssaSumFn.blocks.length + 1 ∧ S ≠ ssaSumFn :=
  ⟨by decide, by decide, by decide, by decide,
    stops_on_absent_value ssaSumFn (by decide) (by decide) (by decide) (Or.inl (by decide))⟩

/-! ## Instructions of a function through the mutation primitives -/

theorem keepsTag_of_keepsShape {base : Nat} {g : Inst → Inst} (hg : KeepsShape base g) :
    KeepsTag g := fun I => ⟨(hg I).1, (hg I).2.1⟩

theorem keepsTag_mapValues (f : Value → Value) : KeepsTag (Inst.mapKind (Kind.mapValues f)) :=
  fun I => ⟨rfl, by simp [Inst.mapKind, tag_mapValues]⟩

theorem keepsTag_comp {f g : Inst → Inst} (hf : KeepsTag f) (hg : KeepsTag g) :
    KeepsTag (g ∘ f) := fun I =>
  ⟨by simp [Function.comp, (hg (f I)).1, (hf I).1], by simp [Function.comp, (hg (f I)).2, (hf I).2]⟩

theorem mem_edges {G : Func} {u v : Nat} :
    (u, v) ∈ G.edges ↔ ∃ I, InstIn G u I ∧ v ∈ I.targets := by
  simp only [Func.edges, List.mem_flatMap, List.mem_map, Prod.mk.injEq, InstIn]
  constructor
  · rintro ⟨B, hB, I, hI, t, ht, rfl, rfl⟩
    exact ⟨I, ⟨B, hB, rfl, hI⟩, ht⟩
  · rintro ⟨I, ⟨B, hB, rfl, hI⟩, ht⟩
    exact ⟨B, hB, I, hI, v, ht, rfl, rfl⟩

theorem instIn_mapInsts {G : Func} {f : Inst → Inst} {b : Nat} {I : Inst} :
    InstIn (G.mapInsts f) b I ↔ ∃ J, InstIn G b J ∧ f J = I := by
  simp only [InstIn, Func.mapInsts, List.mem_map, Block.mapInsts]
  constructor
  · rintro ⟨_, ⟨B, hB, rfl⟩, rfl, hI⟩
    obtain ⟨J, hJ, rfl⟩ := List.mem_map.1 hI
    exact ⟨J, ⟨B, hB, rfl, hJ⟩, rfl⟩
  · rintro ⟨J, ⟨B, hB, rfl, hJ⟩, rfl⟩
    exact ⟨_, ⟨B, hB, rfl⟩, rfl, List.mem_map_of_mem _ hJ⟩

theorem instIn_updateBlock {G : Func} {b0 : Nat} {u : List Inst → List Inst} {b : Nat}
    {I : Inst} :
    InstIn (G.updateBlock b0 u) b I ↔
      ∃ B ∈ G.blocks, B.id = b ∧ I ∈ (if b = b0 then u B.insts else B.insts) := by
  simp only [InstIn, Func.updateBlock, List.mem_map]
  constructor
  · rintro ⟨_, ⟨B, hB, rfl⟩, hid, hI⟩
    by_cases hb : B.id = b0
    · simp only [hb, beq_self_eq_true, if_true] at hid hI
      exact ⟨B, hB, by rw [hb, hid], by rw [← hid]; simpa using hI⟩
    · simp only [beq_iff_eq, hb, if_false] at hid hI
      exact ⟨B, hB, hid, by rw [← hid]; simpa [hb] using hI⟩
  · rintro ⟨B, hB, rfl, hI⟩
    refine ⟨_, ⟨B, hB, rfl⟩, ?_⟩
    by_cases hb : B.id = b0
    · simp only [hb, beq_self_eq_true, if_true] at hI ⊢
      exact ⟨trivial, hI⟩
    · simp only [beq_iff_eq, hb, if_false] at hI ⊢
      exact ⟨trivial, hI⟩

theorem mem_insertBeforeId {anchor : Nat} {N I : Inst} :
    ∀ l : List Inst, I ∈ insertBeforeId anchor N l → I = N ∨ I ∈ l := by
  intro l
  induction l with
  | nil => intro h; simp [insertBeforeId] at h
  | cons J l ih =>
    intro h
    unfold insertBeforeId at h
    split at h
    · rcases List.mem_cons.1 h with rfl | h
      · exact Or.inl rfl
      · exact Or.inr h
    · rcases List.mem_cons.1 h with rfl | h
      · exact Or.inr (List.mem_cons_self _ _)
      · rcases ih h with h | h
        · exact Or.inl h
        · exact Or.inr (List.mem_cons_of_mem _ h)

theorem mem_insertBeforeId_of_mem {anchor : Nat} {N I : Inst} :
    ∀ l : List Inst, I ∈ l → I ∈ insertBeforeId anchor N l := by
  intro l
  induction l with
  | nil => intro h; cases h
  | cons J l ih =>
    intro h
    unfold insertBeforeId
    split
    · exact List.mem_cons_of_mem _ h
    · rcases List.mem_cons.1 h with rfl | h
      · exact List.mem_cons_self _ _
      · exact List.mem_cons_of_mem _ (ih h)

theorem mem_insertBeforeId_new {anchor : Nat} {N : Inst} :
    ∀ l : List Inst, (∃ J ∈ l, J.id = anchor) → N ∈ insertBeforeId anchor N l := by
  intro l
  induction l with
  | nil => rintro ⟨J, hJ, _⟩; cases hJ
  | cons K l ih =>
    rintro ⟨J, hJ, hid⟩
    unfold insertBeforeId
    split
    · exact List.mem_cons_self _ _
    · rename_i hne
      rcases List.mem_cons.1 hJ with rfl | hJ
      · simp [hid] at hne
      · exact List.mem_cons_of_mem _ (ih ⟨J, hJ, hid⟩)

/-! ### Properties of all instructions -/

theorem allInsts_mapInsts {G : Func} {Φ : Nat → Inst → Prop} (hΦ : TagInv Φ) {f : Inst → Inst}
    (hf : KeepsTag f) (h : AllInsts G Φ) : AllInsts (G.mapInsts f) Φ := by
  intro b I hI
  obtain ⟨J, hJ, rfl⟩ := instIn_mapInsts.1 hI
  exact hΦ b J _ (hf J).1.symm (hf J).2.symm (h b J hJ)

theorem allInsts_insertBefore {G : Func} {Φ : Nat → Inst → Prop} {b0 anchor : Nat} {N : Inst}
    (h : AllInsts G Φ) (hN : Φ b0 N) : AllInsts (G.insertBefore b0 anchor N) Φ := by
  intro b I hI
  obtain ⟨B, hB, hid, hmem⟩ := instIn_updateBlock.1 hI
  by_cases hb : b = b0
  · simp only [hb, if_true] at hmem
    rcases mem_insertBeforeId _ hmem with rfl | hmem
    · rw [hb]; exact hN
    · exact h b I ⟨B, hB, hid, hmem⟩
  · simp only [hb, if_false] at hmem
    exact h b I ⟨B, hB, hid, hmem⟩

theorem allInsts_insertAtEnd {G : Func} {Φ : Nat → Inst → Prop} {b0 : Nat} {N : Inst}
    (h : AllInsts G Φ) (hN : Φ b0 N) : AllInsts (G.insertAtEnd b0 N) Φ := by
  intro b I hI
  obtain ⟨B, hB, hid, hmem⟩ := instIn_updateBlock.1 hI
  by_cases hb : b = b0
  · simp only [hb, if_true] at hmem
    rcases List.mem_append.1 hmem with hmem | hmem
    · exact h b I ⟨B, hB, hid, hmem⟩
    · rw [List.mem_singleton.1 hmem, hb]; exact hN
  · simp only [hb, if_false] at hmem
    exact h b I ⟨B, hB, hid, hmem⟩

theorem instIn_eraseInst {G : Func} {id b : Nat} {I : Inst} :
    InstIn (G.eraseInst id) b I ↔ InstIn G b I ∧ I.id ≠ id := by
  simp only [InstIn, Func.eraseInst, List.mem_map]
  constructor
  · rintro ⟨_, ⟨B, hB, rfl⟩, rfl, hI⟩
    obtain ⟨h1, h2⟩ := List.mem_filter.1 hI
    exact ⟨⟨B, hB, rfl, h1⟩, by simpa using h2⟩
  · rintro ⟨⟨B, hB, rfl, hI⟩, hne⟩
    exact ⟨_, ⟨B, hB, rfl⟩, rfl, List.mem_filter.2 ⟨hI, by simpa using hne⟩⟩

theorem allInsts_eraseInst {G : Func} {Φ : Nat → Inst → Prop} {id : Nat}
    (h : AllInsts G Φ) : AllInsts (G.eraseInst id) Φ :=
  fun b I hI => h b I (instIn_eraseInst.1 hI).1

theorem instIn_eraseBlock {G : Func} {b0 b : Nat} {I : Inst} :
    InstIn (G.eraseBlock b0) b I ↔ InstIn G b I ∧ b ≠ b0 := by
  simp only [InstIn, Func.eraseBlock, List.mem_filter]
  constructor
  · rintro ⟨B, ⟨hB, hne⟩, rfl, hI⟩
    exact ⟨⟨B, hB, rfl, hI⟩, by simpa using hne⟩
  · rintro ⟨⟨B, hB, rfl, hI⟩, hne⟩
    exact ⟨B, ⟨hB, by simpa using hne⟩, rfl, hI⟩

theorem mem_insertBlockBefore {x : Nat} {N B : Block} :
    ∀ bs : List Block, B ∈ insertBlockBefore x N bs → B = N ∨ B ∈ bs := by
  intro bs
  induction bs with
  | nil => intro h; simp [insertBlockBefore] at h
  | cons C bs ih =>
    intro h
    unfold insertBlockBefore at h
    split at h
    · rcases List.mem_cons.1 h with rfl | h
      · exact Or.inl rfl
      · exact Or.inr h
    · rcases List.mem_cons.1 h with rfl | h
      · exact Or.inr (List.mem_cons_self _ _)
      · rcases ih h with h | h
        · exact Or.inl h
        · exact Or.inr (List.mem_cons_of_mem _ h)

theorem mem_insertBlockBefore_of_mem {x : Nat} {N B : Block} :
    ∀ bs : List Block, B ∈ bs → B ∈ insertBlockBefore x N bs := by
  intro bs
  induction bs with
  | nil => intro h; cases h
  | cons C bs ih =>
    intro h
    unfold insertBlockBefore
    split
    · exact List.mem_cons_of_mem _ h
    · rcases List.mem_cons.1 h with rfl | h
      · exact List.mem_cons_self _ _
      · exact List.mem_cons_of_mem _ (ih h)

theorem mem_insertBlockBefore_new {x : Nat} {N : Block} :
    ∀ bs : List Block, (∃ B ∈ bs, B.id = x) → N ∈ insertBlockBefore x N bs := by
  intro bs
  induction bs with
  | nil => rintro ⟨B, hB, _⟩; cases hB
  | cons C bs ih =>
    rintro ⟨B, hB, hid⟩
    unfold insertBlockBefore
    split
    · exact List.mem_cons_self _ _
    · rename_i hne
      rcases List.mem_cons.1 hB with rfl | hB
      · simp [hid] at hne
      · exact List.mem_cons_of_mem _ (ih ⟨B, hB, hid⟩)

theorem allInsts_createBlockBefore {G : Func} {Φ : Nat → Inst → Prop} {x : Nat} {N : Block}
    (h : AllInsts G Φ) (hN : ∀ I ∈ N.insts, Φ N.id I) :
    AllInsts (G.createBlockBefore x N) Φ := by
  rintro b I ⟨B, hB, rfl, hI⟩
  rcases mem_insertBlockBefore _ hB with rfl | hB
  · exact hN I hI
  · exact h _ I ⟨B, hB, rfl, hI⟩

/-! ### Instructions that stay, and the identities of the blocks -/

theorem keepsTag_br {f : Inst → Inst} (hf : KeepsTag f) (i t : Nat) :
    f ⟨i, .br t⟩ = ⟨i, .br t⟩ := by
  have h1 := (hf ⟨i, .br t⟩).1
  have h2 := kind_br_of_tag (hf ⟨i, .br t⟩).2 t
  cases hfi : f ⟨i, .br t⟩ with
  | mk id kind =>
    rw [hfi] at h1 h2
    simp only at h1
    have h3 : kind = Kind.br t := h2.2 rfl
    subst h1
    subst h3
    rfl

theorem keepsTag_addIncoming (phi : Nat) (v : Value) (b : Nat) :
    KeepsTag (addIncomingInst phi v b) :=
  keepsTag_of_keepsShape (keepsShape_addIncoming 0 phi v b)

theorem keepsTag_mapIncomingBlocks (f : Nat → Nat) :
    KeepsTag (Inst.mapKind (Kind.mapIncomingBlocks f)) := by
  intro I
  refine ⟨rfl, ?_⟩
  cases I with
  | mk id kind => cases kind <;> simp [Inst.mapKind, Kind.mapIncomingBlocks, Kind.tag]

/-- What `removePredecessor` does to an instruction. -/
theorem keepsTag_dropIncoming (pred : Nat) :
    KeepsTag (fun I : Inst =>
      match I.kind with
      | .phi incoming => { I with kind := .phi (incoming.filter fun e => e.2 != pred) }
      | _ => I) := by
  intro I
  cases I with
  | mk id kind => cases kind <;> simp [Kind.tag]

theorem isTerminator_of_target {I : Inst} {t : Nat} (h : t ∈ I.targets) :
    I.isTerminator = true := by
  cases I with
  | mk id kind => cases kind <;> simp [Inst.targets, Inst.isTerminator] at h ⊢

theorem kind_of_targets_singleton {I : Inst} {t : Nat} (h : I.targets = [t]) :
    I.kind = .br t := by
  cases I with
  | mk id kind => cases kind <;> simp [Inst.targets] at h ⊢; exact h

theorem instIn_allInsts {G : Func} {I : Inst} : I ∈ G.allInsts ↔ ∃ b, InstIn G b I := by
  simp only [Func.allInsts, List.mem_flatMap, InstIn]
  constructor
  · rintro ⟨B, hB, hI⟩
    exact ⟨B.id, B, hB, rfl, hI⟩
  · rintro ⟨_, B, hB, _, hI⟩
    exact ⟨B, hB, hI⟩

theorem ids_mapInsts (G : Func) (f : Inst → Inst) :
    (G.mapInsts f).blocks.map Block.id = G.blocks.map Block.id := by
  simp [Func.mapInsts, Block.mapInsts, Function.comp_def]

theorem ids_updateBlock (G : Func) (b : Nat) (u : List Inst → List Inst) :
    (G.updateBlock b u).blocks.map Block.id = G.blocks.map Block.id := by
  simp only [Func.updateBlock, List.map_map]
  apply List.map_congr_left
  intro B _
  simp only [Function.comp]
  split <;> rfl

theorem ids_eraseInst (G : Func) (i : Nat) :
    (G.eraseInst i).blocks.map Block.id = G.blocks.map Block.id := by
  simp [Func.eraseInst, Function.comp_def]

theorem ids_replaceBlockUsesWith (G : Func) (old new : Nat) :
    (G.replaceBlockUsesWith old new).blocks.map Block.id = G.blocks.map Block.id := by
  simp only [Func.replaceBlockUsesWith, List.map_map]
  rw [← ids_mapInsts G (Inst.mapKind (Kind.mapTargets (substBlock old new)))]
  apply List.map_congr_left
  intro B _
  simp only [Function.comp]
  split <;> rfl

theorem head_of_ids {G H : Func} (h : H.blocks.map Block.id = G.blocks.map Block.id) :
    H.blocks.head?.map Block.id = G.blocks.head?.map Block.id := by
  rw [← List.head?_map, ← List.head?_map, h]

theorem mem_ids {G : Func} {b : Nat} : b ∈ G.blocks.map Block.id ↔ ∃ B ∈ G.blocks, B.id = b := by
  simp [List.mem_map]

/-! ### Block uses replaced -/

theorem instIn_replaceBlockUsesWith {G : Func} {old new b : Nat} {I : Inst}
    (h : InstIn (G.replaceBlockUsesWith old new) b I) :
    ∃ J, InstIn G b J ∧ I.id = J.id ∧
      I.kind.tag = (Inst.mapKind (Kind.mapTargets (substBlock old new)) J).kind.tag := by
  obtain ⟨B, hB, rfl, hI⟩ := h
  simp only [Func.replaceBlockUsesWith, List.mem_map] at hB
  obtain ⟨B1, hB1, rfl⟩ := hB
  simp only [Func.mapInsts, List.mem_map] at hB1
  obtain ⟨B0, hB0, rfl⟩ := hB1
  split at hI
  · simp only [Block.mapInsts, List.map_map, List.mem_map] at hI
    obtain ⟨J, hJ, rfl⟩ := hI
    refine ⟨J, ⟨B0, hB0, ?_, hJ⟩, rfl, ?_⟩
    · split <;> rfl
    · exact (keepsTag_mapIncomingBlocks _ _).2
  · simp only [Block.mapInsts, List.mem_map] at hI
    obtain ⟨J, hJ, rfl⟩ := hI
    refine ⟨J, ⟨B0, hB0, ?_, hJ⟩, rfl, rfl⟩
    split <;> rfl

theorem replaceBlockUsesWith_instIn {G : Func} (old new : Nat) {b : Nat} {J : Inst}
    (h : InstIn G b J) :
    ∃ I, InstIn (G.replaceBlockUsesWith old new) b I ∧ I.id = J.id ∧
      I.kind.tag = (Inst.mapKind (Kind.mapTargets (substBlock old new)) J).kind.tag := by
  obtain ⟨B, hB, rfl, hJ⟩ := h
  by_cases hc : ((match (G.mapInsts (Inst.mapKind (Kind.mapTargets (substBlock old new)))).findBlock
      old with
    | some B => B.successors
    | none => []).contains B.id) = true
  · refine ⟨Inst.mapKind (Kind.mapIncomingBlocks (substBlock old new))
      (Inst.mapKind (Kind.mapTargets (substBlock old new)) J),
      Exists.intro (Block.mapInsts (Inst.mapKind (Kind.mapIncomingBlocks (substBlock old new)))
        (Block.mapInsts (Inst.mapKind (Kind.mapTargets (substBlock old new))) B)) ⟨?_, rfl, ?_⟩,
      rfl, (keepsTag_mapIncomingBlocks _ _).2⟩
    · simp only [Func.replaceBlockUsesWith, List.mem_map]
      refine ⟨Block.mapInsts (Inst.mapKind (Kind.mapTargets (substBlock old new))) B, ?_, ?_⟩
      · simp only [Func.mapInsts, List.mem_map]
        exact ⟨B, hB, rfl⟩
      · rw [if_pos (by simpa [Block.mapInsts] using hc)]
    · simp only [Block.mapInsts, List.map_map, List.mem_map]
      exact ⟨J, hJ, rfl⟩
  · refine ⟨Inst.mapKind (Kind.mapTargets (substBlock old new)) J,
      Exists.intro (Block.mapInsts (Inst.mapKind (Kind.mapTargets (substBlock old new))) B)
        ⟨?_, rfl, ?_⟩, rfl, rfl⟩
    · simp only [Func.replaceBlockUsesWith, List.mem_map]
      refine ⟨Block.mapInsts (Inst.mapKind (Kind.mapTargets (substBlock old new))) B, ?_, ?_⟩
      · simp only [Func.mapInsts, List.mem_map]
        exact ⟨B, hB, rfl⟩
      · rw [if_neg (by simpa [Block.mapInsts] using hc)]
    · simp only [Block.mapInsts, List.mem_map]
      exact ⟨J, hJ, rfl⟩

theorem targets_mapTargets (f : Nat → Nat) (J : Inst) :
    (Inst.mapKind (Kind.mapTargets f) J).targets = J.targets.map f := by
  cases J with
  | mk id kind => cases kind <;> simp [Inst.mapKind, Kind.mapTargets, Inst.targets]

theorem isSelfCall_mapTargets (fname : Nat) (f : Nat → Nat) (J : Inst) :
    (Inst.mapKind (Kind.mapTargets f) J).isSelfCall fname = J.isSelfCall fname := by
  cases J with
  | mk id kind => cases kind <;> simp [Inst.mapKind, Kind.mapTargets, Inst.isSelfCall]

/-! ### Dead blocks removed -/

theorem sim_refl (b0 : Nat) (G : Func) : Sim b0 G G :=
  ⟨fun _ I h => ⟨I, h, rfl, rfl⟩, fun _ J h _ => ⟨J, h, rfl, rfl⟩, fun _ => rfl, rfl⟩

theorem sim_trans {b0 : Nat} {G H K : Func} (h1 : Sim b0 G H) (h2 : Sim b0 H K) :
    Sim b0 G K := by
  refine ⟨?_, ?_, ?_, h2.name.trans h1.name⟩
  · intro b I hI
    obtain ⟨J, hJ, e1, e2⟩ := h2.back b I hI
    obtain ⟨L, hL, e3, e4⟩ := h1.back b J hJ
    exact ⟨L, hL, e1.trans e3, e2.trans e4⟩
  · intro b J hJ hb
    obtain ⟨I, hI, e1, e2⟩ := h1.forth b J hJ hb
    obtain ⟨L, hL, e3, e4⟩ := h2.forth b I hI hb
    exact ⟨L, hL, e3.trans e1, e4.trans e2⟩
  · intro hh
    have e1 := h1.head hh
    rw [h2.head (by rw [e1]; exact hh), e1]

theorem sim_mapInsts (b0 : Nat) (G : Func) {f : Inst → Inst} (hf : KeepsTag f) :
    Sim b0 G (G.mapInsts f) := by
  refine ⟨?_, ?_, fun _ => head_of_ids (ids_mapInsts G f), rfl⟩
  · intro b I hI
    obtain ⟨J, hJ, rfl⟩ := instIn_mapInsts.1 hI
    exact ⟨J, hJ, (hf J).1, (hf J).2⟩
  · intro b J hJ _
    exact ⟨f J, instIn_mapInsts.2 ⟨J, hJ, rfl⟩, (hf J).1, (hf J).2⟩

theorem sim_updateBlock_map (b0 s : Nat) (G : Func) {f : Inst → Inst} (hf : KeepsTag f) :
    Sim b0 G (G.updateBlock s (List.map f)) := by
  refine ⟨?_, ?_, fun _ => head_of_ids (ids_updateBlock G s _), rfl⟩
  · intro b I hI
    obtain ⟨B, hB, hid, hmem⟩ := instIn_updateBlock.1 hI
    by_cases hb : b = s
    · simp only [hb, if_true] at hmem
      obtain ⟨J, hJ, rfl⟩ := List.mem_map.1 hmem
      exact ⟨J, ⟨B, hB, hid, hJ⟩, (hf J).1, (hf J).2⟩
    · simp only [hb, if_false] at hmem
      exact ⟨I, ⟨B, hB, hid, hmem⟩, rfl, rfl⟩
  · rintro b J ⟨B, hB, hid, hmem⟩ _
    by_cases hb : b = s
    · refine ⟨f J, instIn_updateBlock.2 ⟨B, hB, hid, ?_⟩, (hf J).1, (hf J).2⟩
      simp only [hb, if_true]
      exact List.mem_map_of_mem _ hmem
    · refine ⟨J, instIn_updateBlock.2 ⟨B, hB, hid, ?_⟩, rfl, rfl⟩
      simp only [hb, if_false]
      exact hmem

theorem sim_updateBlock_filter (b0 : Nat) (G : Func) (p : Inst → Bool) :
    Sim b0 G (G.updateBlock b0 (List.filter p)) := by
  refine ⟨?_, ?_, fun _ => head_of_ids (ids_updateBlock G b0 _), rfl⟩
  · intro b I hI
    obtain ⟨B, hB, hid, hmem⟩ := instIn_updateBlock.1 hI
    by_cases hb : b = b0
    · simp only [hb, if_true] at hmem
      exact ⟨I, ⟨B, hB, hid, (List.mem_filter.1 hmem).1⟩, rfl, rfl⟩
    · simp only [hb, if_false] at hmem
      exact ⟨I, ⟨B, hB, hid, hmem⟩, rfl, rfl⟩
  · rintro b J ⟨B, hB, hid, hmem⟩ hb
    refine ⟨J, instIn_updateBlock.2 ⟨B, hB, hid, ?_⟩, rfl, rfl⟩
    simp only [hb, if_false]
    exact hmem

theorem sim_eraseBlock (b0 : Nat) (G : Func) : Sim b0 G (G.eraseBlock b0) := by
  refine ⟨?_, ?_, ?_, rfl⟩
  · intro b I hI
    exact ⟨I, (instIn_eraseBlock.1 hI).1, rfl, rfl⟩
  · intro b J hJ hb
    exact ⟨J, instIn_eraseBlock.2 ⟨hJ, hb⟩, rfl, rfl⟩
  · intro hh
    simp only [Func.eraseBlock]
    cases hbl : G.blocks with
    | nil => rfl
    | cons B rest =>
      rw [hbl] at hh
      simp only [List.head?_cons, Option.map_some', ne_eq, Option.some.injEq] at hh
      simp [List.filter_cons, hh]

theorem sim_removePredecessor (b0 s pred : Nat) (G : Func) :
    Sim b0 G (G.removePredecessor s pred) :=
  sim_updateBlock_map b0 s G (keepsTag_dropIncoming pred)

theorem sim_foldl_removePredecessor (b0 pred : Nat) :
    ∀ (l : List Nat) (G : Func), Sim b0 G (l.foldl (fun G s => G.removePredecessor s pred) G) := by
  intro l
  induction l with
  | nil => intro G; exact sim_refl b0 G
  | cons s l ih =>
    intro G
    exact sim_trans (sim_removePredecessor b0 s pred G) (ih _)

theorem sim_dropInsts (b0 : Nat) : ∀ (l : List Inst) (G : Func), Sim b0 G (dropInsts b0 l G) := by
  intro l
  induction l with
  | nil => intro G; exact sim_refl b0 G
  | cons I l ih =>
    intro G
    simp only [dropInsts]
    exact sim_trans (ih G) (sim_trans (sim_mapInsts b0 _ (keepsTag_mapValues _))
      (sim_updateBlock_filter b0 _ _))

theorem predEmpty_false {G : Func} {b c : Nat} {I : Inst} (hI : InstIn G c I)
    (ht : b ∈ I.targets) : G.predEmpty b = false := by
  simp only [Func.predEmpty, Bool.not_eq_false', List.any_eq_true, Bool.and_eq_true]
  refine ⟨I, instIn_allInsts.2 ⟨c, hI⟩, isTerminator_of_target ht, ?_⟩
  simpa using ht

theorem removeDeadStep_sim (G : Func) (flag : Bool) (b : Nat) :
    (removeDeadStep (G, flag) b).1 = G ∨
      (G.predEmpty b = true ∧ G.blocks.head?.map Block.id ≠ some b ∧
        Sim b G (removeDeadStep (G, flag) b).1) := by
  unfold removeDeadStep
  simp only
  cases G.findBlock b with
  | none => exact Or.inl rfl
  | some BB =>
    simp only
    by_cases hp : G.predEmpty b = true
    · simp only [hp, Bool.not_true, Bool.false_eq_true, if_false]
      by_cases hh : (G.blocks.head?.map Block.id) = some b
      · simp only [hh, beq_self_eq_true, if_true]
        exact Or.inl trivial
      · have hh2 : ((G.blocks.head?.map Block.id) == some b) = false := by simpa using hh
        simp only [hh2, Bool.false_eq_true, if_false]
        refine Or.inr ⟨trivial, hh, ?_⟩
        refine sim_trans (sim_foldl_removePredecessor b b BB.successors G)
          (sim_trans ?_ (sim_eraseBlock b _))
        split
        · exact sim_dropInsts b _ _
        · exact sim_refl b _
    · simp only [Bool.not_eq_true] at hp
      simp only [hp, Bool.not_false, if_true]
      exact Or.inl trivial

theorem inst_br_of_tag {I : Inst} {i t : Nat} (h1 : I.id = i)
    (h2 : I.kind.tag = (Kind.br t).tag) : I = ⟨i, .br t⟩ := by
  have h3 := (kind_br_of_tag (I := I) (J := ⟨i, .br t⟩) h2 t).2 rfl
  cases I with
  | mk id kind =>
    simp only at h1 h3
    rw [h1, h3]

theorem loopInv_of_sim {G H : Func} {name pre hdr loop base b0 : Nat} {rank : Nat → Nat}
    (h : LoopInv G name pre hdr loop base rank) (hs : Sim b0 G H) (h1 : b0 ≠ pre)
    (h2 : b0 ≠ hdr) (h3 : b0 ≠ loop) : LoopInv H name pre hdr loop base rank := by
  refine ⟨hs.name.trans h.name, ?_, ?_, ?_, ?_, ?_, ?_⟩
  · rw [hs.head (by rw [h.head]; simpa using fun e => h1 e.symm), h.head]
  · obtain ⟨I, hI, e1, e2⟩ := hs.forth pre _ h.preBr (Ne.symm h1)
    rw [← inst_br_of_tag e1 e2]
    exact hI
  · obtain ⟨J, hJ, ht⟩ := h.hdrEdge
    obtain ⟨I, hI, _, e2⟩ := hs.forth hdr J hJ (Ne.symm h2)
    exact ⟨I, hI, by rw [targets_of_tag e2]; exact ht⟩
  · obtain ⟨i, hJ⟩ := h.loopBr
    obtain ⟨I, hI, e1, e2⟩ := hs.forth loop _ hJ (Ne.symm h3)
    refine ⟨i, ?_⟩
    rw [← inst_br_of_tag e1 e2]
    exact hI
  · intro b I hI
    obtain ⟨J, hJ, _, e2⟩ := hs.back b I hI
    rw [isSelfCall_of_tag name e2]
    exact h.noSelf b J hJ
  · intro b I hI
    obtain ⟨J, hJ, _, e2⟩ := hs.back b I hI
    rw [targets_of_tag e2]
    exact h.fwd b J hJ

theorem loopInv_removeDeadStep {name pre hdr loop base : Nat} {rank : Nat → Nat}
    (G : Func) (flag : Bool) (b : Nat) (h : LoopInv G name pre hdr loop base rank) :
    LoopInv (removeDeadStep (G, flag) b).1 name pre hdr loop base rank := by
  rcases removeDeadStep_sim G flag b with e | ⟨hp, hh, hs⟩
  · rw [e]; exact h
  · refine loopInv_of_sim h hs ?_ ?_ ?_
    · rintro rfl
      exact hh h.head
    · rintro rfl
      rw [predEmpty_false h.preBr (by simp [Inst.targets])] at hp
      cases hp
    · rintro rfl
      obtain ⟨I, hI, ht⟩ := h.hdrEdge
      rw [predEmpty_false hI ht] at hp
      cases hp

theorem loopInv_removeDeadBlocks {name pre hdr loop base : Nat} {rank : Nat → Nat}
    (G : Func) (h : LoopInv G name pre hdr loop base rank) :
    LoopInv (removeDeadBlocks G).1 name pre hdr loop base rank := by
  unfold removeDeadBlocks
  have key : ∀ (l : List Nat) (st : Func × Bool), LoopInv st.1 name pre hdr loop base rank →
      LoopInv (l.foldl removeDeadStep st).1 name pre hdr loop base rank := by
    intro l
    induction l with
    | nil => intro st hst; exact hst
    | cons b l ih =>
      intro st hst
      exact ih _ (loopInv_removeDeadStep st.1 st.2 b hst)
  exact key _ (G, false) h

/-- What the loop gives: no direct self-call, and one back-edge. -/
theorem loopInv_result {G : Func} {name pre hdr loop base : Nat} {rank : Nat → Nat}
    (h : LoopInv G name pre hdr loop base rank) :
    G.selfCallCount = 0 ∧ (∃ i, InstIn G loop ⟨i, .br hdr⟩) ∧ OnlyBackEdge G loop hdr ∧
      G.Reaches G.entryId hdr := by
  refine ⟨?_, h.loopBr, ⟨?_, ?_, rank, ?_⟩, ?_⟩
  · unfold Func.selfCallCount
    rw [List.countP_eq_zero]
    intro I hI
    obtain ⟨b, hb⟩ := instIn_allInsts.1 hI
    rw [h.name, h.noSelf b I hb]
    simp
  · obtain ⟨i, hi⟩ := h.loopBr
    exact mem_edges.2 ⟨_, hi, by simp [Inst.targets]⟩
  · obtain ⟨I, hI, ht⟩ := h.hdrEdge
    exact Relation.ReflTransGen.single (mem_edges.2 ⟨I, hI, ht⟩)
  · rintro ⟨u, v⟩ he
    obtain ⟨I, hI, ht⟩ := mem_edges.1 he
    rcases h.fwd u I hI v ht with ⟨rfl, rfl⟩ | hlt
    · exact Or.inl rfl
    · exact Or.inr hlt
  · have : G.entryId = pre := by simp [Func.entryId, h.head]
    rw [this]
    exact Relation.ReflTransGen.single (mem_edges.2 ⟨_, h.preBr, by simp [Inst.targets]⟩)

/-! ### The second half of the transformer -/

theorem tagInv_mid (fname pre hdr loop rb base : Nat) (rank : Nat → Nat) :
    TagInv (Mid fname pre hdr loop rb base rank) := by
  intro b I J hid htag h
  unfold Mid at h ⊢
  rw [← isSelfCall_of_tag fname htag, ← targets_of_tag htag, ← hid]
  exact h

theorem allInsts_replaceAllUsesWith {G : Func} {Φ : Nat → Inst → Prop} (hΦ : TagInv Φ)
    (old new : Value) (h : AllInsts G Φ) : AllInsts (G.replaceAllUsesWith old new) Φ :=
  allInsts_mapInsts hΦ (keepsTag_mapValues _) h

theorem head_replaceAllUsesWith (G : Func) (old new : Value) :
    (G.replaceAllUsesWith old new).blocks.head?.map Block.id = G.blocks.head?.map Block.id :=
  head_of_ids (ids_mapInsts G _)

theorem head_insertBefore (G : Func) (b a : Nat) (N : Inst) :
    (G.insertBefore b a N).blocks.head?.map Block.id = G.blocks.head?.map Block.id :=
  head_of_ids (ids_updateBlock G b _)

theorem head_insertAtEnd (G : Func) (b : Nat) (N : Inst) :
    (G.insertAtEnd b N).blocks.head?.map Block.id = G.blocks.head?.map Block.id :=
  head_of_ids (ids_updateBlock G b _)

theorem head_eraseInst (G : Func) (i : Nat) :
    (G.eraseInst i).blocks.head?.map Block.id = G.blocks.head?.map Block.id :=
  head_of_ids (ids_eraseInst G i)

theorem head_replaceBlockUsesWith (G : Func) (old new : Nat) :
    (G.replaceBlockUsesWith old new).blocks.head?.map Block.id = G.blocks.head?.map Block.id :=
  head_of_ids (ids_replaceBlockUsesWith G old new)

theorem head_createBlockBefore (G : Func) (x pre : Nat) (N : Block)
    (h : G.blocks.head?.map Block.id = some pre) (hx : x ≠ pre) :
    (G.createBlockBefore x N).blocks.head?.map Block.id = some pre := by
  simp only [Func.createBlockBefore]
  cases hbl : G.blocks with
  | nil => rw [hbl] at h; cases h
  | cons B rest =>
    rw [hbl] at h
    simp only [List.head?_cons, Option.map_some', Option.some.injEq] at h
    have : (B.id == x) = false := by simpa [h] using fun e => hx e.symm
    simp [insertBlockBefore, this, h]
    rw [if_neg (fun e => hx e.symm)]
    simp [h]

theorem head_eraseBlock (G : Func) (b0 pre : Nat)
    (h : G.blocks.head?.map Block.id = some pre) (hx : b0 ≠ pre) :
    (G.eraseBlock b0).blocks.head?.map Block.id = some pre := by
  rw [(sim_eraseBlock b0 G).head (by rw [h]; simpa using fun e => hx e.symm), h]

theorem ids_insertBefore (G : Func) (b a : Nat) (N : Inst) :
    (G.insertBefore b a N).blocks.map Block.id = G.blocks.map Block.id :=
  ids_updateBlock G b _

theorem ids_insertAtEnd (G : Func) (b : Nat) (N : Inst) :
    (G.insertAtEnd b N).blocks.map Block.id = G.blocks.map Block.id :=
  ids_updateBlock G b _

theorem ids_replaceAllUsesWith (G : Func) (old new : Value) :
    (G.replaceAllUsesWith old new).blocks.map Block.id = G.blocks.map Block.id :=
  ids_mapInsts G _

theorem hasBranch_mapInsts {G : Func} {f : Inst → Inst} (hf : KeepsTag f) {b i : Nat}
    {T : List Nat} (h : HasBranch G b i T) : HasBranch (G.mapInsts f) b i T := by
  obtain ⟨I, hI, e1, e2⟩ := h
  exact ⟨f I, instIn_mapInsts.2 ⟨I, hI, rfl⟩, (hf I).1.trans e1,
    (targets_of_tag (hf I).2).trans e2⟩

theorem hasBranch_replaceAllUsesWith {G : Func} (old new : Value) {b i : Nat} {T : List Nat}
    (h : HasBranch G b i T) : HasBranch (G.replaceAllUsesWith old new) b i T :=
  hasBranch_mapInsts (keepsTag_mapValues _) h

theorem hasBranch_eraseInst {G : Func} {b i j : Nat} {T : List Nat} (hij : i ≠ j)
    (h : HasBranch G b i T) : HasBranch (G.eraseInst j) b i T := by
  obtain ⟨I, hI, e1, e2⟩ := h
  exact ⟨I, instIn_eraseInst.2 ⟨hI, by rw [e1]; exact hij⟩, e1, e2⟩

theorem hasBranch_insertBefore {G : Func} {b i : Nat} {T : List Nat} (b0 a : Nat) (N : Inst)
    (h : HasBranch G b i T) : HasBranch (G.insertBefore b0 a N) b i T := by
  obtain ⟨I, ⟨B, hB, hid, hmem⟩, e1, e2⟩ := h
  refine ⟨I, instIn_updateBlock.2 ⟨B, hB, hid, ?_⟩, e1, e2⟩
  split
  · exact mem_insertBeforeId_of_mem _ hmem
  · exact hmem

theorem hasBranch_insertAtEnd {G : Func} {b i : Nat} {T : List Nat} (b0 : Nat) (N : Inst)
    (h : HasBranch G b i T) : HasBranch (G.insertAtEnd b0 N) b i T := by
  obtain ⟨I, ⟨B, hB, hid, hmem⟩, e1, e2⟩ := h
  refine ⟨I, instIn_updateBlock.2 ⟨B, hB, hid, ?_⟩, e1, e2⟩
  split
  · exact List.mem_append_left _ hmem
  · exact hmem

theorem hasBranch_insertAtEnd_new {G : Func} {b0 : Nat} (N : Inst)
    (h : b0 ∈ G.blocks.map Block.id) : HasBranch (G.insertAtEnd b0 N) b0 N.id N.targets := by
  obtain ⟨B, hB, hid⟩ := mem_ids.1 h
  refine ⟨N, instIn_updateBlock.2 ⟨B, hB, hid, ?_⟩, rfl, rfl⟩
  simp

theorem hasBranch_createBlockBefore {G : Func} {b i : Nat} {T : List Nat} (x : Nat) (N : Block)
    (h : HasBranch G b i T) : HasBranch (G.createBlockBefore x N) b i T := by
  obtain ⟨I, ⟨B, hB, hid, hmem⟩, e1, e2⟩ := h
  exact ⟨I, ⟨B, mem_insertBlockBefore_of_mem _ hB, hid, hmem⟩, e1, e2⟩

theorem hasBranch_createBlockBefore_new {G : Func} {x : Nat} (b : Nat) (N : Inst)
    (h : x ∈ G.blocks.map Block.id) :
    HasBranch (G.createBlockBefore x ⟨b, [N]⟩) b N.id N.targets := by
  obtain ⟨B, hB, hid⟩ := mem_ids.1 h
  exact ⟨N, ⟨⟨b, [N]⟩, mem_insertBlockBefore_new _ ⟨B, hB, hid⟩, rfl, by simp⟩, rfl, rfl⟩

theorem mem_of_getLast? {α : Type} {l : List α} {a : α} (h : l.getLast? = some a) : a ∈ l :=
  List.mem_of_getLast?_eq_some h

theorem mem_dropLast {α : Type} {l : List α} {a : α} (h : a ∈ l.dropLast) : a ∈ l :=
  (List.dropLast_sublist l).subset h

theorem isPhi_false_of_terminator {I : Inst} (h : I.isTerminator = true) : I.isPhi = false := by
  cases I with
  | mk id kind => cases kind <;> simp [Inst.isTerminator, Inst.isPhi] at h ⊢

/-- The last two steps of `eliminateTailCall`: the uses of the call block go to the loop body
block and the call block is erased. -/
theorem loopInv_of_mid (G : Func) (fname pre hdr loop rb base l0 i1 i2 : Nat)
    (rank : Nat → Nat)
    (hname : G.name = fname) (hhead : G.blocks.head?.map Block.id = some pre)
    (hall : AllInsts G (Mid fname pre hdr loop rb base rank))
    (hp : HasBranch G pre base [hdr]) (hh : HasBranch G hdr i1 [l0, rb])
    (hl : HasBranch G loop i2 [hdr]) (h1 : hdr ≠ rb) (h2 : pre ≠ rb) (h3 : loop ≠ rb) :
    LoopInv ((G.replaceBlockUsesWith rb loop).eraseBlock rb) fname pre hdr loop base rank := by
  have br_kept : ∀ b i, b ≠ rb → HasBranch G b i [hdr] →
      InstIn ((G.replaceBlockUsesWith rb loop).eraseBlock rb) b ⟨i, .br hdr⟩ := by
    rintro b i hb ⟨J, hJ, e1, e2⟩
    obtain ⟨I, hI, e3, e4⟩ := replaceBlockUsesWith_instIn rb loop hJ
    simp only [Inst.mapKind, kind_of_targets_singleton e2, Kind.mapTargets, substBlock, h1,
      if_false] at e4
    rw [← inst_br_of_tag (e3.trans e1) e4]
    exact instIn_eraseBlock.2 ⟨hI, hb⟩
  refine ⟨hname, ?_, br_kept pre base h2 hp, ?_, ⟨i2, br_kept loop i2 h3 hl⟩, ?_, ?_⟩
  · exact head_eraseBlock _ _ _ ((head_replaceBlockUsesWith G rb loop).trans hhead)
      (Ne.symm h2)
  · obtain ⟨J, hJ, e1, e2⟩ := hh
    obtain ⟨I, hI, e3, e4⟩ := replaceBlockUsesWith_instIn rb loop hJ
    refine ⟨I, instIn_eraseBlock.2 ⟨hI, h1⟩, ?_⟩
    rw [targets_of_tag e4, targets_mapTargets, e2]
    simp [substBlock]
  · intro b I hI
    obtain ⟨hI1, hb⟩ := instIn_eraseBlock.1 hI
    obtain ⟨J, hJ, _, e2⟩ := instIn_replaceBlockUsesWith hI1
    rw [isSelfCall_of_tag fname e2, isSelfCall_mapTargets]
    exact (hall b J hJ).1 hb
  · intro b I hI t ht
    obtain ⟨hI1, hb⟩ := instIn_eraseBlock.1 hI
    obtain ⟨J, hJ, _, e2⟩ := instIn_replaceBlockUsesWith hI1
    rw [targets_of_tag e2, targets_mapTargets] at ht
    obtain ⟨t0, ht0, rfl⟩ := List.mem_map.1 ht
    exact (hall b J hJ).2.1 hb t0 ht0

theorem name_replaceAllUsesWith (G : Func) (old new : Value) :
    (G.replaceAllUsesWith old new).name = G.name := rfl

theorem name_insertBefore (G : Func) (b a : Nat) (N : Inst) :
    (G.insertBefore b a N).name = G.name := rfl

theorem name_insertAtEnd (G : Func) (b : Nat) (N : Inst) : (G.insertAtEnd b N).name = G.name :=
  rfl

theorem name_eraseInst (G : Func) (i : Nat) : (G.eraseInst i).name = G.name := rfl

theorem name_createBlockBefore (G : Func) (x : Nat) (N : Block) :
    (G.createBlockBefore x N).name = G.name := rfl

theorem getTerminator_mem {B : Block} {T : Inst} (h : B.getTerminator = some T) :
    T ∈ B.insts ∧ T.isTerminator = true := by
  unfold Block.getTerminator at h
  cases hl : B.insts.getLast? with
  | none => simp [hl] at h
  | some I =>
    simp only [hl] at h
    split at h
    · cases h
      exact ⟨mem_of_getLast? hl, by assumption⟩
    · cases h

theorem findBlock_mem {G : Func} {b : Nat} {B : Block} (h : G.findBlock b = some B) :
    B ∈ G.blocks ∧ B.id = b := by
  unfold Func.findBlock at h
  exact ⟨List.mem_of_find?_eq_some h, by simpa using List.find?_some h⟩

theorem mid_new {fname pre hdr loop rb base : Nat} {rank : Nat → Nat} {b : Nat} {N : Inst}
    (hs : N.isSelfCall fname = false) (ht : N.targets = []) (hid : base < N.id)
    (hb : b = hdr ∨ b = loop) : Mid fname pre hdr loop rb base rank b N := by
  unfold Mid
  exact ⟨fun _ => hs, fun _ t h => (by rw [ht] at h; cases h), Or.inr (Or.inr ⟨hid, hb⟩)⟩

theorem rebuild_loopInv (P : Prepared) (F1 : Func) (fname l : Nat) (rank : Nat → Nat)
    (hdone : rebuild P = .done F1)
    (hname : P.F.name = fname)
    (hhead : P.F.blocks.head?.map Block.id = some P.newEntryBB)
    (hlast : (P.F.blocks.map Block.id).getLast? = some l)
    (h1 : P.entryBB ≠ P.recBBlock) (h2 : P.newEntryBB ≠ P.recBBlock)
    (h3 : P.newEntryBB + 1 ≠ P.recBBlock) (h4 : l ≠ P.newEntryBB) (h5 : l ≠ P.entryBB)
    (h6 : P.entryBB ≠ P.newEntryBB) (h7 : l ≠ P.newEntryBB + 1)
    (hΨ : AllInsts P.F fun b I => I.id < P.base ∨ (I.id = P.base ∧ b = P.newEntryBB) ∨
      (P.base < I.id ∧ b = P.entryBB ∧ I.isPhi = true))
    (hpre : InstIn P.F P.newEntryBB ⟨P.base, .br P.entryBB⟩)
    (hS : AllInsts P.F fun b I => b ≠ P.recBBlock → I.isSelfCall fname = false)
    (hE : AllInsts P.F fun b I => b ≠ P.recBBlock →
      ∀ t ∈ I.targets, rank b < rank (substBlock P.recBBlock (P.newEntryBB + 1) t))
    (hr1 : rank P.entryBB < rank (P.newEntryBB + 1))
    (hr2 : rank P.entryBB < rank (substBlock P.recBBlock (P.newEntryBB + 1) l)) :
    LoopInv F1 fname P.newEntryBB P.entryBB (P.newEntryBB + 1) P.base rank := by
  simp only [rebuild] at hdone
  repeat' split at hdone
  all_goals cases hdone
  rename_i _ eT heT _ oC hoC _ p a b hk _ L0 hL0 _ L hL _ T hT _ bR hbR _ op1 a1 b1 hop1 _ op2
    a2 b2 hop2
  -- the header block and what the transformer found in it
  cases hfb : P.F.findBlock P.entryBB with
  | none => simp [hfb] at heT
  | some H =>
    simp only [hfb, Option.some_bind] at heT hoC
    obtain ⟨hH, hHid⟩ := findBlock_mem hfb
    obtain ⟨heTm, heTt⟩ := getTerminator_mem heT
    have hoCm : oC ∈ H.insts := mem_dropLast (prevNonDebug_mem hoC)
    have heTid : eT.id < P.base := by
      rcases hΨ P.entryBB eT ⟨H, hH, hHid, heTm⟩ with h | ⟨_, h⟩ | ⟨_, _, h⟩
      · exact h
      · exact absurd h h6
      · rw [isPhi_false_of_terminator heTt] at h; cases h
    have hoCid : oC.id < P.base := by
      rcases hΨ P.entryBB oC ⟨H, hH, hHid, hoCm⟩ with h | ⟨_, h⟩ | ⟨_, _, h⟩
      · exact h
      · exact absurd h h6
      · simp [Inst.isPhi, hk] at h
    have hT := tagInv_mid fname P.newEntryBB P.entryBB (P.newEntryBB + 1) P.recBBlock P.base rank
    have hMid0 : AllInsts P.F
        (Mid fname P.newEntryBB P.entryBB (P.newEntryBB + 1) P.recBBlock P.base rank) := by
      intro c I hI
      unfold Mid
      refine ⟨hS c I hI, fun hc t ht => Or.inr (hE c I hI hc t ht), ?_⟩
      rcases hΨ c I hI with h | h | ⟨h, hc, _⟩
      · exact Or.inl h
      · exact Or.inr (Or.inl h)
      · exact Or.inr (Or.inr ⟨h, Or.inl hc⟩)
    -- the last block
    have hL0id : L0.id = l := by
      have := congrArg (Option.map Block.id) hL0
      rw [← List.getLast?_map, ids_eraseInst, ids_replaceAllUsesWith, ids_insertBefore, hlast]
        at this
      exact (Option.some.inj this).symm
    have hLid : L.id = l := by
      have := congrArg (Option.map Block.id) hL
      rw [← List.getLast?_map, ids_eraseInst, ids_insertAtEnd, ids_eraseInst,
        ids_replaceAllUsesWith, ids_insertBefore, hlast] at this
      exact (Option.some.inj this).symm
    have hcondbr : Mid fname P.newEntryBB P.entryBB (P.newEntryBB + 1) P.recBBlock P.base rank
        P.entryBB ⟨P.base + 3 + P.F.numArgs,
          .condbr (.inst (P.base + 2 + P.F.numArgs)) L0.id P.recBBlock⟩ := by
      unfold Mid
      refine ⟨fun _ => rfl, fun _ t ht => Or.inr ?_, Or.inr (Or.inr ⟨by simp; omega, Or.inl rfl⟩)⟩
      simp only [Inst.targets, List.mem_cons, List.mem_singleton, List.not_mem_nil, or_false]
        at ht
      rcases ht with rfl | rfl
      · rw [hL0id]; exact hr2
      · simpa [substBlock] using hr1
    have hbRid : bR.id < P.base := by
      have hbRin : InstIn _ L.id bR := ⟨L, mem_of_getLast? hL, rfl, mem_dropLast (prevNonDebug_mem hbR)⟩
      have hm : Mid fname P.newEntryBB P.entryBB (P.newEntryBB + 1) P.recBBlock P.base rank
          L.id bR := by
        refine (?_ : AllInsts _ _) L.id bR hbRin
        refine allInsts_eraseInst ?_
        refine allInsts_insertAtEnd ?_ hcondbr
        refine allInsts_eraseInst ?_
        refine allInsts_replaceAllUsesWith hT _ _ ?_
        refine allInsts_insertBefore hMid0 ?_
        exact mid_new rfl rfl (by simp; omega) (Or.inl rfl)
      rw [hLid] at hm
      unfold Mid at hm
      rcases hm.2.2 with h | ⟨_, h⟩ | ⟨_, h | h⟩
      · exact h
      · exact absurd h h4
      · exact absurd h h5
      · exact absurd h h7
    refine loopInv_of_mid _ fname _ _ _ _ _ L0.id (P.base + 3 + P.F.numArgs)
      (P.base + 4 + P.F.numArgs) rank ?_ ?_ ?_ ?_ ?_ ?_ h1 h2 h3
    · rw [name_replaceAllUsesWith, name_replaceAllUsesWith, name_insertBefore, name_insertBefore,
        name_createBlockBefore, name_eraseInst, name_replaceAllUsesWith, name_eraseInst,
        name_insertAtEnd, name_eraseInst, name_replaceAllUsesWith, name_insertBefore]
      exact hname
    · rw [head_replaceAllUsesWith, head_replaceAllUsesWith, head_insertBefore, head_insertBefore]
      refine head_createBlockBefore _ _ _ _ ?_ (by rw [hLid]; exact h4)
      rw [head_eraseInst, head_replaceAllUsesWith, head_eraseInst, head_insertAtEnd,
        head_eraseInst, head_replaceAllUsesWith, head_insertBefore]
      exact hhead
    · refine allInsts_replaceAllUsesWith hT _ _ ?_
      refine allInsts_replaceAllUsesWith hT _ _ ?_
      refine allInsts_insertBefore ?_ (mid_new rfl rfl (by simp; omega) (Or.inr rfl))
      refine allInsts_insertBefore ?_ (mid_new rfl rfl (by simp; omega) (Or.inr rfl))
      refine allInsts_createBlockBefore ?_ ?_
      · refine allInsts_eraseInst ?_
        refine allInsts_replaceAllUsesWith hT _ _ ?_
        refine allInsts_eraseInst ?_
        refine allInsts_insertAtEnd ?_ hcondbr
        refine allInsts_eraseInst ?_
        refine allInsts_replaceAllUsesWith hT _ _ ?_
        refine allInsts_insertBefore hMid0 ?_
        exact mid_new rfl rfl (by simp; omega) (Or.inl rfl)
      · intro I hI
        rw [List.mem_singleton.1 hI]
        unfold Mid
        refine ⟨fun _ => rfl, fun _ t ht => Or.inl ⟨rfl, ?_⟩,
          Or.inr (Or.inr ⟨by simp; omega, Or.inr rfl⟩)⟩
        simp only [Inst.targets, List.mem_singleton] at ht
        simp [substBlock, ht, h1]
    · refine hasBranch_replaceAllUsesWith _ _ ?_
      refine hasBranch_replaceAllUsesWith _ _ ?_
      refine hasBranch_insertBefore _ _ _ ?_
      refine hasBranch_insertBefore _ _ _ ?_
      refine hasBranch_createBlockBefore _ _ ?_
      refine hasBranch_eraseInst (by omega) ?_
      refine hasBranch_replaceAllUsesWith _ _ ?_
      refine hasBranch_eraseInst (by omega) ?_
      refine hasBranch_insertAtEnd _ _ ?_
      refine hasBranch_eraseInst (by omega) ?_
      refine hasBranch_replaceAllUsesWith _ _ ?_
      refine hasBranch_insertBefore _ _ _ ?_
      exact ⟨_, hpre, rfl, rfl⟩
    · refine hasBranch_replaceAllUsesWith _ _ ?_
      refine hasBranch_replaceAllUsesWith _ _ ?_
      refine hasBranch_insertBefore _ _ _ ?_
      refine hasBranch_insertBefore _ _ _ ?_
      refine hasBranch_createBlockBefore _ _ ?_
      refine hasBranch_eraseInst (by omega) ?_
      refine hasBranch_replaceAllUsesWith _ _ ?_
      refine hasBranch_eraseInst (by omega) ?_
      refine hasBranch_insertAtEnd_new
        ⟨P.base + 3 + P.F.numArgs, .condbr (.inst (P.base + 2 + P.F.numArgs)) L0.id P.recBBlock⟩ ?_
      rw [ids_eraseInst, ids_replaceAllUsesWith, ids_insertBefore]
      exact mem_ids.2 ⟨H, hH, hHid⟩
    · refine hasBranch_replaceAllUsesWith _ _ ?_
      refine hasBranch_replaceAllUsesWith _ _ ?_
      refine hasBranch_insertBefore _ _ _ ?_
      refine hasBranch_insertBefore _ _ _ ?_
      refine hasBranch_createBlockBefore_new (P.newEntryBB + 1)
        ⟨P.base + 4 + P.F.numArgs, .br P.entryBB⟩ ?_
      rw [ids_eraseInst, ids_replaceAllUsesWith]
      exact mem_ids.2 ⟨L, mem_of_getLast? hL, rfl⟩

/-! ### The first half of the transformer -/

theorem unique_in_blocks : ∀ (bs : List Block), ((bs.flatMap Block.insts).map Inst.id).Nodup →
    ∀ B ∈ bs, ∀ C ∈ bs, ∀ I ∈ B.insts, ∀ J ∈ C.insts, I.id = J.id → B.id = C.id ∧ I = J := by
  intro bs
  induction bs with
  | nil => intro _ B hB; cases hB
  | cons D rest ih =>
    intro hn B hB C hC I hI J hJ hid
    rw [List.flatMap_cons] at hn
    rcases List.mem_cons.1 hB with rfl | hB1
    · rcases List.mem_cons.1 hC with rfl | hC1
      · exact ⟨rfl, List.inj_on_of_nodup_map (nodup_ids_left _ _ hn) hI hJ hid⟩
      · exact absurd hid (ids_disjoint_of_nodup _ _ hn I J hI
          (List.mem_flatMap.2 ⟨C, hC1, hJ⟩))
    · rcases List.mem_cons.1 hC with rfl | hC1
      · exact absurd hid.symm (ids_disjoint_of_nodup _ _ hn J I hJ
          (List.mem_flatMap.2 ⟨B, hB1, hI⟩))
      · exact ih (nodup_ids_right _ _ hn) B hB1 C hC1 I hI J hJ hid

theorem instIn_unique {F : Func} (hu : (F.allInsts.map Inst.id).Nodup) {b c : Nat} {I J : Inst}
    (hI : InstIn F b I) (hJ : InstIn F c J) (hid : I.id = J.id) : b = c ∧ I = J := by
  obtain ⟨B, hB, rfl, hI⟩ := hI
  obtain ⟨C, hC, rfl, hJ⟩ := hJ
  exact unique_in_blocks F.blocks hu B hB C hC I hI J hJ hid

theorem instIn_lt {F : Func} {b : Nat} {I : Inst} (h : InstIn F b I) :
    I.id < F.freshInst ∧ b < F.freshBlock := by
  obtain ⟨B, hB, rfl, hI⟩ := h
  exact ⟨lt_freshInst (mem_allInsts hB hI), lt_freshBlock hB⟩

/-- Where an instruction of the function with its entry block split comes from: it is the
branch of the new entry block, or one of the new phi nodes of the old entry block, or an
instruction of the function before the split, in its block unless it is a stack allocation
of the entry block. -/
theorem origin_of_split {F G : Func} {entryBB : Block} {others : List Block}
    (hb : F.blocks = entryBB :: others) (hn : (F.blocks.map Block.id).Nodup)
    (hs : SplitOf F G entryBB others) {b : Nat} {I : Inst} (hI : InstIn G b I) :
    (I = ⟨F.freshInst, .br entryBB.id⟩ ∧ b = F.freshBlock) ∨
    (F.freshInst < I.id ∧ I.isPhi = true ∧ b = entryBB.id) ∨
    (∃ b0 J, InstIn F b0 J ∧ I.id = J.id ∧ I.kind.tag = J.kind.tag ∧
      b = if b0 = entryBB.id ∧ J.isAlloca = true then F.freshBlock else b0) := by
  obtain ⟨g, phis, hg, hphis, hblocks⟩ := hs.blocks
  obtain ⟨B, hB, rfl, hI⟩ := hI
  rw [hblocks] at hB
  simp only [splitShape, List.mem_cons, List.mem_map] at hB
  have hentry : entryBB ∈ F.blocks := by rw [hb]; simp
  rcases hB with rfl | rfl | ⟨B0, hB0, rfl⟩
  · simp only [List.map_append, List.map_cons, List.map_nil, List.mem_append, List.mem_map,
      List.mem_singleton] at hI
    rcases hI with ⟨J, hJ, rfl⟩ | rfl
    · obtain ⟨hJ1, hJ2⟩ := List.mem_filter.1 hJ
      refine Or.inr (Or.inr ⟨entryBB.id, J, ⟨entryBB, hentry, rfl, hJ1⟩, (hg J).1, (hg J).2.1,
        ?_⟩)
      simp [hJ2]
    · exact Or.inl ⟨keepsTag_br (keepsTag_of_keepsShape hg) _ _, rfl⟩
  · simp only [List.mem_append, List.mem_map] at hI
    rcases hI with hI | ⟨J, hJ, rfl⟩
    · exact Or.inr (Or.inl ⟨(hphis I hI).2, (hphis I hI).1, rfl⟩)
    · obtain ⟨hJ1, hJ2⟩ := List.mem_filter.1 hJ
      refine Or.inr (Or.inr ⟨entryBB.id, J, ⟨entryBB, hentry, rfl, hJ1⟩, (hg J).1, (hg J).2.1,
        ?_⟩)
      have : J.isAlloca = false := by simpa using hJ2
      simp [this]
  · simp only [Block.mapInsts, List.mem_map] at hI
    obtain ⟨J, hJ, rfl⟩ := hI
    have hne : B0.id ≠ entryBB.id := by
      rw [hb, List.map_cons, List.nodup_cons] at hn
      intro hid
      exact hn.1 (by rw [← hid]; exact List.mem_map_of_mem _ hB0)
    refine Or.inr (Or.inr ⟨B0.id, J, ⟨B0, by rw [hb]; exact List.mem_cons_of_mem _ hB0, rfl,
      hJ⟩, (hg J).1, (hg J).2.1, ?_⟩)
    simp [Block.mapInsts, hne]

/-- No two blocks of the function with its entry block split hold an instruction with the
same identity. -/
theorem split_unique {F G : Func} {entryBB : Block} {others : List Block}
    (hb : F.blocks = entryBB :: others) (hu : F.uniqueIds)
    (hs : SplitOf F G entryBB others) {b c : Nat} {I J : Inst} (hI : InstIn G b I)
    (hJ : InstIn G c J) (hid : I.id = J.id) : b = c := by
  rcases origin_of_split hb hu.1 hs hI with ⟨rfl, rfl⟩ | ⟨h1, _, rfl⟩ | ⟨b0, I0, hI0, e1, _, rfl⟩
  · rcases origin_of_split hb hu.1 hs hJ with ⟨_, rfl⟩ | ⟨h1, _, _⟩ | ⟨c0, J0, hJ0, e1, _, _⟩
    · rfl
    · simp only at hid; omega
    · have := (instIn_lt hJ0).1
      simp only at hid; omega
  · rcases origin_of_split hb hu.1 hs hJ with ⟨rfl, _⟩ | ⟨_, _, rfl⟩ | ⟨c0, J0, hJ0, e1, _, _⟩
    · simp only at hid; omega
    · rfl
    · have := (instIn_lt hJ0).1
      omega
  · have hlt := (instIn_lt hI0).1
    rcases origin_of_split hb hu.1 hs hJ with ⟨rfl, _⟩ | ⟨_, _, _⟩ | ⟨c0, J0, hJ0, e2, _, rfl⟩
    · simp only at hid; omega
    · omega
    · obtain ⟨rfl, rfl⟩ := instIn_unique hu.2 hI0 hJ0 (e1.symm.trans (hid.trans e2))
      rfl

theorem targets_setSuccessor0 {hdr : Nat} {k0 k : Kind} (h : setSuccessor0 hdr k0 = some k)
    (i j : Nat) :
    ∀ t ∈ (⟨i, k⟩ : Inst).targets, t = hdr ∨ t ∈ (⟨j, k0⟩ : Inst).targets := by
  cases k0 <;> simp only [setSuccessor0] at h <;> cases h <;> simp [Inst.targets]

theorem feedLoopBack_shape (F : Func) (entryBB : Block) (G : Func) (P : Prepared)
    (h : feedLoopBack F entryBB G = .done P) :
    ∃ recCall recBlk T k f, recCall ∈ G.allInsts ∧ recCall.isSelfCall G.name = true ∧
      recBlk ∈ G.blocks ∧ (∃ X ∈ recBlk.insts, X.id = recCall.id) ∧ T ∈ recBlk.insts ∧
      T.isTerminator = true ∧ KeepsTag f ∧ P.F = G.mapInsts (f ∘ setKindInst T.id k) ∧
      P.recBBlock = recBlk.id ∧ P.entryBB = entryBB.id ∧ P.newEntryBB = F.freshBlock ∧
      P.base = F.freshInst := by
  unfold feedLoopBack at h
  simp only at h
  cases h1 : getTailCall G with
  | none => simp [h1] at h
  | some recCall =>
    simp only [h1] at h
    cases h2 : G.getParent recCall.id with
    | none => simp [h2] at h
    | some recBlk =>
      simp only [h2] at h
      cases h3 : recBlk.getTerminator with
      | none => simp [h3] at h
      | some T =>
        simp only [h3] at h
        cases h4 : setSuccessor0 entryBB.id T.kind with
        | none => simp [h4] at h
        | some k =>
          simp only [h4] at h
          split at h
          · cases h
          · split at h
            · cases h
            · split at h
              · cases h
              · cases h
                rename_i _ _ bRC _ _ aRC _
                have hp1 := List.mem_of_find?_eq_some h2
                have hp2 := List.find?_some h2
                simp only [List.any_eq_true, beq_iff_eq] at hp2
                refine ⟨recCall, recBlk, T, k,
                  addIncomingInst (F.freshInst + 1 + F.numArgs) aRC.result recBlk.id ∘
                    addIncomingInst (F.freshInst + F.numArgs) bRC.result recBlk.id,
                  List.mem_of_find?_eq_some h1, List.find?_some h1, hp1, hp2,
                  (getTerminator_mem h3).1, (getTerminator_mem h3).2,
                  keepsTag_comp (keepsTag_addIncoming _ _ _) (keepsTag_addIncoming _ _ _),
                  ?_, rfl, rfl, rfl, rfl⟩
                simp only [Func.setKind, Func.addIncoming, mapInsts_mapInsts, Function.comp_def]

theorem selfCall_unique {F : Func} (hone : F.selfCallCount = 1) {I J : Inst}
    (hI : I ∈ F.allInsts) (hJ : J ∈ F.allInsts) (h1 : I.isSelfCall F.name = true)
    (h2 : J.isSelfCall F.name = true) : I = J := by
  unfold Func.selfCallCount at hone
  rw [List.countP_eq_length_filter, List.length_eq_one] at hone
  obtain ⟨x, hx⟩ := hone
  have e1 : I ∈ F.allInsts.filter (Inst.isSelfCall F.name) := List.mem_filter.2 ⟨hI, h1⟩
  have e2 : J ∈ F.allInsts.filter (Inst.isSelfCall F.name) := List.mem_filter.2 ⟨hJ, h2⟩
  rw [hx, List.mem_singleton] at e1 e2
  rw [e1, e2]

theorem targets_of_alloca {I : Inst} (h : I.isAlloca = true) : I.targets = [] := by
  cases I with
  | mk id kind => cases kind <;> simp [Inst.isAlloca, Inst.targets] at h ⊢

theorem targets_of_phi {I : Inst} (h : I.isPhi = true) : I.targets = [] := by
  cases I with
  | mk id kind => cases kind <;> simp [Inst.isPhi, Inst.targets] at h ⊢

theorem setKindInst_of_ne {i : Nat} {k : Kind} {J : Inst} (h : J.id ≠ i) :
    setKindInst i k J = J := by
  simp [setKindInst, h]

theorem id_setKindInst (i : Nat) (k : Kind) (J : Inst) : (setKindInst i k J).id = J.id := by
  unfold setKindInst
  split <;> rfl

theorem loopRank_pre (r : Nat → Nat) (pre hdr loop rb : Nat) :
    loopRank r pre hdr loop rb pre = 0 := by
  simp [loopRank]

theorem loopRank_hdr (r : Nat → Nat) {pre hdr : Nat} (loop rb : Nat) (h : hdr ≠ pre) :
    loopRank r pre hdr loop rb hdr = 1 := by
  simp [loopRank, h]

theorem loopRank_loop (r : Nat → Nat) {pre hdr loop : Nat} (rb : Nat) (h1 : loop ≠ pre)
    (h2 : loop ≠ hdr) : loopRank r pre hdr loop rb loop = r rb + 2 := by
  simp [loopRank, h1, h2]

theorem loopRank_other (r : Nat → Nat) {pre hdr loop x : Nat} (rb : Nat) (h1 : x ≠ pre)
    (h2 : x ≠ hdr) (h3 : x ≠ loop) : loopRank r pre hdr loop rb x = r x + 2 := by
  simp [loopRank, h1, h2, h3]

/-- When the transformer completes on a well-formed function with one direct self-call,
outside the entry block, whose control-flow graph `r` numbers without a loop, it leaves the
loop. -/
theorem eliminateTailCall_loopInv (F : Func) (hwf : F.WellFormed) (hone : F.selfCallCount = 1)
    (hcall : ∀ B, F.blocks.head? = some B → B.hasSelfCall F.name = false)
    (r : Nat → Nat) (hr : ∀ e ∈ F.edges, r e.1 < r e.2) (F1 : Func)
    (hdone : eliminateTailCall F = .done F1) :
    ∃ rank, LoopInv F1 F.name F.freshBlock F.entryId (F.freshBlock + 1) F.freshInst rank := by
  obtain ⟨hu, htgt, hent⟩ := hwf
  unfold eliminateTailCall at hdone
  cases hprep : prepare F with
  | fault w S => simp [hprep] at hdone
  | done P =>
  simp only [hprep] at hdone
  cases hb : F.blocks with
  | nil => simp [prepare, hb] at hprep
  | cons entryBB others =>
  cases hfront : (entryBB.insts.filter fun I => !I.isAlloca) with
  | nil => simp [prepare, hb, hfront] at hprep
  | cons J0 tail =>
  have c : SplitCtx F entryBB others J0 tail := ⟨hb, hfront, hu.1⟩
  cases hbase : getBaseCaseValue (createArgPhis F entryBB others J0) with
  | none => simp [prepare, hb, hfront, hbase] at hprep
  | some v =>
  have hfeed : feedLoopBack F entryBB
      (createAccPhi F entryBB J0 (createArgPhis F entryBB others J0) v) = .done P := by
    rw [← hprep]
    simp [prepare, hb, hfront, hbase]
  have hs := splitOf_createAccPhi c v
  generalize createAccPhi F entryBB J0 (createArgPhis F entryBB others J0) v = G at hfeed hs
  obtain ⟨recCall, recBlk, T, k, f, hrc1, hrc2, hrb, ⟨X, hX1, hX2⟩, hT1, hT2, hf, hPF, e1, e2,
    e3, e4⟩ := feedLoopBack_shape F entryBB G P hfeed
  have hentryId : F.entryId = entryBB.id := by simp [Func.entryId, hb]
  have hpre_hdr : entryBB.id < F.freshBlock := lt_freshBlock (by rw [hb]; simp)
  have hTin : InstIn G recBlk.id T := ⟨recBlk, hrb, rfl, hT1⟩
  -- the call is in the call block, and it comes from the call of the function
  have hrcIn : InstIn G recBlk.id recCall := by
    obtain ⟨b, hb1⟩ := instIn_allInsts.1 hrc1
    have : b = recBlk.id := split_unique hb hu hs hb1 ⟨recBlk, hrb, rfl, hX1⟩ hX2.symm
    rw [← this]; exact hb1
  obtain ⟨C0, hC0, hC0s⟩ : ∃ C0, InstIn F recBlk.id C0 ∧ C0.isSelfCall F.name = true := by
    rcases origin_of_split hb hu.1 hs hrcIn with ⟨rfl, _⟩ | ⟨_, hphi, _⟩ | ⟨b0, C0, hC0, _, et, eb⟩
    · simp [Inst.isSelfCall] at hrc2
    · rw [not_selfCall_of_phi _ hphi] at hrc2; cases hrc2
    · have hs0 : C0.isSelfCall F.name = true := by
        rw [← isSelfCall_of_tag F.name et, ← hs.name]; exact hrc2
      have ha : C0.isAlloca = false := not_alloca_of_selfCall _ hs0
      simp only [ha, Bool.false_eq_true, and_false, if_false] at eb
      rw [eb]
      exact ⟨C0, hC0, hs0⟩
  have hrec_lt : recBlk.id < F.freshBlock := (instIn_lt hC0).2
  obtain ⟨RB, hRB, hRBid, hC0m⟩ := hC0
  have hne1 : entryBB.id ≠ recBlk.id := by
    intro e
    rw [hb] at hRB
    rcases List.mem_cons.1 hRB with rfl | hRB
    · have := hcall RB (by rw [hb]; rfl)
      simp only [Block.hasSelfCall, List.any_eq_false] at this
      exact this C0 hC0m hC0s
    · exact c.others_ne RB hRB (hRBid.trans e.symm)
  have hRBo : RB ∈ others := by
    rw [hb] at hRB
    rcases List.mem_cons.1 hRB with rfl | hRB
    · exact absurd hRBid hne1
    · exact hRB
  have hC0in : InstIn F recBlk.id C0 := ⟨RB, by rw [hb]; exact List.mem_cons_of_mem _ hRBo,
    hRBid, hC0m⟩
  -- the last block
  obtain ⟨g, phis, hg, hphis, hblocks⟩ := hs.blocks
  obtain ⟨l, hl⟩ : ∃ l, (others.map Block.id).getLast? = some l := by
    cases hl : (others.map Block.id).getLast? with
    | none =>
      rw [List.getLast?_eq_none_iff, List.map_eq_nil_iff] at hl
      rw [hl] at hRBo; cases hRBo
    | some l => exact ⟨l, rfl⟩
  obtain ⟨LB, hLB, hLBid⟩ := List.mem_map.1 (mem_of_getLast? hl)
  have hl_lt : l < F.freshBlock := by
    rw [← hLBid]; exact lt_freshBlock (by rw [hb]; exact List.mem_cons_of_mem _ hLB)
  have hl_ne : l ≠ entryBB.id := by rw [← hLBid]; exact c.others_ne LB hLB
  have hlast : (P.F.blocks.map Block.id).getLast? = some l := by
    rw [hPF, ids_mapInsts, hblocks]
    simp only [splitShape, List.map_cons, List.map_map]
    have : (List.map (Block.id ∘ Block.mapInsts g) others) = others.map Block.id := by
      apply List.map_congr_left
      intro B _
      rfl
    rw [this]
    cases ho : others.map Block.id with
    | nil => rw [ho] at hl; cases hl
    | cons x xs =>
      rw [ho] at hl
      simp only [List.getLast?_cons_cons]
      exact hl
  -- what the instructions of the prepared function are
  have hfrom : ∀ b I, InstIn P.F b I → ∃ J, InstIn G b J ∧ I.id = J.id ∧
      (J.id ≠ T.id → I.kind.tag = J.kind.tag) := by
    intro b I hI
    rw [hPF] at hI
    obtain ⟨J, hJ, rfl⟩ := instIn_mapInsts.1 hI
    refine ⟨J, hJ, ?_, fun hne => ?_⟩
    · simp only [Function.comp]
      rw [(hf _).1, id_setKindInst]
    · simp only [Function.comp]
      rw [(hf _).2, setKindInst_of_ne hne]
  have hout : ∀ b J, InstIn G b J → b ≠ recBlk.id → J.id ≠ T.id := by
    intro b J hJ hb1 hid
    exact hb1 (split_unique hb hu hs hJ hTin hid)
  refine ⟨loopRank r F.freshBlock entryBB.id (F.freshBlock + 1) recBlk.id, ?_⟩
  have key := rebuild_loopInv P F1 F.name l
    (loopRank r F.freshBlock entryBB.id (F.freshBlock + 1) recBlk.id) hdone
  rw [e1, e2, e3, e4] at key
  rw [hentryId]
  refine key ?_ ?_ hlast hne1 (by omega) (by omega) (by omega) hl_ne (by omega) (by omega)
    ?_ ?_ ?_ ?_ ?_ ?_
  · rw [hPF]; exact hs.name
  · rw [hPF, head_of_ids (ids_mapInsts G _), hblocks]
    simp [splitShape]
  · -- identities
    intro b I hI
    obtain ⟨J, hJ, eid, etag⟩ := hfrom b I hI
    rcases origin_of_split hb hu.1 hs hJ with ⟨rfl, rfl⟩ | ⟨h1, h2, rfl⟩ | ⟨b0, J1, hJ1, e5, _, _⟩
    · exact Or.inr (Or.inl ⟨eid, rfl⟩)
    · refine Or.inr (Or.inr ⟨by omega, rfl, ?_⟩)
      have hne : J.id ≠ T.id := by
        rcases origin_of_split hb hu.1 hs hTin with ⟨rfl, _⟩ | ⟨_, h3, _⟩ | ⟨_, T1, hT1', e6, _, _⟩
        · simp only; omega
        · rw [isPhi_false_of_terminator hT2] at h3; cases h3
        · have := (instIn_lt hT1').1
          omega
      rw [isPhi_of_tag (etag hne)]
      exact h2
    · have := (instIn_lt hJ1).1
      exact Or.inl (by omega)
  · -- the branch of the new entry block
    have h0 : InstIn G F.freshBlock ⟨F.freshInst, .br entryBB.id⟩ := by
      refine ⟨_, by rw [hblocks]; exact List.mem_cons_self _ _, rfl, ?_⟩
      simp only [List.map_append, List.map_cons, List.map_nil, List.mem_append,
        List.mem_singleton]
      exact Or.inr (keepsTag_br (keepsTag_of_keepsShape hg) _ _).symm
    rw [hPF]
    refine instIn_mapInsts.2 ⟨_, h0, ?_⟩
    simp only [Function.comp]
    rw [setKindInst_of_ne (hout _ _ h0 (by omega)), keepsTag_br hf]
  · -- no self-call outside the call block
    intro b I hI hb1
    obtain ⟨J, hJ, eid, etag⟩ := hfrom b I hI
    rw [isSelfCall_of_tag F.name (etag (hout b J hJ hb1))]
    cases hsc : J.isSelfCall F.name with
    | false => rfl
    | true =>
      exfalso
      rcases origin_of_split hb hu.1 hs hJ with ⟨rfl, _⟩ | ⟨_, h2, _⟩ | ⟨b0, J1, hJ1, _, et, eb⟩
      · simp [Inst.isSelfCall] at hsc
      · rw [not_selfCall_of_phi _ h2] at hsc; cases hsc
      · have hs1 : J1.isSelfCall F.name = true := by
          rw [← isSelfCall_of_tag F.name et]; exact hsc
        have ha : J1.isAlloca = false := not_alloca_of_selfCall _ hs1
        simp only [ha, Bool.false_eq_true, and_false, if_false] at eb
        have := selfCall_unique hone (instIn_allInsts.2 ⟨b0, hJ1⟩)
          (instIn_allInsts.2 ⟨_, hC0in⟩) hs1 hC0s
        rw [this] at hJ1
        exact hb1 (eb.trans (instIn_unique hu.2 hJ1 hC0in rfl).1)
  · -- every branch outside the call block goes forward
    intro b I hI hb1 t ht
    obtain ⟨J, hJ, eid, etag⟩ := hfrom b I hI
    rw [targets_of_tag (etag (hout b J hJ hb1))] at ht
    rcases origin_of_split hb hu.1 hs hJ with ⟨rfl, rfl⟩ | ⟨_, h2, _⟩ | ⟨b0, J1, hJ1, _, et, eb⟩
    · simp only [Inst.targets, List.mem_singleton] at ht
      subst ht
      have hσ : substBlock recBlk.id (F.freshBlock + 1) entryBB.id = entryBB.id := by
        simp [substBlock, hne1]
      rw [hσ, loopRank_pre, loopRank_hdr r _ _ (by omega)]
      omega
    · rw [targets_of_phi h2] at ht; cases ht
    · rw [targets_of_tag et] at ht
      have ha : J1.isAlloca = false := by
        cases h : J1.isAlloca with
        | false => rfl
        | true => rw [targets_of_alloca h] at ht; cases ht
      simp only [ha, Bool.false_eq_true, and_false, if_false] at eb
      subst eb
      have hedge : (b, t) ∈ F.edges := mem_edges.2 ⟨J1, hJ1, ht⟩
      have h5 := hr _ hedge
      obtain ⟨TB, hTB, hTBid⟩ := htgt _ hedge
      have h6 := lt_freshBlock hTB
      have h7 := hent _ hedge
      have h8 := (instIn_lt hJ1).2
      simp only at h5 h6 h7 hTBid
      rw [hTBid] at h6
      rw [hentryId] at h7
      have hb2 : loopRank r F.freshBlock entryBB.id (F.freshBlock + 1) recBlk.id b ≤ r b + 2 := by
        by_cases hbe : b = entryBB.id
        · rw [hbe, loopRank_hdr r _ _ (by omega)]; omega
        · rw [loopRank_other r _ (by omega) hbe (by omega)]
      by_cases htr : t = recBlk.id
      · have hσ : substBlock recBlk.id (F.freshBlock + 1) t = F.freshBlock + 1 := by
          simp [substBlock, htr]
        rw [hσ, loopRank_loop r _ (by omega) (by omega)]
        rw [htr] at h5
        omega
      · have hσ : substBlock recBlk.id (F.freshBlock + 1) t = t := by
          simp [substBlock, htr]
        rw [hσ, loopRank_other r _ (by omega) h7 (by omega)]
        omega
  · rw [loopRank_hdr r _ _ (by omega), loopRank_loop r _ (by omega) (by omega)]
    omega
  · by_cases hlr : l = recBlk.id
    · have hσ : substBlock recBlk.id (F.freshBlock + 1) l = F.freshBlock + 1 := by
        simp [substBlock, hlr]
      rw [hσ, loopRank_hdr r _ _ (by omega), loopRank_loop r _ (by omega) (by omega)]
      omega
    · have hσ : substBlock recBlk.id (F.freshBlock + 1) l = l := by
        simp [substBlock, hlr]
      rw [hσ, loopRank_hdr r _ _ (by omega), loopRank_other r _ (by omega) hl_ne (by omega)]
      omega

/-! ## The loop the pass leaves -/

/-- C4, refuted as stated: `loopTailFn` is accepted by the detector, has exactly one direct
self-call and both shapes the transformer relies on (a base case block, a comparison before
the terminator of the entry block), and the pass completes on it; the result has no direct
self-call, but the branch from the loop body block 7 to the header 0 is not its only
back-edge: the `while` loop of the input (blocks 5 and 3) is still there, reached from the
entry block. -/
theorem second_loop_survives :
    isAccumulatorTailRecursive loopTailFn = true ∧ loopTailFn.selfCallCount = 1 ∧
      loopTailFn.hasBaseCaseBlock = true ∧ loopTailFn.hasEntryCmp = true ∧
      runOnFunction loopTailFn = .done (loopTailLoopFn, true) ∧
      loopTailLoopFn.selfCallCount = 0 ∧
      loopTailLoopFn.Reaches loopTailLoopFn.entryId 5 ∧
      (5, 3) ∈ loopTailLoopFn.edges ∧ (3, 5) ∈ loopTailLoopFn.edges ∧
      ¬ OnlyBackEdge loopTailLoopFn (loopTailFn.freshBlock + 1) loopTailFn.entryId := by
  refine ⟨by decide, by decide, by decide, by decide, by decide, by decide, ?_, by decide,
    by decide, ?_⟩
  · exact Relation.ReflTransGen.tail (Relation.ReflTransGen.single (b := 0) (by decide))
      (by decide)
  · rintro ⟨_, _, rank, h⟩
    have h1 := h (5, 3) (by decide)
    have h2 := h (3, 5) (by decide)
    rcases h1 with h1 | h1
    · exact absurd h1 (by decide)
    · rcases h2 with h2 | h2
      · exact absurd h2 (by decide)
      · simp only at h1 h2
        omega

/-- C4, amended: let the function be well-formed (unique identities, every branch names a
block of the function, no branch names the entry block), accepted by the detector, with
exactly one direct self-call, outside the entry block, and with a control-flow graph without
a loop.  If `eliminateTailCall` completes on it, the function after `eliminateTailCall` and
`removeDeadBlocks` contains no direct self-call, its new loop body block holds an unconditional
branch to the loop header (the old entry block), that branch is the only back-edge of the
function, and the header is reached from the entry block. -/
theorem loop_after_rewrite (F : Func) (hwf : F.WellFormed)
    (hacc : isAccumulatorTailRecursive F = true) (hone : F.selfCallCount = 1)
    (hcall : F.callOutsideEntry = true) (hfree : LoopFree F) (G : Func) (flag : Bool)
    (hrun : runOnFunction F = .done (G, flag)) :
    G.selfCallCount = 0 ∧ (∃ i, InstIn G (F.freshBlock + 1) ⟨i, .br F.entryId⟩) ∧
      OnlyBackEdge G (F.freshBlock + 1) F.entryId ∧ G.Reaches G.entryId F.entryId := by
  obtain ⟨r, hr⟩ := hfree
  unfold runOnFunction at hrun
  rw [if_pos hacc] at hrun
  cases he : eliminateTailCall F with
  | fault w S => simp [he] at hrun
  | done F1 =>
    simp only [he, Outcome.done.injEq, Prod.mk.injEq] at hrun
    have hcall2 : ∀ B, F.blocks.head? = some B → B.hasSelfCall F.name = false := by
      intro B hB
      simpa [Func.callOutsideEntry, hB] using hcall
    obtain ⟨rank, hinv⟩ := eliminateTailCall_loopInv F hwf hone hcall2 r hr F1 he
    rw [← hrun.1]
    exact loopInv_result (loopInv_removeDeadBlocks F1 hinv)

/-- C4, the amended property on the IR of `sum(n) = 0 if n == 0 else n + sum(n-1)`. -/
theorem loop_after_rewrite_witness :
    (accLoopFn .eq 0 0 .sub 1 .add).selfCallCount = 0 ∧
      (∃ i, InstIn (accLoopFn .eq 0 0 .sub 1 .add) (sumFn.freshBlock + 1)
        ⟨i, .br sumFn.entryId⟩) ∧
      OnlyBackEdge (accLoopFn .eq 0 0 .sub 1 .add) (sumFn.freshBlock + 1) sumFn.entryId ∧
      (accLoopFn .eq 0 0 .sub 1 .add).Reaches (accLoopFn .eq 0 0 .sub 1 .add).entryId
        sumFn.entryId :=
  loop_after_rewrite sumFn (by decide) (by decide) (by decide) (by decide)
    ⟨fun b => b, by decide⟩ (accLoopFn .eq 0 0 .sub 1 .add) true (by decide)

/-! ## The detector, exactly -/

theorem firstCall_cons_of_not_call (fname : Nat) (I : Inst) (rest : List Inst)
    (h : I.isCall = false) :
    FirstCallQualifies fname (I :: rest) ↔ FirstCallQualifies fname rest := by
  constructor
  · rintro ⟨before, CI, after, nxt, hl, hb, hs, hn, hc⟩
    cases before with
    | nil =>
      simp only [List.nil_append, List.cons.injEq] at hl
      obtain ⟨rfl, _⟩ := hl
      cases I with
      | mk id kind => cases kind <;> simp [Inst.isSelfCall, Inst.isCall] at hs h
    | cons J before =>
      simp only [List.cons_append, List.cons.injEq] at hl
      exact ⟨before, CI, after, nxt, hl.2, fun K hK => hb K (List.mem_cons_of_mem _ hK), hs, hn,
        hc⟩
  · rintro ⟨before, CI, after, nxt, hl, hb, hs, hn, hc⟩
    refine ⟨I :: before, CI, after, nxt, by rw [hl]; rfl, ?_, hs, hn, hc⟩
    intro K hK
    rcases List.mem_cons.1 hK with rfl | hK
    · exact h
    · exact hb K hK

theorem firstCall_cons_of_call (fname : Nat) (I : Inst) (rest : List Inst)
    (h : I.isCall = true) :
    FirstCallQualifies fname (I :: rest) ↔
      I.isSelfCall fname = true ∧ ∃ nxt, nextNonDebug rest = some nxt ∧
        checkConditions nxt I = true := by
  constructor
  · rintro ⟨before, CI, after, nxt, hl, hb, hs, hn, hc⟩
    cases before with
    | nil =>
      simp only [List.nil_append, List.cons.injEq] at hl
      obtain ⟨rfl, rfl⟩ := hl
      exact ⟨hs, nxt, hn, hc⟩
    | cons J before =>
      simp only [List.cons_append, List.cons.injEq] at hl
      obtain ⟨rfl, _⟩ := hl
      rw [hb I (List.mem_cons_self _ _)] at h
      cases h
  · rintro ⟨hs, nxt, hn, hc⟩
    exact ⟨[], I, rest, nxt, rfl, fun _ hK => (by cases hK), hs, hn, hc⟩

theorem scanCalls_iff (fname : Nat) :
    ∀ (l : List Inst) (sat : Bool),
      scanCalls fname l sat = true ↔ sat = true ∨ FirstCallQualifies fname l := by
  intro l
  induction l with
  | nil =>
    intro sat
    simp only [scanCalls]
    constructor
    · exact Or.inl
    · rintro (h | ⟨before, CI, after, nxt, hl, _⟩)
      · exact h
      · cases before <;> cases hl
  | cons I rest ih =>
    intro sat
    cases hk : I.kind with
    | call callee args =>
      have hcall : I.isCall = true := by simp [Inst.isCall, hk]
      rw [firstCall_cons_of_call fname I rest hcall]
      simp only [scanCalls, hk]
      by_cases hcal : callee = .fn fname
      · have hself : I.isSelfCall fname = true := by simp [Inst.isSelfCall, hk, hcal]
        simp only [hcal, bne_self_eq_false, Bool.false_eq_true, if_false, hself, true_and]
        cases hn : nextNonDebug rest with
        | none => simp
        | some nxt =>
          simp only [Option.some.injEq, exists_eq_left']
          by_cases hc : checkConditions nxt I = true
          · simp only [hc, if_true, or_true, iff_true]
            exact (ih true).2 (Or.inl rfl)
          · simp [hc]
      · have hself : I.isSelfCall fname = false := by
          cases callee with
          | fn g =>
            have : g ≠ fname := fun e => hcal (by rw [e])
            simp [Inst.isSelfCall, hk, this]
          | dbg => simp [Inst.isSelfCall, hk]
          | indirect => simp [Inst.isSelfCall, hk]
        have hne : (callee != Callee.fn fname) = true := by simpa using hcal
        simp [hne, hself]
    | alloca | load _ | store _ _ | binop _ _ _ | icmp _ _ _ | phi _ | br _ | condbr _ _ _
      | ret _ =>
      have hcall : I.isCall = false := by simp [Inst.isCall, hk]
      rw [firstCall_cons_of_not_call fname I rest hcall]
      simp only [scanCalls, hk]
      exact ih sat

theorem scanBlock_iff (fname : Nat) (sat : Bool) (BB : Block) :
    scanBlock fname sat BB = true ↔
      sat = true ∨ (BB.endsInBranch = true ∧ FirstCallQualifies fname BB.insts) := by
  unfold scanBlock Block.endsInBranch
  cases BB.getTerminator with
  | none => simp
  | some T =>
    simp only
    by_cases hT : T.isBranch = true
    · simp only [hT, if_true, true_and]
      exact scanCalls_iff fname BB.insts sat
    · simp [hT]

theorem foldl_scanBlock_iff (fname : Nat) :
    ∀ (bs : List Block) (sat : Bool),
      bs.foldl (scanBlock fname) sat = true ↔
        sat = true ∨ ∃ B ∈ bs, B.endsInBranch = true ∧ FirstCallQualifies fname B.insts := by
  intro bs
  induction bs with
  | nil => intro sat; simp
  | cons B bs ih =>
    intro sat
    rw [List.foldl_cons, ih, scanBlock_iff]
    simp only [List.mem_cons, exists_eq_or_imp]
    tauto

/-- C17: `isAccumulatorTailRecursive` returns true exactly when some block that ends in a
branch has, as its first call instruction in program order, a direct call to the function
itself whose next non-debug instruction satisfies `checkConditions`.  A qualifying call
further down a block whose first call instruction is not such a call therefore does not
count. -/
theorem detector_true_iff_first_call_qualifies (F : Func) :
    isAccumulatorTailRecursive F = true ↔
      ∃ B ∈ F.blocks, B.endsInBranch = true ∧ FirstCallQualifies F.name B.insts := by
  unfold isAccumulatorTailRecursive
  rw [foldl_scanBlock_iff]
  simp

/-! ## The dead block eliminator, exactly -/

theorem blockIds_eraseBlock (G : Func) (b : Nat) :
    (G.eraseBlock b).blockIds = G.blockIds.filter fun c => c != b := by
  simp only [Func.blockIds, Func.eraseBlock, List.filter_map]
  rfl

theorem blockIds_foldl_removePredecessor (pred : Nat) :
    ∀ (l : List Nat) (G : Func),
      (l.foldl (fun G s => G.removePredecessor s pred) G).blockIds = G.blockIds := by
  intro l
  induction l with
  | nil => intro G; rfl
  | cons s l ih =>
    intro G
    rw [List.foldl_cons, ih]
    exact ids_updateBlock G s _

theorem blockIds_dropInsts (b : Nat) :
    ∀ (l : List Inst) (G : Func), (dropInsts b l G).blockIds = G.blockIds := by
  intro l
  induction l with
  | nil => intro G; rfl
  | cons I l ih =>
    intro G
    simp only [dropInsts]
    rw [← ih G]
    exact (ids_updateBlock _ b _).trans (ids_mapInsts _ _)

theorem findBlock_isSome {G : Func} {b : Nat} :
    (G.findBlock b).isSome = true ↔ b ∈ G.blockIds := by
  simp only [Func.findBlock, Func.blockIds, List.find?_isSome, List.mem_map, beq_iff_eq]

/-- One step of the loop of `removeDeadBlocks`: the block is left alone, or it was there
without a predecessor and not the entry block, and it is erased. -/
theorem removeDeadStep_cases (G : Func) (flag : Bool) (b : Nat) :
    (removeDeadStep (G, flag) b = (G, flag) ∧
      ¬ (b ∈ G.blockIds ∧ G.predEmpty b = true ∧ G.nonEntry b)) ∨
    (b ∈ G.blockIds ∧ G.predEmpty b = true ∧ G.nonEntry b ∧
      (removeDeadStep (G, flag) b).2 = true ∧
      (removeDeadStep (G, flag) b).1.blockIds = G.blockIds.filter (fun c => c != b) ∧
      Sim b G (removeDeadStep (G, flag) b).1) := by
  have hsim := removeDeadStep_sim G flag b
  unfold removeDeadStep at hsim ⊢
  simp only at hsim ⊢
  cases hfb : G.findBlock b with
  | none =>
    left
    refine ⟨rfl, fun h => ?_⟩
    have := findBlock_isSome.2 h.1
    rw [hfb] at this
    cases this
  | some BB =>
    have hmem : b ∈ G.blockIds := findBlock_isSome.1 (by rw [hfb]; rfl)
    simp only [hfb] at hsim ⊢
    by_cases hp : G.predEmpty b = true
    · simp only [hp, Bool.not_true, Bool.false_eq_true, if_false] at hsim ⊢
      by_cases hh : (G.blocks.head?.map Block.id) = some b
      · simp only [hh, beq_self_eq_true, if_true]
        left
        exact ⟨trivial, fun h => h.2.2 hh⟩
      · have hh2 : ((G.blocks.head?.map Block.id) == some b) = false := by simpa using hh
        simp only [hh2, Bool.false_eq_true, if_false] at hsim ⊢
        right
        refine ⟨hmem, trivial, hh, trivial, ?_, ?_⟩
        · rw [blockIds_eraseBlock]
          congr 1
          split
          · rw [blockIds_dropInsts, blockIds_foldl_removePredecessor]
          · rw [blockIds_foldl_removePredecessor]
        · rcases hsim with h | h
          · exact absurd h.symm (by
              intro e
              have := congrArg Func.blockIds e
              rw [blockIds_eraseBlock] at this
              have hb2 : b ∈ G.blockIds := hmem
              rw [this] at hb2
              simp at hb2)
          · exact h.2.2
    · simp only [Bool.not_eq_true] at hp
      simp only [hp, Bool.not_false, if_true]
      left
      exact ⟨trivial, fun h => absurd h.2.1 (by simp)⟩

theorem predEmpty_of_sim {b0 : Nat} {G H : Func} (hs : Sim b0 G H) {c : Nat}
    (h : G.predEmpty c = true) : H.predEmpty c = true := by
  cases hH : H.predEmpty c with
  | true => rfl
  | false =>
    exfalso
    simp only [Func.predEmpty, Bool.not_eq_false', List.any_eq_true, Bool.and_eq_true] at hH
    obtain ⟨I, hI, _, ht⟩ := hH
    obtain ⟨d, hd⟩ := instIn_allInsts.1 hI
    obtain ⟨J, hJ, _, etag⟩ := hs.back d I hd
    have ht2 : c ∈ J.targets := by
      rw [← targets_of_tag etag]; simpa using ht
    rw [predEmpty_false hJ ht2] at h
    cases h

theorem removeDeadStep_mem (st : Func × Bool) (b c : Nat)
    (h : c ∈ (removeDeadStep st b).1.blockIds) : c ∈ st.1.blockIds := by
  obtain ⟨G, flag⟩ := st
  rcases removeDeadStep_cases G flag b with ⟨e, _⟩ | ⟨_, _, _, _, e, _⟩
  · rw [e] at h; exact h
  · rw [e] at h; exact (List.mem_filter.1 h).1

theorem removeDeadStep_keeps (st : Func × Bool) (b c : Nat) (hne : c ≠ b)
    (h : c ∈ st.1.blockIds) : c ∈ (removeDeadStep st b).1.blockIds := by
  obtain ⟨G, flag⟩ := st
  rcases removeDeadStep_cases G flag b with ⟨e, _⟩ | ⟨_, _, _, _, e, _⟩
  · rw [e]; exact h
  · rw [e]; exact List.mem_filter.2 ⟨h, by simpa using hne⟩

theorem removeDeadStep_predEmpty (st : Func × Bool) (b c : Nat)
    (h : st.1.predEmpty c = true) : (removeDeadStep st b).1.predEmpty c = true := by
  obtain ⟨G, flag⟩ := st
  rcases removeDeadStep_cases G flag b with ⟨e, _⟩ | ⟨_, _, _, _, _, hs⟩
  · rw [e]; exact h
  · exact predEmpty_of_sim hs h

theorem removeDeadStep_head (st : Func × Bool) (b : Nat) :
    (removeDeadStep st b).1.blocks.head?.map Block.id = st.1.blocks.head?.map Block.id := by
  obtain ⟨G, flag⟩ := st
  rcases removeDeadStep_cases G flag b with ⟨e, _⟩ | ⟨_, _, hh, _, _, hs⟩
  · rw [e]
  · exact hs.head hh

theorem foldl_removeDeadStep_mem (c : Nat) :
    ∀ (l : List Nat) (st : Func × Bool), c ∈ (l.foldl removeDeadStep st).1.blockIds →
      c ∈ st.1.blockIds := by
  intro l
  induction l with
  | nil => intro st h; exact h
  | cons b l ih => intro st h; exact removeDeadStep_mem st b c (ih _ h)

theorem foldl_removeDeadStep_keeps (c : Nat) :
    ∀ (l : List Nat) (st : Func × Bool), c ∉ l → c ∈ st.1.blockIds →
      c ∈ (l.foldl removeDeadStep st).1.blockIds := by
  intro l
  induction l with
  | nil => intro st _ h; exact h
  | cons b l ih =>
    intro st hc h
    simp only [List.mem_cons, not_or] at hc
    exact ih _ hc.2 (removeDeadStep_keeps st b c hc.1 h)

theorem foldl_removeDeadStep_predEmpty (c : Nat) :
    ∀ (l : List Nat) (st : Func × Bool), st.1.predEmpty c = true →
      (l.foldl removeDeadStep st).1.predEmpty c = true := by
  intro l
  induction l with
  | nil => intro st h; exact h
  | cons b l ih => intro st h; exact ih _ (removeDeadStep_predEmpty st b c h)

theorem foldl_removeDeadStep_head :
    ∀ (l : List Nat) (st : Func × Bool),
      (l.foldl removeDeadStep st).1.blocks.head?.map Block.id =
        st.1.blocks.head?.map Block.id := by
  intro l
  induction l with
  | nil => intro st; rfl
  | cons b l ih => intro st; rw [List.foldl_cons, ih, removeDeadStep_head]

theorem foldl_removeDeadStep_removes (b : Nat) :
    ∀ (l : List Nat) (st : Func × Bool), b ∈ l → st.1.predEmpty b = true → st.1.nonEntry b →
      b ∉ (l.foldl removeDeadStep st).1.blockIds := by
  intro l
  induction l with
  | nil => intro st h; cases h
  | cons c l ih =>
    intro st hb hp hh hmem
    by_cases hcb : c = b
    · subst hcb
      have h1 := foldl_removeDeadStep_mem c l _ hmem
      obtain ⟨G, flag⟩ := st
      rcases removeDeadStep_cases G flag c with ⟨e, hnot⟩ | ⟨_, _, _, _, e, _⟩
      · rw [e] at h1
        exact hnot ⟨h1, hp, hh⟩
      · rw [e] at h1
        simp at h1
    · have hb2 : b ∈ l := by
        rcases List.mem_cons.1 hb with e | e
        · exact absurd e.symm hcb
        · exact e
      refine ih _ hb2 (removeDeadStep_predEmpty st c b hp) ?_ hmem
      unfold Func.nonEntry
      rw [removeDeadStep_head]
      exact hh

theorem foldl_removeDeadStep_flag :
    ∀ (l : List Nat) (st : Func × Bool),
      (l.foldl removeDeadStep st).2 = true ↔
        st.2 = true ∨ ∃ c ∈ st.1.blockIds, c ∉ (l.foldl removeDeadStep st).1.blockIds := by
  intro l
  induction l with
  | nil =>
    intro st
    simp only [List.foldl_nil]
    constructor
    · exact Or.inl
    · rintro (h | ⟨c, hc, hn⟩)
      · exact h
      · exact absurd hc hn
  | cons b l ih =>
    intro st
    obtain ⟨G, flag⟩ := st
    rw [List.foldl_cons, ih]
    rcases removeDeadStep_cases G flag b with ⟨e, _⟩ | ⟨hb, _, _, hf, e, _⟩
    · rw [e]
    · constructor
      · intro _
        refine Or.inr ⟨b, hb, fun hmem => ?_⟩
        have := foldl_removeDeadStep_mem b l _ hmem
        rw [e] at this
        simp at this
      · intro _
        exact Or.inl hf

theorem foldl_removeDeadStep_same :
    ∀ (l : List Nat) (st : Func × Bool),
      (∀ c ∈ st.1.blockIds, st.1.nonEntry c → st.1.predEmpty c = false) →
      l.foldl removeDeadStep st = st := by
  intro l
  induction l with
  | nil => intro st _; rfl
  | cons b l ih =>
    intro st h
    obtain ⟨G, flag⟩ := st
    rcases removeDeadStep_cases G flag b with ⟨e, _⟩ | ⟨hb, hp, hh, _⟩
    · rw [List.foldl_cons, e]
      exact ih _ h
    · rw [h b hb hh] at hp
      cases hp

theorem split_at_first (b : Nat) :
    ∀ l : List Nat, b ∈ l →
      ∃ rest, l = (l.takeWhile fun c => c != b) ++ b :: rest := by
  intro l
  induction l with
  | nil => intro h; cases h
  | cons c l ih =>
    intro h
    by_cases hcb : c = b
    · subst hcb
      exact ⟨l, by simp⟩
    · have hb2 : b ∈ l := by
        rcases List.mem_cons.1 h with e | e
        · exact absurd e.symm hcb
        · exact e
      obtain ⟨rest, hr⟩ := ih hb2
      refine ⟨rest, ?_⟩
      have : (c != b) = true := by simpa using hcb
      rw [List.takeWhile_cons, this]
      simp only [if_true, List.cons_append, List.cons.injEq, true_and]
      exact hr

/-- C16: on a function whose blocks have distinct identities, `removeDeadBlocks` deletes every
block other than the entry block that has no predecessor when the pass starts; it keeps the
entry block; a block it deletes is not the entry block and has no predecessor when the loop
reaches it; the flag it returns is true exactly when a block was deleted; and when every block
other than the entry block has a predecessor it returns false and the function as it was. -/
theorem removeDeadBlocks_exact (F : Func) (hn : F.blockIds.Nodup) :
    (∀ b ∈ F.blockIds, F.nonEntry b → F.predEmpty b = true →
      b ∉ (removeDeadBlocks F).1.blockIds) ∧
    (removeDeadBlocks F).1.blocks.head?.map Block.id = F.blocks.head?.map Block.id ∧
    (∀ b ∈ F.blockIds, b ∉ (removeDeadBlocks F).1.blockIds →
      F.nonEntry b ∧ (visitState F b).predEmpty b = true) ∧
    ((removeDeadBlocks F).2 = true ↔
      ∃ b ∈ F.blockIds, b ∉ (removeDeadBlocks F).1.blockIds) ∧
    ((∀ b ∈ F.blockIds, F.nonEntry b → F.predEmpty b = false) →
      removeDeadBlocks F = (F, false)) := by
  refine ⟨?_, ?_, ?_, ?_, ?_⟩
  · intro b hb hh hp
    exact foldl_removeDeadStep_removes b F.blockIds (F, false) hb hp hh
  · exact foldl_removeDeadStep_head F.blockIds (F, false)
  · intro b hb hgone
    obtain ⟨rest, hsplit⟩ := split_at_first b F.blockIds hb
    have hb1 : b ∉ (F.blockIds.takeWhile fun c => c != b) := by
      intro h
      have := List.mem_takeWhile_imp h
      simp at this
    have hb2 : b ∉ rest := by
      intro h
      rw [hsplit] at hn
      have := (List.nodup_append.1 hn).2.1
      exact (List.nodup_cons.1 this).1 h
    have hgone2 : b ∉ (rest.foldl removeDeadStep (removeDeadStep
        ((F.blockIds.takeWhile fun c => c != b).foldl removeDeadStep (F, false)) b)).1.blockIds := by
      have e : removeDeadBlocks F = rest.foldl removeDeadStep (removeDeadStep
          ((F.blockIds.takeWhile fun c => c != b).foldl removeDeadStep (F, false)) b) := by
        unfold removeDeadBlocks
        conv_lhs => rw [show F.blocks.map Block.id = F.blockIds from rfl, hsplit]
        rw [List.foldl_append, List.foldl_cons]
      rw [← e]; exact hgone
    have hin := foldl_removeDeadStep_keeps b _ (F, false) hb1 hb
    generalize hst : (F.blockIds.takeWhile fun c => c != b).foldl removeDeadStep (F, false) = st
      at hgone2 hin
    have hvs : visitState F b = st.1 := by unfold visitState; rw [hst]
    have hhead : st.1.blocks.head?.map Block.id = F.blocks.head?.map Block.id := by
      rw [← hst]; exact foldl_removeDeadStep_head _ _
    obtain ⟨G, flag⟩ := st
    rcases removeDeadStep_cases G flag b with ⟨e, _⟩ | ⟨_, hp, hh, _⟩
    · rw [e] at hgone2
      exact absurd (foldl_removeDeadStep_keeps b rest _ hb2 hin) hgone2
    · refine ⟨?_, by rw [hvs]; exact hp⟩
      unfold Func.nonEntry at hh ⊢
      rw [← hhead]
      exact hh
  · have := foldl_removeDeadStep_flag F.blockIds (F, false)
    simpa [removeDeadBlocks, Func.blockIds] using this
  · intro h
    exact foldl_removeDeadStep_same F.blockIds (F, false) h

/-- C16, on the function `eliminateTailCall` makes of the sum recursion: its block identities
are distinct, and the flag of `removeDeadBlocks` is true exactly when a block is gone. -/
theorem removeDeadBlocks_exact_witness :
    (accRawFn .eq 0 0 .sub 1 .add).blockIds.Nodup ∧
      ((removeDeadBlocks (accRawFn .eq 0 0 .sub 1 .add)).2 = true ↔
        ∃ b ∈ (accRawFn .eq 0 0 .sub 1 .add).blockIds,
          b ∉ (removeDeadBlocks (accRawFn .eq 0 0 .sub 1 .add)).1.blockIds) :=
  ⟨by decide, (removeDeadBlocks_exact (accRawFn .eq 0 0 .sub 1 .add) (by decide)).2.2.2.1⟩

/-! ## Merge values of functions the transformer gets wrong -/

/-- C11, the code at a function with two arguments: the detector accepts `twoArgFn` and the
pass completes; in the result the header (block 0) has two predecessors, the new entry block
4 and the loop body block 5, and the merge value of the first argument (instruction 22) has
one incoming entry only, from the new entry block.  The merge value of the last argument
(23) and the accumulator (24) have both. -/
theorem first_argument_phi_has_one_entry :
    isAccumulatorTailRecursive twoArgFn = true ∧ twoArgFn.WellFormed ∧
      runOnFunction twoArgFn = .done (twoArgLoopFn, true) ∧
      (4, 0) ∈ twoArgLoopFn.edges ∧ (5, 0) ∈ twoArgLoopFn.edges ∧
      twoArgLoopFn.findInst 22 = some ⟨22, .phi [(.arg 0, 4)]⟩ ∧
      twoArgLoopFn.findInst 23 = some ⟨23, .phi [(.arg 1, 4), (.inst 28, 5)]⟩ ∧
      twoArgLoopFn.findInst 24 = some ⟨24, .phi [(.const 0, 4), (.inst 29, 5)]⟩ := by
  decide

/-- C18, the code at a function whose recursive case is laid out first: the detector accepts
`recFirstFn` and the pass completes; the base case block (block 2) stores the constant 0, but
`getBaseCaseValue` returns the value the call block (block 1) stores, the update instruction
11, and in the result both entries of the accumulator merge value (instruction 20) carry the
new update instruction 25.  The input returns 6 on 3; the result returns nothing. -/
theorem base_value_read_from_call_block :
    isAccumulatorTailRecursive recFirstFn = true ∧ recFirstFn.WellFormed ∧
      recFirstFn.findInst 14 = some ⟨14, .store (.const 0) (.inst 1)⟩ ∧
      recFirstFn.findInst 12 = some ⟨12, .store (.inst 11) (.inst 1)⟩ ∧
      getBaseCaseValue recFirstFn = some (.inst 11) ∧
      runOnFunction recFirstFn = .done (recFirstLoopFn, true) ∧
      recFirstLoopFn.findInst 20 = some ⟨20, .phi [(.inst 25, 4), (.inst 25, 5)]⟩ ∧
      run recFirstFn 200 [3] = some 6 ∧ run recFirstLoopFn 200 [3] = none := by
  decide

/-! ## The instructions of a block through the mutation primitives -/

theorem replaceAllUsesWith_eq (G : Func) (old new : Value) :
    G.replaceAllUsesWith old new = G.mapInsts (rauw old new) := rfl

theorem find?_map_block (f : Block → Block) (hf : ∀ B, (f B).id = B.id) (b : Nat) :
    ∀ bs : List Block, (bs.map f).find? (fun B => B.id == b) =
      (bs.find? fun B => B.id == b).map f := by
  intro bs
  induction bs with
  | nil => rfl
  | cons B bs ih =>
    simp only [List.map_cons, List.find?_cons, hf]
    split
    · rfl
    · exact ih

theorem instsOf_mapInsts (G : Func) (f : Inst → Inst) (b : Nat) :
    (G.mapInsts f).instsOf b = (G.instsOf b).map (List.map f) := by
  simp only [Func.instsOf, Func.findBlock, Func.mapInsts]
  rw [find?_map_block (Block.mapInsts f) (fun _ => rfl)]
  cases G.blocks.find? fun B => B.id == b <;> rfl

theorem instsOf_updateBlock (G : Func) (b0 : Nat) (u : List Inst → List Inst) (b : Nat) :
    (G.updateBlock b0 u).instsOf b = (G.instsOf b).map fun l => if b = b0 then u l else l := by
  simp only [Func.instsOf, Func.findBlock, Func.updateBlock]
  rw [find?_map_block _ (fun B => by split <;> rfl)]
  cases hfb : G.blocks.find? fun B => B.id == b with
  | none => rfl
  | some B =>
    have hid : B.id = b := by simpa using List.find?_some hfb
    simp only [Option.map_some', Option.some.injEq]
    by_cases hb : b = b0
    · simp [hb, hid ▸ hb]
    · have : ¬ B.id = b0 := by rw [hid]; exact hb
      simp [hb, this]

theorem instsOf_insertBefore (G : Func) (b0 a : Nat) (N : Inst) (b : Nat) :
    (G.insertBefore b0 a N).instsOf b =
      (G.instsOf b).map fun l => if b = b0 then insertBeforeId a N l else l :=
  instsOf_updateBlock G b0 _ b

theorem instsOf_insertAtEnd (G : Func) (b0 : Nat) (N : Inst) (b : Nat) :
    (G.insertAtEnd b0 N).instsOf b =
      (G.instsOf b).map fun l => if b = b0 then l ++ [N] else l :=
  instsOf_updateBlock G b0 _ b

theorem instsOf_eraseInst (G : Func) (i b : Nat) :
    (G.eraseInst i).instsOf b = (G.instsOf b).map (dropId i) := by
  simp only [Func.instsOf, Func.findBlock, Func.eraseInst]
  rw [find?_map_block (fun B => ⟨B.id, B.insts.filter fun I => I.id != i⟩) (fun _ => rfl)]
  cases G.blocks.find? fun B => B.id == b <;> rfl

theorem find?_insertBlockBefore_ne (x b : Nat) (N : Block) (h : N.id ≠ b) :
    ∀ bs : List Block, (insertBlockBefore x N bs).find? (fun B => B.id == b) =
      bs.find? fun B => B.id == b := by
  intro bs
  induction bs with
  | nil => rfl
  | cons B bs ih =>
    unfold insertBlockBefore
    split
    · simp [List.find?_cons, h]
    · simp only [List.find?_cons]
      split
      · rfl
      · exact ih

theorem instsOf_createBlockBefore_ne (G : Func) (x : Nat) (N : Block) (b : Nat)
    (h : N.id ≠ b) : (G.createBlockBefore x N).instsOf b = G.instsOf b := by
  simp only [Func.instsOf, Func.findBlock, Func.createBlockBefore]
  rw [find?_insertBlockBefore_ne x b N h]

theorem find?_insertBlockBefore_new (x : Nat) (N : Block) :
    ∀ bs : List Block, x ∈ bs.map Block.id → N.id ∉ bs.map Block.id →
      (insertBlockBefore x N bs).find? (fun B => B.id == N.id) = some N := by
  intro bs
  induction bs with
  | nil => intro h; cases h
  | cons B bs ih =>
    intro hx hN
    simp only [List.map_cons, List.mem_cons, not_or] at hx hN
    unfold insertBlockBefore
    split
    · simp
    · rename_i hne
      have hBx : ¬ x = B.id := fun e => hne (by simp [e])
      have hBN : ¬ B.id = N.id := fun e => hN.1 e.symm
      simp only [List.find?_cons]
      rw [show (B.id == N.id) = false from by simpa using hBN]
      exact ih (hx.resolve_left hBx) hN.2

theorem instsOf_createBlockBefore_new (G : Func) (x : Nat) (N : Block)
    (hx : x ∈ G.blockIds) (hN : N.id ∉ G.blockIds) :
    (G.createBlockBefore x N).instsOf N.id = some N.insts := by
  simp only [Func.instsOf, Func.findBlock, Func.createBlockBefore]
  rw [find?_insertBlockBefore_new x N G.blocks hx hN]
  rfl

theorem blocks_replaceBlockUsesWith (G : Func) (old new : Nat) :
    (G.replaceBlockUsesWith old new).blocks = G.blocks.map fun B =>
      Block.mapInsts (blockRauw G old new B.id) B := by
  have step : ∀ B : Block,
      (if (rauwSuccs G old new).contains (Block.mapInsts (retarget old new) B).id then
        Block.mapInsts (resource old new) (Block.mapInsts (retarget old new) B)
      else Block.mapInsts (retarget old new) B) =
        Block.mapInsts (blockRauw G old new B.id) B := by
    intro B
    unfold blockRauw
    by_cases hc : (rauwSuccs G old new).contains B.id = true
    · rw [if_pos (show (rauwSuccs G old new).contains
        (Block.mapInsts (retarget old new) B).id = true from hc), if_pos hc]
      simp [Block.mapInsts]
    · rw [if_neg (show ¬ (rauwSuccs G old new).contains
        (Block.mapInsts (retarget old new) B).id = true from hc), if_neg hc]
  simp only [Func.replaceBlockUsesWith, Func.mapInsts, List.map_map]
  apply List.map_congr_left
  intro B _
  exact step B

theorem instsOf_replaceBlockUsesWith (G : Func) (old new b : Nat) :
    (G.replaceBlockUsesWith old new).instsOf b =
      (G.instsOf b).map (List.map (blockRauw G old new b)) := by
  simp only [Func.instsOf, Func.findBlock, blocks_replaceBlockUsesWith]
  rw [find?_map_block (fun B => Block.mapInsts (blockRauw G old new B.id) B) (fun _ => rfl)]
  cases hfb : G.blocks.find? fun B => B.id == b with
  | none => rfl
  | some B =>
    have hid : B.id = b := by simpa using List.find?_some hfb
    simp [Block.mapInsts, hid]

theorem instIn_replaceBlockUsesWith_iff {G : Func} {old new c : Nat} {I : Inst} :
    InstIn (G.replaceBlockUsesWith old new) c I ↔
      ∃ J, InstIn G c J ∧ I = blockRauw G old new c J := by
  simp only [InstIn, blocks_replaceBlockUsesWith, List.mem_map]
  constructor
  · rintro ⟨_, ⟨B, hB, rfl⟩, rfl, hI⟩
    simp only [Block.mapInsts, List.mem_map] at hI
    obtain ⟨J, hJ, rfl⟩ := hI
    exact ⟨J, ⟨B, hB, rfl, hJ⟩, rfl⟩
  · rintro ⟨J, ⟨B, hB, rfl, hJ⟩, rfl⟩
    exact ⟨_, ⟨B, hB, rfl⟩, rfl, List.mem_map_of_mem _ hJ⟩

theorem mem_block_iff_find (c : Nat) (I : Inst) :
    ∀ bs : List Block, (bs.map Block.id).Nodup →
      ((∃ B ∈ bs, B.id = c ∧ I ∈ B.insts) ↔
        ∃ l, ((bs.find? fun B => B.id == c).map Block.insts) = some l ∧ I ∈ l) := by
  intro bs
  induction bs with
  | nil => intro _; simp
  | cons B bs ih =>
    intro hn
    rw [List.map_cons, List.nodup_cons] at hn
    by_cases hB : B.id = c
    · subst hB
      simp only [List.mem_cons, List.find?_cons, beq_self_eq_true, Option.map_some',
        Option.some.injEq, exists_eq_left']
      constructor
      · rintro ⟨C, hC | hC, hid, hI⟩
        · rw [hC] at hI; exact hI
        · exact absurd (by rw [← hid]; exact List.mem_map_of_mem _ hC) hn.1
      · intro hI
        exact ⟨B, Or.inl rfl, rfl, hI⟩
    · have hB2 : (B.id == c) = false := by simpa using hB
      simp only [List.mem_cons, List.find?_cons, hB2]
      rw [← ih hn.2]
      constructor
      · rintro ⟨C, hC | hC, hid, hI⟩
        · rw [hC] at hid; exact absurd hid hB
        · exact ⟨C, hC, hid, hI⟩
      · rintro ⟨C, hC, hid, hI⟩
        exact ⟨C, Or.inr hC, hid, hI⟩

theorem instIn_iff_instsOf {G : Func} (hn : G.blockIds.Nodup) {c : Nat} {I : Inst} :
    InstIn G c I ↔ ∃ l, G.instsOf c = some l ∧ I ∈ l :=
  mem_block_iff_find c I G.blocks hn

theorem find?_filter_ne (b0 b : Nat) (h : b ≠ b0) :
    ∀ bs : List Block, (bs.filter fun B => B.id != b0).find? (fun B => B.id == b) =
      bs.find? fun B => B.id == b := by
  intro bs
  induction bs with
  | nil => rfl
  | cons B bs ih =>
    by_cases hB : B.id = b0
    · have h1 : (B.id != b0) = false := by simp [hB]
      have h2 : (B.id == b) = false := by
        simp only [beq_eq_false_iff_ne, ne_eq]
        exact fun e => h (e.symm.trans hB)
      rw [List.filter_cons, h1, List.find?_cons, h2]
      exact ih
    · have h1 : (B.id != b0) = true := by simpa using hB
      rw [List.filter_cons, h1]
      simp only [if_true, List.find?_cons]
      split
      · rfl
      · exact ih

theorem instsOf_eraseBlock_ne (G : Func) (b0 b : Nat) (h : b ≠ b0) :
    (G.eraseBlock b0).instsOf b = G.instsOf b := by
  simp only [Func.instsOf, Func.findBlock, Func.eraseBlock]
  rw [find?_filter_ne b0 b h]

theorem blockIds_eq (G : Func) : G.blocks.map Block.id = G.blockIds := rfl

theorem ids_insertBlockBefore (x : Nat) (N : Block) :
    ∀ bs : List Block, x ∈ bs.map Block.id →
      ∃ l1 l2, bs.map Block.id = l1 ++ x :: l2 ∧
        (insertBlockBefore x N bs).map Block.id = l1 ++ N.id :: x :: l2 := by
  intro bs
  induction bs with
  | nil => intro hx; cases hx
  | cons B bs ih =>
    intro hx
    by_cases hB : B.id = x
    · refine ⟨[], bs.map Block.id, by simp [hB], ?_⟩
      simp [insertBlockBefore, hB]
    · have hx2 : x ∈ bs.map Block.id := by
        simp only [List.map_cons, List.mem_cons] at hx
        rcases hx with e | e
        · exact absurd e.symm hB
        · exact e
      obtain ⟨l1, l2, e1, e2⟩ := ih hx2
      refine ⟨B.id :: l1, l2, by simp [e1], ?_⟩
      simp [insertBlockBefore, hB, e2]

theorem blockIds_createBlockBefore (G : Func) (x : Nat) (N : Block) (hx : x ∈ G.blockIds) :
    ∃ l1 l2, G.blockIds = l1 ++ x :: l2 ∧
      (G.createBlockBefore x N).blockIds = l1 ++ N.id :: x :: l2 :=
  ids_insertBlockBefore x N G.blocks hx

/-! ## The second half of the transformer, stage by stage -/

theorem rebuild_summary (P : Prepared) (F1 : Func) (h : rebuild P = .done F1) :
    ∃ eT oC p a b L bR op1 a1 b1 op2 a2 b2,
      Rebuilt P F1 eT oC p a b L bR op1 a1 b1 op2 a2 b2 := by
  simp only [rebuild] at h
  repeat' split at h
  all_goals cases h
  rename_i _ eT heT _ oC hoC _ p a b hk _ L0 hL0 _ L hL _ T hT _ bR hbR _ op1 a1 b1 hop1 _ op2
    a2 b2 hop2
  have hid : L0.id = L.id := by
    have e0 := congrArg (Option.map Block.id) hL0
    have e1 := congrArg (Option.map Block.id) hL
    rw [← List.getLast?_map, ids_eraseInst, ids_replaceAllUsesWith, ids_insertBefore] at e0
    rw [← List.getLast?_map, ids_eraseInst, ids_insertAtEnd, ids_eraseInst,
      ids_replaceAllUsesWith, ids_insertBefore, e0] at e1
    exact Option.some.inj e1
  rw [hid] at hL hop1 hop2 ⊢
  refine ⟨eT, oC, p, a, b, L, bR, op1, a1, b1, op2, a2, b2, heT, hoC, hk, ?_, hL, ?_, hbR, hop1,
    hop2, rfl⟩
  · have e0 := congrArg (Option.map Block.id) hL0
    rw [Option.map_some', hid] at e0
    exact e0
  · rw [hT]; rfl

theorem rebuilt_result {P : Prepared} {F1 : Func} {eT oC : Inst} {p : Pred} {a b : Value}
    {L : Block} {bR : Inst} {op1 : BinOp} {a1 b1 : Value} {op2 : BinOp} {a2 b2 : Value}
    (h : Rebuilt P F1 eT oC p a b L bR op1 a1 b1 op2 a2 b2) :
    F1 = rebuildFinish P (rebuildBody P eT oC p b L.id bR op1 b1 op2) := h.result

/-- Every instruction of the function before the uses of the call block are redirected has
a property that does not depend on value operands, when the instructions `rebuild` starts
from and the ones it creates have it. -/
theorem allInsts_rebuildBody {Φ : Nat → Inst → Prop} (hΦ : TagInv Φ) (P : Prepared)
    (eT oC : Inst) (p : Pred) (b : Value) (l : Nat) (bR : Inst) (op1 : BinOp) (b1 : Value)
    (op2 : BinOp) (hX : AllInsts P.F Φ)
    (hcmp : Φ P.entryBB ⟨P.base + 2 + P.F.numArgs, .icmp p (.inst P.phiNodeTmp) b⟩)
    (hcbr : Φ P.entryBB
      ⟨P.base + 3 + P.F.numArgs, .condbr (.inst (P.base + 2 + P.F.numArgs)) l P.recBBlock⟩)
    (hbr : Φ (P.newEntryBB + 1) ⟨P.base + 4 + P.F.numArgs, .br P.entryBB⟩)
    (hN1 : Φ (P.newEntryBB + 1)
      ⟨P.base + 5 + P.F.numArgs, .binop op1 (.inst P.phiNodeTmp) b1⟩)
    (hN2 : Φ (P.newEntryBB + 1)
      ⟨P.base + 6 + P.F.numArgs, .binop op2 (.inst P.phiNodeAcc) (.inst P.phiNodeTmp)⟩) :
    AllInsts (rebuildBody P eT oC p b l bR op1 b1 op2) Φ := by
  unfold rebuildBody rebuildLoop rebuildReturn rebuildBranch rebuildGuard
  refine allInsts_replaceAllUsesWith hΦ _ _ ?_
  refine allInsts_replaceAllUsesWith hΦ _ _ ?_
  refine allInsts_insertBefore ?_ hN2
  refine allInsts_insertBefore ?_ hN1
  refine allInsts_createBlockBefore ?_ ?_
  · refine allInsts_eraseInst ?_
    refine allInsts_replaceAllUsesWith hΦ _ _ ?_
    refine allInsts_eraseInst ?_
    refine allInsts_insertAtEnd ?_ hcbr
    refine allInsts_eraseInst ?_
    refine allInsts_replaceAllUsesWith hΦ _ _ ?_
    exact allInsts_insertBefore hX hcmp
  · intro I hI
    rw [List.mem_singleton.1 hI]
    exact hbr

/-! ## The first half of the transformer, exactly -/

theorem mapValues_mapValues (f g : Value → Value) (k : Kind) :
    (k.mapValues f).mapValues g = k.mapValues (g ∘ f) := by
  cases k <;> simp [Kind.mapValues, Function.comp_def]

theorem argMap_id (base : Nat) : ArgMap base id :=
  ⟨fun _ => rfl, fun _ => rfl, rfl, fun _ => Or.inl rfl⟩

theorem argMap_subst {base : Nat} {r : Value → Value} (hr : ArgMap base r) (i phi : Nat)
    (hphi : base < phi) : ArgMap base (substValue (.arg i) (.inst phi) ∘ r) := by
  obtain ⟨h1, h2, h3, h4⟩ := hr
  refine ⟨fun c => ?_, fun c => ?_, ?_, fun j => ?_⟩
  · simp [Function.comp, h1, substValue]
  · simp [Function.comp, h2, substValue]
  · simp [Function.comp, h3, substValue]
  · rcases h4 j with e | ⟨m, hm, e⟩
    · simp only [Function.comp, e, substValue]
      by_cases hji : j = i
      · right
        exact ⟨phi, hphi, by simp [hji]⟩
      · left
        simp [hji]
    · right
      exact ⟨m, hm, by simp [Function.comp, e, substValue]⟩

theorem mapKind_id (J : Inst) : Inst.mapKind (Kind.mapValues id) J = J := by
  cases J with
  | mk i k =>
    cases k <;> simp [Inst.mapKind, Kind.mapValues]

theorem argSubst_nil (base : Nat) : argSubst base [] = id := by
  funext v
  cases v <;> simp [argSubst]

theorem argSubst_snoc (base : Nat) (done : List Nat) (i : Nat) :
    substValue (.arg i) (.inst (base + 1 + i)) ∘ argSubst base done =
      argSubst base (done ++ [i]) := by
  funext v
  cases v with
  | arg j =>
    by_cases hj : j ∈ done
    · simp [Function.comp, argSubst, substValue, hj]
    · by_cases hji : j = i
      · subst hji
        simp [Function.comp, argSubst, substValue, hj]
      · simp [Function.comp, argSubst, substValue, hj, hji]
  | const c => simp [Function.comp, argSubst, substValue]
  | inst c => simp [Function.comp, argSubst, substValue]
  | undef => simp [Function.comp, argSubst, substValue]

theorem splitAt_splitEntry (F : Func) (entryBB : Block) (others : List Block) :
    SplitAt F (splitEntry F entryBB others) entryBB others [] [] := by
  refine ⟨⟨id, id, keepsShape_id _, argMap_id _, fun J _ => (mapKind_id J).symm, ?_,
    (argSubst_nil _).symm⟩, rfl, rfl⟩
  simp [splitEntry, splitShape, map_mapInsts_id]

theorem splitAt_rauw_arg {F G : Func} {entryBB : Block} {others : List Block}
    {phis : List Inst} {done : List Nat} (h : SplitAt F G entryBB others phis done) (i : Nat) :
    SplitAt F (G.replaceAllUsesWith (.arg i) (.inst (F.freshInst + 1 + i))) entryBB others
      (phis.map (rauw (.arg i) (.inst (F.freshInst + 1 + i)))) (done ++ [i]) := by
  obtain ⟨⟨g, r, hg, hr, hgr, hb, hx⟩, hn, ha⟩ := h
  refine ⟨⟨rauw (.arg i) (.inst (F.freshInst + 1 + i)) ∘ g,
    substValue (.arg i) (.inst (F.freshInst + 1 + i)) ∘ r,
    keepsShape_comp hg (keepsShape_subst_arg F.freshInst i (F.freshInst + 1 + i) (by omega)),
    argMap_subst hr i (F.freshInst + 1 + i) (by omega), ?_, mapInsts_splitShape hb _, ?_⟩,
    hn, ha⟩
  · intro J hJ
    simp only [Function.comp, hgr J hJ, rauw, Inst.mapKind, mapValues_mapValues]
  · rw [hx, argSubst_snoc]

theorem addIncomingInst_of_ne {phi : Nat} {v : Value} {b : Nat} {I : Inst} (h : I.id ≠ phi) :
    addIncomingInst phi v b I = I := by
  simp [addIncomingInst, h]

theorem splitAt_addIncoming {F G : Func} {entryBB : Block} {others : List Block}
    {phis : List Inst} {done : List Nat} (h : SplitAt F G entryBB others phis done) (phi : Nat)
    (v : Value) (b : Nat) (hphi : F.freshInst < phi) :
    SplitAt F (G.addIncoming phi v b) entryBB others (phis.map (addIncomingInst phi v b))
      done := by
  obtain ⟨⟨g, r, hg, hr, hgr, hb, hx⟩, hn, ha⟩ := h
  refine ⟨⟨addIncomingInst phi v b ∘ g, r,
    keepsShape_comp hg (keepsShape_addIncoming F.freshInst phi v b), hr, ?_,
    mapInsts_splitShape hb _, hx⟩, hn, ha⟩
  intro J hJ
  simp only [Function.comp]
  rw [addIncomingInst_of_ne (by rw [(hg J).1]; omega), hgr J hJ]

theorem splitAt_insertBefore {F G : Func} {entryBB : Block} {others : List Block} {J : Inst}
    {tail : List Inst} {phis : List Inst} {done : List Nat}
    (c : SplitCtx F entryBB others J tail) (h : SplitAt F G entryBB others phis done)
    (hphis : ∀ φ ∈ phis, F.freshInst < φ.id) (N : Inst) :
    SplitAt F (G.insertBefore entryBB.id J.id N) entryBB others (phis ++ [N]) done := by
  obtain ⟨⟨g, r, hg, hr, hgr, hb, hx⟩, hn, ha⟩ := h
  rw [c.front] at hb
  have hJ := c.front_lt
  refine ⟨⟨g, r, hg, hr, hgr, ?_, hx⟩, hn, ha⟩
  rw [c.front]
  exact insertBefore_splitShape hb c.pre_ne c.others_ne (hg J).1
    (fun φ hφ => by have := hphis φ hφ; omega) N

theorem argPhi_step (base pre i j : Nat) (hji : j ≠ i) :
    addIncomingInst (base + 1 + i) (.arg i) pre
      (rauw (.arg i) (.inst (base + 1 + i)) (argPhi base pre j)) = argPhi base pre j := by
  have h1 : rauw (.arg i) (.inst (base + 1 + i)) (argPhi base pre j) = argPhi base pre j := by
    simp [rauw, argPhi, Inst.mapKind, Kind.mapValues, substValue, hji]
  rw [h1, addIncomingInst_of_ne (by simp [argPhi]; omega)]

theorem argPhi_new (base pre i : Nat) :
    addIncomingInst (base + 1 + i) (.arg i) pre
      (rauw (.arg i) (.inst (base + 1 + i)) ⟨base + 1 + i, .phi []⟩) = argPhi base pre i := by
  simp [rauw, argPhi, Inst.mapKind, Kind.mapValues, addIncomingInst]

theorem splitAt_addArgPhis {F : Func} {entryBB : Block} {others : List Block} {J : Inst}
    {tail : List Inst} (c : SplitCtx F entryBB others J tail) :
    ∀ (args done : List Nat) (G : Func), (∀ i ∈ args, i ∉ done) → args.Nodup →
      SplitAt F G entryBB others (done.map (argPhi F.freshInst F.freshBlock)) done →
      SplitAt F (addArgPhis entryBB.id F.freshBlock J.id F.freshInst args G) entryBB others
        ((done ++ args).map (argPhi F.freshInst F.freshBlock)) (done ++ args) := by
  intro args
  induction args with
  | nil => intro done G _ _ h; simpa using h
  | cons i args ih =>
    intro done G hnew hnd h
    unfold addArgPhis
    have h1 := splitAt_insertBefore c h (by
      intro φ hφ
      obtain ⟨j, _, rfl⟩ := List.mem_map.1 hφ
      simp [argPhi]; omega) ⟨F.freshInst + 1 + i, .phi []⟩
    have h2 := splitAt_rauw_arg h1 i
    have h3 := splitAt_addIncoming h2 (F.freshInst + 1 + i) (.arg i) F.freshBlock (by omega)
    have hphis : (((done.map (argPhi F.freshInst F.freshBlock) ++
        [(⟨F.freshInst + 1 + i, .phi []⟩ : Inst)]).map (rauw (.arg i) (.inst (F.freshInst + 1 + i)))).map
          (addIncomingInst (F.freshInst + 1 + i) (.arg i) F.freshBlock)) =
        (done ++ [i]).map (argPhi F.freshInst F.freshBlock) := by
      simp only [List.map_append, List.map_map, List.map_cons, List.map_nil, Function.comp]
      rw [argPhi_new]
      congr 1
      apply List.map_congr_left
      intro j hj
      exact argPhi_step _ _ i j (fun e => hnew i (List.mem_cons_self _ _) (e ▸ hj))
    rw [hphis] at h3
    have := ih (done ++ [i]) _ (by
      intro j hj hmem
      rcases List.mem_append.1 hmem with hm | hm
      · exact hnew j (List.mem_cons_of_mem _ hj) hm
      · rw [List.mem_singleton.1 hm] at hj
        exact (List.nodup_cons.1 hnd).1 hj) (List.nodup_cons.1 hnd).2 h3
    simpa using this

theorem splitAt_createArgPhis {F : Func} {entryBB : Block} {others : List Block} {J : Inst}
    {tail : List Inst} (c : SplitCtx F entryBB others J tail) :
    SplitAt F (createArgPhis F entryBB others J) entryBB others
      ((List.range F.numArgs).map (argPhi F.freshInst F.freshBlock))
      (List.range F.numArgs) := by
  have := splitAt_addArgPhis c (List.range F.numArgs) [] (splitEntry F entryBB others)
    (fun _ _ h => by cases h) (List.nodup_range _) (splitAt_splitEntry F entryBB others)
  simpa [createArgPhis] using this

theorem splitAt_createAccPhi {F : Func} {entryBB : Block} {others : List Block} {J : Inst}
    {tail : List Inst} (c : SplitCtx F entryBB others J tail) (v : Value) :
    SplitAt F (createAccPhi F entryBB J (createArgPhis F entryBB others J) v) entryBB others
      ((List.range F.numArgs).map (argPhi F.freshInst F.freshBlock) ++
        [(⟨F.freshInst + 1 + F.numArgs, .phi [(v, F.freshBlock)]⟩ : Inst)])
      (List.range F.numArgs) := by
  have h1 := splitAt_insertBefore c (splitAt_createArgPhis c) (by
    intro φ hφ
    obtain ⟨j, _, rfl⟩ := List.mem_map.1 hφ
    simp [argPhi]; omega) ⟨F.freshInst + 1 + F.numArgs, .phi []⟩
  have h2 := splitAt_addIncoming h1 (F.freshInst + 1 + F.numArgs) v F.freshBlock (by omega)
  have hphis : ((List.range F.numArgs).map (argPhi F.freshInst F.freshBlock) ++
      [(⟨F.freshInst + 1 + F.numArgs, .phi []⟩ : Inst)]).map
        (addIncomingInst (F.freshInst + 1 + F.numArgs) v F.freshBlock) =
      (List.range F.numArgs).map (argPhi F.freshInst F.freshBlock) ++
        [(⟨F.freshInst + 1 + F.numArgs, .phi [(v, F.freshBlock)]⟩ : Inst)] := by
    simp only [List.map_append, List.map_map, List.map_cons, List.map_nil]
    congr 1
    · apply List.map_congr_left
      intro j hj
      simp only [Function.comp]
      have := List.mem_range.1 hj
      exact addIncomingInst_of_ne (by simp [argPhi]; omega)
    · simp [addIncomingInst]
  rw [hphis] at h2
  exact h2

theorem feedLoopBack_exact (F : Func) (entryBB : Block) (G : Func) (P : Prepared)
    (h : feedLoopBack F entryBB G = .done P) :
    ∃ recCall recBlk T k, getTailCall G = some recCall ∧
      G.getParent recCall.id = some recBlk ∧ recBlk.getTerminator = some T ∧
      setSuccessor0 entryBB.id T.kind = some k ∧ 0 < F.numArgs ∧
      prevNonDebug (instsBefore recCall.id recBlk.insts) = some P.beforeRecCall ∧
      nextNonDebug (instsAfter recCall.id recBlk.insts) = some P.afterRecCall ∧
      P.F = G.mapInsts
        (addIncomingInst (F.freshInst + 1 + F.numArgs) P.afterRecCall.result recBlk.id ∘
          addIncomingInst (F.freshInst + F.numArgs) P.beforeRecCall.result recBlk.id ∘
            setKindInst T.id k) ∧
      P.recBBlock = recBlk.id ∧ P.entryBB = entryBB.id ∧ P.newEntryBB = F.freshBlock ∧
      P.base = F.freshInst ∧ P.phiNodeTmp = F.freshInst + F.numArgs ∧
      P.phiNodeAcc = F.freshInst + 1 + F.numArgs ∧ P.recCall = recCall := by
  unfold feedLoopBack at h
  simp only at h
  cases h1 : getTailCall G with
  | none => simp [h1] at h
  | some recCall =>
    simp only [h1] at h
    cases h2 : G.getParent recCall.id with
    | none => simp [h2] at h
    | some recBlk =>
      simp only [h2] at h
      cases h3 : recBlk.getTerminator with
      | none => simp [h3] at h
      | some T =>
        simp only [h3] at h
        cases h4 : setSuccessor0 entryBB.id T.kind with
        | none => simp [h4] at h
        | some k =>
          simp only [h4] at h
          by_cases hn : F.numArgs = 0
          · simp [hn] at h
          · simp only [hn, if_false] at h
            cases h5 : prevNonDebug (instsBefore recCall.id recBlk.insts) with
            | none => simp [h5] at h
            | some bRC =>
              simp only [h5] at h
              cases h6 : nextNonDebug (instsAfter recCall.id recBlk.insts) with
              | none => simp [h6] at h
              | some aRC =>
                simp only [h6] at h
                cases h
                refine ⟨recCall, recBlk, T, k, rfl, h2, h3, h4, Nat.pos_of_ne_zero hn, h5, h6,
                  ?_, rfl, rfl, rfl, rfl, rfl, rfl, rfl⟩
                simp only [Func.setKind, Func.addIncoming, mapInsts_mapInsts, Function.comp_def]

theorem splitOf_of_splitAt {F G : Func} {entryBB : Block} {others : List Block}
    {phis : List Inst} {done : List Nat} (h : SplitAt F G entryBB others phis done)
    (hphis : ∀ φ ∈ phis, φ.isPhi = true ∧ F.freshInst < φ.id) : SplitOf F G entryBB others := by
  obtain ⟨⟨g, r, hg, _, _, hb, _⟩, hn, ha⟩ := h
  exact ⟨⟨g, phis, hg, hphis, hb⟩, hn, ha⟩

theorem eq_of_mem_of_id_eq : ∀ (bs : List Block), (bs.map Block.id).Nodup →
    ∀ B ∈ bs, ∀ C ∈ bs, B.id = C.id → B = C := by
  intro bs
  induction bs with
  | nil => intro _ B hB; cases hB
  | cons X bs ih =>
    intro hn B hB C hC hid
    rw [List.map_cons, List.nodup_cons] at hn
    rcases List.mem_cons.1 hB with rfl | hB1
    · rcases List.mem_cons.1 hC with rfl | hC1
      · rfl
      · exact absurd (hid ▸ List.mem_map_of_mem Block.id hC1) hn.1
    · rcases List.mem_cons.1 hC with rfl | hC1
      · exact absurd (hid ▸ List.mem_map_of_mem Block.id hB1) hn.1
      · exact ih hn.2 B hB1 C hC1 hid

theorem mapKind_alloca (f : Value → Value) {I : Inst} (h : I.isAlloca = true) :
    Inst.mapKind (Kind.mapValues f) I = I := by
  cases I with
  | mk i k => cases k <;> simp [Inst.isAlloca, Inst.mapKind, Kind.mapValues] at h ⊢

theorem not_terminator_of_alloca {I : Inst} (h : I.isAlloca = true) : I.isTerminator = false := by
  cases I with
  | mk i k => cases k <;> simp [Inst.isAlloca, Inst.isTerminator] at h ⊢

theorem targets_setSuccessor0_mem {hdr : Nat} {k0 k : Kind} (h : setSuccessor0 hdr k0 = some k)
    (i : Nat) : hdr ∈ (⟨i, k⟩ : Inst).targets ∧ (⟨i, k⟩ : Inst).isTerminator = true := by
  cases k0 <;> simp only [setSuccessor0] at h <;> cases h <;>
    simp [Inst.targets, Inst.isTerminator]

theorem prepPhis_eq (F : Func) (P : Prepared) (v : Value) (t : Nat) (k : Kind)
    (hn : 0 < F.numArgs) (ht : t < F.freshInst) :
    ((List.range F.numArgs).map (argPhi F.freshInst F.freshBlock) ++
      [(⟨F.freshInst + 1 + F.numArgs, .phi [(v, F.freshBlock)]⟩ : Inst)]).map
        (addIncomingInst (F.freshInst + 1 + F.numArgs) P.afterRecCall.result P.recBBlock ∘
          addIncomingInst (F.freshInst + F.numArgs) P.beforeRecCall.result P.recBBlock ∘
            setKindInst t k) = prepPhis F P v := by
  obtain ⟨m, hm⟩ : ∃ m, F.numArgs = m + 1 := ⟨F.numArgs - 1, by omega⟩
  unfold prepPhis
  rw [hm]
  simp only [List.range_succ, List.map_append, List.map_cons, List.map_nil, List.map_map,
    Nat.add_sub_cancel, List.append_assoc, List.singleton_append]
  congr 1
  · apply List.map_congr_left
    intro j hj
    have := List.mem_range.1 hj
    simp only [Function.comp]
    rw [setKindInst_of_ne (by simp [argPhi]; omega),
      @addIncomingInst_of_ne (F.freshInst + (m + 1)) _ _ _ (by simp [argPhi]; omega),
      addIncomingInst_of_ne (by simp [argPhi]; omega)]
  · have e1 : F.freshInst + 1 + m = F.freshInst + (m + 1) := by omega
    simp only [Function.comp, argPhi, e1]
    rw [setKindInst_of_ne (by simp; omega), setKindInst_of_ne (by simp; omega)]
    simp [addIncomingInst]

theorem id_addIncomingInst (phi : Nat) (v : Value) (b : Nat) (I : Inst) :
    (addIncomingInst phi v b I).id = I.id := (keepsTag_addIncoming phi v b I).1

theorem getLast?_mem_dropWhile (p : Inst → Bool) :
    ∀ (l : List Inst) (T : Inst), l.getLast? = some T → (∃ x ∈ l, p x = false) →
      T ∈ l.dropWhile p := by
  intro l
  induction l with
  | nil => intro T h; cases h
  | cons x l ih =>
    intro T hT hex
    by_cases hp : p x = true
    · rw [List.dropWhile_cons_of_pos hp]
      obtain ⟨y, hy, hpy⟩ := hex
      rcases List.mem_cons.1 hy with rfl | hy
      · rw [hp] at hpy; cases hpy
      · cases l with
        | nil => cases hy
        | cons z l =>
          rw [List.getLast?_cons_cons] at hT
          exact ih T hT ⟨y, hy, hpy⟩
    · rw [List.dropWhile_cons_of_neg hp]
      exact mem_of_getLast? hT

theorem prepare_exact (F : Func) (hu : F.uniqueIds) (hcall : F.callOutsideEntry = true)
    (P : Prepared) (hprep : prepare F = .done P) :
    ∃ E others g RB T, PrepAt F P E others g RB T := by
  cases hb : F.blocks with
  | nil => simp [prepare, hb] at hprep
  | cons entryBB others =>
  cases hfront : (entryBB.insts.filter fun I => !I.isAlloca) with
  | nil => simp [prepare, hb, hfront] at hprep
  | cons J0 tail =>
  have c : SplitCtx F entryBB others J0 tail := ⟨hb, hfront, hu.1⟩
  cases hbase : getBaseCaseValue (createArgPhis F entryBB others J0) with
  | none => simp [prepare, hb, hfront, hbase] at hprep
  | some v =>
  have hfeed : feedLoopBack F entryBB
      (createAccPhi F entryBB J0 (createArgPhis F entryBB others J0) v) = .done P := by
    rw [← hprep]
    simp [prepare, hb, hfront, hbase]
  have hsA := splitAt_createAccPhi c v
  have hs := splitOf_createAccPhi c v
  generalize createAccPhi F entryBB J0 (createArgPhis F entryBB others J0) v = G at hfeed hs hsA
  obtain ⟨recCall, recBlk, T, k, h1, h2, h3, h4, hn, h5, h6, hPF, e1, e2, e3, e4, e5, e6, e7⟩ :=
    feedLoopBack_exact F entryBB G P hfeed
  obtain ⟨⟨g0, r, hg0, hr, hgr, hblocks, hrx⟩, hname, hnum⟩ := hsA
  have hrb : recBlk ∈ G.blocks := List.mem_of_find?_eq_some h2
  have hp2 := List.find?_some h2
  simp only [List.any_eq_true, beq_iff_eq] at hp2
  obtain ⟨X, hX1, hX2⟩ := hp2
  have hrc1 : recCall ∈ G.allInsts := List.mem_of_find?_eq_some h1
  have hrc2 : recCall.isSelfCall G.name = true := List.find?_some h1
  have hrcIn : InstIn G recBlk.id recCall := by
    obtain ⟨b, hb1⟩ := instIn_allInsts.1 hrc1
    have : b = recBlk.id := split_unique hb hu hs hb1 ⟨recBlk, hrb, rfl, hX1⟩ hX2.symm
    rw [← this]; exact hb1
  obtain ⟨C0, hC0, hC0s, hC0id⟩ : ∃ C0, InstIn F recBlk.id C0 ∧ C0.isSelfCall F.name = true ∧
      C0.id = recCall.id := by
    rcases origin_of_split hb hu.1 hs hrcIn with ⟨rfl, _⟩ | ⟨_, hphi, _⟩ | ⟨b0, C0, hC0, eid, et, eb⟩
    · simp [Inst.isSelfCall] at hrc2
    · rw [not_selfCall_of_phi _ hphi] at hrc2; cases hrc2
    · have hs0 : C0.isSelfCall F.name = true := by
        rw [← isSelfCall_of_tag F.name et, ← hs.name]; exact hrc2
      have ha : C0.isAlloca = false := not_alloca_of_selfCall _ hs0
      simp only [ha, Bool.false_eq_true, and_false, if_false] at eb
      rw [eb]
      exact ⟨C0, hC0, hs0, eid.symm⟩
  obtain ⟨RB, hRB, hRBid, hC0m⟩ := hC0
  have hne1 : entryBB.id ≠ recBlk.id := by
    intro e
    rw [hb] at hRB
    rcases List.mem_cons.1 hRB with rfl | hRB
    · simp only [Func.callOutsideEntry, hb, List.head?_cons, Bool.not_eq_true_eq_eq_false,
        Bool.not_eq_true', Block.hasSelfCall, List.any_eq_false] at hcall
      exact hcall C0 hC0m hC0s
    · exact c.others_ne RB hRB (hRBid.trans e.symm)
  have hRBo : RB ∈ others := by
    rw [hb] at hRB
    rcases List.mem_cons.1 hRB with rfl | hRB
    · exact absurd hRBid hne1
    · exact hRB
  have hnodO : (others.map Block.id).Nodup := by
    have := hu.1
    rw [hb, List.map_cons, List.nodup_cons] at this
    exact this.2
  have hrec_lt : recBlk.id < F.freshBlock := by
    rw [← hRBid]; exact lt_freshBlock (by rw [hb]; exact List.mem_cons_of_mem _ hRBo)
  -- the call block of the split function is the call block of the function, rewritten
  have hrecEq : recBlk = Block.mapInsts g0 RB := by
    rw [hblocks] at hrb
    simp only [splitShape, List.mem_cons, List.mem_map] at hrb
    rcases hrb with rfl | rfl | ⟨B, hB, rfl⟩
    · simp only at hrec_lt; omega
    · exact absurd rfl hne1
    · have : B = RB := eq_of_mem_of_id_eq others hnodO B hB RB hRBo hRBid.symm
      rw [this]
  have hinsts : recBlk.insts = RB.insts.map g0 := by rw [hrecEq]; rfl
  have hkt0 : KeepsTag g0 := keepsTag_of_keepsShape hg0
  -- its terminator
  obtain ⟨T0, hT0, hT0g⟩ : ∃ T0, RB.getTerminator = some T0 ∧ g0 T0 = T := by
    unfold Block.getTerminator at h3 ⊢
    rw [hinsts, List.getLast?_map] at h3
    cases hl : RB.insts.getLast? with
    | none => simp [hl] at h3
    | some T0 =>
      simp only [hl, Option.map_some'] at h3
      split at h3
      · rename_i ht
        cases h3
        rw [isTerminator_of_tag (hkt0 T0).2] at ht
        exact ⟨T0, by simp [ht], rfl⟩
      · cases h3
  have hTid : T.id = T0.id := by rw [← hT0g]; exact (hkt0 T0).1
  have hT0mem : T0 ∈ RB.insts := (getTerminator_mem hT0).1
  have hT0lt : T0.id < F.freshInst :=
    lt_freshInst (mem_allInsts (B := RB) (by rw [hb]; exact List.mem_cons_of_mem _ hRBo) hT0mem)
  have hRBin : ∀ S ∈ RB.insts, InstIn F RB.id S := fun S hS =>
    ⟨RB, by rw [hb]; exact List.mem_cons_of_mem _ hRBo, rfl, hS⟩
  have hnodRB : (recBlk.insts.map Inst.id).Nodup := by
    have h0 : ∀ S1 ∈ RB.insts, ∀ S2 ∈ RB.insts, S1.id = S2.id → S1 = S2 := fun S1 h1 S2 h2 e =>
      (instIn_unique hu.2 (hRBin S1 h1) (hRBin S2 h2) e).2
    rw [hinsts, List.map_map]
    have h1 : (Inst.id ∘ g0) = Inst.id := by
      funext S
      exact (hkt0 S).1
    rw [h1]
    have := hu.2
    rw [Func.allInsts, hb, List.flatMap_cons, List.map_append] at this
    have h2 := (List.nodup_append.1 this).2.1
    obtain ⟨l1, l2, hl⟩ := List.append_of_mem hRBo
    rw [hl, List.flatMap_append, List.flatMap_cons, List.map_append, List.map_append] at h2
    exact (List.nodup_append.1 (List.nodup_append.1 h2).2.1).1
  -- the rewriting of the instructions
  refine ⟨entryBB, others,
    (addIncomingInst (F.freshInst + 1 + F.numArgs) P.afterRecCall.result recBlk.id ∘
      addIncomingInst (F.freshInst + F.numArgs) P.beforeRecCall.result recBlk.id ∘
        setKindInst T.id k) ∘ g0, RB, T0, ?_⟩
  have hold : ∀ J : Inst, J.id < F.freshInst → J.id ≠ T0.id →
      ((addIncomingInst (F.freshInst + 1 + F.numArgs) P.afterRecCall.result recBlk.id ∘
        addIncomingInst (F.freshInst + F.numArgs) P.beforeRecCall.result recBlk.id ∘
          setKindInst T.id k) ∘ g0) J = g0 J := by
    intro J hJ hne
    simp only [Function.comp]
    rw [setKindInst_of_ne (by rw [(hkt0 J).1, hTid]; exact hne),
      @addIncomingInst_of_ne (F.freshInst + F.numArgs) _ _ _ (by rw [(hkt0 J).1]; omega),
      addIncomingInst_of_ne (by rw [(hkt0 J).1]; omega)]
  have hterm : ((addIncomingInst (F.freshInst + 1 + F.numArgs) P.afterRecCall.result recBlk.id ∘
        addIncomingInst (F.freshInst + F.numArgs) P.beforeRecCall.result recBlk.id ∘
          setKindInst T.id k) ∘ g0) T0 = ⟨T.id, k⟩ := by
    simp only [Function.comp, hT0g]
    have : setKindInst T.id k T = ⟨T.id, k⟩ := by simp [setKindInst]
    rw [this, @addIncomingInst_of_ne (F.freshInst + F.numArgs) _ _ _ (by simp only; omega),
      addIncomingInst_of_ne (by simp only; omega)]
  have hsplit := List.takeWhile_append_dropWhile (fun I : Inst => I.id != recCall.id) recBlk.insts
  have hTdrop : T ∈ recBlk.insts.dropWhile fun I => I.id != recCall.id := by
    have hlast : recBlk.insts.getLast? = some T := by
      unfold Block.getTerminator at h3
      cases hl : recBlk.insts.getLast? with
      | none => simp [hl] at h3
      | some T1 =>
        simp only [hl] at h3
        split at h3
        · cases h3; rfl
        · cases h3
    exact getLast?_mem_dropWhile _ _ _ hlast ⟨X, hX1, by simp [hX2]⟩
  refine ⟨hb, e4, e3, e2, e5, e6, hn, ?_, ?_, ⟨v, ?_⟩, ?_, ⟨r, hr, ?_⟩, ⟨hRBo, by rw [e1, hRBid]⟩,
    ⟨hT0, ?_⟩, ?_, ?_, ⟨C0, hC0m, by rw [e7, hC0id], hC0s⟩, ?_, ?_, ?_, ?_⟩
  · rw [hPF]; exact hname
  · rw [hPF]; exact hnum
  · rw [hPF, mapInsts_splitShape hblocks]
    unfold splitShape
    have hp := prepPhis_eq F P v T.id k hn (by omega)
    rw [e1] at hp
    rw [← hp]
    congr 2
    rw [List.map_append, List.map_cons, List.map_nil]
    congr 1
    · conv_rhs => rw [← List.map_id (entryBB.insts.filter Inst.isAlloca)]
      apply List.map_congr_left
      intro a ha
      obtain ⟨ha1, ha2⟩ := List.mem_filter.1 ha
      have hain : InstIn F entryBB.id a := ⟨entryBB, by rw [hb]; simp, rfl, ha1⟩
      have hlt := (instIn_lt hain).1
      have hne : a.id ≠ T0.id := by
        intro e
        have h9 := (instIn_unique hu.2 hain (hRBin T0 hT0mem) e).2
        have h10 := (getTerminator_mem hT0).2
        rw [← h9, not_terminator_of_alloca ha2] at h10
        cases h10
      rw [hold a hlt hne, hgr a hlt, mapKind_alloca r ha2]
      rfl
    · have hbr : g0 ⟨F.freshInst, .br entryBB.id⟩ = ⟨F.freshInst, .br entryBB.id⟩ :=
        keepsTag_br hkt0 _ _
      simp only [Function.comp, hbr]
      rw [setKindInst_of_ne (by simp only; omega),
        @addIncomingInst_of_ne (F.freshInst + F.numArgs) _ _ _ (by simp only; omega),
        addIncomingInst_of_ne (by simp only; omega)]
  · intro J
    simp only [Function.comp, id_addIncomingInst, id_setKindInst]
    exact (hkt0 J).1
  · intro J hJ hne
    rw [hold J hJ hne, hgr J hJ]
  · rw [hterm]
    exact targets_setSuccessor0_mem h4 T.id
  · have hmem : P.beforeRecCall ∈ recBlk.insts.takeWhile fun I => I.id != recCall.id :=
      prevNonDebug_mem h5
    have hne : P.beforeRecCall.id ≠ T.id := by
      rw [← hsplit] at hnodRB
      exact ids_disjoint_of_nodup _ _ hnodRB _ _ hmem hTdrop
    have hmem2 : P.beforeRecCall ∈ RB.insts.map g0 := by
      rw [← hinsts]; exact (List.takeWhile_sublist _).subset hmem
    obtain ⟨S, hS, hSg⟩ := List.mem_map.1 hmem2
    refine ⟨List.mem_map.2 ⟨S, hS, ?_⟩, by rw [← hTid]; exact hne⟩
    have hSid : S.id = P.beforeRecCall.id := by rw [← hSg]; exact ((hkt0 S).1).symm
    rw [hold S (instIn_lt (hRBin S hS)).1 (by rw [hSid, ← hTid]; exact hne), hSg]
  · have hmem : P.afterRecCall ∈ recBlk.insts := by
      have h7 : P.afterRecCall ∈ instsAfter recCall.id recBlk.insts := by
        unfold nextNonDebug at h6
        exact List.mem_of_find?_eq_some h6
      unfold instsAfter at h7
      exact (List.dropWhile_sublist _).subset (List.mem_of_mem_tail h7)
    rw [hinsts] at hmem
    obtain ⟨S, hS, hSg⟩ := List.mem_map.1 hmem
    have hSid : S.id = P.afterRecCall.id := by rw [← hSg]; exact ((hkt0 S).1).symm
    refine ⟨_, List.mem_map.2 ⟨S, hS, rfl⟩, ?_, ?_⟩
    · simp only [Function.comp, id_addIncomingInst, id_setKindInst]
      rw [(hkt0 S).1, hSid]
    · intro hne
      simp only [Function.comp, id_addIncomingInst, id_setKindInst, (hkt0 S).1] at hne
      rw [hold S (instIn_lt (hRBin S hS)).1 hne, hSg]
  · have hmem : P.beforeRecCall ∈ recBlk.insts.takeWhile fun I => I.id != recCall.id :=
      prevNonDebug_mem h5
    have hmem2 : P.afterRecCall ∈ recBlk.insts.dropWhile fun I => I.id != recCall.id := by
      have h7 : P.afterRecCall ∈ instsAfter recCall.id recBlk.insts := by
        unfold nextNonDebug at h6
        exact List.mem_of_find?_eq_some h6
      exact List.mem_of_mem_tail h7
    rw [← hsplit] at hnodRB
    exact ids_disjoint_of_nodup _ _ hnodRB _ _ hmem hmem2
  · rw [hterm]
    intro t ht
    rcases targets_setSuccessor0 h4 T.id T.id t ht with e | e
    · exact Or.inl e
    · right
      have : (⟨T.id, T.kind⟩ : Inst) = T := rfl
      rw [this, ← hT0g, targets_of_tag (hkt0 T0).2] at e
      exact e
  · rw [← targets_of_tag (hkt0 T0).2, hT0g]
    obtain ⟨i, k0⟩ := T
    cases k0 <;> simp [setSuccessor0] at h4 <;> simp [Inst.targets]
  · intro J hJ hne
    rw [hold J hJ hne, hgr J hJ, hrx]
    rfl

/-! ## The second half of the transformer, block by block -/

theorem id_rauw (old new : Value) (I : Inst) : (rauw old new I).id = I.id := rfl

theorem id_retarget (old new : Nat) (I : Inst) : (retarget old new I).id = I.id := rfl

theorem id_resource (old new : Nat) (I : Inst) : (resource old new I).id = I.id := rfl

theorem id_blockRauw (G : Func) (old new b : Nat) (I : Inst) :
    (blockRauw G old new b I).id = I.id := by
  unfold blockRauw
  split <;> rfl

theorem dropId_map (i : Nat) (f : Inst → Inst) (hf : ∀ I, (f I).id = I.id) (l : List Inst) :
    dropId i (l.map f) = (dropId i l).map f := by
  induction l with
  | nil => rfl
  | cons x l ih =>
    simp only [dropId, List.map_cons, List.filter_cons, hf] at ih ⊢
    split
    · rw [List.map_cons, ih]
    · exact ih

theorem dropId_append (i : Nat) (l1 l2 : List Inst) :
    dropId i (l1 ++ l2) = dropId i l1 ++ dropId i l2 := by
  simp [dropId]

theorem dropId_of_not_mem (i : Nat) (l : List Inst) (h : ∀ I ∈ l, I.id ≠ i) : dropId i l = l := by
  unfold dropId
  rw [List.filter_eq_self]
  intro I hI
  simpa using h I hI

theorem dropId_singleton_self (i : Nat) (k : Kind) : dropId i [⟨i, k⟩] = [] := by
  simp [dropId]

theorem mem_dropId {i : Nat} {l : List Inst} {I : Inst} : I ∈ dropId i l ↔ I ∈ l ∧ I.id ≠ i := by
  simp [dropId]

theorem instsOf_rebuildGuard (P : Prepared) (eT oC : Inst) (p : Pred) (b : Value) (x : Nat) :
    (rebuildGuard P eT oC p b).instsOf x = (P.F.instsOf x).map fun l =>
      dropId oC.id ((if x = P.entryBB then
          insertBeforeId eT.id ⟨P.base + 2 + P.F.numArgs, .icmp p (.inst P.phiNodeTmp) b⟩ l
        else l).map (rauw oC.result (.inst (P.base + 2 + P.F.numArgs)))) := by
  unfold rebuildGuard
  rw [instsOf_eraseInst, replaceAllUsesWith_eq, instsOf_mapInsts, instsOf_insertBefore]
  simp only [Option.map_map, Function.comp_def]

theorem instsOf_rebuildBranch (P : Prepared) (G : Func) (eT : Inst) (l x : Nat) :
    (rebuildBranch P G eT l).instsOf x = (G.instsOf x).map fun l0 =>
      dropId eT.id (if x = P.entryBB then
          l0 ++ [⟨P.base + 3 + P.F.numArgs,
            .condbr (.inst (P.base + 2 + P.F.numArgs)) l P.recBBlock⟩]
        else l0) := by
  unfold rebuildBranch
  rw [instsOf_eraseInst, instsOf_insertAtEnd]
  simp only [Option.map_map, Function.comp_def]

theorem instsOf_rebuildReturn (P : Prepared) (G : Func) (bR : Inst) (x : Nat) :
    (rebuildReturn P G bR).instsOf x = (G.instsOf x).map fun l =>
      dropId bR.id (l.map (rauw bR.result (.inst P.phiNodeAcc))) := by
  unfold rebuildReturn
  rw [instsOf_eraseInst, replaceAllUsesWith_eq, instsOf_mapInsts]
  simp only [Option.map_map, Function.comp_def]

theorem instsOf_rebuildLoop_ne (P : Prepared) (G : Func) (l : Nat) (op1 : BinOp) (b1 : Value)
    (op2 : BinOp) (x : Nat) (hx : x ≠ P.newEntryBB + 1) :
    (rebuildLoop P G l op1 b1 op2).instsOf x = (G.instsOf x).map fun l0 =>
      (l0.map (rauw P.beforeRecCall.result (.inst (P.base + 5 + P.F.numArgs)))).map
        (rauw P.afterRecCall.result (.inst (P.base + 6 + P.F.numArgs))) := by
  unfold rebuildLoop
  rw [replaceAllUsesWith_eq, instsOf_mapInsts, replaceAllUsesWith_eq, instsOf_mapInsts,
    instsOf_insertBefore, instsOf_insertBefore,
    instsOf_createBlockBefore_ne _ _ _ _ (fun e => hx e.symm)]
  simp only [Option.map_map, Function.comp_def, if_neg hx]

theorem instsOf_rebuildLoop_loop (P : Prepared) (G : Func) (l : Nat) (op1 : BinOp) (b1 : Value)
    (op2 : BinOp) (hl : l ∈ G.blockIds) (hnew : P.newEntryBB + 1 ∉ G.blockIds) :
    (rebuildLoop P G l op1 b1 op2).instsOf (P.newEntryBB + 1) = some
      ([⟨P.base + 5 + P.F.numArgs, .binop op1 (.inst P.phiNodeTmp) b1⟩,
        ⟨P.base + 6 + P.F.numArgs, .binop op2 (.inst P.phiNodeAcc) (.inst P.phiNodeTmp)⟩,
        ⟨P.base + 4 + P.F.numArgs, .br P.entryBB⟩].map
          (rauw P.afterRecCall.result (.inst (P.base + 6 + P.F.numArgs)) ∘
            rauw P.beforeRecCall.result (.inst (P.base + 5 + P.F.numArgs)))) := by
  unfold rebuildLoop
  rw [replaceAllUsesWith_eq, instsOf_mapInsts, replaceAllUsesWith_eq, instsOf_mapInsts,
    instsOf_insertBefore, instsOf_insertBefore,
    instsOf_createBlockBefore_new G l ⟨P.newEntryBB + 1, _⟩ hl hnew]
  simp [insertBeforeId]

theorem instsOf_rebuildFinish (P : Prepared) (G : Func) (x : Nat) (hx : x ≠ P.recBBlock) :
    (rebuildFinish P G).instsOf x =
      (G.instsOf x).map (List.map (blockRauw G P.recBBlock (P.newEntryBB + 1) x)) := by
  unfold rebuildFinish
  rw [instsOf_eraseBlock_ne _ _ _ hx, instsOf_replaceBlockUsesWith]

theorem instsOf_rebuildCore_ne (P : Prepared) (eT oC : Inst) (p : Pred) (b : Value) (l : Nat)
    (bR : Inst) (x : Nat) (hx2 : x ≠ P.entryBB) :
    (rebuildCore P eT oC p b l bR).instsOf x = (P.F.instsOf x).map fun l0 =>
      (dropId bR.id (dropId eT.id (dropId oC.id l0))).map
        (rauw bR.result (.inst P.phiNodeAcc) ∘
          rauw oC.result (.inst (P.base + 2 + P.F.numArgs))) := by
  unfold rebuildCore
  rw [instsOf_rebuildReturn, instsOf_rebuildBranch, instsOf_rebuildGuard]
  simp only [Option.map_map, Function.comp_def, if_neg hx2]
  congr 1
  funext l0
  repeat rw [dropId_map _ _ (id_rauw _ _)]
  simp only [List.map_map, Function.comp_def]

theorem rebuildBody_eq (P : Prepared) (eT oC : Inst) (p : Pred) (b : Value) (l : Nat)
    (bR : Inst) (op1 : BinOp) (b1 : Value) (op2 : BinOp) :
    rebuildBody P eT oC p b l bR op1 b1 op2 =
      rebuildLoop P (rebuildCore P eT oC p b l bR) l op1 b1 op2 := rfl

/-- What the second half of `eliminateTailCall` makes of an instruction it keeps, before the
uses of the call block are redirected: the four replacements of uses, in order. -/
theorem instsOf_rebuildBody_ne (P : Prepared) (eT oC : Inst) (p : Pred) (b : Value) (l : Nat)
    (bR : Inst) (op1 : BinOp) (b1 : Value) (op2 : BinOp) (x : Nat)
    (hx : x ≠ P.newEntryBB + 1) (hx2 : x ≠ P.entryBB) :
    (rebuildBody P eT oC p b l bR op1 b1 op2).instsOf x = (P.F.instsOf x).map fun l0 =>
      (dropId bR.id (dropId eT.id (dropId oC.id l0))).map
        (rauw P.afterRecCall.result (.inst (P.base + 6 + P.F.numArgs)) ∘
          rauw P.beforeRecCall.result (.inst (P.base + 5 + P.F.numArgs)) ∘
          rauw bR.result (.inst P.phiNodeAcc) ∘
          rauw oC.result (.inst (P.base + 2 + P.F.numArgs))) := by
  rw [rebuildBody_eq, instsOf_rebuildLoop_ne _ _ _ _ _ _ _ hx, instsOf_rebuildCore_ne _ _ _ _ _ _ _ _ hx2]
  simp only [Option.map_map, Function.comp_def, List.map_map]

theorem dropId_pair_keep (i : Nat) (A B : Inst) (hA : A.id ≠ i) (hB : B.id ≠ i) :
    dropId i [A, B] = [A, B] := by
  simp [dropId, hA, hB]

theorem dropId_triple_mid (A B C : Inst) (hA : A.id ≠ B.id) (hC : C.id ≠ B.id) :
    dropId B.id [A, B, C] = [A, C] := by
  simp [dropId, hA, hC]

/-- The old entry block once the guard, the branch and the return are rebuilt: the
instructions it keeps, with their uses replaced, then the new comparison and the new
conditional branch. -/
theorem instsOf_rebuildCore_hdr (P : Prepared) (eT oC : Inst) (p : Pred) (b : Value) (l : Nat)
    (bR : Inst) (l0 : List Inst)
    (hl0 : P.F.instsOf P.entryBB = some (l0 ++ [eT])) (hne : ∀ I ∈ l0, I.id ≠ eT.id)
    (h1 : eT.id ≠ oC.id) (h2 : P.base + 2 + P.F.numArgs ≠ oC.id)
    (h3 : P.base + 2 + P.F.numArgs ≠ eT.id) (h4 : P.base + 3 + P.F.numArgs ≠ eT.id)
    (h5 : P.base + 2 + P.F.numArgs ≠ bR.id) (h6 : P.base + 3 + P.F.numArgs ≠ bR.id) :
    (rebuildCore P eT oC p b l bR).instsOf P.entryBB = some
      ((dropId bR.id (dropId eT.id (dropId oC.id l0))).map
        (rauw bR.result (.inst P.phiNodeAcc) ∘
          rauw oC.result (.inst (P.base + 2 + P.F.numArgs))) ++
        [(rauw bR.result (.inst P.phiNodeAcc) ∘
          rauw oC.result (.inst (P.base + 2 + P.F.numArgs)))
            ⟨P.base + 2 + P.F.numArgs, .icmp p (.inst P.phiNodeTmp) b⟩,
         rauw bR.result (.inst P.phiNodeAcc)
            ⟨P.base + 3 + P.F.numArgs,
              .condbr (.inst (P.base + 2 + P.F.numArgs)) l P.recBBlock⟩]) := by
  unfold rebuildCore
  rw [instsOf_rebuildReturn, instsOf_rebuildBranch, instsOf_rebuildGuard, hl0]
  simp only [Option.map_some', if_true]
  rw [insertBeforeId_head _ eT [] l0 hne]
  congr 1
  simp only [List.map_append, List.map_cons, List.map_nil, dropId_append, List.append_assoc,
    List.cons_append, List.nil_append]
  have e1 : dropId eT.id (dropId oC.id
      [rauw oC.result (.inst (P.base + 2 + P.F.numArgs))
          ⟨P.base + 2 + P.F.numArgs, .icmp p (.inst P.phiNodeTmp) b⟩,
        rauw oC.result (.inst (P.base + 2 + P.F.numArgs)) eT]) =
      [rauw oC.result (.inst (P.base + 2 + P.F.numArgs))
          ⟨P.base + 2 + P.F.numArgs, .icmp p (.inst P.phiNodeTmp) b⟩] := by
    simp [dropId, rauw, Inst.mapKind, h1, h2, h3]
  have e2 : dropId eT.id [(⟨P.base + 3 + P.F.numArgs,
      .condbr (.inst (P.base + 2 + P.F.numArgs)) l P.recBBlock⟩ : Inst)] =
      [⟨P.base + 3 + P.F.numArgs, .condbr (.inst (P.base + 2 + P.F.numArgs)) l P.recBBlock⟩] := by
    simp [dropId, h4]
  rw [e1, e2]
  simp only [List.map_cons, List.map_nil]
  have e3 : ∀ X : Inst, X.id ≠ bR.id → dropId bR.id [X] = [X] := by
    intro X hX
    simp [dropId, hX]
  rw [e3 _ (by simpa [rauw, Inst.mapKind] using h5), e3 _ (by simpa [rauw, Inst.mapKind] using h6)]
  repeat rw [dropId_map _ _ (id_rauw _ _)]
  simp only [List.map_map, List.map_append, List.map_cons, List.map_nil, Function.comp_def,
    List.cons_append, List.nil_append]

/-- The old entry block before the uses of the call block are redirected: the instructions
it keeps, with their uses replaced, then the new comparison and the new conditional branch. -/
theorem instsOf_rebuildBody_hdr (P : Prepared) (eT oC : Inst) (p : Pred) (b : Value) (l : Nat)
    (bR : Inst) (op1 : BinOp) (b1 : Value) (op2 : BinOp) (l0 : List Inst)
    (hl0 : P.F.instsOf P.entryBB = some (l0 ++ [eT])) (hne : ∀ I ∈ l0, I.id ≠ eT.id)
    (hx : P.entryBB ≠ P.newEntryBB + 1)
    (h1 : eT.id ≠ oC.id) (h2 : P.base + 2 + P.F.numArgs ≠ oC.id)
    (h3 : P.base + 2 + P.F.numArgs ≠ eT.id) (h4 : P.base + 3 + P.F.numArgs ≠ eT.id)
    (h5 : P.base + 2 + P.F.numArgs ≠ bR.id) (h6 : P.base + 3 + P.F.numArgs ≠ bR.id) :
    (rebuildBody P eT oC p b l bR op1 b1 op2).instsOf P.entryBB = some
      ((dropId bR.id (dropId eT.id (dropId oC.id l0))).map
        (rauw P.afterRecCall.result (.inst (P.base + 6 + P.F.numArgs)) ∘
          rauw P.beforeRecCall.result (.inst (P.base + 5 + P.F.numArgs)) ∘
          rauw bR.result (.inst P.phiNodeAcc) ∘
          rauw oC.result (.inst (P.base + 2 + P.F.numArgs))) ++
        [(rauw P.afterRecCall.result (.inst (P.base + 6 + P.F.numArgs)) ∘
          rauw P.beforeRecCall.result (.inst (P.base + 5 + P.F.numArgs)) ∘
          rauw bR.result (.inst P.phiNodeAcc) ∘
          rauw oC.result (.inst (P.base + 2 + P.F.numArgs)))
            ⟨P.base + 2 + P.F.numArgs, .icmp p (.inst P.phiNodeTmp) b⟩,
         (rauw P.afterRecCall.result (.inst (P.base + 6 + P.F.numArgs)) ∘
          rauw P.beforeRecCall.result (.inst (P.base + 5 + P.F.numArgs)) ∘
          rauw bR.result (.inst P.phiNodeAcc))
            ⟨P.base + 3 + P.F.numArgs,
              .condbr (.inst (P.base + 2 + P.F.numArgs)) l P.recBBlock⟩]) := by
  rw [rebuildBody_eq, instsOf_rebuildLoop_ne _ _ _ _ _ _ _ hx,
    instsOf_rebuildCore_hdr P eT oC p b l bR l0 hl0 hne h1 h2 h3 h4 h5 h6]
  simp only [Option.map_some', List.map_map, List.map_append, List.map_cons, List.map_nil,
    Function.comp_def]

/-! ## What the second half starts from -/

theorem blockIds_mapInsts_list (g : Inst → Inst) (bs : List Block) :
    (bs.map (Block.mapInsts g)).map Block.id = bs.map Block.id := by
  rw [List.map_map]
  rfl

theorem prepAt_blockIds {F : Func} {P : Prepared} {E : Block} {others : List Block}
    {g : Inst → Inst} {RB : Block} {T : Inst} (hp : PrepAt F P E others g RB T) :
    P.F.blockIds = F.freshBlock :: E.id :: others.map Block.id := by
  obtain ⟨v, hv⟩ := hp.blocks
  simp only [Func.blockIds, hv, List.map_cons, blockIds_mapInsts_list]

theorem prepAt_lt {F : Func} {P : Prepared} {E : Block} {others : List Block}
    {g : Inst → Inst} {RB : Block} {T : Inst} (hp : PrepAt F P E others g RB T) :
    E.id < F.freshBlock ∧ ∀ B ∈ others, B.id < F.freshBlock :=
  ⟨lt_freshBlock (by rw [hp.blocksF]; simp),
    fun B hB => lt_freshBlock (by rw [hp.blocksF]; exact List.mem_cons_of_mem _ hB)⟩

theorem prepAt_nodupBlocks {F : Func} {P : Prepared} {E : Block} {others : List Block}
    {g : Inst → Inst} {RB : Block} {T : Inst} (hp : PrepAt F P E others g RB T)
    (hu : F.uniqueIds) : P.F.blockIds.Nodup := by
  rw [prepAt_blockIds hp]
  have h := hu.1
  rw [hp.blocksF, List.map_cons] at h
  refine List.nodup_cons.2 ⟨?_, h⟩
  intro hmem
  rcases List.mem_cons.1 hmem with e | hmem
  · have := (prepAt_lt hp).1
    omega
  · obtain ⟨B, hB, hid⟩ := List.mem_map.1 hmem
    have := (prepAt_lt hp).2 B hB
    omega

theorem instsOf_of_head {G : Func} {B : Block} {rest : List Block}
    (h : G.blocks = B :: rest) : G.instsOf B.id = some B.insts := by
  simp [Func.instsOf, Func.findBlock, h]

theorem instsOf_of_second {G : Func} {A B : Block} {rest : List Block}
    (h : G.blocks = A :: B :: rest) (hne : A.id ≠ B.id) : G.instsOf B.id = some B.insts := by
  simp [Func.instsOf, Func.findBlock, h, List.find?_cons, hne]

theorem instsOf_of_mem {G : Func} (hn : G.blockIds.Nodup) {B : Block} (hB : B ∈ G.blocks) :
    G.instsOf B.id = some B.insts := by
  unfold Func.instsOf Func.findBlock
  have key : ∀ bs : List Block, (bs.map Block.id).Nodup → B ∈ bs →
      bs.find? (fun X => X.id == B.id) = some B := by
    intro bs
    induction bs with
    | nil => intro _ h; cases h
    | cons X bs ih =>
      intro hnd hmem
      rw [List.map_cons, List.nodup_cons] at hnd
      rcases List.mem_cons.1 hmem with rfl | hmem
      · simp
      · have hne : X.id ≠ B.id := fun e => hnd.1 (e ▸ List.mem_map_of_mem Block.id hmem)
        rw [List.find?_cons_of_neg _ (by simpa using hne)]
        exact ih hnd.2 hmem
  rw [key G.blocks hn hB]
  rfl

theorem prepAt_instsOf_pre {F : Func} {P : Prepared} {E : Block} {others : List Block}
    {g : Inst → Inst} {RB : Block} {T : Inst} (hp : PrepAt F P E others g RB T) :
    P.F.instsOf F.freshBlock =
      some (E.insts.filter Inst.isAlloca ++ [⟨F.freshInst, .br E.id⟩]) := by
  obtain ⟨v, hv⟩ := hp.blocks
  exact instsOf_of_head hv

theorem prepAt_instsOf_hdr {F : Func} {P : Prepared} {E : Block} {others : List Block}
    {g : Inst → Inst} {RB : Block} {T : Inst} (hp : PrepAt F P E others g RB T) :
    ∃ v, P.F.instsOf E.id =
      some (prepPhis F P v ++ (E.insts.filter fun I => !I.isAlloca).map g) := by
  obtain ⟨v, hv⟩ := hp.blocks
  refine ⟨v, ?_⟩
  have := (prepAt_lt hp).1
  exact instsOf_of_second hv (by simp only; omega)

theorem prepAt_instsOf_other {F : Func} {P : Prepared} {E : Block} {others : List Block}
    {g : Inst → Inst} {RB : Block} {T : Inst} (hp : PrepAt F P E others g RB T)
    (hu : F.uniqueIds) {B : Block} (hB : B ∈ others) :
    P.F.instsOf B.id = some (B.insts.map g) := by
  obtain ⟨v, hv⟩ := hp.blocks
  have hmem : Block.mapInsts g B ∈ P.F.blocks := by
    rw [hv]
    exact List.mem_cons_of_mem _ (List.mem_cons_of_mem _ (List.mem_map_of_mem _ hB))
  exact instsOf_of_mem (prepAt_nodupBlocks hp hu) hmem

theorem ids_prepPhis (F : Func) (P : Prepared) (v : Value) (hn : 0 < F.numArgs) :
    (prepPhis F P v).map Inst.id =
      (List.range (F.numArgs + 1)).map fun i => F.freshInst + 1 + i := by
  obtain ⟨m, hm⟩ : ∃ m, F.numArgs = m + 1 := ⟨F.numArgs - 1, by omega⟩
  unfold prepPhis
  rw [hm]
  simp only [Nat.add_sub_cancel, List.map_append, List.map_map, List.map_cons, List.map_nil,
    List.range_succ, List.append_assoc, List.singleton_append]
  congr 1
  congr 1
  omega

theorem nodup_prepPhis (F : Func) (P : Prepared) (v : Value) (hn : 0 < F.numArgs) :
    ((prepPhis F P v).map Inst.id).Nodup := by
  rw [ids_prepPhis F P v hn]
  exact (List.nodup_range _).map (fun a b h => by omega)

theorem prepPhis_spec (F : Func) (P : Prepared) (v : Value) (hn : 0 < F.numArgs) :
    ∀ φ ∈ prepPhis F P v, φ.isPhi = true ∧ F.freshInst < φ.id ∧
      φ.id ≤ F.freshInst + 1 + F.numArgs := by
  intro φ hφ
  unfold prepPhis at hφ
  simp only [List.mem_append, List.mem_map, List.mem_range, List.mem_cons, List.mem_nil_iff,
    or_false] at hφ
  rcases hφ with ⟨i, hi, rfl⟩ | rfl | rfl
  · exact ⟨rfl, by simp only [argPhi]; omega, by simp only [argPhi]; omega⟩
  · exact ⟨rfl, by simp only; omega, by simp only; omega⟩
  · exact ⟨rfl, by simp only; omega, by simp only; omega⟩
theorem nodup_split (A R O phis : List Nat) (base : Nat) (hold : (A ++ R ++ O).Nodup)
    (hlt : ∀ x ∈ A ++ R ++ O, x < base) (hphi : phis.Nodup) (hgt : ∀ x ∈ phis, base < x) :
    (A ++ [base] ++ (phis ++ R) ++ O).Nodup := by
  have hp : List.Perm (A ++ [base] ++ (phis ++ R) ++ O) ((base :: phis) ++ (A ++ R ++ O)) := by
    simp only [List.append_assoc, List.singleton_append, List.cons_append]
    refine List.perm_middle.trans (List.Perm.cons _ ?_)
    simp only [List.nil_append, List.append_assoc]
    rw [← List.append_assoc A, ← List.append_assoc phis]
    exact List.Perm.append_right _ List.perm_append_comm
  rw [hp.nodup_iff, List.nodup_append]
  refine ⟨List.nodup_cons.2 ⟨fun h => by have := hgt _ h; omega, hphi⟩, hold, ?_⟩
  intro x hx hx2
  have h1 := hlt x hx2
  rcases List.mem_cons.1 hx with rfl | hx
  · omega
  · have := hgt x hx
    omega

theorem map_id_map (g : Inst → Inst) (hg : ∀ J, (g J).id = J.id) (l : List Inst) :
    (l.map g).map Inst.id = l.map Inst.id := by
  rw [List.map_map]
  apply List.map_congr_left
  intro J _
  exact hg J

theorem prepAt_allInsts {F : Func} {P : Prepared} {E : Block} {others : List Block}
    {g : Inst → Inst} {RB : Block} {T : Inst} (hp : PrepAt F P E others g RB T) :
    ∃ v, P.F.allInsts.map Inst.id =
      (E.insts.filter Inst.isAlloca).map Inst.id ++ [F.freshInst] ++
        ((prepPhis F P v).map Inst.id ++ (E.insts.filter fun I => !I.isAlloca).map Inst.id) ++
          (others.flatMap Block.insts).map Inst.id := by
  obtain ⟨v, hv⟩ := hp.blocks
  refine ⟨v, ?_⟩
  simp only [Func.allInsts, hv, List.flatMap_cons, flatMap_mapInsts, List.map_append,
    map_id_map g hp.ids, List.map_cons, List.map_nil, List.append_assoc]

theorem prepAt_nodupInsts {F : Func} {P : Prepared} {E : Block} {others : List Block}
    {g : Inst → Inst} {RB : Block} {T : Inst} (hp : PrepAt F P E others g RB T)
    (hu : F.uniqueIds) : (P.F.allInsts.map Inst.id).Nodup := by
  obtain ⟨v, hv⟩ := prepAt_allInsts hp
  rw [hv]
  have hperm : List.Perm
      ((E.insts.filter Inst.isAlloca).map Inst.id ++
        (E.insts.filter fun I => !I.isAlloca).map Inst.id ++
          (others.flatMap Block.insts).map Inst.id) (F.allInsts.map Inst.id) := by
    simp only [Func.allInsts, hp.blocksF, List.flatMap_cons, List.map_append]
    refine List.Perm.append_right _ ?_
    rw [← List.map_append]
    exact (List.filter_append_perm Inst.isAlloca E.insts).map _
  refine nodup_split _ _ _ _ F.freshInst (hperm.nodup_iff.2 hu.2) ?_
    (nodup_prepPhis F P v hp.args) ?_
  · intro x hx
    obtain ⟨I, hI, rfl⟩ := List.mem_map.1 (hperm.subset hx)
    exact lt_freshInst hI
  · intro x hx
    obtain ⟨φ, hφ, rfl⟩ := List.mem_map.1 hx
    exact (prepPhis_spec F P v hp.args φ hφ).2.1

theorem prepAt_le {F : Func} {P : Prepared} {E : Block} {others : List Block}
    {g : Inst → Inst} {RB : Block} {T : Inst} (hp : PrepAt F P E others g RB T) :
    ∀ I ∈ P.F.allInsts, I.id ≤ F.freshInst + 1 + F.numArgs := by
  obtain ⟨v, hv⟩ := prepAt_allInsts hp
  intro I hI
  have hmem := List.mem_map_of_mem Inst.id hI
  rw [hv] at hmem
  simp only [List.mem_append, List.mem_map, List.mem_singleton, List.mem_filter] at hmem
  have hE : ∀ J ∈ E.insts, J.id < F.freshInst := fun J hJ =>
    lt_freshInst (mem_allInsts (B := E) (by rw [hp.blocksF]; simp) hJ)
  rcases hmem with ((⟨J, ⟨hJ, _⟩, e⟩ | e) | ⟨φ, hφ, e⟩ | ⟨J, ⟨hJ, _⟩, e⟩) | ⟨J, hJ, e⟩
  · have := hE J hJ; omega
  · omega
  · have := (prepPhis_spec F P v hp.args φ hφ).2.2; omega
  · have := hE J hJ; omega
  · have : J ∈ F.allInsts := by
      rw [Func.allInsts, hp.blocksF, List.flatMap_cons]
      exact List.mem_append_right _ hJ
    have := lt_freshInst this
    omega

theorem blockIds_rebuildGuard (P : Prepared) (eT oC : Inst) (p : Pred) (b : Value) :
    (rebuildGuard P eT oC p b).blockIds = P.F.blockIds := by
  unfold rebuildGuard Func.blockIds
  rw [ids_eraseInst, ids_replaceAllUsesWith, ids_insertBefore]

theorem blockIds_rebuildBranch (P : Prepared) (G : Func) (eT : Inst) (l : Nat) :
    (rebuildBranch P G eT l).blockIds = G.blockIds := by
  unfold rebuildBranch Func.blockIds
  rw [ids_eraseInst, ids_insertAtEnd]

theorem blockIds_rebuildReturn (P : Prepared) (G : Func) (bR : Inst) :
    (rebuildReturn P G bR).blockIds = G.blockIds := by
  unfold rebuildReturn Func.blockIds
  rw [ids_eraseInst, ids_replaceAllUsesWith]

theorem blockIds_rebuildCore (P : Prepared) (eT oC : Inst) (p : Pred) (b : Value) (l : Nat)
    (bR : Inst) : (rebuildCore P eT oC p b l bR).blockIds = P.F.blockIds := by
  unfold rebuildCore
  rw [blockIds_rebuildReturn, blockIds_rebuildBranch, blockIds_rebuildGuard]

theorem terminator_of_findBlock {G : Func} {b : Nat} {T : Inst}
    (h : (G.findBlock b).bind Block.getTerminator = some T) :
    ∃ l, G.instsOf b = some (l ++ [T]) ∧ T.isTerminator = true := by
  unfold Func.instsOf
  cases hf : G.findBlock b with
  | none => simp [hf] at h
  | some B =>
    simp only [hf, Option.some_bind] at h
    unfold Block.getTerminator at h
    cases hl : B.insts.getLast? with
    | none => simp [hl] at h
    | some I =>
      simp only [hl] at h
      split at h
      · rename_i ht
        cases h
        obtain ⟨l, hl2⟩ := List.getLast?_eq_some_iff.1 hl
        exact ⟨l, by simp [hl2], ht⟩
      · cases h

theorem guard_of_findBlock {G : Func} {b : Nat} {C : Inst}
    (h : ((G.findBlock b).bind fun B => prevNonDebug B.insts.dropLast) = some C) :
    ∃ l, G.instsOf b = some l ∧ prevNonDebug l.dropLast = some C := by
  unfold Func.instsOf
  cases hf : G.findBlock b with
  | none => simp [hf] at h
  | some B =>
    simp only [hf, Option.some_bind] at h
    exact ⟨B.insts, rfl, h⟩

theorem instIn_of_instsOf {G : Func} {b : Nat} {l : List Inst} {I : Inst}
    (h : G.instsOf b = some l) (hI : I ∈ l) : InstIn G b I := by
  unfold Func.instsOf at h
  cases hf : G.findBlock b with
  | none => simp [hf] at h
  | some B =>
    simp only [hf, Option.map_some', Option.some.injEq] at h
    obtain ⟨h1, h2⟩ := findBlock_mem hf
    exact ⟨B, h1, h2, by rw [h]; exact hI⟩

theorem nodup_instsOf {G : Func} (hn : (G.allInsts.map Inst.id).Nodup) {b : Nat}
    {l : List Inst} (h : G.instsOf b = some l) : (l.map Inst.id).Nodup := by
  unfold Func.instsOf at h
  cases hf : G.findBlock b with
  | none => simp [hf] at h
  | some B =>
    simp only [hf, Option.map_some', Option.some.injEq] at h
    obtain ⟨h1, _⟩ := findBlock_mem hf
    obtain ⟨l1, l2, hl⟩ := List.append_of_mem h1
    rw [Func.allInsts, hl, List.flatMap_append, List.flatMap_cons, List.map_append,
      List.map_append, h] at hn
    exact (List.nodup_append.1 (List.nodup_append.1 hn).2.1).1

theorem isPhi_false_of_icmp {I : Inst} {p : Pred} {a b : Value} (h : I.kind = .icmp p a b) :
    I.isPhi = false := by
  simp [Inst.isPhi, h]

theorem rebuild_ctx {F : Func} {P : Prepared} {E : Block} {others : List Block}
    {g : Inst → Inst} {RB : Block} {T : Inst} (hp : PrepAt F P E others g RB T)
    (hu : F.uniqueIds) {F1 : Func} {eT oC : Inst} {p : Pred} {a b : Value} {L : Block}
    {bR : Inst} {op1 : BinOp} {a1 b1 : Value} {op2 : BinOp} {a2 b2 : Value}
    (hr : Rebuilt P F1 eT oC p a b L bR op1 a1 b1 op2 a2 b2) :
    ∃ l0 Lo, RebuildCtx F P E others g eT oC bR L l0 Lo := by
  have hnodI := prepAt_nodupInsts hp hu
  have hnodB := prepAt_nodupBlocks hp hu
  obtain ⟨v, hv⟩ := prepAt_instsOf_hdr hp
  have hEl : ∀ J ∈ E.insts, J.id < F.freshInst := fun J hJ =>
    lt_freshInst (mem_allInsts (B := E) (by rw [hp.blocksF]; simp) hJ)
  -- the terminator of the old entry block
  obtain ⟨l0, hl0, hterm⟩ := terminator_of_findBlock hr.terminator
  rw [hp.entryBB] at hl0
  have heq : prepPhis F P v ++ (E.insts.filter fun I => !I.isAlloca).map g = l0 ++ [eT] := by
    rw [hv] at hl0
    exact Option.some.inj hl0
  have hR : (E.insts.filter fun I => !I.isAlloca) ≠ [] := by
    intro e
    rw [e, List.map_nil, List.append_nil] at heq
    have : eT ∈ prepPhis F P v := by rw [heq]; simp
    have := (prepPhis_spec F P v hp.args eT this).1
    rw [isPhi_false_of_terminator hterm] at this
    cases this
  obtain ⟨R0, Tl, hR0⟩ : ∃ R0 Tl, (E.insts.filter fun I => !I.isAlloca) = R0 ++ [Tl] :=
    ⟨_, _, (List.dropLast_append_getLast hR).symm⟩
  rw [hR0, List.map_append, List.map_cons, List.map_nil, ← List.append_assoc] at heq
  obtain ⟨e1, e2⟩ := List.append_inj' heq rfl
  have e3 : eT = g Tl := by
    simp only [List.cons.injEq, and_true] at e2
    exact e2.symm
  have hTl : Tl ∈ E.insts := by
    have : Tl ∈ (E.insts.filter fun I => !I.isAlloca) := by rw [hR0]; simp
    exact (List.mem_filter.1 this).1
  have heT_lt : eT.id < F.freshInst := by rw [e3, hp.ids]; exact hEl Tl hTl
  have hnodH := nodup_instsOf hnodI hl0
  have hl0_ne : ∀ I ∈ l0, I.id ≠ eT.id := fun I hI =>
    ids_disjoint_of_nodup _ _ hnodH I eT hI (by simp)
  -- the comparison
  obtain ⟨l, hl, hprev⟩ := guard_of_findBlock hr.guard
  rw [hp.entryBB, hl0] at hl
  cases hl
  rw [List.dropLast_concat] at hprev
  have hoC := prevNonDebug_mem hprev
  have hoC_lt : oC.id < F.freshInst := by
    rw [← e1] at hoC
    rcases List.mem_append.1 hoC with h | h
    · have := (prepPhis_spec F P v hp.args oC h).1
      rw [isPhi_false_of_icmp hr.guardKind] at this
      cases this
    · obtain ⟨S, hS, rfl⟩ := List.mem_map.1 h
      rw [hp.ids]
      have : S ∈ (E.insts.filter fun I => !I.isAlloca) := by rw [hR0]; simp [hS]
      exact hEl S (List.mem_filter.1 this).1
  have hoCin : InstIn P.F E.id oC := instIn_of_instsOf hl0 (by simp [hoC])
  have heTin : InstIn P.F E.id eT := instIn_of_instsOf hl0 (by simp)
  -- the last block
  have hO : others ≠ [] := by
    intro e
    have := hp.recBlock.1
    rw [e] at this
    cases this
  have hlastO : (others.map Block.id).getLast? = some L.id := by
    have h0 := hr.last0
    rw [← List.getLast?_map, blockIds_eq, blockIds_rebuildGuard, prepAt_blockIds hp] at h0
    cases ho : others.map Block.id with
    | nil => exact absurd (List.map_eq_nil_iff.1 ho) hO
    | cons x xs =>
      rw [ho] at h0
      simpa [List.getLast?_cons_cons] using h0
  rw [List.getLast?_map] at hlastO
  obtain ⟨Lo, hLo, hLoid⟩ : ∃ Lo, others.getLast? = some Lo ∧ Lo.id = L.id := by
    cases hg : others.getLast? with
    | none => simp [hg] at hlastO
    | some Lo => exact ⟨Lo, rfl, by simpa [hg] using hlastO⟩
  have hLomem : Lo ∈ others := mem_of_getLast? hLo
  have hLne : L.id ≠ E.id := by
    rw [← hLoid]
    intro e
    have h := hu.1
    rw [hp.blocksF, List.map_cons, List.nodup_cons] at h
    exact h.1 (e ▸ List.mem_map_of_mem Block.id hLomem)
  have hLoI := prepAt_instsOf_other hp hu hLomem
  have hdiff : ∀ S ∈ Lo.insts, ∀ X, InstIn P.F E.id X → (g S).id ≠ X.id := by
    intro S hS X hX e
    have h1 : InstIn P.F Lo.id (g S) := instIn_of_instsOf hLoI (List.mem_map_of_mem _ hS)
    have := (instIn_unique hnodI h1 hX e).1
    exact hLne (hLoid ▸ this)
  have hLinsts : L.insts =
      (Lo.insts.map g).map (rauw oC.result (.inst (P.base + 2 + P.F.numArgs))) := by
    have h1 : (rebuildBranch P (rebuildGuard P eT oC p b) eT L.id).instsOf L.id =
        some L.insts :=
      instsOf_of_mem (by rw [blockIds_rebuildBranch, blockIds_rebuildGuard]; exact hnodB)
        (mem_of_getLast? hr.last)
    rw [instsOf_rebuildBranch, instsOf_rebuildGuard, ← hLoid, hLoI] at h1
    rw [hLoid, hp.entryBB] at h1
    simp only [Option.map_some', if_neg hLne, Option.some.injEq] at h1
    rw [← h1, dropId_of_not_mem, dropId_of_not_mem]
    · intro I hI
      obtain ⟨J, hJ, rfl⟩ := List.mem_map.1 hI
      obtain ⟨S, hS, rfl⟩ := List.mem_map.1 hJ
      exact hdiff S hS oC hoCin
    · intro I hI
      obtain ⟨hI1, _⟩ := mem_dropId.1 hI
      obtain ⟨J, hJ, rfl⟩ := List.mem_map.1 hI1
      obtain ⟨S, hS, rfl⟩ := List.mem_map.1 hJ
      exact hdiff S hS eT heTin
  have hbRmem : bR ∈ L.insts :=
    (List.dropLast_sublist _).subset (prevNonDebug_mem hr.beforeRet)
  rw [hLinsts] at hbRmem
  obtain ⟨J, hJ, hJe⟩ := List.mem_map.1 hbRmem
  obtain ⟨S, hS, rfl⟩ := List.mem_map.1 hJ
  have hbRid : bR.id = (g S).id := by rw [← hJe]; rfl
  refine ⟨l0, Lo, hl0, hl0_ne, ⟨v, R0, Tl, e1.symm, hR0, e3⟩, hoC, hprev, heT_lt, hoC_lt, hterm,
    ⟨hLo, hLoid.symm⟩, hLinsts, hr.beforeRet, ?_, ?_, ?_, ?_⟩
  · rw [hbRid, hp.ids]
    exact lt_freshInst (mem_allInsts (B := Lo)
      (by rw [hp.blocksF]; exact List.mem_cons_of_mem _ hLomem) hS)
  · exact ⟨by rw [hbRid]; exact hdiff S hS oC hoCin, by rw [hbRid]; exact hdiff S hS eT heTin⟩
  · intro X hX e
    exact hdiff S hS X hX (by rw [← hbRid]; exact e.symm)
  · refine ⟨g S, ?_, hbRid.symm⟩
    rw [← hLoid]
    exact instIn_of_instsOf hLoI (List.mem_map_of_mem _ hS)

theorem prepAt_rec_ne {F : Func} {P : Prepared} {E : Block} {others : List Block}
    {g : Inst → Inst} {RB : Block} {T : Inst} (hp : PrepAt F P E others g RB T)
    (hu : F.uniqueIds) : P.recBBlock ≠ E.id ∧ P.recBBlock < F.freshBlock := by
  obtain ⟨h1, h2⟩ := hp.recBlock
  rw [← h2]
  refine ⟨?_, (prepAt_lt hp).2 RB h1⟩
  intro e
  have h := hu.1
  rw [hp.blocksF, List.map_cons, List.nodup_cons] at h
  exact h.1 (e ▸ List.mem_map_of_mem Block.id h1)

theorem mem_kept {i j k : Nat} {l : List Inst} {J : Inst} :
    J ∈ dropId i (dropId j (dropId k l)) ↔ J ∈ l ∧ J.id ≠ k ∧ J.id ≠ j ∧ J.id ≠ i := by
  simp only [mem_dropId]
  tauto

/-- Where an instruction comes from once the guard, the branch and the return are rebuilt:
it is an instruction the first half left, kept and with its uses replaced, or a new
instruction of the old entry block. -/
theorem core_back {F : Func} {P : Prepared} {E : Block} {others : List Block}
    {g : Inst → Inst} {RB : Block} {T : Inst} (hp : PrepAt F P E others g RB T)
    (hu : F.uniqueIds) {eT oC bR : Inst} {L : Block} {l0 : List Inst} {Lo : Block}
    (hc : RebuildCtx F P E others g eT oC bR L l0 Lo) (p : Pred) (b : Value) (l : Nat)
    {x : Nat} {I : Inst} (h : InstIn (rebuildCore P eT oC p b l bR) x I) :
    (∃ J, InstIn P.F x J ∧ J.id ≠ oC.id ∧ J.id ≠ eT.id ∧ J.id ≠ bR.id ∧
      I = rauw bR.result (.inst P.phiNodeAcc)
        (rauw oC.result (.inst (P.base + 2 + P.F.numArgs)) J)) ∨
    (x = E.id ∧ F.freshInst + 1 + F.numArgs < I.id) := by
  have hnodB : (rebuildCore P eT oC p b l bR).blockIds.Nodup := by
    rw [blockIds_rebuildCore]; exact prepAt_nodupBlocks hp hu
  obtain ⟨lx, hlx, hI⟩ := (instIn_iff_instsOf hnodB).1 h
  have hb := hp.base
  have hn := hp.numArgs
  have h1 := hc.eT_lt
  have h2 := hc.oC_lt
  have h3 := hc.bR_lt
  by_cases hx : x = E.id
  · subst hx
    have hl0 := hc.hdr
    rw [← hp.entryBB] at hl0 hlx
    rw [instsOf_rebuildCore_hdr P eT oC p b l bR l0 hl0 hc.l0_ne
      (fun e => hc.l0_ne oC hc.oC_mem e.symm) (by omega) (by omega) (by omega) (by omega)
      (by omega)] at hlx
    cases hlx
    rcases List.mem_append.1 hI with hI | hI
    · obtain ⟨J, hJ, rfl⟩ := List.mem_map.1 hI
      obtain ⟨hJ1, hJ2, hJ3, hJ4⟩ := mem_kept.1 hJ
      rw [hp.entryBB] at hl0
      exact Or.inl ⟨J, instIn_of_instsOf hl0 (List.mem_append_left _ hJ1), hJ2, hJ3, hJ4, rfl⟩
    · right
      refine ⟨rfl, ?_⟩
      simp only [List.mem_cons, List.mem_singleton, List.mem_nil_iff, or_false] at hI
      rcases hI with rfl | rfl
      · simp only [Function.comp, id_rauw]; omega
      · simp only [id_rauw]; omega
  · rw [instsOf_rebuildCore_ne P eT oC p b l bR x (by rw [hp.entryBB]; exact hx)] at hlx
    cases hP : P.F.instsOf x with
    | none => simp [hP] at hlx
    | some lP =>
      simp only [hP, Option.map_some', Option.some.injEq] at hlx
      subst hlx
      obtain ⟨J, hJ, rfl⟩ := List.mem_map.1 hI
      obtain ⟨hJ1, hJ2, hJ3, hJ4⟩ := mem_kept.1 hJ
      exact Or.inl ⟨J, instIn_of_instsOf hP hJ1, hJ2, hJ3, hJ4, rfl⟩

theorem instIn_createBlockBefore {G : Func} {y : Nat} {N : Block} {x : Nat} {I : Inst}
    (h : InstIn (G.createBlockBefore y N) x I) : InstIn G x I ∨ (x = N.id ∧ I ∈ N.insts) := by
  obtain ⟨B, hB, rfl, hI⟩ := h
  rcases mem_insertBlockBefore _ hB with rfl | hB
  · exact Or.inr ⟨rfl, hI⟩
  · exact Or.inl ⟨B, hB, rfl, hI⟩

theorem instIn_insertBefore_back {G : Func} {b0 a : Nat} {N : Inst} {x : Nat} {I : Inst}
    (h : InstIn (G.insertBefore b0 a N) x I) : InstIn G x I ∨ (x = b0 ∧ I = N) := by
  obtain ⟨B, hB, hid, hI⟩ := instIn_updateBlock.1 h
  by_cases hx : x = b0
  · simp only [hx, if_true] at hI
    have hsub : ∀ l : List Inst, I ∈ insertBeforeId a N l → I = N ∨ I ∈ l := by
      intro l
      induction l with
      | nil => intro h; simp [insertBeforeId] at h
      | cons X l ih =>
        intro h
        unfold insertBeforeId at h
        split at h
        · rcases List.mem_cons.1 h with rfl | h
          · exact Or.inl rfl
          · exact Or.inr h
        · rcases List.mem_cons.1 h with rfl | h
          · exact Or.inr (List.mem_cons_self _ _)
          · rcases ih h with h | h
            · exact Or.inl h
            · exact Or.inr (List.mem_cons_of_mem _ h)
    rcases hsub _ hI with rfl | hI
    · exact Or.inr ⟨hx, rfl⟩
    · exact Or.inl ⟨B, hB, hid, hI⟩
  · simp only [hx, if_false] at hI
    exact Or.inl ⟨B, hB, hid, hI⟩

theorem kind_binop_of_rauw {old new : Value} {J : Inst} {op : BinOp} {a b : Value}
    (h : (rauw old new J).kind = .binop op a b) :
    ∃ a0 b0, J.kind = .binop op a0 b0 ∧ a = substValue old new a0 ∧
      b = substValue old new b0 := by
  obtain ⟨i, k⟩ := J
  cases k <;> simp only [rauw, Inst.mapKind, Kind.mapValues] at h <;> try cases h
  exact ⟨_, _, rfl, rfl, rfl⟩

/-- What `rebuild` read of the step instruction: it is an instruction of the call block that
`rebuild` keeps, a binary operation with the opcode found, and the second operand found is
its second operand with the uses of the old comparison and of the instruction before the
return replaced. -/
theorem step_found {F : Func} {P : Prepared} {E : Block} {others : List Block}
    {g : Inst → Inst} {RB : Block} {T : Inst} (hp : PrepAt F P E others g RB T)
    (hu : F.uniqueIds) {F1 : Func} {eT oC : Inst} {p : Pred} {a b : Value} {L : Block}
    {bR : Inst} {op1 : BinOp} {a1 b1 : Value} {op2 : BinOp} {a2 b2 : Value}
    (hr : Rebuilt P F1 eT oC p a b L bR op1 a1 b1 op2 a2 b2) {l0 : List Inst} {Lo : Block}
    (hc : RebuildCtx F P E others g eT oC bR L l0 Lo) :
    InstIn P.F P.recBBlock P.beforeRecCall ∧ P.beforeRecCall.id ≠ oC.id ∧
      P.beforeRecCall.id ≠ eT.id ∧ P.beforeRecCall.id ≠ bR.id ∧
      ∃ a0 b0, P.beforeRecCall.kind = .binop op1 a0 b0 ∧
        b1 = substValue bR.result (.inst P.phiNodeAcc)
          (substValue oC.result (.inst (P.base + 2 + P.F.numArgs)) b0) := by
  have hnodI := prepAt_nodupInsts hp hu
  have hin : InstIn P.F P.recBBlock P.beforeRecCall := by
    rw [← hp.recBlock.2]
    exact instIn_of_instsOf (prepAt_instsOf_other hp hu hp.recBlock.1) hp.step.1
  have hle := prepAt_le hp _ (instIn_allInsts.2 ⟨_, hin⟩)
  have hstep := hr.step
  cases hf : (((rebuildReturn P (rebuildBranch P (rebuildGuard P eT oC p b) eT L.id)
      bR).createBlockBefore L.id
        ⟨P.newEntryBB + 1, [⟨P.base + 4 + P.F.numArgs, .br P.entryBB⟩]⟩).findInst
          P.beforeRecCall.id) with
  | none => simp [hf] at hstep
  | some I =>
    simp only [hf, Option.map_some', Option.some.injEq] at hstep
    have hI1 := List.mem_of_find?_eq_some hf
    have hI2 : I.id = P.beforeRecCall.id := by simpa using List.find?_some hf
    obtain ⟨x, hx⟩ := instIn_allInsts.1 hI1
    rcases instIn_createBlockBefore hx with hx | ⟨_, hx⟩
    · rcases core_back hp hu hc p b L.id hx with ⟨J, hJ, n1, n2, n3, rfl⟩ | ⟨_, hgt⟩
      · have hJid : J.id = P.beforeRecCall.id := hI2
        obtain ⟨_, rfl⟩ := instIn_unique hnodI hJ hin hJid
        refine ⟨hin, n1, n2, n3, ?_⟩
        obtain ⟨a', b', hk, _, hb'⟩ := kind_binop_of_rauw hstep
        obtain ⟨a0, b0, hk0, _, hb0⟩ := kind_binop_of_rauw hk
        exact ⟨a0, b0, hk0, by rw [hb', hb0]⟩
      · omega
    · simp only [List.mem_singleton] at hx
      subst hx
      simp only at hI2
      have := hp.base
      have := hp.numArgs
      omega

theorem not_terminator_of_binop {I : Inst} {op : BinOp} {a b : Value}
    (h : I.kind = .binop op a b) : I.isTerminator = false := by
  simp [Inst.isTerminator, h]

/-- What `rebuild` read of the update instruction: it is an instruction of the call block
that `rebuild` keeps, a binary operation with the opcode found. -/
theorem update_found {F : Func} {P : Prepared} {E : Block} {others : List Block}
    {g : Inst → Inst} {RB : Block} {T : Inst} (hp : PrepAt F P E others g RB T)
    (hu : F.uniqueIds) {F1 : Func} {eT oC : Inst} {p : Pred} {a b : Value} {L : Block}
    {bR : Inst} {op1 : BinOp} {a1 b1 : Value} {op2 : BinOp} {a2 b2 : Value}
    (hr : Rebuilt P F1 eT oC p a b L bR op1 a1 b1 op2 a2 b2) {l0 : List Inst} {Lo : Block}
    (hc : RebuildCtx F P E others g eT oC bR L l0 Lo) :
    InstIn P.F P.recBBlock P.afterRecCall ∧ P.afterRecCall.id ≠ oC.id ∧
      P.afterRecCall.id ≠ eT.id ∧ P.afterRecCall.id ≠ bR.id ∧
      ∃ a0 b0, P.afterRecCall.kind = .binop op2 a0 b0 := by
  have hnodI := prepAt_nodupInsts hp hu
  obtain ⟨X, hX, hXid, hXeq⟩ := hp.update
  have hRBI := prepAt_instsOf_other hp hu hp.recBlock.1
  rw [hp.recBlock.2] at hRBI
  have hXin : InstIn P.F P.recBBlock X := instIn_of_instsOf hRBI hX
  have hTin : InstIn P.F P.recBBlock (g T) :=
    instIn_of_instsOf hRBI (List.mem_map_of_mem _ (getTerminator_mem hp.recTerm.1).1)
  have hle := prepAt_le hp _ (instIn_allInsts.2 ⟨_, hXin⟩)
  have hupd := hr.update
  cases hf : ((((rebuildReturn P (rebuildBranch P (rebuildGuard P eT oC p b) eT L.id)
      bR).createBlockBefore L.id
        ⟨P.newEntryBB + 1, [⟨P.base + 4 + P.F.numArgs, .br P.entryBB⟩]⟩).insertBefore
          (P.newEntryBB + 1) (P.base + 4 + P.F.numArgs)
          ⟨P.base + 5 + P.F.numArgs, .binop op1 (.inst P.phiNodeTmp) b1⟩).findInst
            P.afterRecCall.id) with
  | none => simp [hf] at hupd
  | some I =>
    simp only [hf, Option.map_some', Option.some.injEq] at hupd
    have hI1 := List.mem_of_find?_eq_some hf
    have hI2 : I.id = P.afterRecCall.id := by simpa using List.find?_some hf
    have hb := hp.base
    have hn := hp.numArgs
    obtain ⟨x, hx⟩ := instIn_allInsts.1 hI1
    rcases instIn_insertBefore_back hx with hx | ⟨_, rfl⟩
    · rcases instIn_createBlockBefore hx with hx | ⟨_, hx⟩
      · rcases core_back hp hu hc p b L.id hx with ⟨J, hJ, n1, n2, n3, rfl⟩ | ⟨_, hgt⟩
        · have hJid : J.id = X.id := by rw [hXid]; exact hI2
          obtain ⟨_, rfl⟩ := instIn_unique hnodI hJ hXin hJid
          obtain ⟨a', b', hk, _, _⟩ := kind_binop_of_rauw hupd
          obtain ⟨a0, b0, hk0, _, _⟩ := kind_binop_of_rauw hk
          have hne : J.id ≠ T.id := by
            intro e
            have e2 : J.id = (g T).id := by rw [hp.ids]; exact e
            obtain ⟨_, rfl⟩ := instIn_unique hnodI hJ hTin e2
            have := hp.recTerm.2.2
            rw [not_terminator_of_binop hk0] at this
            cases this
          have hJeq := hXeq hne
          subst hJeq
          exact ⟨hXin, n1, n2, n3, a0, b0, hk0⟩
        · omega
      · simp only [List.mem_singleton] at hx
        subst hx
        simp only at hI2
        omega
    · simp only at hI2
      omega

/-! ## The uses of the call block, redirected -/

theorem blockRauw_plain (G : Func) (old new x : Nat) {I : Inst} (h1 : I.isPhi = false)
    (h2 : I.targets = []) : blockRauw G old new x I = I := by
  obtain ⟨i, k⟩ := I
  unfold blockRauw
  cases k <;> simp [Inst.isPhi, Inst.targets] at h1 h2 <;> split <;>
    simp [resource, retarget, Inst.mapKind, Kind.mapTargets, Kind.mapIncomingBlocks]

theorem blockRauw_br (G : Func) (old new x i t : Nat) :
    blockRauw G old new x ⟨i, .br t⟩ = ⟨i, .br (substBlock old new t)⟩ := by
  unfold blockRauw
  split <;> simp [resource, retarget, Inst.mapKind, Kind.mapTargets, Kind.mapIncomingBlocks]

theorem blockRauw_condbr (G : Func) (old new x i : Nat) (c : Value) (t e : Nat) :
    blockRauw G old new x ⟨i, .condbr c t e⟩ =
      ⟨i, .condbr c (substBlock old new t) (substBlock old new e)⟩ := by
  unfold blockRauw
  split <;> simp [resource, retarget, Inst.mapKind, Kind.mapTargets, Kind.mapIncomingBlocks]

theorem blockRauw_phi (G : Func) (old new x i : Nat) (inc : List (Value × Nat))
    (hx : (rauwSuccs G old new).contains x = true) :
    blockRauw G old new x ⟨i, .phi inc⟩ =
      ⟨i, .phi (inc.map fun e => (e.1, substBlock old new e.2))⟩ := by
  unfold blockRauw
  rw [if_pos hx]
  simp [resource, retarget, Inst.mapKind, Kind.mapTargets, Kind.mapIncomingBlocks]

theorem operands_blockRauw (G : Func) (old new x : Nat) (I : Inst) :
    (blockRauw G old new x I).operands = I.operands := by
  obtain ⟨i, k⟩ := I
  unfold blockRauw
  cases k <;> split <;>
    simp [resource, retarget, Inst.mapKind, Kind.mapTargets, Kind.mapIncomingBlocks,
      Inst.operands, Function.comp_def]

theorem targets_rauw (old new : Value) (I : Inst) : (rauw old new I).targets = I.targets := by
  obtain ⟨i, k⟩ := I
  cases k <;> rfl

theorem isTerminator_rauw (old new : Value) (I : Inst) :
    (rauw old new I).isTerminator = I.isTerminator := by
  obtain ⟨i, k⟩ := I
  cases k <;> rfl

theorem isTerminator_retarget (old new : Nat) (I : Inst) :
    (retarget old new I).isTerminator = I.isTerminator := by
  obtain ⟨i, k⟩ := I
  cases k <;> rfl

theorem targets_retarget (old new : Nat) (I : Inst) :
    (retarget old new I).targets = I.targets.map (substBlock old new) := by
  obtain ⟨i, k⟩ := I
  cases k <;> rfl

theorem rauwSuccs_of_instsOf {G : Func} {old new : Nat} {l : List Inst} {X : Inst}
    (h : G.instsOf old = some (l ++ [X])) (hX : X.isTerminator = true) :
    rauwSuccs G old new = X.targets.map (substBlock old new) := by
  have h1 : (G.mapInsts (retarget old new)).instsOf old =
      some (l.map (retarget old new) ++ [retarget old new X]) := by
    rw [instsOf_mapInsts, h]
    simp
  unfold rauwSuccs
  unfold Func.instsOf at h1
  cases hf : (G.mapInsts (retarget old new)).findBlock old with
  | none => simp [hf] at h1
  | some B =>
    simp only [hf, Option.map_some', Option.some.injEq] at h1
    simp [Block.successors, Block.getTerminator, h1, isTerminator_retarget, hX,
      targets_retarget]

theorem blockRauw_binop (G : Func) (old new x i : Nat) (op : BinOp) (a b : Value) :
    blockRauw G old new x ⟨i, .binop op a b⟩ = ⟨i, .binop op a b⟩ :=
  blockRauw_plain _ _ _ _ rfl rfl

theorem blockRauw_icmp (G : Func) (old new x i : Nat) (p : Pred) (a b : Value) :
    blockRauw G old new x ⟨i, .icmp p a b⟩ = ⟨i, .icmp p a b⟩ :=
  blockRauw_plain _ _ _ _ rfl rfl

theorem blockRauw_ret (G : Func) (old new x i : Nat) (v : Option Value) :
    blockRauw G old new x ⟨i, .ret v⟩ = ⟨i, .ret v⟩ :=
  blockRauw_plain _ _ _ _ rfl rfl

theorem blockRauw_alloca (G : Func) (old new x : Nat) {I : Inst} (h : I.isAlloca = true) :
    blockRauw G old new x I = I := by
  obtain ⟨i, k⟩ := I
  cases k <;> simp [Inst.isAlloca] at h
  exact blockRauw_plain _ _ _ _ rfl rfl

theorem nodup_block_ids {G : Func} (hn : (G.allInsts.map Inst.id).Nodup) {B : Block}
    (hB : B ∈ G.blocks) : (B.insts.map Inst.id).Nodup := by
  obtain ⟨l1, l2, hl⟩ := List.append_of_mem hB
  rw [Func.allInsts, hl, List.flatMap_append, List.flatMap_cons, List.map_append,
    List.map_append] at hn
  exact (List.nodup_append.1 (List.nodup_append.1 hn).2.1).1

theorem getTerminator_last {B : Block} {T : Inst} (h : B.getTerminator = some T) :
    ∃ init, B.insts = init ++ [T] := by
  unfold Block.getTerminator at h
  cases hl : B.insts.getLast? with
  | none => simp [hl] at h
  | some I =>
    simp only [hl] at h
    split at h
    · cases h
      exact List.getLast?_eq_some_iff.1 hl
    · cases h

/-- The terminator of the call block is not an instruction the second half erases. -/
theorem term_kept {F : Func} {P : Prepared} {E : Block} {others : List Block}
    {g : Inst → Inst} {RB : Block} {T : Inst} (hp : PrepAt F P E others g RB T)
    (hu : F.uniqueIds) {eT oC bR : Inst} {L : Block} {l0 : List Inst} {Lo : Block}
    (hc : RebuildCtx F P E others g eT oC bR L l0 Lo) :
    T.id ≠ oC.id ∧ T.id ≠ eT.id ∧ T.id ≠ bR.id := by
  have hnodI := prepAt_nodupInsts hp hu
  have hRBI := prepAt_instsOf_other hp hu hp.recBlock.1
  rw [hp.recBlock.2] at hRBI
  have hTmem := (getTerminator_mem hp.recTerm.1).1
  have hTin : InstIn P.F P.recBBlock (g T) := instIn_of_instsOf hRBI (List.mem_map_of_mem _ hTmem)
  have hoCin : InstIn P.F E.id oC := instIn_of_instsOf hc.hdr (by simp [hc.oC_mem])
  have heTin : InstIn P.F E.id eT := instIn_of_instsOf hc.hdr (by simp)
  have hne := (prepAt_rec_ne hp hu).1
  refine ⟨?_, ?_, ?_⟩
  · intro e
    exact hne (instIn_unique hnodI hTin hoCin (by rw [hp.ids]; exact e)).1
  · intro e
    exact hne (instIn_unique hnodI hTin heTin (by rw [hp.ids]; exact e)).1
  · intro e
    have hbR : bR ∈ L.insts.dropLast := prevNonDebug_mem hc.bR_prev
    rw [hc.lastInsts, ← List.map_dropLast, ← List.map_dropLast] at hbR
    obtain ⟨J, hJ, hJe⟩ := List.mem_map.1 hbR
    obtain ⟨S, hS, rfl⟩ := List.mem_map.1 hJ
    have hSid : S.id = T.id := by
      rw [e, ← hJe, id_rauw, hp.ids]
    have hLo : Lo ∈ F.blocks := by
      rw [hp.blocksF]; exact List.mem_cons_of_mem _ (mem_of_getLast? hc.last.1)
    have hRB : RB ∈ F.blocks := by
      rw [hp.blocksF]; exact List.mem_cons_of_mem _ hp.recBlock.1
    have hS1 : InstIn F Lo.id S := ⟨Lo, hLo, rfl, (List.dropLast_sublist _).subset hS⟩
    have hT1 : InstIn F RB.id T := ⟨RB, hRB, rfl, hTmem⟩
    obtain ⟨hid, hST⟩ := instIn_unique hu.2 hS1 hT1 hSid
    have hEq : Lo = RB := eq_of_mem_of_id_eq F.blocks hu.1 Lo hLo RB hRB hid
    subst hST
    subst hEq
    obtain ⟨init, hinit⟩ := getTerminator_last hp.recTerm.1
    have hnd := nodup_block_ids hu.2 hLo
    rw [hinit] at hnd hS
    rw [List.dropLast_concat] at hS
    exact ids_disjoint_of_nodup _ _ hnd S S hS (by simp) rfl

/-- The old entry block is a successor of the call block when the uses of the call block
are redirected, so the phi entries of the old entry block are re-attributed. -/
theorem hdr_in_rauwSuccs {F : Func} {P : Prepared} {E : Block} {others : List Block}
    {g : Inst → Inst} {RB : Block} {T : Inst} (hp : PrepAt F P E others g RB T)
    (hu : F.uniqueIds) {eT oC bR : Inst} {L : Block} {l0 : List Inst} {Lo : Block}
    (hc : RebuildCtx F P E others g eT oC bR L l0 Lo) (p : Pred) (b : Value) (l : Nat)
    (op1 : BinOp) (b1 : Value) (op2 : BinOp) :
    (rauwSuccs (rebuildBody P eT oC p b l bR op1 b1 op2) P.recBBlock
      (P.newEntryBB + 1)).contains E.id = true := by
  obtain ⟨hne, hlt⟩ := prepAt_rec_ne hp hu
  obtain ⟨k1, k2, k3⟩ := term_kept hp hu hc
  have hRBI := prepAt_instsOf_other hp hu hp.recBlock.1
  rw [hp.recBlock.2] at hRBI
  obtain ⟨init, hinit⟩ := getTerminator_last hp.recTerm.1
  have hbody := instsOf_rebuildBody_ne P eT oC p b l bR op1 b1 op2 P.recBBlock
    (by rw [hp.newEntryBB]; omega) (by rw [hp.entryBB]; exact hne)
  rw [hRBI, hinit] at hbody
  simp only [Option.map_some', List.map_append, List.map_cons, List.map_nil, dropId_append] at hbody
  have hk : dropId bR.id (dropId eT.id (dropId oC.id [g T])) = [g T] := by
    simp [dropId, hp.ids, k1, k2, k3]
  rw [hk] at hbody
  simp only [List.map_cons, List.map_nil] at hbody
  rw [rauwSuccs_of_instsOf hbody (by
    simp only [Function.comp, isTerminator_rauw]; exact hp.recTerm.2.2)]
  simp only [Function.comp, targets_rauw, List.contains_eq_any_beq, List.any_map,
    List.any_eq_true, Function.comp_apply, beq_iff_eq]
  exact ⟨E.id, hp.recTerm.2.1, by
    rw [substBlock, if_neg (fun e : E.id = P.recBBlock => hne e.symm)]⟩

/-! ## The function the transformer leaves, block by block -/

theorem reuse_eq (P : Prepared) (oC bR : Inst) :
    (rauw P.afterRecCall.result (.inst (P.base + 6 + P.F.numArgs)) ∘
      rauw P.beforeRecCall.result (.inst (P.base + 5 + P.F.numArgs)) ∘
      rauw bR.result (.inst P.phiNodeAcc) ∘
      rauw oC.result (.inst (P.base + 2 + P.F.numArgs))) = reuse P oC bR := by
  funext I
  simp only [Function.comp, rauw, reuse, Inst.mapKind, mapValues_mapValues]
  rfl

theorem substValue_inst_ne {c j : Nat} (new : Value) (h : j ≠ c) :
    substValue (.inst c) new (.inst j) = .inst j := by
  simp [substValue, h]

theorem reuseValue_inst (P : Prepared) (oC bR : Inst) (j : Nat) (h1 : j ≠ oC.id)
    (h2 : j ≠ bR.id) (h3 : j ≠ P.beforeRecCall.id) (h4 : j ≠ P.afterRecCall.id) :
    reuseValue P oC bR (.inst j) = .inst j := by
  simp [reuseValue, substValue, Inst.result, h1, h2, h3, h4]

theorem reuseValue_arg (P : Prepared) (oC bR : Inst) (i : Nat) :
    reuseValue P oC bR (.arg i) = .arg i := by
  simp [reuseValue, substValue, Inst.result]

theorem id_reuse (P : Prepared) (oC bR : Inst) (I : Inst) : (reuse P oC bR I).id = I.id := rfl

theorem reuse_alloca (P : Prepared) (oC bR : Inst) {I : Inst} (h : I.isAlloca = true) :
    reuse P oC bR I = I := mapKind_alloca _ h

theorem reuse_br (P : Prepared) (oC bR : Inst) (i t : Nat) :
    reuse P oC bR ⟨i, .br t⟩ = ⟨i, .br t⟩ := rfl

theorem keptInsts_of_not_mem (oC eT bR : Inst) (l : List Inst)
    (h : ∀ I ∈ l, I.id ≠ oC.id ∧ I.id ≠ eT.id ∧ I.id ≠ bR.id) : keptInsts oC eT bR l = l := by
  unfold keptInsts
  rw [dropId_of_not_mem oC.id l (fun I hI => (h I hI).1),
    dropId_of_not_mem eT.id l (fun I hI => (h I hI).2.1),
    dropId_of_not_mem bR.id l (fun I hI => (h I hI).2.2)]

theorem mem_keptInsts {oC eT bR : Inst} {l : List Inst} {J : Inst} :
    J ∈ keptInsts oC eT bR l ↔ J ∈ l ∧ J.id ≠ oC.id ∧ J.id ≠ eT.id ∧ J.id ≠ bR.id :=
  mem_kept

/-- A block other than the old entry block, the loop body block and the call block, as the
transformer leaves it. -/
theorem final_other (P : Prepared) (eT oC : Inst) (p : Pred) (b : Value) (l : Nat)
    (bR : Inst) (op1 : BinOp) (b1 : Value) (op2 : BinOp) (x : Nat)
    (hx : x ≠ P.newEntryBB + 1) (hx2 : x ≠ P.entryBB) (hx3 : x ≠ P.recBBlock) :
    (rebuildFinish P (rebuildBody P eT oC p b l bR op1 b1 op2)).instsOf x =
      (P.F.instsOf x).map fun l0 => (keptInsts oC eT bR l0).map
        (blockRauw (rebuildBody P eT oC p b l bR op1 b1 op2) P.recBBlock (P.newEntryBB + 1) x ∘
          reuse P oC bR) := by
  rw [instsOf_rebuildFinish _ _ _ hx3, instsOf_rebuildBody_ne _ _ _ _ _ _ _ _ _ _ _ hx hx2,
    reuse_eq]
  simp only [Option.map_map, Function.comp_def, List.map_map, keptInsts]

/-- The old entry block as the transformer leaves it. -/
theorem final_hdr (P : Prepared) (eT oC : Inst) (p : Pred) (b : Value) (l : Nat)
    (bR : Inst) (op1 : BinOp) (b1 : Value) (op2 : BinOp) (l0 : List Inst)
    (hl0 : P.F.instsOf P.entryBB = some (l0 ++ [eT])) (hne : ∀ I ∈ l0, I.id ≠ eT.id)
    (hx : P.entryBB ≠ P.newEntryBB + 1) (hx3 : P.entryBB ≠ P.recBBlock)
    (h1 : eT.id ≠ oC.id) (h2 : P.base + 2 + P.F.numArgs ≠ oC.id)
    (h3 : P.base + 2 + P.F.numArgs ≠ eT.id) (h4 : P.base + 3 + P.F.numArgs ≠ eT.id)
    (h5 : P.base + 2 + P.F.numArgs ≠ bR.id) (h6 : P.base + 3 + P.F.numArgs ≠ bR.id)
    (h7 : P.base + 2 + P.F.numArgs ≠ P.beforeRecCall.id)
    (h8 : P.base + 2 + P.F.numArgs ≠ P.afterRecCall.id)
    (h9 : P.phiNodeTmp ≠ oC.id) (h10 : P.phiNodeTmp ≠ bR.id)
    (h11 : P.phiNodeTmp ≠ P.beforeRecCall.id) (h12 : P.phiNodeTmp ≠ P.afterRecCall.id) :
    (rebuildFinish P (rebuildBody P eT oC p b l bR op1 b1 op2)).instsOf P.entryBB = some
      ((keptInsts oC eT bR l0).map
        (blockRauw (rebuildBody P eT oC p b l bR op1 b1 op2) P.recBBlock (P.newEntryBB + 1)
          P.entryBB ∘ reuse P oC bR) ++
        [⟨P.base + 2 + P.F.numArgs, .icmp p (.inst P.phiNodeTmp) (reuseValue P oC bR b)⟩,
         ⟨P.base + 3 + P.F.numArgs, .condbr (.inst (P.base + 2 + P.F.numArgs))
            (substBlock P.recBBlock (P.newEntryBB + 1) l) (P.newEntryBB + 1)⟩]) := by
  have e1 : reuse P oC bR ⟨P.base + 2 + P.F.numArgs, .icmp p (.inst P.phiNodeTmp) b⟩ =
      ⟨P.base + 2 + P.F.numArgs, .icmp p (.inst P.phiNodeTmp) (reuseValue P oC bR b)⟩ := by
    simp only [reuse, Inst.mapKind, Kind.mapValues, reuseValue_inst P oC bR _ h9 h10 h11 h12]
  have e2 : (rauw P.afterRecCall.result (.inst (P.base + 6 + P.F.numArgs)) ∘
      rauw P.beforeRecCall.result (.inst (P.base + 5 + P.F.numArgs)) ∘
      rauw bR.result (.inst P.phiNodeAcc))
        ⟨P.base + 3 + P.F.numArgs, .condbr (.inst (P.base + 2 + P.F.numArgs)) l P.recBBlock⟩ =
      ⟨P.base + 3 + P.F.numArgs, .condbr (.inst (P.base + 2 + P.F.numArgs)) l P.recBBlock⟩ := by
    simp only [Function.comp, rauw, Inst.mapKind, Kind.mapValues, Inst.result,
      substValue_inst_ne _ h5, substValue_inst_ne _ h7, substValue_inst_ne _ h8]
  have e3 : blockRauw (rebuildBody P eT oC p b l bR op1 b1 op2) P.recBBlock
      (P.newEntryBB + 1) P.entryBB
      ⟨P.base + 2 + P.F.numArgs, .icmp p (.inst P.phiNodeTmp) (reuseValue P oC bR b)⟩ =
      ⟨P.base + 2 + P.F.numArgs, .icmp p (.inst P.phiNodeTmp) (reuseValue P oC bR b)⟩ :=
    blockRauw_plain _ _ _ _ rfl rfl
  have e4 := blockRauw_condbr (rebuildBody P eT oC p b l bR op1 b1 op2) P.recBBlock
    (P.newEntryBB + 1) P.entryBB (P.base + 3 + P.F.numArgs)
    (.inst (P.base + 2 + P.F.numArgs)) l P.recBBlock
  have e5 : substBlock P.recBBlock (P.newEntryBB + 1) P.recBBlock = P.newEntryBB + 1 := by
    simp [substBlock]
  rw [e5] at e4
  rw [instsOf_rebuildFinish _ _ _ hx3,
    instsOf_rebuildBody_hdr P eT oC p b l bR op1 b1 op2 l0 hl0 hne hx h1 h2 h3 h4 h5 h6,
    reuse_eq, e1, e2, Option.map_some', List.map_append, List.map_map, List.map_cons,
    List.map_cons, List.map_nil, e3, e4]
  rfl

/-- The loop body block as the transformer leaves it. -/
theorem final_loop (P : Prepared) (eT oC : Inst) (p : Pred) (b : Value) (l : Nat)
    (bR : Inst) (op1 : BinOp) (b1 : Value) (op2 : BinOp)
    (hl : l ∈ P.F.blockIds) (hnew : P.newEntryBB + 1 ∉ P.F.blockIds)
    (hx3 : P.newEntryBB + 1 ≠ P.recBBlock)
    (h1 : P.phiNodeTmp ≠ P.beforeRecCall.id) (h2 : P.phiNodeTmp ≠ P.afterRecCall.id)
    (h3 : P.phiNodeAcc ≠ P.beforeRecCall.id) (h4 : P.phiNodeAcc ≠ P.afterRecCall.id) :
    (rebuildFinish P (rebuildBody P eT oC p b l bR op1 b1 op2)).instsOf (P.newEntryBB + 1) =
      some [⟨P.base + 5 + P.F.numArgs, .binop op1 (.inst P.phiNodeTmp)
          (substValue P.afterRecCall.result (.inst (P.base + 6 + P.F.numArgs))
            (substValue P.beforeRecCall.result (.inst (P.base + 5 + P.F.numArgs)) b1))⟩,
        ⟨P.base + 6 + P.F.numArgs, .binop op2 (.inst P.phiNodeAcc) (.inst P.phiNodeTmp)⟩,
        ⟨P.base + 4 + P.F.numArgs, .br (substBlock P.recBBlock (P.newEntryBB + 1) P.entryBB)⟩] := by
  have e1 : (rauw P.afterRecCall.result (.inst (P.base + 6 + P.F.numArgs)) ∘
      rauw P.beforeRecCall.result (.inst (P.base + 5 + P.F.numArgs)))
        ⟨P.base + 5 + P.F.numArgs, .binop op1 (.inst P.phiNodeTmp) b1⟩ =
      ⟨P.base + 5 + P.F.numArgs, .binop op1 (.inst P.phiNodeTmp)
          (substValue P.afterRecCall.result (.inst (P.base + 6 + P.F.numArgs))
            (substValue P.beforeRecCall.result (.inst (P.base + 5 + P.F.numArgs)) b1))⟩ := by
    simp only [Function.comp, rauw, Inst.mapKind, Kind.mapValues, Inst.result,
      substValue_inst_ne _ h1, substValue_inst_ne _ h2]
  have e2 : (rauw P.afterRecCall.result (.inst (P.base + 6 + P.F.numArgs)) ∘
      rauw P.beforeRecCall.result (.inst (P.base + 5 + P.F.numArgs)))
        ⟨P.base + 6 + P.F.numArgs, .binop op2 (.inst P.phiNodeAcc) (.inst P.phiNodeTmp)⟩ =
      ⟨P.base + 6 + P.F.numArgs, .binop op2 (.inst P.phiNodeAcc) (.inst P.phiNodeTmp)⟩ := by
    simp only [Function.comp, rauw, Inst.mapKind, Kind.mapValues, Inst.result,
      substValue_inst_ne _ h1, substValue_inst_ne _ h2, substValue_inst_ne _ h3,
      substValue_inst_ne _ h4]
  have e3 : (rauw P.afterRecCall.result (.inst (P.base + 6 + P.F.numArgs)) ∘
      rauw P.beforeRecCall.result (.inst (P.base + 5 + P.F.numArgs)))
        ⟨P.base + 4 + P.F.numArgs, .br P.entryBB⟩ = ⟨P.base + 4 + P.F.numArgs, .br P.entryBB⟩ :=
    rfl
  rw [instsOf_rebuildFinish _ _ _ hx3, rebuildBody_eq,
    instsOf_rebuildLoop_loop P _ l op1 b1 op2 (by rw [blockIds_rebuildCore]; exact hl)
      (by rw [blockIds_rebuildCore]; exact hnew)]
  simp only [Option.map_some', List.map_cons, List.map_nil]
  rw [e1, e2, e3, blockRauw_binop, blockRauw_binop, blockRauw_br]

theorem instIn_rebuildLoop_back {P : Prepared} {G : Func} {l : Nat} {op1 : BinOp} {b1 : Value}
    {op2 : BinOp} {x : Nat} {I : Inst} (h : InstIn (rebuildLoop P G l op1 b1 op2) x I) :
    (∃ J, InstIn G x J ∧ I = rauw P.afterRecCall.result (.inst (P.base + 6 + P.F.numArgs))
      (rauw P.beforeRecCall.result (.inst (P.base + 5 + P.F.numArgs)) J)) ∨
    (x = P.newEntryBB + 1 ∧ P.base + 4 + P.F.numArgs ≤ I.id ∧ I.id ≤ P.base + 6 + P.F.numArgs) := by
  unfold rebuildLoop at h
  rw [replaceAllUsesWith_eq, replaceAllUsesWith_eq] at h
  obtain ⟨J1, hJ1, rfl⟩ := instIn_mapInsts.1 h
  obtain ⟨J2, hJ2, rfl⟩ := instIn_mapInsts.1 hJ1
  rcases instIn_insertBefore_back hJ2 with hJ3 | ⟨hx, rfl⟩
  · rcases instIn_insertBefore_back hJ3 with hJ4 | ⟨hx, rfl⟩
    · rcases instIn_createBlockBefore hJ4 with hJ5 | ⟨hx, hJ5⟩
      · exact Or.inl ⟨J2, hJ5, rfl⟩
      · simp only [List.mem_singleton] at hJ5
        subst hJ5
        exact Or.inr ⟨hx, by simp only [id_rauw]; omega, by simp only [id_rauw]; omega⟩
    · exact Or.inr ⟨hx, by simp only [id_rauw]; omega, by simp only [id_rauw]; omega⟩
  · exact Or.inr ⟨hx, by simp only [id_rauw]; omega, by simp only [id_rauw]; omega⟩

/-- Where an instruction of the function the transformer leaves comes from: it is an
instruction the first half left, kept, with its uses replaced and the call block redirected,
or a new instruction of the old entry block or of the loop body block. -/
theorem final_back {F : Func} {P : Prepared} {E : Block} {others : List Block}
    {g : Inst → Inst} {RB : Block} {T : Inst} (hp : PrepAt F P E others g RB T)
    (hu : F.uniqueIds) {eT oC bR : Inst} {L : Block} {l0 : List Inst} {Lo : Block}
    (hc : RebuildCtx F P E others g eT oC bR L l0 Lo) (p : Pred) (b : Value) (l : Nat)
    (op1 : BinOp) (b1 : Value) (op2 : BinOp) {x : Nat} {I : Inst}
    (h : InstIn (rebuildFinish P (rebuildBody P eT oC p b l bR op1 b1 op2)) x I) :
    x ≠ P.recBBlock ∧
    ((∃ J, InstIn P.F x J ∧ J.id ≠ oC.id ∧ J.id ≠ eT.id ∧ J.id ≠ bR.id ∧
      I = blockRauw (rebuildBody P eT oC p b l bR op1 b1 op2) P.recBBlock (P.newEntryBB + 1) x
        (reuse P oC bR J)) ∨
    ((x = E.id ∨ x = P.newEntryBB + 1) ∧ F.freshInst + 1 + F.numArgs < I.id)) := by
  unfold rebuildFinish at h
  obtain ⟨h1, hx⟩ := instIn_eraseBlock.1 h
  obtain ⟨J, hJ, rfl⟩ := instIn_replaceBlockUsesWith_iff.1 h1
  refine ⟨hx, ?_⟩
  have hb := hp.base
  have hn := hp.numArgs
  rw [rebuildBody_eq] at hJ
  rcases instIn_rebuildLoop_back hJ with ⟨J1, hJ1, rfl⟩ | ⟨hx1, h2, h3⟩
  · rcases core_back hp hu hc p b l hJ1 with ⟨J0, hJ0, n1, n2, n3, rfl⟩ | ⟨hx2, hgt⟩
    · left
      refine ⟨J0, hJ0, n1, n2, n3, ?_⟩
      rw [← reuse_eq]
      rfl
    · right
      exact ⟨Or.inl hx2, by simp only [id_blockRauw, id_rauw]; exact hgt⟩
  · right
    exact ⟨Or.inr hx1, by simp only [id_blockRauw]; omega⟩

/-! ## What the transformer leaves, from the function it starts from -/

theorem rewrite_setup (F : Func) (hu : F.uniqueIds) (hcall : F.callOutsideEntry = true)
    (P : Prepared) (hP : prepare F = .done P) (F1 : Func) (hR : rebuild P = .done F1) :
    ∃ E others g RB T eT oC p a b L bR op1 a1 b1 op2 a2 b2 l0 Lo,
      PrepAt F P E others g RB T ∧ Rebuilt P F1 eT oC p a b L bR op1 a1 b1 op2 a2 b2 ∧
      RebuildCtx F P E others g eT oC bR L l0 Lo := by
  obtain ⟨E, others, g, RB, T, hp⟩ := prepare_exact F hu hcall P hP
  obtain ⟨eT, oC, p, a, b, L, bR, op1, a1, b1, op2, a2, b2, hr⟩ := rebuild_summary P F1 hR
  obtain ⟨l0, Lo, hc⟩ := rebuild_ctx hp hu hr
  exact ⟨E, others, g, RB, T, eT, oC, p, a, b, L, bR, op1, a1, b1, op2, a2, b2, l0, Lo, hp, hr,
    hc⟩

theorem findBlock_of_instsOf {G : Func} {b : Nat} {l : List Inst} (h : G.instsOf b = some l) :
    G.findBlock b = some ⟨b, l⟩ := by
  unfold Func.instsOf at h
  cases hf : G.findBlock b with
  | none => simp [hf] at h
  | some B =>
    simp only [hf, Option.map_some', Option.some.injEq] at h
    obtain ⟨_, h2⟩ := findBlock_mem hf
    cases B
    simp only at h h2
    rw [h, h2]

theorem prepAt_entryId {F : Func} {P : Prepared} {E : Block} {others : List Block}
    {g : Inst → Inst} {RB : Block} {T : Inst} (hp : PrepAt F P E others g RB T) :
    F.entryId = E.id := by
  simp [Func.entryId, hp.blocksF]

/-- Identities the second half of `eliminateTailCall` reads are identities of instructions
of the function, below the fresh ones. -/
theorem found_lt {F : Func} {P : Prepared} {E : Block} {others : List Block}
    {g : Inst → Inst} {RB : Block} {T : Inst} (hp : PrepAt F P E others g RB T) :
    P.beforeRecCall.id < F.freshInst ∧ P.afterRecCall.id < F.freshInst := by
  constructor
  · obtain ⟨S, hS, hSe⟩ := List.mem_map.1 hp.step.1
    rw [← hSe, hp.ids]
    exact lt_freshInst (mem_allInsts (B := RB)
      (by rw [hp.blocksF]; exact List.mem_cons_of_mem _ hp.recBlock.1) hS)
  · obtain ⟨X, hX, hXid, _⟩ := hp.update
    obtain ⟨S, hS, hSe⟩ := List.mem_map.1 hX
    rw [← hXid, ← hSe, hp.ids]
    exact lt_freshInst (mem_allInsts (B := RB)
      (by rw [hp.blocksF]; exact List.mem_cons_of_mem _ hp.recBlock.1) hS)

/-- The old entry block as the transformer leaves it, in terms of the function it starts
from. -/
theorem final_hdr_F {F : Func} {P : Prepared} {E : Block} {others : List Block}
    {g : Inst → Inst} {RB : Block} {T : Inst} (hp : PrepAt F P E others g RB T)
    (hu : F.uniqueIds) {F1 : Func} {eT oC : Inst} {p : Pred} {a b : Value} {L : Block}
    {bR : Inst} {op1 : BinOp} {a1 b1 : Value} {op2 : BinOp} {a2 b2 : Value}
    (hr : Rebuilt P F1 eT oC p a b L bR op1 a1 b1 op2 a2 b2) {l0 : List Inst} {Lo : Block}
    (hc : RebuildCtx F P E others g eT oC bR L l0 Lo) :
    F1.instsOf E.id = some
      ((keptInsts oC eT bR l0).map
        (blockRauw (rebuildBody P eT oC p b L.id bR op1 b1 op2) P.recBBlock (P.newEntryBB + 1)
          E.id ∘ reuse P oC bR) ++
        [⟨F.freshInst + 2 + F.numArgs,
            .icmp p (.inst (F.freshInst + F.numArgs)) (reuseValue P oC bR b)⟩,
         ⟨F.freshInst + 3 + F.numArgs, .condbr (.inst (F.freshInst + 2 + F.numArgs))
            (substBlock P.recBBlock (F.freshBlock + 1) L.id) (F.freshBlock + 1)⟩]) := by
  obtain ⟨hne, hlt⟩ := prepAt_rec_ne hp hu
  obtain ⟨hs_ne, hu_ne⟩ := found_lt hp
  have hb := hp.base
  have hn := hp.numArgs
  have ht := hp.phiNodeTmp
  have ha := hp.phiNodeAcc
  have hpre := hp.newEntryBB
  have hE := hp.entryBB
  have h1 := hc.eT_lt
  have h2 := hc.oC_lt
  have h3 := hc.bR_lt
  have hElt := (prepAt_lt hp).1
  have hl0' := hc.hdr
  rw [← hE] at hl0'
  have hfin := final_hdr P eT oC p b L.id bR op1 b1 op2 l0 hl0' hc.l0_ne
    (by omega) (by rw [hE]; exact fun e => hne e.symm) (fun e => hc.l0_ne oC hc.oC_mem e.symm)
    (by omega) (by omega) (by omega) (by omega) (by omega) (by omega) (by omega) (by omega)
    (by omega) (by omega) (by omega)
  rw [← rebuilt_result hr, hE, hb, hn, ht, hpre] at hfin
  rw [hpre]
  exact hfin

/-- The two merge values the loop goes through, as the transformer leaves them in the old
entry block: each has one entry from the new entry block and one from the loop body block,
the latter being the new step operation and the new update operation. -/
theorem final_phis {F : Func} {P : Prepared} {E : Block} {others : List Block}
    {g : Inst → Inst} {RB : Block} {T : Inst} (hp : PrepAt F P E others g RB T)
    (hu : F.uniqueIds) {F1 : Func} {eT oC : Inst} {p : Pred} {a b : Value} {L : Block}
    {bR : Inst} {op1 : BinOp} {a1 b1 : Value} {op2 : BinOp} {a2 b2 : Value}
    (hr : Rebuilt P F1 eT oC p a b L bR op1 a1 b1 op2 a2 b2) {l0 : List Inst} {Lo : Block}
    (hc : RebuildCtx F P E others g eT oC bR L l0 Lo) :
    ∃ v, InstIn F1 E.id ⟨F.freshInst + F.numArgs,
        .phi [(.arg (F.numArgs - 1), F.freshBlock),
          (.inst (F.freshInst + 5 + F.numArgs), F.freshBlock + 1)]⟩ ∧
      InstIn F1 E.id ⟨F.freshInst + 1 + F.numArgs,
        .phi [(v, F.freshBlock), (.inst (F.freshInst + 6 + F.numArgs), F.freshBlock + 1)]⟩ := by
  obtain ⟨hne, hlt⟩ := prepAt_rec_ne hp hu
  obtain ⟨hs1, hs2, hs3, hs4, _⟩ := step_found hp hu hr hc
  obtain ⟨hu1, hu2, hu3, hu4, _⟩ := update_found hp hu hr hc
  obtain ⟨hs_ne, hu_ne⟩ := found_lt hp
  have hb := hp.base
  have hn := hp.numArgs
  have hpre := hp.newEntryBB
  have h1 := hc.eT_lt
  have h2 := hc.oC_lt
  have h3 := hc.bR_lt
  have hsucc := hdr_in_rauwSuccs hp hu hc p b L.id op1 b1 op2
  obtain ⟨v, R0, Tl, hl0, _, _⟩ := hc.l0_eq
  have hfin := final_hdr_F hp hu hr hc
  have hphi1 : (⟨F.freshInst + F.numArgs,
      .phi [(.arg (F.numArgs - 1), F.freshBlock), (P.beforeRecCall.result, P.recBBlock)]⟩ : Inst)
      ∈ keptInsts oC eT bR l0 := by
    refine mem_keptInsts.2 ⟨?_, by simp only; omega, by simp only; omega, by simp only; omega⟩
    rw [hl0]
    exact List.mem_append_left _ (by simp [prepPhis])
  have hphi2 : (⟨F.freshInst + 1 + F.numArgs,
      .phi [(v, F.freshBlock), (P.afterRecCall.result, P.recBBlock)]⟩ : Inst)
      ∈ keptInsts oC eT bR l0 := by
    refine mem_keptInsts.2 ⟨?_, by simp only; omega, by simp only; omega, by simp only; omega⟩
    rw [hl0]
    exact List.mem_append_left _ (by simp [prepPhis])
  have hσ1 : reuseValue P oC bR P.beforeRecCall.result =
      .inst (F.freshInst + 5 + F.numArgs) := by
    simp only [reuseValue, Inst.result, substValue_inst_ne _ hs2, substValue_inst_ne _ hs4]
    simp only [substValue, if_true]
    rw [if_neg (by simp only [Value.inst.injEq]; omega), hb, hn]
  have hσ2 : reuseValue P oC bR P.afterRecCall.result =
      .inst (F.freshInst + 6 + F.numArgs) := by
    simp only [reuseValue, Inst.result, substValue_inst_ne _ hu2, substValue_inst_ne _ hu4,
      substValue_inst_ne _ (Ne.symm hp.stepUpdate)]
    simp only [substValue, if_true, hb, hn]
  have hpre_ne : F.freshBlock ≠ P.recBBlock := by omega
  refine ⟨reuseValue P oC bR v, ?_, ?_⟩
  · refine instIn_of_instsOf hfin (List.mem_append_left _ (List.mem_map.2 ⟨_, hphi1, ?_⟩))
    simp only [Function.comp, reuse, Inst.mapKind, Kind.mapValues, List.map_cons, List.map_nil,
      reuseValue_arg, hσ1]
    rw [blockRauw_phi _ _ _ _ _ _ hsucc]
    simp [substBlock, hpre_ne, hpre]
  · refine instIn_of_instsOf hfin (List.mem_append_left _ (List.mem_map.2 ⟨_, hphi2, ?_⟩))
    simp only [Function.comp, reuse, Inst.mapKind, Kind.mapValues, List.map_cons, List.map_nil,
      hσ2]
    rw [blockRauw_phi _ _ _ _ _ _ hsucc]
    simp [substBlock, hpre_ne, hpre]

theorem blockIds_rebuildLoop (P : Prepared) (G : Func) (l : Nat) (op1 : BinOp) (b1 : Value)
    (op2 : BinOp) (hl : l ∈ G.blockIds) :
    ∃ l1 l2, G.blockIds = l1 ++ l :: l2 ∧
      (rebuildLoop P G l op1 b1 op2).blockIds = l1 ++ (P.newEntryBB + 1) :: l :: l2 := by
  obtain ⟨l1, l2, h1, h2⟩ := blockIds_createBlockBefore G l
    ⟨P.newEntryBB + 1, [⟨P.base + 4 + P.F.numArgs, .br P.entryBB⟩]⟩ hl
  refine ⟨l1, l2, h1, ?_⟩
  rw [← h2]
  unfold rebuildLoop Func.blockIds
  rw [ids_replaceAllUsesWith, ids_replaceAllUsesWith, ids_insertBefore, ids_insertBefore]

theorem blockIds_rebuildFinish (P : Prepared) (G : Func) :
    (rebuildFinish P G).blockIds = G.blockIds.filter fun c => c != P.recBBlock := by
  unfold rebuildFinish
  rw [blockIds_eraseBlock]
  unfold Func.blockIds
  rw [ids_replaceBlockUsesWith]

theorem last_of_nodup {l1 l2 : List Nat} {x : Nat} (hn : (l1 ++ x :: l2).Nodup)
    (hl : (l1 ++ x :: l2).getLast? = some x) : l2 = [] := by
  cases h : l2 with
  | nil => rfl
  | cons y ys =>
    exfalso
    rw [h] at hn hl
    have hmem : x ∈ y :: ys := by
      have : (l1 ++ x :: y :: ys).getLast? = (y :: ys).getLast? := by
        have e : l1 ++ x :: y :: ys = (l1 ++ [x]) ++ (y :: ys) := by simp
        rw [e, List.getLast?_append_of_ne_nil _ (by simp)]
      rw [this] at hl
      exact mem_of_getLast? hl
    rw [List.nodup_append] at hn
    exact (List.nodup_cons.1 hn.2.1).1 hmem

/-- The blocks of the function the transformer leaves: the blocks the first half left, with
the loop body block in front of the last one, without the call block. -/
theorem final_blockIds {F : Func} {P : Prepared} {E : Block} {others : List Block}
    {g : Inst → Inst} {RB : Block} {T : Inst} (hp : PrepAt F P E others g RB T)
    (hu : F.uniqueIds) {eT oC bR : Inst} {L : Block} {l0 : List Inst} {Lo : Block}
    (hc : RebuildCtx F P E others g eT oC bR L l0 Lo) (p : Pred) (b : Value)
    (op1 : BinOp) (b1 : Value) (op2 : BinOp) :
    ∃ l1, F.freshBlock :: E.id :: others.map Block.id = l1 ++ [L.id] ∧
      (rebuildFinish P (rebuildBody P eT oC p b L.id bR op1 b1 op2)).blockIds =
        (l1 ++ [F.freshBlock + 1, L.id]).filter fun c => c != P.recBBlock := by
  have hnodB := prepAt_nodupBlocks hp hu
  have hids := prepAt_blockIds hp
  have hO : others ≠ [] := fun e => by
    have := hp.recBlock.1
    rw [e] at this
    cases this
  have hlast : P.F.blockIds.getLast? = some L.id := by
    rw [hids]
    cases ho : others with
    | nil => exact absurd ho hO
    | cons x xs =>
      rw [← ho, List.getLast?_cons_cons]
      have h2 : (E.id :: others.map Block.id).getLast? = (others.map Block.id).getLast? := by
        rw [ho]; simp [List.getLast?_cons_cons]
      rw [h2, List.getLast?_map, hc.last.1, Option.map_some', hc.last.2]
  have hmem : L.id ∈ (rebuildCore P eT oC p b L.id bR).blockIds := by
    rw [blockIds_rebuildCore]
    exact mem_of_getLast? hlast
  obtain ⟨l1, l2, h1, h2⟩ := blockIds_rebuildLoop P _ L.id op1 b1 op2 hmem
  rw [blockIds_rebuildCore] at h1
  have hl2 : l2 = [] := last_of_nodup (by rw [← h1]; exact hnodB) (by rw [← h1]; exact hlast)
  subst hl2
  refine ⟨l1, by rw [← hids, h1], ?_⟩
  rw [blockIds_rebuildFinish, rebuildBody_eq, h2, hp.newEntryBB]

theorem final_nodupBlocks {F : Func} {P : Prepared} {E : Block} {others : List Block}
    {g : Inst → Inst} {RB : Block} {T : Inst} (hp : PrepAt F P E others g RB T)
    (hu : F.uniqueIds) {eT oC bR : Inst} {L : Block} {l0 : List Inst} {Lo : Block}
    (hc : RebuildCtx F P E others g eT oC bR L l0 Lo) (p : Pred) (b : Value)
    (op1 : BinOp) (b1 : Value) (op2 : BinOp) :
    (rebuildFinish P (rebuildBody P eT oC p b L.id bR op1 b1 op2)).blockIds.Nodup := by
  obtain ⟨l1, h1, h2⟩ := final_blockIds hp hu hc p b op1 b1 op2
  rw [h2]
  apply List.Nodup.filter
  have hn := prepAt_nodupBlocks hp hu
  rw [prepAt_blockIds hp, h1] at hn
  have hlt : ∀ c ∈ l1 ++ [L.id], c < F.freshBlock + 1 := by
    intro c hc1
    rw [← h1] at hc1
    rcases List.mem_cons.1 hc1 with rfl | hc1
    · omega
    · rcases List.mem_cons.1 hc1 with rfl | hc1
      · have := (prepAt_lt hp).1; omega
      · obtain ⟨B, hB, rfl⟩ := List.mem_map.1 hc1
        have := (prepAt_lt hp).2 B hB; omega
  rw [List.nodup_append] at hn ⊢
  refine ⟨hn.1, ?_, ?_⟩
  · refine List.nodup_cons.2 ⟨?_, hn.2.1⟩
    intro hmem
    have := hlt L.id (by simp)
    simp only [List.mem_singleton] at hmem
    omega
  · intro c hc1 hc2
    rcases List.mem_cons.1 hc2 with rfl | hc2
    · have := hlt _ (List.mem_append_left _ hc1)
      omega
    · exact hn.2.2 hc1 hc2

theorem final_last {F : Func} {P : Prepared} {E : Block} {others : List Block}
    {g : Inst → Inst} {RB : Block} {T : Inst} (hp : PrepAt F P E others g RB T)
    (hu : F.uniqueIds) {eT oC bR : Inst} {L : Block} {l0 : List Inst} {Lo : Block}
    (hc : RebuildCtx F P E others g eT oC bR L l0 Lo) (p : Pred) (b : Value)
    (op1 : BinOp) (b1 : Value) (op2 : BinOp) :
    (rebuildFinish P (rebuildBody P eT oC p b L.id bR op1 b1 op2)).blocks.getLast?.map Block.id =
      some (substBlock P.recBBlock (F.freshBlock + 1) L.id) := by
  obtain ⟨l1, h1, h2⟩ := final_blockIds hp hu hc p b op1 b1 op2
  have hlt := (prepAt_rec_ne hp hu).2
  rw [← List.getLast?_map, blockIds_eq, h2, List.filter_append]
  have hne : ((F.freshBlock + 1) != P.recBBlock) = true := by
    simp only [bne_iff_ne, ne_eq]; omega
  by_cases hL : L.id = P.recBBlock
  · have : (L.id != P.recBBlock) = false := by simp [hL]
    simp only [List.filter_cons, hne, this, if_true, List.filter_nil, Bool.false_eq_true,
      if_false]
    rw [List.getLast?_append_of_ne_nil _ (by simp)]
    simp [substBlock, hL]
  · have : (L.id != P.recBBlock) = true := by simp [hL]
    simp only [List.filter_cons, hne, this, if_true, List.filter_nil]
    rw [List.getLast?_append_of_ne_nil _ (by simp)]
    simp [substBlock, hL]

theorem final_head {F : Func} {P : Prepared} {E : Block} {others : List Block}
    {g : Inst → Inst} {RB : Block} {T : Inst} (hp : PrepAt F P E others g RB T)
    (hu : F.uniqueIds) {eT oC bR : Inst} {L : Block} {l0 : List Inst} {Lo : Block}
    (hc : RebuildCtx F P E others g eT oC bR L l0 Lo) (p : Pred) (b : Value)
    (op1 : BinOp) (b1 : Value) (op2 : BinOp) :
    (rebuildFinish P (rebuildBody P eT oC p b L.id bR op1 b1 op2)).blocks.head?.map Block.id =
      some F.freshBlock := by
  obtain ⟨l1, h1, h2⟩ := final_blockIds hp hu hc p b op1 b1 op2
  have hlt := (prepAt_rec_ne hp hu).2
  rw [← List.head?_map, blockIds_eq, h2]
  cases l1 with
  | nil =>
    exfalso
    have := congrArg List.length h1
    simp at this
  | cons x xs =>
    simp only [List.cons_append, List.cons.injEq] at h1
    rw [← h1.1]
    have hne : (F.freshBlock != P.recBBlock) = true := by
      simp only [bne_iff_ne, ne_eq]; omega
    simp [List.filter_cons, hne]

theorem find?_map_of (p : Inst → Bool) (g : Inst → Inst) :
    ∀ l : List Inst, (∀ J ∈ l, p (g J) = p J) → (l.map g).find? p = (l.find? p).map g := by
  intro l
  induction l with
  | nil => intro _; rfl
  | cons x l ih =>
    intro h
    have hx := h x (List.mem_cons_self _ _)
    rw [List.map_cons, List.find?_cons, List.find?_cons, hx]
    cases hp : p x with
    | true => rfl
    | false => exact ih fun J hJ => h J (List.mem_cons_of_mem _ hJ)

theorem prevNonDebug_map_of (g : Inst → Inst) (l : List Inst)
    (h : ∀ J ∈ l, (g J).isDebug = J.isDebug) :
    prevNonDebug (l.map g) = (prevNonDebug l).map g := by
  unfold prevNonDebug
  rw [← List.map_reverse]
  exact find?_map_of _ g _ fun J hJ => by rw [h J (List.mem_reverse.1 hJ)]

theorem isDebug_mapValues (r : Value → Value) (J : Inst) :
    (Inst.mapKind (Kind.mapValues r) J).isDebug = J.isDebug := by
  obtain ⟨i, k⟩ := J
  cases k <;> try rfl
  rename_i c args
  cases c <;> rfl

theorem kind_icmp_of_mapValues {r : Value → Value} {J : Inst} {p : Pred} {a b : Value}
    (h : (Inst.mapKind (Kind.mapValues r) J).kind = .icmp p a b) :
    ∃ a0 b0, J.kind = .icmp p a0 b0 ∧ a = r a0 ∧ b = r b0 := by
  obtain ⟨i, k⟩ := J
  cases k <;> simp only [Inst.mapKind, Kind.mapValues] at h <;> try cases h
  exact ⟨_, _, rfl, rfl, rfl⟩

/-- Instructions of the entry block of the function are not the terminator of the call
block. -/
theorem entry_ne_term {F : Func} {P : Prepared} {E : Block} {others : List Block}
    {g : Inst → Inst} {RB : Block} {T : Inst} (hp : PrepAt F P E others g RB T)
    (hu : F.uniqueIds) {J : Inst} (hJ : J ∈ E.insts) : J.id < F.freshInst ∧ J.id ≠ T.id := by
  have hE : E ∈ F.blocks := by rw [hp.blocksF]; simp
  have hRB : RB ∈ F.blocks := by rw [hp.blocksF]; exact List.mem_cons_of_mem _ hp.recBlock.1
  have h1 : InstIn F E.id J := ⟨E, hE, rfl, hJ⟩
  have h2 : InstIn F RB.id T := ⟨RB, hRB, rfl, (getTerminator_mem hp.recTerm.1).1⟩
  refine ⟨(instIn_lt h1).1, fun e => ?_⟩
  have := (instIn_unique hu.2 h1 h2 e).1
  rw [hp.recBlock.2] at this
  exact (prepAt_rec_ne hp hu).1 this.symm

/-- The comparison the second half finds before the terminator of the old entry block is
the last instruction, debug instructions aside, before the last instruction of the entry
block of the function that is not a stack allocation. -/
theorem guard_origin {F : Func} {P : Prepared} {E : Block} {others : List Block}
    {g : Inst → Inst} {RB : Block} {T : Inst} (hp : PrepAt F P E others g RB T)
    (hu : F.uniqueIds) {F1 : Func} {eT oC : Inst} {p : Pred} {a b : Value} {L : Block}
    {bR : Inst} {op1 : BinOp} {a1 b1 : Value} {op2 : BinOp} {a2 b2 : Value}
    (hr : Rebuilt P F1 eT oC p a b L bR op1 a1 b1 op2 a2 b2) {l0 : List Inst} {Lo : Block}
    (hc : RebuildCtx F P E others g eT oC bR L l0 Lo) :
    ∃ R0 Tl C a0 b0, (E.insts.filter fun I => !I.isAlloca) = R0 ++ [Tl] ∧
      prevNonDebug R0 = some C ∧ C.kind = .icmp p a0 b0 ∧ C.id = oC.id ∧ Tl.id = eT.id ∧
      b = argMerge F b0 := by
  obtain ⟨v, R0, Tl, hl0, hR0, heT⟩ := hc.l0_eq
  have hmemR : ∀ J ∈ R0, J ∈ E.insts := fun J hJ => by
    have : J ∈ (E.insts.filter fun I => !I.isAlloca) := by rw [hR0]; simp [hJ]
    exact (List.mem_filter.1 this).1
  have hg : ∀ J ∈ R0, g J = Inst.mapKind (Kind.mapValues (argMerge F)) J := fun J hJ => by
    obtain ⟨h1, h2⟩ := entry_ne_term hp hu (hmemR J hJ)
    exact hp.merged J h1 h2
  have hprev := hc.oC_prev
  rw [hl0, prevNonDebug_append] at hprev
  have hprev2 : prevNonDebug (R0.map g) = some oC := by
    cases hx : prevNonDebug (R0.map g) with
    | none =>
      rw [hx] at hprev
      simp only [Option.or, Option.none_or] at hprev
      have hmem := prevNonDebug_mem hprev
      have := (prepPhis_spec F P v hp.args oC hmem).1
      rw [isPhi_false_of_icmp hr.guardKind] at this
      cases this
    | some X =>
      rw [hx] at hprev
      simpa using hprev
  rw [prevNonDebug_map_of g R0 (fun J hJ => by rw [hg J hJ, isDebug_mapValues])] at hprev2
  cases hC : prevNonDebug R0 with
  | none => simp [hC] at hprev2
  | some C =>
    simp only [hC, Option.map_some', Option.some.injEq] at hprev2
    have hCm := prevNonDebug_mem hC
    have hk := hr.guardKind
    rw [← hprev2, hg C hCm] at hk
    obtain ⟨a0, b0, hk0, _, hb0⟩ := kind_icmp_of_mapValues hk
    refine ⟨R0, Tl, C, a0, b0, hR0, hC, hk0, ?_, ?_, ?_⟩
    · rw [← hprev2, hp.ids]
    · rw [heT, hp.ids]
    · exact hb0

/-- The loop body block as the transformer leaves it, in terms of the function it starts
from. -/
theorem final_loop_F {F : Func} {P : Prepared} {E : Block} {others : List Block}
    {g : Inst → Inst} {RB : Block} {T : Inst} (hp : PrepAt F P E others g RB T)
    (hu : F.uniqueIds) {F1 : Func} {eT oC : Inst} {p : Pred} {a b : Value} {L : Block}
    {bR : Inst} {op1 : BinOp} {a1 b1 : Value} {op2 : BinOp} {a2 b2 : Value}
    (hr : Rebuilt P F1 eT oC p a b L bR op1 a1 b1 op2 a2 b2) {l0 : List Inst} {Lo : Block}
    (hc : RebuildCtx F P E others g eT oC bR L l0 Lo) :
    F1.instsOf (F.freshBlock + 1) = some
      [⟨F.freshInst + 5 + F.numArgs, .binop op1 (.inst (F.freshInst + F.numArgs))
          (substValue P.afterRecCall.result (.inst (F.freshInst + 6 + F.numArgs))
            (substValue P.beforeRecCall.result (.inst (F.freshInst + 5 + F.numArgs)) b1))⟩,
        ⟨F.freshInst + 6 + F.numArgs,
          .binop op2 (.inst (F.freshInst + 1 + F.numArgs)) (.inst (F.freshInst + F.numArgs))⟩,
        ⟨F.freshInst + 4 + F.numArgs, .br E.id⟩] := by
  obtain ⟨hne, hlt⟩ := prepAt_rec_ne hp hu
  obtain ⟨hs_ne, hu_ne⟩ := found_lt hp
  have hb := hp.base
  have hn := hp.numArgs
  have ht := hp.phiNodeTmp
  have ha := hp.phiNodeAcc
  have hpre := hp.newEntryBB
  have hE := hp.entryBB
  have hElt := (prepAt_lt hp).1
  have hids := prepAt_blockIds hp
  have hLmem : L.id ∈ P.F.blockIds := by
    rw [hids, hc.last.2]
    exact List.mem_cons_of_mem _ (List.mem_cons_of_mem _
      (List.mem_map_of_mem _ (mem_of_getLast? hc.last.1)))
  have hnew : P.newEntryBB + 1 ∉ P.F.blockIds := by
    rw [hids, hpre]
    intro hmem
    rcases List.mem_cons.1 hmem with e | hmem
    · omega
    · rcases List.mem_cons.1 hmem with e | hmem
      · omega
      · obtain ⟨B, hB, hid⟩ := List.mem_map.1 hmem
        have := (prepAt_lt hp).2 B hB
        omega
  have hloop := final_loop P eT oC p b L.id bR op1 b1 op2 hLmem hnew (by omega) (by omega)
    (by omega) (by omega) (by omega)
  rw [← rebuilt_result hr, hb, hn, ht, ha, hpre, hE,
    show substBlock P.recBBlock (F.freshBlock + 1) E.id = E.id from by
      rw [substBlock, if_neg (fun e => hne e.symm)]] at hloop
  exact hloop

/-! ## Branch operands after the rewrite -/

theorem targets_blockRauw (G : Func) (old new x : Nat) (I : Inst) :
    (blockRauw G old new x I).targets = I.targets.map (substBlock old new) := by
  obtain ⟨i, k⟩ := I
  unfold blockRauw
  cases k <;> split <;>
    simp [resource, retarget, Inst.mapKind, Kind.mapTargets, Kind.mapIncomingBlocks,
      Inst.targets]

theorem isAlloca_blockRauw (G : Func) (old new x : Nat) (I : Inst) :
    (blockRauw G old new x I).isAlloca = I.isAlloca := by
  obtain ⟨i, k⟩ := I
  unfold blockRauw
  cases k <;> split <;>
    simp [resource, retarget, Inst.mapKind, Kind.mapTargets, Kind.mapIncomingBlocks,
      Inst.isAlloca]

theorem isAlloca_reuse (P : Prepared) (oC bR : Inst) (I : Inst) :
    (reuse P oC bR I).isAlloca = I.isAlloca :=
  isAlloca_of_tag (keepsTag_mapValues _ I).2

theorem tag_blockRauw (G : Func) (old new x : Nat) (I : Inst) :
    (blockRauw G old new x I).kind.tag = (retarget old new I).kind.tag := by
  obtain ⟨i, k⟩ := I
  unfold blockRauw
  cases k <;> split <;>
    simp [resource, retarget, Inst.mapKind, Kind.mapTargets, Kind.mapIncomingBlocks,
      Kind.tag, Kind.mapValues]

theorem tag_retarget_congr (old new : Nat) {I J : Inst} (h : I.kind.tag = J.kind.tag) :
    (retarget old new I).kind.tag = (retarget old new J).kind.tag := by
  obtain ⟨i, k⟩ := I
  obtain ⟨j, l⟩ := J
  cases k <;> cases l <;>
    simp_all [retarget, Inst.mapKind, Kind.mapTargets, Kind.tag, Kind.mapValues]

/-- No branch of the function the first half leaves names the new entry block, when every
branch of the function names a block of the function. -/
theorem prepAt_targets {F : Func} {P : Prepared} {E : Block} {others : List Block}
    {g : Inst → Inst} {RB : Block} {T : Inst} (hp : PrepAt F P E others g RB T)
    (hu : F.uniqueIds) (htgt : ∀ e ∈ F.edges, ∃ B ∈ F.blocks, B.id = e.2) :
    AllInsts P.F fun _ I => F.freshBlock ∉ I.targets := by
  obtain ⟨v, hv⟩ := hp.blocks
  obtain ⟨r, _, hr2⟩ := hp.values
  have hElt := (prepAt_lt hp).1
  have hold : ∀ x J, InstIn F x J → F.freshBlock ∉ (g J).targets := by
    intro x J hJ ht
    have hlt := (instIn_lt hJ).1
    have hF : ∀ t ∈ J.targets, t < F.freshBlock := by
      intro t ht
      obtain ⟨B, hB, hid⟩ := htgt (x, t) (mem_edges.2 ⟨J, hJ, ht⟩)
      have := lt_freshBlock hB
      simp only at hid
      omega
    by_cases hT : J.id = T.id
    · have hRB : RB ∈ F.blocks := by
        rw [hp.blocksF]; exact List.mem_cons_of_mem _ hp.recBlock.1
      have hTin : InstIn F RB.id T := ⟨RB, hRB, rfl, (getTerminator_mem hp.recTerm.1).1⟩
      obtain ⟨_, rfl⟩ := instIn_unique hu.2 hJ hTin hT
      rcases hp.recTargets _ ht with e | e
      · omega
      · have := hF _ e
        omega
    · rw [hr2 J hlt hT, targets_of_tag (keepsTag_mapValues r J).2] at ht
      have := hF _ ht
      omega
  rintro x I ⟨B, hB, rfl, hI⟩
  rw [hv] at hB
  rcases List.mem_cons.1 hB with rfl | hB
  · simp only [List.mem_append, List.mem_filter, List.mem_singleton] at hI
    rcases hI with ⟨_, ha⟩ | rfl
    · rw [targets_of_alloca ha]; simp
    · simp only [Inst.targets, List.mem_singleton]; omega
  · rcases List.mem_cons.1 hB with rfl | hB
    · simp only [List.mem_append, List.mem_map, List.mem_filter] at hI
      rcases hI with hI | ⟨J, ⟨hJ, _⟩, rfl⟩
      · rw [targets_of_phi (prepPhis_spec F P v hp.args I hI).1]; simp
      · exact hold E.id J ⟨E, by rw [hp.blocksF]; simp, rfl, hJ⟩
    · obtain ⟨B0, hB0, rfl⟩ := List.mem_map.1 hB
      simp only [Block.mapInsts, List.mem_map] at hI
      obtain ⟨J, hJ, rfl⟩ := hI
      exact hold B0.id J ⟨B0, by rw [hp.blocksF]; exact List.mem_cons_of_mem _ hB0, rfl, hJ⟩

/-- No branch of the function the transformer leaves names the new entry block. -/
theorem final_targets {F : Func} {P : Prepared} {E : Block} {others : List Block}
    {g : Inst → Inst} {RB : Block} {T : Inst} (hp : PrepAt F P E others g RB T)
    (hu : F.uniqueIds) (htgt : ∀ e ∈ F.edges, ∃ B ∈ F.blocks, B.id = e.2)
    {eT oC bR : Inst} {L : Block} {l0 : List Inst} {Lo : Block}
    (hc : RebuildCtx F P E others g eT oC bR L l0 Lo) (p : Pred) (b : Value)
    (op1 : BinOp) (b1 : Value) (op2 : BinOp) :
    (rebuildFinish P (rebuildBody P eT oC p b L.id bR op1 b1 op2)).predEmpty F.freshBlock =
      true := by
  obtain ⟨hne, hlt⟩ := prepAt_rec_ne hp hu
  have hElt := (prepAt_lt hp).1
  have hLlt : L.id < F.freshBlock := by
    rw [hc.last.2]; exact (prepAt_lt hp).2 Lo (mem_of_getLast? hc.last.1)
  have hΦ : TagInv fun (_ : Nat) (I : Inst) => F.freshBlock ∉ I.targets := by
    intro _ I J _ htag h
    rw [← targets_of_tag htag]
    exact h
  have hbody := allInsts_rebuildBody hΦ P eT oC p b L.id bR op1 b1 op2 (prepAt_targets hp hu htgt)
    (by simp [Inst.targets])
    (by simp only [Inst.targets, List.mem_cons, List.mem_singleton, List.mem_nil_iff, or_false,
          not_or]; omega)
    (by simp only [Inst.targets, List.mem_singleton, hp.entryBB]; omega)
    (by simp [Inst.targets]) (by simp [Inst.targets])
  simp only [Func.predEmpty, Bool.not_eq_true', List.any_eq_false, Bool.and_eq_true, not_and,
    List.contains_eq_any_beq, List.any_eq_true, beq_iff_eq, not_exists]
  intro I hI _ t ht e
  subst e
  obtain ⟨x, hx⟩ := instIn_allInsts.1 hI
  unfold rebuildFinish at hx
  obtain ⟨h1, _⟩ := instIn_eraseBlock.1 hx
  obtain ⟨J, hJ, rfl⟩ := instIn_replaceBlockUsesWith_iff.1 h1
  rw [targets_blockRauw] at ht
  obtain ⟨t0, ht0, e⟩ := List.mem_map.1 ht
  have := hbody x J hJ
  unfold substBlock at e
  split at e
  · rw [hp.newEntryBB] at e; omega
  · exact this (e ▸ ht0)

/-! ## Operands the transformer reads, exactly -/

theorem reuseValue_congr (P : Prepared) {oC bR C X : Inst} (h1 : C.id = oC.id)
    (h2 : X.id = bR.id) : reuseValue P oC bR = reuseValue P C X := by
  funext v
  simp only [reuseValue, Inst.result, h1, h2]

/-- An operand that is none of the four values whose uses the second half replaces is left
as the loop over the arguments left it. -/
theorem reuseValue_argMerge (F : Func) (P : Prepared) (C X : Inst) (v : Value)
    (hC : C.id < F.freshInst) (hX : X.id < F.freshInst)
    (hs : P.beforeRecCall.id < F.freshInst) (hu : P.afterRecCall.id < F.freshInst)
    (h1 : v ≠ C.result) (h2 : v ≠ X.result) (h3 : v ≠ P.beforeRecCall.result)
    (h4 : v ≠ P.afterRecCall.result) :
    reuseValue P C X (argMerge F v) = argMerge F v := by
  cases v with
  | const c => simp [argMerge, argSubst, reuseValue, substValue, Inst.result]
  | undef => simp [argMerge, argSubst, reuseValue, substValue, Inst.result]
  | inst c =>
    simp only [Inst.result, ne_eq, Value.inst.injEq] at h1 h2 h3 h4
    simp [argMerge, argSubst, reuseValue, substValue, Inst.result, h1, h2, h3, h4]
  | arg i =>
    simp only [argMerge, argSubst]
    split
    · have e1 : F.freshInst + 1 + i ≠ C.id := by omega
      have e2 : F.freshInst + 1 + i ≠ X.id := by omega
      have e3 : F.freshInst + 1 + i ≠ P.beforeRecCall.id := by omega
      have e4 : F.freshInst + 1 + i ≠ P.afterRecCall.id := by omega
      simp [reuseValue, substValue, Inst.result, e1, e2, e3, e4]
    · simp [reuseValue, substValue, Inst.result]

theorem isDebug_false_of_terminator {I : Inst} (h : I.isTerminator = true) :
    I.isDebug = false := by
  obtain ⟨i, k⟩ := I
  cases k <;> simp [Inst.isTerminator, Inst.isDebug] at h ⊢

/-- The instruction `rebuild` finds before the terminator of the last block is the one the
function has there, rewritten. -/
theorem ret_origin {F : Func} {P : Prepared} {E : Block} {others : List Block}
    {g : Inst → Inst} {RB : Block} {T : Inst} (hp : PrepAt F P E others g RB T)
    (hu : F.uniqueIds) {eT oC bR : Inst} {L : Block} {l0 : List Inst} {Lo : Block}
    (hc : RebuildCtx F P E others g eT oC bR L l0 Lo) :
    ∃ X, F.beforeRet = some X ∧ X.id = bR.id := by
  have hLoMem : Lo ∈ others := mem_of_getLast? hc.last.1
  have hLoF : Lo ∈ F.blocks := by rw [hp.blocksF]; exact List.mem_cons_of_mem _ hLoMem
  have hRBF : RB ∈ F.blocks := by rw [hp.blocksF]; exact List.mem_cons_of_mem _ hp.recBlock.1
  have hTIn : InstIn F RB.id T := ⟨RB, hRBF, rfl, (getTerminator_mem hp.recTerm.1).1⟩
  have hlast : F.blocks.getLast? = some Lo := by
    rw [hp.blocksF]
    cases ho : others with
    | nil => rw [ho] at hLoMem; cases hLoMem
    | cons x xs => rw [List.getLast?_cons_cons, ← ho, hc.last.1]
  have hdbg : ∀ J ∈ Lo.insts.dropLast, (g J).isDebug = J.isDebug := by
    intro J hJ
    have hJLo : J ∈ Lo.insts := mem_dropLast hJ
    have hJin : InstIn F Lo.id J := ⟨Lo, hLoF, rfl, hJLo⟩
    by_cases e : J.id = T.id
    · obtain ⟨_, rfl⟩ := instIn_unique hu.2 hJin hTIn e
      rw [isDebug_false_of_terminator hp.recTerm.2.2,
        isDebug_false_of_terminator (getTerminator_mem hp.recTerm.1).2]
    · rw [hp.merged J (instIn_lt hJin).1 e, isDebug_mapValues]
  have h1 := hc.bR_prev
  rw [hc.lastInsts, ← List.map_dropLast, ← List.map_dropLast,
    prevNonDebug_map_of (rauw oC.result (.inst (P.base + 2 + P.F.numArgs)))
      (Lo.insts.dropLast.map g) (fun J _ => isDebug_mapValues _ J),
    prevNonDebug_map_of g Lo.insts.dropLast hdbg] at h1
  cases hX : prevNonDebug Lo.insts.dropLast with
  | none => simp [hX] at h1
  | some X =>
    simp only [hX, Option.map_some', Option.some.injEq] at h1
    refine ⟨X, by simp only [Func.beforeRet, hlast, Option.some_bind, hX], ?_⟩
    rw [← h1, id_rauw, hp.ids]

theorem last_of_prepAt {F : Func} {P : Prepared} {E : Block} {others : List Block}
    {g : Inst → Inst} {RB : Block} {T : Inst} (hp : PrepAt F P E others g RB T)
    {eT oC bR : Inst} {L : Block} {l0 : List Inst} {Lo : Block}
    (hc : RebuildCtx F P E others g eT oC bR L l0 Lo) :
    F.blocks.getLast?.map Block.id = some L.id := by
  rw [hp.blocksF]
  cases ho : others with
  | nil =>
    have := hc.last.1
    rw [ho] at this
    cases this
  | cons x xs =>
    rw [List.getLast?_cons_cons, ← ho, hc.last.1, Option.map_some', hc.last.2]

/-- C20: let the function meet the preconditions of the transformer: its identities are
unique, its direct self-calls are outside the entry block `E`, and `eliminateTailCall`
completes on it (first half `prepare` with state `P`, second half `rebuild` with result
`F1`).  Let `C` be the original guard: the instruction before the last instruction `Tl` of
the entry block, debug instructions and stack allocations aside, and let `X` be the
instruction before the return of the last block.  Then `C` is a comparison and the loop
header, the old entry block, ends in a new comparison followed by a conditional branch on it.
The new comparison has the predicate of `C`, the argument merge value, a phi of the header,
as first operand, and as second operand the second operand of `C` as it stands when the
transformer reads it: a use of an argument is a use of its merge value, and a use of `C`,
`X`, the step or the update instruction is a use of the instruction that has taken over its
uses, which is what `reuseValue` and `argMerge` compute; any other operand is unchanged.
The true target of the branch is the final block of the function, which is the final block
the function had unless that was the call block, and its false target is the loop body
block.  No instruction has the identity of `C` or of `Tl` any more. -/
theorem header_guard_after_rewrite (F : Func) (hu : F.uniqueIds)
    (hcall : F.callOutsideEntry = true) (P : Prepared) (hP : prepare F = .done P) (F1 : Func)
    (hR : rebuild P = .done F1) (E : Block) (hE : F.blocks.head? = some E) :
    ∃ R0 Tl C p a0 b0 X H t,
      (E.insts.filter fun I => !I.isAlloca) = R0 ++ [Tl] ∧ prevNonDebug R0 = some C ∧
      C.kind = .icmp p a0 b0 ∧ F.beforeRet = some X ∧
      F1.findBlock E.id = some ⟨E.id, H ++
        [⟨F.freshInst + 2 + F.numArgs,
            .icmp p (.inst (F.freshInst + F.numArgs)) (reuseValue P C X (argMerge F b0))⟩,
         ⟨F.freshInst + 3 + F.numArgs,
            .condbr (.inst (F.freshInst + 2 + F.numArgs)) t (F.freshBlock + 1)⟩]⟩ ∧
      (b0 ≠ C.result → b0 ≠ X.result → b0 ≠ P.beforeRecCall.result →
        b0 ≠ P.afterRecCall.result → reuseValue P C X (argMerge F b0) = argMerge F b0) ∧
      InstIn F1 E.id ⟨F.freshInst + F.numArgs,
        .phi [(.arg (F.numArgs - 1), F.freshBlock),
          (.inst (F.freshInst + 5 + F.numArgs), F.freshBlock + 1)]⟩ ∧
      F1.blocks.getLast?.map Block.id = some t ∧
      (F.blocks.getLast?.map Block.id = some t ∨
        F.blocks.getLast?.map Block.id = some P.recBBlock) ∧
      (∀ I ∈ F1.allInsts, I.id ≠ C.id ∧ I.id ≠ Tl.id) := by
  obtain ⟨E1, others, g, RB, T, eT, oC, p, a, b, L, bR, op1, a1, b1, op2, a2, b2, l0, Lo, hp,
    hr, hc⟩ := rewrite_setup F hu hcall P hP F1 hR
  have hEE : E1 = E := by
    rw [hp.blocksF] at hE
    simpa using hE
  subst hEE
  obtain ⟨R0, Tl, C, a0, b0, hR0, hC, hk, hCid, hTid, hmv⟩ := guard_origin hp hu hr hc
  obtain ⟨X, hX, hXid⟩ := ret_origin hp hu hc
  obtain ⟨hs_ne, hu_ne⟩ := found_lt hp
  obtain ⟨v, hphi1, _⟩ := final_phis hp hu hr hc
  have hfin := final_hdr_F hp hu hr hc
  rw [reuseValue_congr P hCid hXid, hmv] at hfin
  have hlast := final_last hp hu hc p b op1 b1 op2
  rw [← rebuilt_result hr] at hlast
  have hFlast := last_of_prepAt hp hc
  have hb := hp.base
  have hn := hp.numArgs
  refine ⟨R0, Tl, C, p, a0, b0, X, _, _, hR0, hC, hk, hX, findBlock_of_instsOf hfin, ?_,
    hphi1, hlast, ?_, ?_⟩
  · exact reuseValue_argMerge F P C X b0 (by rw [hCid]; exact hc.oC_lt)
      (by rw [hXid]; exact hc.bR_lt) hs_ne hu_ne
  · by_cases hL : L.id = P.recBBlock
    · right
      rw [hFlast, hL]
    · left
      rw [hFlast, substBlock, if_neg hL]
  · intro I hI
    obtain ⟨x, hx⟩ := instIn_allInsts.1 hI
    rw [rebuilt_result hr] at hx
    have h1 := hc.eT_lt
    have h2 := hc.oC_lt
    rcases (final_back hp hu hc p b L.id op1 b1 op2 hx).2 with
      ⟨J, _, n1, n2, _, rfl⟩ | ⟨_, hgt⟩
    · rw [id_blockRauw, id_reuse, hCid, hTid]
      exact ⟨n1, n2⟩
    · rw [hCid, hTid]
      omega

/-- C20 on the IR of `sum(n) = 0 if n == 0 else n + sum(n-1)`. -/
theorem header_guard_after_rewrite_witness :
    sumFn.uniqueIds ∧ sumFn.callOutsideEntry = true ∧
      ∃ R0 Tl C p a0 b0 X H t,
        ((⟨0, [⟨1, .alloca⟩, ⟨2, .alloca⟩, ⟨3, .store (.arg 0) (.inst 2)⟩,
          ⟨4, .load (.inst 2)⟩, ⟨5, .icmp .eq (.inst 4) (.const 0)⟩,
          ⟨6, .condbr (.inst 5) 1 2⟩]⟩ : Block).insts.filter fun I => !I.isAlloca) =
            R0 ++ [Tl] ∧
        prevNonDebug R0 = some C ∧ C.kind = .icmp p a0 b0 ∧ sumFn.beforeRet = some X ∧
        (accRawFn .eq 0 0 .sub 1 .add).findBlock 0 = some ⟨0, H ++
          [⟨sumFn.freshInst + 2 + sumFn.numArgs,
              .icmp p (.inst (sumFn.freshInst + sumFn.numArgs))
                (reuseValue (accPrepared .eq 0 0 .sub 1 .add) C X (argMerge sumFn b0))⟩,
           ⟨sumFn.freshInst + 3 + sumFn.numArgs,
              .condbr (.inst (sumFn.freshInst + 2 + sumFn.numArgs)) t
                (sumFn.freshBlock + 1)⟩]⟩ ∧
        (b0 ≠ C.result → b0 ≠ X.result →
          b0 ≠ (accPrepared .eq 0 0 .sub 1 .add).beforeRecCall.result →
          b0 ≠ (accPrepared .eq 0 0 .sub 1 .add).afterRecCall.result →
          reuseValue (accPrepared .eq 0 0 .sub 1 .add) C X (argMerge sumFn b0) =
            argMerge sumFn b0) ∧
        InstIn (accRawFn .eq 0 0 .sub 1 .add) 0 ⟨sumFn.freshInst + sumFn.numArgs,
          .phi [(.arg (sumFn.numArgs - 1), sumFn.freshBlock),
            (.inst (sumFn.freshInst + 5 + sumFn.numArgs), sumFn.freshBlock + 1)]⟩ ∧
        (accRawFn .eq 0 0 .sub 1 .add).blocks.getLast?.map Block.id = some t ∧
        (sumFn.blocks.getLast?.map Block.id = some t ∨
          sumFn.blocks.getLast?.map Block.id =
            some (accPrepared .eq 0 0 .sub 1 .add).recBBlock) ∧
        (∀ I ∈ (accRawFn .eq 0 0 .sub 1 .add).allInsts, I.id ≠ C.id ∧ I.id ≠ Tl.id) :=
  ⟨by decide, by decide,
    header_guard_after_rewrite sumFn (by decide) (by decide) (accPrepared .eq 0 0 .sub 1 .add)
      (prepare_accFn .eq 0 0 .sub 1 .add) (accRawFn .eq 0 0 .sub 1 .add)
      (rebuild_accPrepared .eq 0 0 .sub 1 .add) _ rfl⟩

/-! ## The merge value of the loop guard -/

/-- The argument merge value as the first half leaves it, and what the second half makes of
it. -/
theorem phiT_image {F : Func} {P : Prepared} {E : Block} {others : List Block}
    {g : Inst → Inst} {RB : Block} {T : Inst} (hp : PrepAt F P E others g RB T)
    (hu : F.uniqueIds) {F1 : Func} {eT oC : Inst} {p : Pred} {a b : Value} {L : Block}
    {bR : Inst} {op1 : BinOp} {a1 b1 : Value} {op2 : BinOp} {a2 b2 : Value}
    (hr : Rebuilt P F1 eT oC p a b L bR op1 a1 b1 op2 a2 b2) {l0 : List Inst} {Lo : Block}
    (hc : RebuildCtx F P E others g eT oC bR L l0 Lo) :
    InstIn P.F E.id ⟨F.freshInst + F.numArgs,
      .phi [(.arg (F.numArgs - 1), F.freshBlock), (P.beforeRecCall.result, P.recBBlock)]⟩ ∧
    blockRauw (rebuildBody P eT oC p b L.id bR op1 b1 op2) P.recBBlock (P.newEntryBB + 1) E.id
      (reuse P oC bR ⟨F.freshInst + F.numArgs,
        .phi [(.arg (F.numArgs - 1), F.freshBlock), (P.beforeRecCall.result, P.recBBlock)]⟩) =
      ⟨F.freshInst + F.numArgs, .phi [(.arg (F.numArgs - 1), F.freshBlock),
        (.inst (F.freshInst + 5 + F.numArgs), F.freshBlock + 1)]⟩ := by
  obtain ⟨hne, hlt⟩ := prepAt_rec_ne hp hu
  obtain ⟨hs1, hs2, hs3, hs4, _⟩ := step_found hp hu hr hc
  obtain ⟨hs_ne, hu_ne⟩ := found_lt hp
  have hb := hp.base
  have hn := hp.numArgs
  have hpre := hp.newEntryBB
  have hsucc := hdr_in_rauwSuccs hp hu hc p b L.id op1 b1 op2
  obtain ⟨v, R0, Tl, hl0, _, _⟩ := hc.l0_eq
  have hσ1 : reuseValue P oC bR P.beforeRecCall.result =
      .inst (F.freshInst + 5 + F.numArgs) := by
    simp only [reuseValue, Inst.result, substValue_inst_ne _ hs2, substValue_inst_ne _ hs4]
    simp only [substValue, if_true]
    rw [if_neg (by simp only [Value.inst.injEq]; omega), hb, hn]
  have hpre_ne : F.freshBlock ≠ P.recBBlock := by omega
  constructor
  · refine instIn_of_instsOf hc.hdr (List.mem_append_left _ ?_)
    rw [hl0]
    exact List.mem_append_left _ (by simp [prepPhis])
  · simp only [reuse, Inst.mapKind, Kind.mapValues, List.map_cons, List.map_nil,
      reuseValue_arg, hσ1]
    rw [blockRauw_phi _ _ _ _ _ _ hsucc]
    simp [substBlock, hpre_ne, hpre]

/-- C12: let the function meet the preconditions of the transformer: its identities are
unique, its direct self-calls are outside the entry block (the comparison of the entry block
guards the recursion), and `eliminateTailCall` completes on it (first half `prepare` with
state `P`, second half `rebuild` with result `F1`).  Then the loop header, the old entry
block, ends in the rebuilt guard and the conditional branch on it, and the first operand of
the rebuilt guard is the one instruction of the function with the identity
`F.freshInst + F.numArgs`: a merge value of the header with exactly two incoming entries,
one whose source block is the pre-header, the new first block of the function, and one whose
source block is the new loop body block, which is not a block of the function before and
not the call block; the call block is not a block of the function any more. -/
theorem guard_merge_value_entries (F : Func) (hu : F.uniqueIds)
    (hcall : F.callOutsideEntry = true) (P : Prepared) (hP : prepare F = .done P) (F1 : Func)
    (hR : rebuild P = .done F1) :
    ∃ p b X t,
      F1.findBlock F.entryId = some ⟨F.entryId, X ++
        [⟨F.freshInst + 2 + F.numArgs, .icmp p (.inst (F.freshInst + F.numArgs)) b⟩,
         ⟨F.freshInst + 3 + F.numArgs,
            .condbr (.inst (F.freshInst + 2 + F.numArgs)) t (F.freshBlock + 1)⟩]⟩ ∧
      InstIn F1 F.entryId ⟨F.freshInst + F.numArgs,
        .phi [(.arg (F.numArgs - 1), F.freshBlock),
          (.inst (F.freshInst + 5 + F.numArgs), F.freshBlock + 1)]⟩ ∧
      (∀ x I, InstIn F1 x I → I.id = F.freshInst + F.numArgs →
        x = F.entryId ∧ I = ⟨F.freshInst + F.numArgs,
          .phi [(.arg (F.numArgs - 1), F.freshBlock),
            (.inst (F.freshInst + 5 + F.numArgs), F.freshBlock + 1)]⟩) ∧
      F1.blocks.head?.map Block.id = some F.freshBlock ∧
      F.freshBlock + 1 ∉ F.blockIds ∧ F.freshBlock + 1 ≠ P.recBBlock ∧
      P.recBBlock ∉ F1.blockIds := by
  obtain ⟨E, others, g, RB, T, eT, oC, p, a, b, L, bR, op1, a1, b1, op2, a2, b2, l0, Lo, hp, hr,
    hc⟩ := rewrite_setup F hu hcall P hP F1 hR
  obtain ⟨hne, hlt⟩ := prepAt_rec_ne hp hu
  obtain ⟨hin0, himg⟩ := phiT_image hp hu hr hc
  obtain ⟨v, hphi1, _⟩ := final_phis hp hu hr hc
  have hfin := final_hdr_F hp hu hr hc
  have hhead := final_head hp hu hc p b op1 b1 op2
  rw [← rebuilt_result hr] at hhead
  have hnodI := prepAt_nodupInsts hp hu
  rw [prepAt_entryId hp]
  refine ⟨p, reuseValue P oC bR b, _, _, findBlock_of_instsOf hfin, hphi1, ?_, hhead, ?_,
    by omega, ?_⟩
  · intro x I hx hid
    rw [rebuilt_result hr] at hx
    rcases (final_back hp hu hc p b L.id op1 b1 op2 hx).2 with
      ⟨J, hJ, _, _, _, rfl⟩ | ⟨_, hgt⟩
    · rw [id_blockRauw, id_reuse] at hid
      obtain ⟨hxe, hJe⟩ := instIn_unique hnodI hJ hin0 hid
      subst hxe
      subst hJe
      exact ⟨rfl, himg⟩
    · omega
  · intro hmem
    obtain ⟨B, hB, hid⟩ := List.mem_map.1 hmem
    have := lt_freshBlock hB
    omega
  · rw [rebuilt_result hr, blockIds_rebuildFinish]
    intro hmem
    have := (List.mem_filter.1 hmem).2
    simp at this

/-- C12 on the IR of `sum(n) = 0 if n == 0 else n + sum(n-1)`. -/
theorem guard_merge_value_entries_witness :
    sumFn.uniqueIds ∧ sumFn.callOutsideEntry = true ∧
      ∃ p b X t,
        (accRawFn .eq 0 0 .sub 1 .add).findBlock sumFn.entryId = some ⟨sumFn.entryId, X ++
          [⟨sumFn.freshInst + 2 + sumFn.numArgs,
              .icmp p (.inst (sumFn.freshInst + sumFn.numArgs)) b⟩,
           ⟨sumFn.freshInst + 3 + sumFn.numArgs,
              .condbr (.inst (sumFn.freshInst + 2 + sumFn.numArgs)) t
                (sumFn.freshBlock + 1)⟩]⟩ ∧
        InstIn (accRawFn .eq 0 0 .sub 1 .add) sumFn.entryId
          ⟨sumFn.freshInst + sumFn.numArgs,
            .phi [(.arg (sumFn.numArgs - 1), sumFn.freshBlock),
              (.inst (sumFn.freshInst + 5 + sumFn.numArgs), sumFn.freshBlock + 1)]⟩ ∧
        (∀ x I, InstIn (accRawFn .eq 0 0 .sub 1 .add) x I →
          I.id = sumFn.freshInst + sumFn.numArgs →
          x = sumFn.entryId ∧ I = ⟨sumFn.freshInst + sumFn.numArgs,
            .phi [(.arg (sumFn.numArgs - 1), sumFn.freshBlock),
              (.inst (sumFn.freshInst + 5 + sumFn.numArgs), sumFn.freshBlock + 1)]⟩) ∧
        (accRawFn .eq 0 0 .sub 1 .add).blocks.head?.map Block.id = some sumFn.freshBlock ∧
        sumFn.freshBlock + 1 ∉ sumFn.blockIds ∧
        sumFn.freshBlock + 1 ≠ (accPrepared .eq 0 0 .sub 1 .add).recBBlock ∧
        (accPrepared .eq 0 0 .sub 1 .add).recBBlock ∉
          (accRawFn .eq 0 0 .sub 1 .add).blockIds :=
  ⟨by decide, by decide,
    guard_merge_value_entries sumFn (by decide) (by decide) (accPrepared .eq 0 0 .sub 1 .add)
      (prepare_accFn .eq 0 0 .sub 1 .add) (accRawFn .eq 0 0 .sub 1 .add)
      (rebuild_accPrepared .eq 0 0 .sub 1 .add)⟩

/-! ## The new entry block -/

theorem head_of_instsOf {G : Func} {b : Nat} {l : List Inst}
    (hh : G.blocks.head?.map Block.id = some b) (hl : G.instsOf b = some l) :
    G.blocks.head? = some ⟨b, l⟩ := by
  cases hb : G.blocks with
  | nil => simp [hb] at hh
  | cons B rest =>
    simp only [hb, List.head?_cons, Option.map_some', Option.some.injEq] at hh ⊢
    have := instsOf_of_head hb
    rw [hh, hl] at this
    cases B
    simp only at hh this ⊢
    rw [hh, Option.some.inj this]

/-- The new entry block as the transformer leaves it: the stack allocations of the old entry
block, then the branch to the old entry block. -/
theorem final_pre {F : Func} {P : Prepared} {E : Block} {others : List Block}
    {g : Inst → Inst} {RB : Block} {T : Inst} (hp : PrepAt F P E others g RB T)
    (hu : F.uniqueIds) {eT oC bR : Inst} {L : Block} {l0 : List Inst} {Lo : Block}
    (hc : RebuildCtx F P E others g eT oC bR L l0 Lo) (p : Pred) (b : Value)
    (op1 : BinOp) (b1 : Value) (op2 : BinOp) :
    (rebuildFinish P (rebuildBody P eT oC p b L.id bR op1 b1 op2)).instsOf F.freshBlock =
      some (E.insts.filter Inst.isAlloca ++ [⟨F.freshInst, .br E.id⟩]) := by
  obtain ⟨hne, hlt⟩ := prepAt_rec_ne hp hu
  have hElt := (prepAt_lt hp).1
  have hLlt : L.id < F.freshBlock := by
    rw [hc.last.2]; exact (prepAt_lt hp).2 Lo (mem_of_getLast? hc.last.1)
  have hnodI := prepAt_nodupInsts hp hu
  have hpreI := prepAt_instsOf_pre hp
  have hoCin : InstIn P.F E.id oC := instIn_of_instsOf hc.hdr (by simp [hc.oC_mem])
  have heTin : InstIn P.F E.id eT := instIn_of_instsOf hc.hdr (by simp)
  obtain ⟨X, hXin, hXid⟩ := hc.bR_in
  have hkeep : keptInsts oC eT bR (E.insts.filter Inst.isAlloca ++ [⟨F.freshInst, .br E.id⟩]) =
      E.insts.filter Inst.isAlloca ++ [⟨F.freshInst, .br E.id⟩] := by
    apply keptInsts_of_not_mem
    intro I hI
    have hIin : InstIn P.F F.freshBlock I := instIn_of_instsOf hpreI hI
    refine ⟨fun e => ?_, fun e => ?_, fun e => ?_⟩
    · have := (instIn_unique hnodI hIin hoCin e).1; omega
    · have := (instIn_unique hnodI hIin heTin e).1; omega
    · have := (instIn_unique hnodI hIin hXin (e.trans hXid.symm)).1; omega
  have hfo := final_other P eT oC p b L.id bR op1 b1 op2 F.freshBlock
    (by rw [hp.newEntryBB]; omega) (by rw [hp.entryBB]; omega) (by omega)
  rw [hpreI, Option.map_some', hkeep] at hfo
  have hid : ∀ I ∈ E.insts.filter Inst.isAlloca ++ [(⟨F.freshInst, .br E.id⟩ : Inst)],
      (blockRauw (rebuildBody P eT oC p b L.id bR op1 b1 op2) P.recBBlock (P.newEntryBB + 1)
        F.freshBlock ∘ reuse P oC bR) I = id I := by
    intro I hI
    rcases List.mem_append.1 hI with h | h
    · have ha := (List.mem_filter.1 h).2
      simp only [Function.comp, reuse_alloca P oC bR ha, blockRauw_alloca _ _ _ _ ha, id]
    · rw [List.mem_singleton.1 h]
      simp only [Function.comp, reuse_br, blockRauw_br, id]
      rw [substBlock, if_neg (fun e => hne e.symm)]
  rw [List.map_congr_left hid, List.map_id] at hfo
  exact hfo

/-- C14, refuted as stated.  `entryCallFn` is well-formed, accepted by the detector and has
both shapes the transformer relies on, and `eliminateTailCall` completes on it; the new entry
block 4 of the result holds the two stack allocations, but it ends in a branch to the loop
body block 5, not to the original entry block 0, which is not a block of the function any
more.  On the sum function, whose self-call is outside the entry block, the original entry
block 0 does not keep all its other instructions: the comparison 5 and the conditional
branch 6 are not instructions of the result. -/
theorem preheader_skips_header :
    entryCallFn.WellFormed ∧ isAccumulatorTailRecursive entryCallFn = true ∧
      entryCallFn.hasBaseCaseBlock = true ∧ entryCallFn.hasEntryCmp = true ∧
      eliminateTailCall entryCallFn = .done entryCallLoopFn ∧ entryCallFn.entryId = 0 ∧
      entryCallLoopFn.blocks.head? = some ⟨4, [⟨1, .alloca⟩, ⟨2, .alloca⟩, ⟨17, .br 5⟩]⟩ ∧
      entryCallLoopFn.blockIds = [4, 1, 2, 5, 3] ∧
      sumFn.WellFormed ∧ sumFn.callOutsideEntry = true ∧
      eliminateTailCall sumFn = .done (accRawFn .eq 0 0 .sub 1 .add) ∧
      sumFn.findBlock 0 = some ⟨0, [⟨1, .alloca⟩, ⟨2, .alloca⟩,
        ⟨3, .store (.arg 0) (.inst 2)⟩, ⟨4, .load (.inst 2)⟩,
        ⟨5, .icmp .eq (.inst 4) (.const 0)⟩, ⟨6, .condbr (.inst 5) 1 2⟩]⟩ ∧
      (accRawFn .eq 0 0 .sub 1 .add).findInst 5 = none ∧
      (accRawFn .eq 0 0 .sub 1 .add).findInst 6 = none := by
  decide

/-- C14, amended: let the function be well-formed (unique identities, every branch names a
block of the function, no branch names the entry block) with its direct self-calls outside
the entry block `E`, and let `eliminateTailCall` complete on it (first half `prepare` with
state `P`, second half `rebuild` with result `F1`).  Then the entry block of `F1` is the
newly created pre-header: it has zero predecessors, it holds exactly the stack allocations of
`E` in their order, and it ends in an unconditional branch to `E`.  The block `E` holds no
stack allocation any more; it keeps every other instruction except its last one `Tl` and the
guard comparison `C` before it, each up to its value operands and with the loop body block in
the place of the call block in its branch operands; and the loop body block branches to it:
it is the loop header. -/
theorem entry_block_after_rewrite (F : Func) (hwf : F.WellFormed)
    (hcall : F.callOutsideEntry = true) (P : Prepared) (hP : prepare F = .done P) (F1 : Func)
    (hR : rebuild P = .done F1) (E : Block) (hE : F.blocks.head? = some E) :
    F1.blocks.head? =
      some ⟨F.freshBlock, E.insts.filter Inst.isAlloca ++ [⟨F.freshInst, .br E.id⟩]⟩ ∧
    F1.predEmpty F.freshBlock = true ∧
    ∃ H R0 Tl C, F1.findBlock E.id = some H ∧ (∀ I ∈ H.insts, I.isAlloca = false) ∧
      (E.insts.filter fun I => !I.isAlloca) = R0 ++ [Tl] ∧ prevNonDebug R0 = some C ∧
      (∀ J ∈ R0, J.id ≠ C.id → ∃ I ∈ H.insts, I.id = J.id ∧
        I.kind.tag = (retarget P.recBBlock (F.freshBlock + 1) J).kind.tag) ∧
      ∃ i, InstIn F1 (F.freshBlock + 1) ⟨i, .br E.id⟩ := by
  obtain ⟨hu, htgt, _⟩ := hwf
  obtain ⟨E1, others, g, RB, T, eT, oC, p, a, b, L, bR, op1, a1, b1, op2, a2, b2, l0, Lo, hp,
    hr, hc⟩ := rewrite_setup F hu hcall P hP F1 hR
  have hEE : E = E1 := by
    rw [hp.blocksF] at hE
    simpa using hE.symm
  subst hEE
  obtain ⟨R0, Tl, C, a0, b0, hR0, hC, hk, hCid, hTid, _⟩ := guard_origin hp hu hr hc
  obtain ⟨v, R0', Tl', hl0, hR0', heT⟩ := hc.l0_eq
  obtain ⟨hRR, _⟩ := List.append_inj' (hR0.symm.trans hR0') rfl
  subst hRR
  obtain ⟨r, _, hr2⟩ := hp.values
  have hfin := final_hdr_F hp hu hr hc
  have hpre := final_pre hp hu hc p b op1 b1 op2
  have hhead := final_head hp hu hc p b op1 b1 op2
  have hpred := final_targets hp hu htgt hc p b op1 b1 op2
  rw [← rebuilt_result hr] at hpre hhead hpred
  have hloop : ∃ i, InstIn F1 (F.freshBlock + 1) ⟨i, .br E.id⟩ :=
    ⟨F.freshInst + 4 + F.numArgs,
      instIn_of_instsOf (final_loop_F hp hu hr hc) (by simp)⟩
  have hmemR : ∀ J ∈ R0, J ∈ E.insts ∧ J.isAlloca = false := fun J hJ => by
    have : J ∈ (E.insts.filter fun I => !I.isAlloca) := by rw [hR0]; simp [hJ]
    obtain ⟨h1, h2⟩ := List.mem_filter.1 this
    exact ⟨h1, by simpa using h2⟩
  have hg : ∀ J ∈ R0, g J = Inst.mapKind (Kind.mapValues r) J := fun J hJ => by
    obtain ⟨h1, h2⟩ := entry_ne_term hp hu (hmemR J hJ).1
    exact hr2 J h1 h2
  refine ⟨head_of_instsOf hhead hpre, hpred, _, R0, Tl, C, findBlock_of_instsOf hfin, ?_,
    hR0, hC, ?_, hloop⟩
  · intro I hI
    simp only [List.mem_append, List.mem_map, List.mem_cons, List.mem_singleton,
      List.mem_nil_iff, or_false] at hI
    rcases hI with ⟨J, hJ, rfl⟩ | rfl | rfl
    · simp only [Function.comp, isAlloca_blockRauw, isAlloca_reuse]
      have hJ0 := (mem_keptInsts.1 hJ).1
      rw [hl0] at hJ0
      rcases List.mem_append.1 hJ0 with h | h
      · have := (prepPhis_spec F P v hp.args J h).1
        cases J with
        | mk i k => cases k <;> simp_all [Inst.isPhi, Inst.isAlloca]
      · obtain ⟨J0, hJ0m, rfl⟩ := List.mem_map.1 h
        rw [hg J0 hJ0m, isAlloca_of_tag (keepsTag_mapValues r J0).2]
        exact (hmemR J0 hJ0m).2
    · rfl
    · rfl
  · intro J hJ hne
    have hgJ : g J ∈ keptInsts oC eT bR l0 := by
      refine mem_keptInsts.2 ⟨?_, ?_, ?_, ?_⟩
      · rw [hl0]; exact List.mem_append_right _ (List.mem_map_of_mem _ hJ)
      · rw [hp.ids, ← hCid]; exact hne
      · have hm : g J ∈ l0 := by
          rw [hl0]; exact List.mem_append_right _ (List.mem_map_of_mem _ hJ)
        exact hc.l0_ne _ hm
      · have hm : g J ∈ l0 := by
          rw [hl0]; exact List.mem_append_right _ (List.mem_map_of_mem _ hJ)
        exact hc.bR_out _ (instIn_of_instsOf hc.hdr (List.mem_append_left _ hm))
    refine ⟨_, List.mem_append_left _ (List.mem_map_of_mem _ hgJ), ?_, ?_⟩
    · simp only [Function.comp, id_blockRauw, id_reuse, hp.ids]
    · simp only [Function.comp]
      rw [tag_blockRauw, hp.newEntryBB]
      apply tag_retarget_congr
      have e1 : (reuse P oC bR (g J)).kind.tag = (g J).kind.tag :=
        (keepsTag_mapValues _ (g J)).2
      rw [e1, hg J hJ]
      exact (keepsTag_mapValues r J).2

theorem entry_block_after_rewrite_witness :
    sumFn.WellFormed ∧ sumFn.callOutsideEntry = true ∧
    (accRawFn .eq 0 0 .sub 1 .add).blocks.head? =
      some ⟨sumFn.freshBlock, (⟨0, [⟨1, .alloca⟩, ⟨2, .alloca⟩,
        ⟨3, .store (.arg 0) (.inst 2)⟩, ⟨4, .load (.inst 2)⟩,
        ⟨5, .icmp .eq (.inst 4) (.const 0)⟩, ⟨6, .condbr (.inst 5) 1 2⟩]⟩ : Block).insts.filter
          Inst.isAlloca ++ [⟨sumFn.freshInst, .br 0⟩]⟩ ∧
    (accRawFn .eq 0 0 .sub 1 .add).predEmpty sumFn.freshBlock = true :=
  have h := entry_block_after_rewrite sumFn (by decide) (by decide)
    (accPrepared .eq 0 0 .sub 1 .add) (prepare_accFn .eq 0 0 .sub 1 .add)
    (accRawFn .eq 0 0 .sub 1 .add) (rebuild_accPrepared .eq 0 0 .sub 1 .add)
    ⟨0, [⟨1, .alloca⟩, ⟨2, .alloca⟩, ⟨3, .store (.arg 0) (.inst 2)⟩, ⟨4, .load (.inst 2)⟩,
      ⟨5, .icmp .eq (.inst 4) (.const 0)⟩, ⟨6, .condbr (.inst 5) 1 2⟩]⟩ rfl
  ⟨by decide, by decide, h.1, h.2.1⟩

/-! ## The final block -/

theorem keptInsts_append (oC eT bR : Inst) (l1 l2 : List Inst) :
    keptInsts oC eT bR (l1 ++ l2) = keptInsts oC eT bR l1 ++ keptInsts oC eT bR l2 := by
  simp [keptInsts, dropId, List.filter_append]

theorem last_of_instsOf {G : Func} (hn : G.blockIds.Nodup) {b : Nat} {l : List Inst}
    (hl : G.blocks.getLast?.map Block.id = some b) (hi : G.instsOf b = some l) :
    G.blocks.getLast? = some ⟨b, l⟩ := by
  cases hB : G.blocks.getLast? with
  | none => simp [hB] at hl
  | some B =>
    simp only [hB, Option.map_some', Option.some.injEq] at hl
    have := instsOf_of_mem hn (mem_of_getLast? hB)
    rw [hl, hi] at this
    cases B
    simp only at hl this ⊢
    rw [hl, Option.some.inj this]

/-- An operand the four replacements of uses leave as a reference to an instruction below
`base` was that reference before, and it is none of the four replaced instructions. -/
theorem reuseValue_old {P : Prepared} {oC bR : Inst} {u : Value} {c : Nat}
    (hc : c < P.base) (hacc : P.base ≤ P.phiNodeAcc) (h : reuseValue P oC bR u = .inst c) :
    u = .inst c ∧ c ≠ P.beforeRecCall.id ∧ c ≠ P.afterRecCall.id := by
  unfold reuseValue substValue at h
  simp only [Inst.result] at h
  split_ifs at h with h1 h2 h3 h4 h2 h3 h4 h3 h4 h4
  all_goals first
    | (simp only [Value.inst.injEq] at h; omega)
    | (subst h; simp_all)

theorem argMap_old {base : Nat} {r : Value → Value} (hr : ArgMap base r) {v : Value} {c : Nat}
    (hc : c ≤ base) (h : r v = .inst c) : v = .inst c := by
  obtain ⟨h1, h2, h3, h4⟩ := hr
  cases v with
  | const k => rw [h2] at h; cases h
  | inst j => rw [h1] at h; exact h
  | undef => rw [h3] at h; cases h
  | arg i =>
    rcases h4 i with e | ⟨j, hj, e⟩
    · rw [e] at h; cases h
    · rw [e] at h
      simp only [Value.inst.injEq] at h
      omega

/-- C13, the code at a function whose final block uses a value of the call block.
`phiRetFn` is well-formed, accepted by the detector and has both shapes the transformer
relies on; it returns 6 on 3.  Its final block 3 returns the value of the load 17 immediately
before the return, and holds a phi with an entry for the load 9 of the call block 2, the
block of the first direct self-call.  `eliminateTailCall` completes on it: the return has the
accumulator merge value 21 as operand and the load 17 is deleted, but the call block 2 is
erased with the instruction 9 while the phi of the final block still has the operand 9 from
block 2. -/
theorem final_block_names_erased_value :
    phiRetFn.WellFormed ∧ isAccumulatorTailRecursive phiRetFn = true ∧
      phiRetFn.hasBaseCaseBlock = true ∧ phiRetFn.hasEntryCmp = true ∧
      phiRetFn.callOutsideEntry = true ∧ run phiRetFn 200 [3] = some 6 ∧
      phiRetFn.blocks.getLast? = some ⟨3, [⟨16, .phi [(.const 0, 1), (.inst 9, 2)]⟩,
        ⟨17, .load (.inst 1)⟩, ⟨18, .ret (some (.inst 17))⟩]⟩ ∧
      (phiRetFn.getParent 9).map Block.id = some 2 ∧
      (getTailCall phiRetFn).map (fun I => (phiRetFn.getParent I.id).map Block.id) =
        some (some 2) ∧
      eliminateTailCall phiRetFn = .done phiRetLoopFn ∧
      phiRetLoopFn.blocks.getLast? = some ⟨3, [⟨16, .phi [(.const 0, 1), (.inst 9, 2)]⟩,
        ⟨18, .ret (some (.inst 21))⟩]⟩ ∧
      phiRetLoopFn.findInst 21 = some ⟨21, .phi [(.const 0, 4), (.inst 26, 5)]⟩ ∧
      phiRetLoopFn.findInst 17 = none ∧
      2 ∉ phiRetLoopFn.blockIds ∧ phiRetLoopFn.findInst 9 = none := by
  decide

/-- Where the final block is left without a reference to the call block.  Let the
identities of the function be unique and its direct self-calls be outside the entry block,
and let `eliminateTailCall` complete on it (first half `prepare` with state `P`, second half
`rebuild` with result `F1`).  Let the final block `Lo` of the function end in a return of the
value of the instruction `X` before it (debug instructions aside), and let every operand of
`Lo` that refers to an instruction of the call block refer to the step instruction or to the
update instruction, the two instructions of the call block whose uses the transformer
redirects.  Then the final block of `F1` is `Lo` rewritten: it ends in the same return with
the accumulator merge value, a phi of the loop header, as operand; no instruction of `F1`
has the identity of `X`; the call block is not a block of `F1`; and no operand in the final
block of `F1` refers to an instruction of the call block. -/
theorem return_after_rewrite (F : Func) (hu : F.uniqueIds)
    (hcall : F.callOutsideEntry = true) (P : Prepared) (hP : prepare F = .done P) (F1 : Func)
    (hR : rebuild P = .done F1) (Lo : Block) (hLo : F.blocks.getLast? = some Lo)
    (R : List Inst) (X : Inst) (i : Nat) (hins : Lo.insts = R ++ [⟨i, .ret (some X.result)⟩])
    (hX : prevNonDebug R = some X)
    (huse : ∀ J ∈ Lo.insts, ∀ v ∈ J.operands, ∀ I ∈ (F.instsOf P.recBBlock).getD [],
      v = I.result → I.id = P.beforeRecCall.id ∨ I.id = P.afterRecCall.id) :
    ∃ H v,
      F1.blocks.getLast? =
        some ⟨Lo.id, H ++ [⟨i, .ret (some (.inst (F.freshInst + 1 + F.numArgs)))⟩]⟩ ∧
      InstIn F1 F.entryId ⟨F.freshInst + 1 + F.numArgs,
        .phi [(v, F.freshBlock), (.inst (F.freshInst + 6 + F.numArgs), F.freshBlock + 1)]⟩ ∧
      (∀ I ∈ F1.allInsts, I.id ≠ X.id) ∧
      P.recBBlock ∉ F1.blockIds ∧
      (∀ J ∈ H ++ [(⟨i, .ret (some (.inst (F.freshInst + 1 + F.numArgs)))⟩ : Inst)],
        ∀ v ∈ J.operands, ∀ I ∈ (F.instsOf P.recBBlock).getD [], v ≠ I.result) := by
  obtain ⟨E, others, g, RB, T, eT, oC, p, a, b, L, bR, op1, a1, b1, op2, a2, b2, l0, Lo1, hp,
    hr, hc⟩ := rewrite_setup F hu hcall P hP F1 hR
  have hLL : Lo1 = Lo := by
    have h1 := hc.last.1
    rw [hp.blocksF] at hLo
    cases ho : others with
    | nil => rw [ho] at h1; cases h1
    | cons x xs =>
      rw [ho, List.getLast?_cons_cons, ← ho, h1] at hLo
      exact Option.some.inj hLo
  subst hLL
  have hb := hp.base
  have hn := hp.numArgs
  have hLoMem : Lo1 ∈ others := mem_of_getLast? hc.last.1
  have hLoF : Lo1 ∈ F.blocks := by rw [hp.blocksF]; exact List.mem_cons_of_mem _ hLoMem
  obtain ⟨hRBo, hRBid⟩ := hp.recBlock
  have hRBF : RB ∈ F.blocks := by rw [hp.blocksF]; exact List.mem_cons_of_mem _ hRBo
  have hnodF := hu.1
  rw [hp.blocksF, List.map_cons, List.nodup_cons] at hnodF
  have hrecI : F.instsOf P.recBBlock = some RB.insts := by
    rw [← hRBid]; exact instsOf_of_mem hu.1 hRBF
  rw [hrecI] at huse ⊢
  simp only [Option.getD_some] at huse ⊢
  -- the final block is neither the call block nor the entry block
  have hneR : Lo1.id ≠ P.recBBlock := by
    intro e
    have h1 : Lo1 = RB := eq_of_mem_of_id_eq others hnodF.2 Lo1 hLoMem RB hRBo (e.trans hRBid.symm)
    obtain ⟨init, h2⟩ := getTerminator_last hp.recTerm.1
    rw [← h1, hins] at h2
    have h3 := (List.append_inj' h2 rfl).2
    simp only [List.cons.injEq, and_true] at h3
    apply hp.recBranch
    rw [← h3]
    rfl
  have hneE : Lo1.id ≠ E.id := fun e => hnodF.1 (e ▸ List.mem_map_of_mem Block.id hLoMem)
  have hLid := hc.last.2
  have hElt := (prepAt_lt hp).1
  have hLlt : Lo1.id < F.freshBlock := (prepAt_lt hp).2 Lo1 hLoMem
  have hnodI := prepAt_nodupInsts hp hu
  -- the instructions of the final block after the first half
  have hRtIn : InstIn F Lo1.id ⟨i, .ret (some X.result)⟩ :=
    ⟨Lo1, hLoF, rfl, by rw [hins]; simp⟩
  have hTIn : InstIn F RB.id T := ⟨RB, hRBF, rfl, (getTerminator_mem hp.recTerm.1).1⟩
  have hinLo : ∀ J ∈ Lo1.insts, J.id < F.freshInst ∧ J.id ≠ T.id := fun J hJ => by
    have hJin : InstIn F Lo1.id J := ⟨Lo1, hLoF, rfl, hJ⟩
    refine ⟨(instIn_lt hJin).1, fun e => ?_⟩
    have := (instIn_unique hu.2 hJin hTIn e).1
    exact hneR (this.trans hRBid)
  obtain ⟨r, hr1, hr2⟩ := hp.values
  have hg : ∀ J ∈ Lo1.insts, g J = Inst.mapKind (Kind.mapValues r) J := fun J hJ =>
    hr2 J (hinLo J hJ).1 (hinLo J hJ).2
  have hXR : X ∈ R := prevNonDebug_mem hX
  have hXLo : X ∈ Lo1.insts := by rw [hins]; exact List.mem_append_left _ hXR
  have hXlt : X.id < F.freshInst := (hinLo X hXLo).1
  have hXi : X.id ≠ i := by
    have h1 := nodup_block_ids hu.2 hLoF
    rw [hins] at h1
    exact ids_disjoint_of_nodup _ _ h1 X ⟨i, .ret (some X.result)⟩ hXR (by simp)
  have hgRt : g ⟨i, .ret (some X.result)⟩ = ⟨i, .ret (some X.result)⟩ := by
    rw [hg _ (by rw [hins]; simp)]
    simp only [Inst.mapKind, Kind.mapValues, Option.map_some', Inst.result, hr1.1]
  -- the instruction before the return that `rebuild` finds is `X`, rewritten
  have hbR : bR.id = X.id := by
    have h1 := hc.bR_prev
    rw [hc.lastInsts, hins, List.map_append, List.map_append, List.map_cons, List.map_nil,
      List.map_cons, List.map_nil, List.dropLast_concat,
      prevNonDebug_map_of (rauw oC.result (.inst (P.base + 2 + P.F.numArgs))) (R.map g)
        (fun J _ => isDebug_mapValues _ J),
      prevNonDebug_map_of g R (fun J hJ => by
        rw [hg J (by rw [hins]; exact List.mem_append_left _ hJ)]
        exact isDebug_mapValues _ J), hX] at h1
    simp only [Option.map_some', Option.some.injEq] at h1
    rw [← h1, id_rauw, hp.ids]
  have hPFLo : P.F.instsOf Lo1.id = some (Lo1.insts.map g) := prepAt_instsOf_other hp hu hLoMem
  have hoCin : InstIn P.F E.id oC := instIn_of_instsOf hc.hdr (by simp [hc.oC_mem])
  have heTin : InstIn P.F E.id eT := instIn_of_instsOf hc.hdr (by simp)
  have hRtP : InstIn P.F Lo1.id ⟨i, .ret (some X.result)⟩ :=
    instIn_of_instsOf hPFLo (by
      rw [hins, List.map_append, List.map_cons, List.map_nil, hgRt]; simp)
  have hkRt : keptInsts oC eT bR [(⟨i, .ret (some X.result)⟩ : Inst)] =
      [⟨i, .ret (some X.result)⟩] := by
    apply keptInsts_of_not_mem
    intro I hI
    rw [List.mem_singleton.1 hI]
    refine ⟨fun e => ?_, fun e => ?_, fun e => ?_⟩
    · exact hneE (instIn_unique hnodI hRtP hoCin e).1
    · exact hneE (instIn_unique hnodI hRtP heTin e).1
    · exact hXi (hbR.symm.trans e.symm)
  obtain ⟨hs1, hs2⟩ := found_lt hp
  have hreuse : reuseValue P oC bR X.result = .inst P.phiNodeAcc := by
    have e1 : X.id ≠ oC.id := fun e => hc.bR_ne.1 (hbR.trans e)
    have e2 : P.phiNodeAcc ≠ P.beforeRecCall.id := by rw [hp.phiNodeAcc]; omega
    have e3 : P.phiNodeAcc ≠ P.afterRecCall.id := by rw [hp.phiNodeAcc]; omega
    simp [reuseValue, substValue, Inst.result, e1, hbR, e2, e3]
  have hfo := final_other P eT oC p b L.id bR op1 b1 op2 L.id
    (by rw [hp.newEntryBB]; omega) (by rw [hp.entryBB]; omega) (by omega)
  rw [← rebuilt_result hr] at hfo
  have hfo2 : F1.instsOf Lo1.id = some
      ((keptInsts oC eT bR (R.map g)).map
        (blockRauw (rebuildBody P eT oC p b L.id bR op1 b1 op2) P.recBBlock (P.newEntryBB + 1)
          L.id ∘ reuse P oC bR) ++
        [⟨i, .ret (some (.inst (F.freshInst + 1 + F.numArgs)))⟩]) := by
    rw [← hLid, hfo, hLid, hPFLo, Option.map_some', hins, List.map_append, List.map_cons,
      List.map_nil, hgRt, keptInsts_append, hkRt, List.map_append, List.map_cons, List.map_nil]
    simp only [Function.comp, reuse, Inst.mapKind, Kind.mapValues, Option.map_some', hreuse,
      blockRauw_ret, hp.phiNodeAcc]
  have hlast := final_last hp hu hc p b op1 b1 op2
  have hnodB := final_nodupBlocks hp hu hc p b op1 b1 op2
  have hbids := blockIds_rebuildFinish P (rebuildBody P eT oC p b L.id bR op1 b1 op2)
  rw [← rebuilt_result hr] at hlast hnodB hbids
  rw [substBlock, if_neg (by omega), hLid] at hlast
  obtain ⟨v, _, hacc⟩ := final_phis hp hu hr hc
  rw [← prepAt_entryId hp] at hacc
  refine ⟨_, v, last_of_instsOf hnodB hlast hfo2, hacc, ?_, ?_, ?_⟩
  · intro I hI
    obtain ⟨x, hx⟩ := instIn_allInsts.1 hI
    rw [rebuilt_result hr] at hx
    have h2 := hc.bR_lt
    rcases (final_back hp hu hc p b L.id op1 b1 op2 hx).2 with
      ⟨J, _, _, _, n3, rfl⟩ | ⟨_, hgt⟩
    · rw [id_blockRauw, id_reuse, ← hbR]
      exact n3
    · omega
  · rw [hbids]
    simp
  · intro J hJ w hw I hI e
    have hIlt : I.id < F.freshInst := (instIn_lt ⟨RB, hRBF, rfl, hI⟩).1
    rcases List.mem_append.1 hJ with h | h
    · obtain ⟨J1, hJ1, rfl⟩ := List.mem_map.1 h
      obtain ⟨J0, hJ0, rfl⟩ := List.mem_map.1 (mem_keptInsts.1 hJ1).1
      have hJ0Lo : J0 ∈ Lo1.insts := by rw [hins]; exact List.mem_append_left _ hJ0
      simp only [Function.comp] at hw
      rw [operands_blockRauw, reuse, operands_mapKind, hg J0 hJ0Lo, operands_mapKind,
        List.map_map] at hw
      obtain ⟨w0, hw0, rfl⟩ := List.mem_map.1 hw
      simp only [Function.comp, Inst.result] at e
      obtain ⟨e1, e2, e3⟩ := reuseValue_old (by rw [hb]; exact hIlt)
        (by rw [hb, hp.phiNodeAcc]; omega) e
      have e4 := argMap_old hr1 (by omega) e1
      rcases huse J0 hJ0Lo w0 hw0 I hI e4 with h5 | h5
      · exact e2 h5
      · exact e3 h5
    · rw [List.mem_singleton.1 h] at hw
      simp only [Inst.operands, Option.toList, List.mem_singleton] at hw
      rw [hw] at e
      simp only [Inst.result, Value.inst.injEq] at e
      omega

/-- The return path of the IR of `sum(n) = 0 if n == 0 else n + sum(n-1)`: its final block
returns the value of the load 16 before the return, and it uses no instruction of the call
block. -/
theorem return_after_rewrite_witness :
    sumFn.uniqueIds ∧ sumFn.callOutsideEntry = true ∧
      sumFn.blocks.getLast? =
        some ⟨3, [⟨16, .load (.inst 1)⟩] ++
          [⟨17, .ret (some (Inst.result ⟨16, .load (.inst 1)⟩))⟩]⟩ ∧
      prevNonDebug [⟨16, .load (.inst 1)⟩] = some ⟨16, .load (.inst 1)⟩ ∧
      ∃ H v,
        (accRawFn .eq 0 0 .sub 1 .add).blocks.getLast? =
          some ⟨3, H ++ [⟨17, .ret (some (.inst (sumFn.freshInst + 1 + sumFn.numArgs)))⟩]⟩ ∧
        InstIn (accRawFn .eq 0 0 .sub 1 .add) sumFn.entryId
          ⟨sumFn.freshInst + 1 + sumFn.numArgs,
            .phi [(v, sumFn.freshBlock),
              (.inst (sumFn.freshInst + 6 + sumFn.numArgs), sumFn.freshBlock + 1)]⟩ ∧
        (∀ I ∈ (accRawFn .eq 0 0 .sub 1 .add).allInsts, I.id ≠ 16) ∧
        (accPrepared .eq 0 0 .sub 1 .add).recBBlock ∉
          (accRawFn .eq 0 0 .sub 1 .add).blockIds ∧
        (∀ J ∈ H ++ [(⟨17, .ret (some (.inst (sumFn.freshInst + 1 + sumFn.numArgs)))⟩ : Inst)],
          ∀ v ∈ J.operands,
            ∀ I ∈ (sumFn.instsOf (accPrepared .eq 0 0 .sub 1 .add).recBBlock).getD [],
              v ≠ I.result) :=
  ⟨by decide, by decide, rfl, rfl,
    return_after_rewrite sumFn (by decide) (by decide) (accPrepared .eq 0 0 .sub 1 .add)
      (prepare_accFn .eq 0 0 .sub 1 .add) (accRawFn .eq 0 0 .sub 1 .add)
      (rebuild_accPrepared .eq 0 0 .sub 1 .add)
      ⟨3, [⟨16, .load (.inst 1)⟩, ⟨17, .ret (some (.inst 16))⟩]⟩ rfl [⟨16, .load (.inst 1)⟩]
      ⟨16, .load (.inst 1)⟩ 17 rfl rfl (by decide)⟩

/-! ## Blocks without predecessor after the pass -/

/-- C15, the code at a function whose base case is reached through a forwarding block laid
out after the base case block.  `deadChainFn` is well-formed, every block but the entry block
has a predecessor, the detector accepts it and it has both shapes the transformer relies on;
it returns 6 on 3.  The pass completes with `deadChainLoopFn`, which returns 6 on 3 as well:
its entry block is the new entry block 5, and the base case block 1 is still a block of it,
although no branch names block 1 any more; the forwarding block 3, its only predecessor, was
removed after `removeDeadBlocks` had visited block 1.  A second run of `removeDeadBlocks`
removes block 1. -/
theorem dead_block_left_behind :
    deadChainFn.WellFormed ∧
      (∀ b ∈ deadChainFn.blockIds, b ≠ deadChainFn.entryId → deadChainFn.predEmpty b = false) ∧
      isAccumulatorTailRecursive deadChainFn = true ∧
      deadChainFn.hasBaseCaseBlock = true ∧ deadChainFn.hasEntryCmp = true ∧
      run deadChainFn 200 [3] = some 6 ∧
      runOnFunction deadChainFn = .done (deadChainLoopFn, true) ∧
      run deadChainLoopFn 200 [3] = some 6 ∧
      deadChainLoopFn.blockIds = [5, 0, 1, 6, 4] ∧ deadChainLoopFn.entryId = 5 ∧
      deadChainLoopFn.predEmpty 5 = true ∧ deadChainLoopFn.predEmpty 1 = true ∧
      (removeDeadBlocks deadChainLoopFn).1.blockIds = [5, 0, 6, 4] ∧
      (removeDeadBlocks deadChainLoopFn).2 = true := by
  decide

end TailCallOpt
